import Mathlib

/-! # tutugit: parsers, commit classifier, workspace store, release generator, hygiene report and rebase plan

A shallow embedding of `internal/diff/diff.go`, of the log, status, reflog and
worktree parsers of `internal/git/git.go`, of `internal/workspace/semantic.go`,
of the store operations of `internal/workspace/workspace.go`, of
`internal/changelog/changelog.go`, of `internal/hygiene/hygiene.go` and of the
rebase plan of `cmd/tutugit`, followed by theorems about them.  Definitions
come first, theorems second.

Conventions:

* A Go `string` is a sequence of bytes.  It is modelled as the list of its
  bytes, every byte written as a `Char` (ASCII text is modelled by itself).
  `len`, indexing, slicing, `==`, `+`, `strings.Split`, `strings.HasPrefix`,
  `strings.TrimPrefix`, `strings.Contains` and `strings.Join` act on bytes in
  Go and on list elements here.
* `strings.TrimSpace` removes the runes of `unicode.IsSpace`; they are given by
  their UTF-8 encodings.  `strings.ToLower` is applied by the classifier to ASCII
  letters only and is modelled on ASCII; the hygiene analyzer applies it to
  arbitrary text and takes it as a parameter.
* A loop over a slice is a left fold of its body, or a recursion on the slice
  when the loop has a `break`; a `nil` pointer or map is `none`; a nil slice
  and an empty slice are both the empty list.
* The result of running git is an `Except`: the output text, or the error.
* `commitPrefixRegex` is matched by functions that follow the expression piece
  by piece, in the order Go's backtracking semantics tries the choices.
* The metadata file is modelled by the document a decoder reads from it.
  Reading and writing the file are taken to succeed.  JSON carries a Go string
  only up to its invalid bytes: `json.Marshal` writes a byte that is not part
  of a valid UTF-8 encoding as U+FFFD, `json.Unmarshal` reads it so, and two
  keys of a map that are written as the same text become one key.
* A `git.GitProvider` is modelled by the answers it gives; a query asked twice
  is answered the same way.
* Go does not fix the order in which `range` visits a map; the order is a
  parameter of the functions that range over one.
* A count of entries is a natural number: it stays below the bound of `int`.
-/

namespace Tutugit

/-- A Go string: the list of its bytes. -/
abbrev Str := List Char

deriving instance DecidableEq for Except

/-! ## The parts of Go's `strings` package used by the program -/

/-- Prepends a byte to the first piece of a split. -/
def consHead (c : Char) : List Str → List Str
  | [] => [[c]]
  | p :: ps => (c :: p) :: ps

/-- Go `strings.Split(s, sep)` for a one-byte separator: the pieces of `s`
between the occurrences of `sep`; always at least one piece. -/
def Split : Str → Char → List Str
  | [], _ => [[]]
  | c :: cs, sep => if c = sep then [] :: Split cs sep else consHead c (Split cs sep)

/-- Go `strings.HasPrefix(s, p)`. -/
def HasPrefix (s p : Str) : Bool := p.isPrefixOf s

/-- Go `strings.TrimPrefix(s, p)`. -/
def TrimPrefix (s p : Str) : Str := if HasPrefix s p then s.drop p.length else s

/-- Go `strings.Contains(s, sub)`. -/
def Contains : Str → Str → Bool
  | [], sub => sub.isEmpty
  | c :: cs, sub => sub.isPrefixOf (c :: cs) || Contains cs sub

/-- The UTF-8 encodings of the runes for which Go's `unicode.IsSpace` holds:
tab, LF, VT, FF, CR, space, U+0085, U+00A0, U+1680, U+2000..U+200A, U+2028,
U+2029, U+202F, U+205F and U+3000. -/
def spaceRunes : List Str :=
  ([[9], [10], [11], [12], [13], [32], [0xC2, 0x85], [0xC2, 0xA0], [0xE1, 0x9A, 0x80],
    [0xE2, 0x80, 0x80], [0xE2, 0x80, 0x81], [0xE2, 0x80, 0x82], [0xE2, 0x80, 0x83],
    [0xE2, 0x80, 0x84], [0xE2, 0x80, 0x85], [0xE2, 0x80, 0x86], [0xE2, 0x80, 0x87],
    [0xE2, 0x80, 0x88], [0xE2, 0x80, 0x89], [0xE2, 0x80, 0x8A], [0xE2, 0x80, 0xA8],
    [0xE2, 0x80, 0xA9], [0xE2, 0x80, 0xAF], [0xE2, 0x81, 0x9F], [0xE3, 0x80, 0x80]] :
    List (List Nat)).map (List.map Char.ofNat)

/-- Removes one white-space rune from the front of `s`, if `s` starts with one. -/
def dropSpaceRune (s : Str) : Option Str :=
  (spaceRunes.find? (fun r => r.isPrefixOf s)).map (fun r => s.drop r.length)

/-- Removes up to `n` leading white-space runes. -/
def trimLeftN : Nat → Str → Str
  | 0, s => s
  | n + 1, s =>
    match dropSpaceRune s with
    | some rest => trimLeftN n rest
    | none => s

/-- Go `strings.TrimLeftFunc(s, unicode.IsSpace)`. -/
def TrimLeft (s : Str) : Str := trimLeftN s.length s

/-- Removes one white-space rune from the end of `s`, if `s` ends with one. -/
def dropLastSpaceRune (s : Str) : Option Str :=
  (spaceRunes.find? (fun r => r.reverse.isPrefixOf s.reverse)).map
    (fun r => (s.reverse.drop r.length).reverse)

/-- Removes up to `n` trailing white-space runes. -/
def trimRightN : Nat → Str → Str
  | 0, s => s
  | n + 1, s =>
    match dropLastSpaceRune s with
    | some rest => trimRightN n rest
    | none => s

/-- Go `strings.TrimRightFunc(s, unicode.IsSpace)`. -/
def TrimRight (s : Str) : Str := trimRightN s.length s

/-- Go `strings.TrimSpace(s)`: `s` without leading and trailing white space. -/
def TrimSpace (s : Str) : Str := TrimRight (TrimLeft s)

/-- The bytes that occur in the encoding of some white-space rune. -/
def SpaceByte (c : Char) : Prop := ∃ rune ∈ spaceRunes, c ∈ rune

/-- Go `strings.ToLower` on one ASCII byte. -/
def lowerByte (c : Char) : Char :=
  if 'A'.toNat ≤ c.toNat ∧ c.toNat ≤ 'Z'.toNat then Char.ofNat (c.toNat + 32) else c

/-- Go `strings.ToLower(s)`; the program applies it to ASCII text only (the
text matched by the first group of `commitPrefixRegex`). -/
def ToLower (s : Str) : Str := s.map lowerByte

/-- Go `strings.Builder`: the bytes written so far. -/
structure Builder where
  buf : Str := []

/-- Go `(*strings.Builder).WriteString`. -/
def Builder.WriteString (b : Builder) (s : Str) : Builder := { buf := b.buf ++ s }

/-- Go `(*strings.Builder).String`. -/
def Builder.String (b : Builder) : Str := b.buf

/-! ## The parts of `unicode/utf8` and `encoding/json` used by the program -/

/-- The table `first` and the table `acceptRanges` of Go's `unicode/utf8` for
a leading byte of a multi-byte encoding: the size of the encoding and the
bounds of its second byte; `none` for a byte that leads no valid encoding. -/
def leadInfo (c : Char) : Option (Nat × Nat × Nat) :=
  let n := c.toNat
  if 0xC2 ≤ n ∧ n ≤ 0xDF then some (2, 0x80, 0xBF)
  else if n = 0xE0 then some (3, 0xA0, 0xBF)
  else if (0xE1 ≤ n ∧ n ≤ 0xEC) ∨ n = 0xEE ∨ n = 0xEF then some (3, 0x80, 0xBF)
  else if n = 0xED then some (3, 0x80, 0x9F)
  else if n = 0xF0 then some (4, 0x90, 0xBF)
  else if 0xF1 ≤ n ∧ n ≤ 0xF3 then some (4, 0x80, 0xBF)
  else if n = 0xF4 then some (4, 0x80, 0x8F)
  else none

/-- The byte `c` lies outside `lo..hi`. -/
def outside (lo hi : Nat) (c : Char) : Bool := decide (c.toNat < lo ∨ hi < c.toNat)

/-- The number of bytes one decoding step of `unicode/utf8`
(`utf8.DecodeRuneInString`, and so `utf8.RuneCountInString` and
`utf8.ValidString`) advances over at the front of a non-empty string: the size
of a valid encoding, 1 otherwise. -/
def runeStep : Str → Nat
  | [] => 0
  | c :: rest =>
    if c.toNat < 0x80 then 1
    else
      match leadInfo c with
      | none => 1
      | some (size, lo, hi) =>
        if 1 + rest.length < size then 1
        else
          match rest with
          | [] => 1
          | c1 :: rest1 =>
            if outside lo hi c1 then 1
            else if size = 2 then 2
            else
              match rest1 with
              | [] => 1
              | c2 :: rest2 =>
                if outside 0x80 0xBF c2 then 1
                else if size = 3 then 3
                else
                  match rest2 with
                  | [] => 1
                  | c3 :: _ => if outside 0x80 0xBF c3 then 1 else 4

/-- The encoding of U+FFFD, the replacement character. -/
def replacementRune : Str := [Char.ofNat 0xEF, Char.ofNat 0xBF, Char.ofNat 0xBD]

/-- The text a JSON string carries for a Go string: the loop of `appendString`
of `encoding/json`, run for at most `n` steps.  An ASCII byte and a valid
encoding are kept (written as they are or as an escape that the decoder reads
back as the same bytes); a byte that starts no valid encoding is written as
the escape of U+FFFD, which the decoder reads back as U+FFFD. -/
def jsonStringN : Nat → Str → Str
  | 0, _ => []
  | _ + 1, [] => []
  | n + 1, c :: rest =>
    if c.toNat < 0x80 then c :: jsonStringN n rest
    else if runeStep (c :: rest) = 1 then replacementRune ++ jsonStringN n rest
    else
      (c :: rest).take (runeStep (c :: rest)) ++
        jsonStringN n ((c :: rest).drop (runeStep (c :: rest)))

/-- What `json.Unmarshal` reads back for a string that `json.Marshal` has
written; every step consumes at least one byte, so `len(s)` steps are enough. -/
def jsonString (s : Str) : Str := jsonStringN s.length s

/-- The loop of `utf8.ValidString`, run for at most `n` steps. -/
def validN : Nat → Str → Bool
  | 0, _ => true
  | _ + 1, [] => true
  | n + 1, c :: rest =>
    if c.toNat < 0x80 then validN n rest
    else if runeStep (c :: rest) = 1 then false
    else validN n ((c :: rest).drop (runeStep (c :: rest)))

/-- Go `utf8.ValidString(s)`: the string is a sequence of valid UTF-8
encodings. -/
def ValidString (s : Str) : Bool := validN s.length s

/-! ## internal/diff/diff.go -/

/-- A single change block in a diff. -/
structure Hunk where
  Header : Str
  Content : Str
  deriving DecidableEq, Repr

/-- All changes in a single file. -/
structure FileDiff where
  Path : Str
  Hunks : List Hunk
  deriving DecidableEq, Repr

/-- The file-boundary marker tested at diff.go line 27. -/
def fileMarker : Str := "diff --git".toList

/-- The hunk marker tested at diff.go line 44. -/
def hunkMarker : Str := "@@".toList

/-- The local variables of `ParseDiff`: `files`, `currentFile`, `currentHunk`
(a `nil` pointer is `none`). -/
structure ParseState where
  files : List FileDiff
  currentFile : Option FileDiff
  currentHunk : Option Hunk
  deriving DecidableEq, Repr

/-- The path computed for a `diff --git` line (diff.go lines 35-39). -/
def markerPath (line : Str) : Str :=
  let parts := Split line ' '
  if parts.length > 2 then TrimPrefix (parts.getD 2 []) "a/".toList else []

/-- The branch of the loop body of `ParseDiff` taken for a line that starts
with `diff --git` (diff.go lines 28-41). -/
def openFile (st : ParseState) (line : Str) : ParseState :=
  let st1 : ParseState :=
    match st.currentFile with
    | some f =>
      match st.currentHunk with
      | some h =>
        let f1 : FileDiff := { f with Hunks := f.Hunks ++ [h] }
        { files := st.files ++ [f1], currentFile := some f1, currentHunk := none }
      | none => { st with files := st.files ++ [f] }
    | none => st
  { st1 with currentFile := some { Path := markerPath line, Hunks := [] } }

/-- The branch of the loop body of `ParseDiff` taken for a line that starts
with `@@` (diff.go lines 45-49). -/
def openHunk (st : ParseState) (line : Str) : ParseState :=
  let st1 : ParseState :=
    match st.currentHunk, st.currentFile with
    | some h, some f => { st with currentFile := some { f with Hunks := f.Hunks ++ [h] } }
    | _, _ => st
  { st1 with currentHunk := some { Header := line, Content := line ++ ['\n'] } }

/-- One iteration of the loop of `ParseDiff` (diff.go lines 26-55). -/
def parseLine (st : ParseState) (line : Str) : ParseState :=
  if HasPrefix line fileMarker then openFile st line
  else if HasPrefix line hunkMarker then openHunk st line
  else
    match st.currentHunk with
    | some h => { st with currentHunk := some { h with Content := h.Content ++ (line ++ ['\n']) } }
    | none => st

/-- The code after the loop of `ParseDiff` (diff.go lines 57-64). -/
def flush (st : ParseState) : List FileDiff :=
  match st.currentFile with
  | some f =>
    match st.currentHunk with
    | some h => st.files ++ [{ f with Hunks := f.Hunks ++ [h] }]
    | none => st.files ++ [f]
  | none => st.files

/-- `ParseDiff` on a list of lines. -/
def parseLines (lines : List Str) : List FileDiff :=
  flush (lines.foldl parseLine { files := [], currentFile := none, currentHunk := none })

/-- `ParseDiff(raw)`: splits a raw diff string into FileDiffs and Hunks. -/
def ParseDiff (raw : Str) : List FileDiff := parseLines (Split raw '\n')

/-- `(*Hunk).ToPatch(filePath)`: a string that can be used with `git apply`. -/
def Hunk.ToPatch (h : Hunk) (filePath : Str) : Str :=
  let b : Builder := {}
  let b := b.WriteString ("diff --git a/".toList ++ filePath ++ " b/".toList ++ filePath ++ "\n".toList)
  let b := b.WriteString ("--- a/".toList ++ filePath ++ "\n".toList)
  let b := b.WriteString ("+++ b/".toList ++ filePath ++ "\n".toList)
  let b := b.WriteString h.Content
  b.String

/-- The paths of the files a parse state holds: the closed ones, then the open one. -/
def openPaths (st : ParseState) : List Str :=
  st.files.map (·.Path) ++ st.currentFile.toList.map (·.Path)

/-- The hunk headers of the files `ParseDiff` returns, file by file. -/
def hunkHeaders (files : List FileDiff) : List (List Str) :=
  files.map (fun f => f.Hunks.map (·.Header))

/-- The `@@` lines of a list of lines up to its first `diff --git` line. -/
def headersUntilMarker (lines : List Str) : List Str :=
  (lines.takeWhile (fun x => !HasPrefix x fileMarker)).filter (fun x => HasPrefix x hunkMarker)

/-- Follows the claim's words, for comparison with `ParseDiff`: for every
`diff --git` line, in order, the `@@` lines that occur after it and before the
next `diff --git` line (or the end of the input). -/
def sectionHeaders : List Str → List (List Str)
  | [] => []
  | l :: ls =>
    if HasPrefix l fileMarker then headersUntilMarker ls :: sectionHeaders ls
    else sectionHeaders ls

/-- A diff text whose first hunk header precedes the first `diff --git` line. -/
def strayHunkDiff : Str :=
  "--- a/x\n+++ b/x\n@@ -1 +1 @@\n-a\n+b\ndiff --git a/y b/y\n@@ -2 +2 @@\n-c\n+d".toList

/-- The diff text of `TestParseDiff` (diff_test.go lines 9-31): two hunks for
`file1.go`, one for `file2.txt`. -/
def testDiff : Str :=
  ("diff --git a/file1.go b/file1.go\nindex 1234567..89abcde 100644\n" ++
    "--- a/file1.go\n+++ b/file1.go\n" ++
    "@@ -1,3 +1,4 @@\n package main\n \n+import \"fmt\"\n+\n func main() \x7b\n" ++
    "@@ -10,3 +11,3 @@\n func hello() \x7b\n-\tprintln(\"hello\")\n" ++
    "+\tfmt.Println(\"hello world\")\n \x7d\n" ++
    "diff --git a/file2.txt b/file2.txt\nnew file mode 100644\nindex 0000000..9876543\n" ++
    "--- /dev/null\n+++ b/file2.txt\n" ++
    "@@ -0,0 +1 @@\n+hello from file 2\n").toList

/-! ## internal/git/git.go -/

/-- Minimum number of fields in a parsed log entry. -/
def minLogPartsCount : Nat := 7

/-- A single git commit. -/
structure Commit where
  Hash : Str
  ShortHash : Str
  Parents : List Str
  Author : Str
  Email : Str
  Date : Str
  Message : Str
  Body : Str
  deriving DecidableEq, Repr

/-- The record separator `\x1e` of the log format. -/
def recordSep : Char := Char.ofNat 0x1e

/-- The unit separator `\x1f` of the log format. -/
def unitSep : Char := Char.ofNat 0x1f

/-- The commit built from the fields of a record (git.go lines 220-236);
`parts` has at least `minLogPartsCount` elements where it is called. -/
def commitOfParts (parts : List Str) : Commit :=
  let parents : List Str := if parts.getD 2 [] ≠ [] then Split (parts.getD 2 []) ' ' else []
  let c : Commit :=
    { Hash := parts.getD 0 [], ShortHash := parts.getD 1 [], Parents := parents,
      Author := parts.getD 3 [], Email := parts.getD 4 [], Date := parts.getD 5 [],
      Message := parts.getD 6 [], Body := [] }
  if parts.length > 7 then { c with Body := parts.getD 7 [] } else c

/-- One iteration of the loop of `parseLog` (git.go lines 210-238). -/
def parseLogRecord (commits : List Commit) (record : Str) : List Commit :=
  let record := TrimSpace record
  if record = [] then commits
  else
    let parts := Split record unitSep
    if parts.length < minLogPartsCount then commits
    else commits ++ [commitOfParts parts]

/-- `(*Runner).parseLog`, given the result of `r.Run(ctx, args...)`: the
output text, or the error of the failed command. -/
def parseLog (run : Except Str Str) : Except Str (List Commit) :=
  match run with
  | .error err => .error ("could not get git log: ".toList ++ err)
  | .ok output =>
    if output = [] then .ok []
    else .ok ((Split output recordSep).foldl parseLogRecord [])

/-- Follows the claim's words, for comparison with `parseLog`: the fields of a
record mapped verbatim to a commit. -/
def commitOfFields (f : List Str) : Commit :=
  { Hash := f.getD 0 [], ShortHash := f.getD 1 [],
    Parents := if f.getD 2 [] = [] then [] else Split (f.getD 2 []) ' ',
    Author := f.getD 3 [], Email := f.getD 4 [], Date := f.getD 5 [],
    Message := f.getD 6 [], Body := f.getD 7 [] }

/-- Follows the claim's words, for comparison with `parseLog`: split the text
into records, keep the records with at least 7 fields, map each verbatim. -/
def logRecordsVerbatim (output : Str) : List Commit :=
  ((Split output recordSep).filter (fun r => 7 ≤ (Split r unitSep).length)).map
    (fun r => commitOfFields (Split r unitSep))

/-- The claim's words amended, for comparison with `parseLog`: split the text
into records, keep the records with at least 7 fields, map the fields of each
record, taken after the white space around the record is trimmed, to a commit. -/
def logRecordsTrimmed (output : Str) : List Commit :=
  ((Split output recordSep).filter (fun r => 7 ≤ (Split r unitSep).length)).map
    (fun r => commitOfFields (Split (TrimSpace r) unitSep))

/-- The log text git prints for two commits with the format of `GetLog`
(`format:` puts a newline between the records). -/
def twoCommitLog : Str :=
  ("h1\x1fs1\x1f\x1fAnn\x1fa@x\x1f2 days ago\x1fm1\x1fb1\x1f\x1e" ++
    "\nh2\x1fs2\x1fh1\x1fBob\x1fb@x\x1f1 day ago\x1fm2\x1fb2\x1f\x1e").toList

/-- The status of a file in the working area. -/
structure FileStatus where
  Path : Str
  Staged : Bool
  Modified : Bool
  New : Bool
  Deleted : Bool
  deriving DecidableEq, Repr

/-- One iteration of the loop of `ParseStatus` (git.go lines 516-548). -/
def parseStatusLine (files : List FileStatus) (line : Str) : List FileStatus :=
  if line.length < 4 then files
  else
    match line with
    | stagedStatus :: unstagedStatus :: rest =>
      let path := TrimSpace rest
      let f : FileStatus :=
        { Path := path, Staged := false, Modified := false, New := false, Deleted := false }
      let f := if stagedStatus ≠ ' ' ∧ stagedStatus ≠ '?' then { f with Staged := true } else f
      let f := if stagedStatus = 'M' ∨ unstagedStatus = 'M' then { f with Modified := true } else f
      let f :=
        if stagedStatus = 'A' ∨ stagedStatus = '?' ∨ unstagedStatus = '?' then { f with New := true }
        else f
      let f := if stagedStatus = 'D' ∨ unstagedStatus = 'D' then { f with Deleted := true } else f
      files ++ [f]
    | _ => files

/-- `(*Runner).ParseStatus`, given the result of `r.GetStatus(ctx)`: the
porcelain status text, or the error of the failed command. -/
def ParseStatus (status : Except Str Str) : Except Str (List FileStatus) :=
  match status with
  | .error err => .error err
  | .ok output =>
    if output = [] then .ok []
    else .ok ((Split output '\n').foldl parseStatusLine [])

/-- The record `ParseStatus` builds for a line with index code `x`, worktree
code `y` and remainder `rest`, in closed form. -/
def statusRecord (x y : Char) (rest : Str) : FileStatus :=
  { Path := TrimSpace rest,
    Staged := decide (x ≠ ' ' ∧ x ≠ '?'),
    Modified := decide (x = 'M' ∨ y = 'M'),
    New := decide (x = 'A' ∨ x = '?' ∨ y = '?'),
    Deleted := decide (x = 'D' ∨ y = 'D') }

/-- The index column of a status line decides `Staged`: neither a space nor
the untracked marker. -/
def indexColumnStaged (line : Str) : Bool :=
  match line.head? with
  | some x => decide (x ≠ ' ' ∧ x ≠ '?')
  | none => false

/-! ## internal/workspace/semantic.go

`commitPrefixRegex` is
`(?i)^(feat|feature|fix|bugfix|refactor|experiment|exp)(\([^)]*\))?(!)?:\s*`.
Go's `regexp` finds the match a backtracking matcher finds first: the
alternatives of a group are tried in the order written and `?`, `*` prefer to
match.  The functions below match the pieces of this expression in that
order; each returns the matched text and the rest of the input. -/

/-- The alternatives of group 1 of `commitPrefixRegex`, in the order written. -/
def prefixTokens : List Str :=
  ["feat", "feature", "fix", "bugfix", "refactor", "experiment", "exp"].map String.toList

/-- The class `\s` of Go regular expressions: tab, newline, form feed,
carriage return, space. -/
def reSpace (c : Char) : Bool :=
  c = '\t' || c = '\n' || c = Char.ofNat 12 || c = '\r' || c = ' '

/-- Matches the literal `tok` (lower-case ASCII letters) under `(?i)` at the
start of `s`: the matched text and the rest. -/
def matchToken (tok s : Str) : Option (Str × Str) :=
  if ToLower (s.take tok.length) = tok then some (s.take tok.length, s.drop tok.length) else none

/-- Matches `\([^)]*\)` at the start of `s`: the matched text and the rest.
`[^)]*` takes every byte up to the first `)`; no shorter choice can be followed
by `\)`. -/
def matchScope (s : Str) : Option (Str × Str) :=
  match s with
  | c :: t =>
    if c = '(' then
      match t.dropWhile (fun x => x != ')') with
      | _ :: rest => some ('(' :: (t.takeWhile (fun x => x != ')') ++ [')']), rest)
      | [] => none
    else none
  | [] => none

/-- Matches `:\s*` at the start of `s`: the rest after it. -/
def matchColon (s : Str) : Option Str :=
  match s with
  | c :: t => if c = ':' then some (t.dropWhile reSpace) else none
  | [] => none

/-- Matches `(!)?:\s*` at the start of `s`: the text of group 3 and the rest.
The branch that takes `!` is tried first. -/
def matchBangColon (s : Str) : Option (Str × Str) :=
  let withBang : Option (Str × Str) :=
    match s with
    | c :: t => if c = '!' then (matchColon t).map (fun r => (['!'], r)) else none
    | [] => none
  match withBang with
  | some r => some r
  | none => (matchColon s).map (fun r => ([], r))

/-- Matches `(\([^)]*\))?(!)?:\s*` at the start of `s`: the texts of groups 2
and 3 and the rest.  The branch that takes the scope is tried first. -/
def matchTail (s : Str) : Option (Str × Str × Str) :=
  let withScope : Option (Str × Str × Str) :=
    (matchScope s).bind (fun p => (matchBangColon p.2).map (fun q => (p.1, q.1, q.2)))
  match withScope with
  | some r => some r
  | none => (matchBangColon s).map (fun q => ([], q.1, q.2))

/-- Matches the whole of `commitPrefixRegex` with group 1 being `tok`: the
slice `[match, group 1, group 2, group 3]`. -/
def matchWithToken (s tok : Str) : Option (List Str) :=
  (matchToken tok s).bind (fun p =>
    (matchTail p.2).map (fun q => [s.take (s.length - q.2.2.length), p.1, q.1, q.2.1]))

/-- `commitPrefixRegex.FindStringSubmatch(s)`: `nil` when there is no match,
else the matched text and the texts of the three groups (empty for a group
that did not take part). -/
def FindStringSubmatch (s : Str) : List Str :=
  match prefixTokens.findSome? (matchWithToken s) with
  | some m => m
  | none => []

/-- Maps recognized prefixes to their semantic tag. -/
def prefixToTag : List (Str × Str) :=
  [("feat", "feature"), ("feature", "feature"), ("fix", "fix"), ("bugfix", "fix"),
   ("refactor", "refactor"), ("experiment", "experiment"), ("exp", "experiment")].map
    (fun p => (p.1.toList, p.2.toList))

/-- `DetectTag(message)`: the semantic tag of a commit message based on its
conventional commit prefix, `none` if no known prefix is found. -/
def DetectTag (message : Str) : Str :=
  let msg := TrimSpace message
  let m := FindStringSubmatch msg
  if m.length < 2 then "none".toList
  else
    let pfx := ToLower (m.getD 1 [])
    match prefixToTag.lookup pfx with
    | some tag => tag
    | none => "none".toList

/-- The body marker tested by `DetectImpact` (semantic.go line 56). -/
def breakingMarker : Str := "BREAKING CHANGE".toList

/-- `DetectImpact(message)`: the suggested impact level (patch, minor, major). -/
def DetectImpact (message : Str) : Str :=
  let msg := TrimSpace message
  let lines := Split msg '\n'
  let header := lines.getD 0 []
  let m := FindStringSubmatch header
  if m.length > 0 ∧ m.getD 3 [] = "!".toList then "major".toList
  else if Contains msg breakingMarker then "major".toList
  else if m.length > 0 ∧
      (ToLower (m.getD 1 []) = "feat".toList ∨ ToLower (m.getD 1 []) = "feature".toList) then
    "minor".toList
  else "patch".toList

/-- The first line of the trimmed message: `header` in `DetectImpact`
(semantic.go lines 42-44). -/
def headerLine (message : Str) : Str := (Split (TrimSpace message) '\n').getD 0 []

/-- The text of group 3 for a prefix with or without the breaking marker. -/
def bangText (bang : Bool) : Str := if bang then ['!'] else []

/-- A parenthesized scope, or nothing: the texts group 2 of the expression can
match, namely `(`, bytes other than `)`, `)`. -/
def ScopeText (scope : Str) : Prop :=
  scope = [] ∨ ∃ body, ')' ∉ body ∧ scope = '(' :: (body ++ [')'])

/-- Follows the claim's words: `s` starts, case-insensitively, with the token
`tok`, followed by an optional parenthesized scope, an optional `!` (present
exactly when `bang`), then `:`. -/
def ConvPrefix (tok : Str) (bang : Bool) (s : Str) : Prop :=
  ∃ t scope rest, s = t ++ (scope ++ (bangText bang ++ ':' :: rest)) ∧ ToLower t = tok ∧
    ScopeText scope

/-- Follows the claim's words as stated: as `ConvPrefix`, with at least one
white-space character required after the `:`. -/
def ConvPrefixSpace (tok : Str) (bang : Bool) (s : Str) : Prop :=
  ∃ t scope w rest, s = t ++ (scope ++ (bangText bang ++ ':' :: w :: rest)) ∧ reSpace w = true ∧
    ToLower t = tok ∧ ScopeText scope

/-! ## internal/workspace/workspace.go

The metadata file `.tutugit/meta.json` is modelled by a document: `none` when
the file does not exist, `some m` when it holds the text `json.MarshalIndent`
writes for `m`, or a JSON text from which `json.Unmarshal` reads the same
document.  Reading and writing the file are taken to succeed.  The document
`json.Unmarshal` reads from the text written for `m` is `jsonMeta m`: it has
the strings of `m` as `jsonString` gives them and the maps of `m` as
`jsonObject` gives them. -/

/-- A logical grouping of commits. -/
structure Workspace where
  ID : Str
  Name : Str
  Description : Str
  Commits : List Str
  Status : Str
  deriving DecidableEq, Repr

/-- A Go map with string keys: `none` is the nil map, `some kvs` a map that
holds the entries `kvs`, at most one per key. -/
abbrev GoMap (V : Type) := Option (List (Str × V))

/-- The value a map holds for a key (`m[k]` with the `ok` flag). -/
def GoMap.get {V : Type} (m : GoMap V) (k : Str) : Option V :=
  match m with
  | none => none
  | some kvs => kvs.lookup k

/-- The entries of a map after the assignment `m[k] = v`. -/
def setEntry {V : Type} (k : Str) (v : V) : List (Str × V) → List (Str × V)
  | [] => [(k, v)]
  | (k1, v1) :: rest => if k1 = k then (k, v) :: rest else (k1, v1) :: setEntry k v rest

/-- All the tutugit metadata. -/
structure Meta where
  Schema : Str
  Version : Int
  Workspaces : List Workspace
  Tags : GoMap (List Str)
  ActiveWorkspace : Str
  Impacts : GoMap Str
  deriving DecidableEq, Repr

/-- The persisted metadata file: absent, or the document it holds. -/
abbrev Store := Option Meta

/-- The errors the store operations create with `fmt.Errorf`. -/
inductive StoreError where
  | alreadyInitialized
  | workspaceNotFound (id : Str)
  | workspaceExists (id : Str)
  deriving DecidableEq, Repr

/-! ### What JSON carries of a document (`encoding/json`) -/

/-- Go `strings.Compare(a, b) < 0`: the byte-wise lexicographic order, in
which `json.Marshal` writes the keys of a map. -/
def lessBytes : Str → Str → Bool
  | _, [] => false
  | [], _ :: _ => true
  | a :: s, b :: t => decide (a.toNat < b.toNat) || (decide (a = b) && lessBytes s t)

/-- A workspace as JSON carries it: each of its strings as `jsonString` gives
it. -/
def jsonWorkspace (w : Workspace) : Workspace :=
  { ID := jsonString w.ID, Name := jsonString w.Name,
    Description := jsonString w.Description, Commits := w.Commits.map jsonString,
    Status := jsonString w.Status }

/-- The entries a JSON text stands for, one per key text, after the entry of
the key `k` is taken in.  The encoder writes the members of a map in the
increasing order of the keys and the decoder assigns them in the order it reads
them, so that of two entries whose keys are written as the same text the one
with the greater key stays. -/
def keepMember {V : Type} (k : Str) (v : V) : List (Str × V) → List (Str × V)
  | [] => [(k, v)]
  | (k1, v1) :: rest =>
    if jsonString k1 = jsonString k then
      if lessBytes k1 k then (k, v) :: rest else (k1, v1) :: rest
    else (k1, v1) :: keepMember k v rest

/-- A map as JSON carries it: the entries that stay, each with its key as
`jsonString` gives it and its value as `f` gives it. -/
def jsonObject {V : Type} (f : V → V) (entries : List (Str × V)) : List (Str × V) :=
  (entries.foldl (fun kept kv => keepMember kv.1 kv.2 kept) []).map
    (fun kv => (jsonString kv.1, f kv.2))

/-- The document `json.Unmarshal` reads from the text `json.MarshalIndent`
writes for `m`: every string as `jsonString` gives it, every map as
`jsonObject` gives it; a nil map is written as `null` and read as a nil map. -/
def jsonMeta (m : Meta) : Meta :=
  { Schema := jsonString m.Schema,
    Version := m.Version,
    Workspaces := m.Workspaces.map jsonWorkspace,
    Tags := m.Tags.map (jsonObject (List.map jsonString)),
    ActiveWorkspace := jsonString m.ActiveWorkspace,
    Impacts := m.Impacts.map (jsonObject jsonString) }

/-! ### The operations of the store -/

/-- `(*Manager).Load`: the document `json.Unmarshal` reads from the file, with
nil maps initialised and version 0 replaced by 1; when the file does not exist,
a document with an empty workspace list and an initialised Tags map
(workspace.go lines 116-146). -/
def Load (store : Store) : Meta :=
  match store with
  | none =>
    { Schema := [], Version := 0, Workspaces := [], Tags := some [], ActiveWorkspace := [],
      Impacts := none }
  | some doc =>
    let m := jsonMeta doc
    let m := if m.Tags = none then { m with Tags := some [] } else m
    let m := if m.Impacts = none then { m with Impacts := some [] } else m
    if m.Version = 0 then { m with Version := 1 } else m

/-- `(*Manager).Save`: writes the text of `json.MarshalIndent` to disk
(workspace.go lines 149-166); the file then holds the document `json.Unmarshal`
reads from that text. -/
def Save (_store : Store) (m : Meta) : Option StoreError × Store := (none, some (jsonMeta m))

/-- The document `Bootstrap` writes (workspace.go lines 62-77). -/
def initialMeta : Meta :=
  { Schema := "./schemas/meta.schema.json".toList,
    Version := 1,
    Workspaces :=
      [{ ID := "general".toList, Name := "General".toList,
         Description := "Default project workspace".toList, Commits := [],
         Status := "active".toList }],
    Tags := some [],
    ActiveWorkspace := "general".toList,
    Impacts := some [] }

/-- `(*Manager).Bootstrap`: initialises the metadata; fails when the file
exists (workspace.go lines 46-80; the copy of the schema files does not touch
the metadata file). -/
def Bootstrap (store : Store) : Option StoreError × Store :=
  match store with
  | some _ => (some .alreadyInitialized, store)
  | none => Save store initialMeta

/-- How the loop of `AddCommitToWorkspace` ends (workspace.go lines 175-187):
by `return nil` on a commit that is already a member, with `found` set and the
commit appended, or without a matching workspace. -/
inductive AddCommitExit where
  | alreadyMember
  | appended (workspaces : List Workspace)
  | notFound
  deriving DecidableEq, Repr

/-- The loop of `AddCommitToWorkspace` over `meta.Workspaces`. -/
def addCommitLoop (workspaceID commitSHA : Str) : List Workspace → AddCommitExit
  | [] => .notFound
  | w :: rest =>
    if w.ID = workspaceID then
      if commitSHA ∈ w.Commits then .alreadyMember
      else .appended ({ w with Commits := w.Commits ++ [commitSHA] } :: rest)
    else
      match addCommitLoop workspaceID commitSHA rest with
      | .appended ws => .appended (w :: ws)
      | .alreadyMember => .alreadyMember
      | .notFound => .notFound

/-- `(*Manager).AddCommitToWorkspace(workspaceID, commitSHA)`. -/
def AddCommitToWorkspace (store : Store) (workspaceID commitSHA : Str) :
    Option StoreError × Store :=
  let m := Load store
  match addCommitLoop workspaceID commitSHA m.Workspaces with
  | .alreadyMember => (none, store)
  | .notFound => (some (.workspaceNotFound workspaceID), store)
  | .appended ws => Save store { m with Workspaces := ws }

/-- `(*Manager).AddTag(commitSHA, tag)`. -/
def AddTag (store : Store) (commitSHA tag : Str) : Option StoreError × Store :=
  let m := Load store
  let entries : List (Str × List Str) := m.Tags.getD []
  let tags : List Str := (entries.lookup commitSHA).getD []
  if tag ∈ tags then (none, store)
  else Save store { m with Tags := some (setEntry commitSHA (tags ++ [tag]) entries) }

/-- `(*Manager).AddImpact(commitSHA, level)`. -/
def AddImpact (store : Store) (commitSHA level : Str) : Option StoreError × Store :=
  let m := Load store
  let entries : List (Str × Str) := m.Impacts.getD []
  Save store { m with Impacts := some (setEntry commitSHA level entries) }

/-- `(*Manager).CreateWorkspace(id, name, desc)`. -/
def CreateWorkspace (store : Store) (id name desc : Str) : Option StoreError × Store :=
  let m := Load store
  if m.Workspaces.any (fun w => w.ID = id) then (some (.workspaceExists id), store)
  else
    Save store
      { m with
        Workspaces := m.Workspaces ++
          [{ ID := id, Name := name, Description := desc, Commits := [],
             Status := "active".toList }] }

/-- `(*Manager).SetActiveWorkspace(id)`. -/
def SetActiveWorkspace (store : Store) (id : Str) : Option StoreError × Store :=
  let m := Load store
  if id ≠ [] ∧ ¬ m.Workspaces.any (fun w => w.ID = id) then
    (some (.workspaceNotFound id), store)
  else Save store { m with ActiveWorkspace := id }

/-- A call of one of the five mutating operations of the store. -/
inductive Op where
  | createWorkspace (id name desc : Str)
  | setActiveWorkspace (id : Str)
  | addCommitToWorkspace (workspaceID commitSHA : Str)
  | addTag (commitSHA tag : Str)
  | addImpact (commitSHA level : Str)
  deriving DecidableEq, Repr

/-- The call `op` made on `store`: the error returned, if any, and the store
afterwards. -/
def Op.call (op : Op) (store : Store) : Option StoreError × Store :=
  match op with
  | .createWorkspace id name desc => CreateWorkspace store id name desc
  | .setActiveWorkspace id => SetActiveWorkspace store id
  | .addCommitToWorkspace w c => AddCommitToWorkspace store w c
  | .addTag c t => AddTag store c t
  | .addImpact c l => AddImpact store c l

/-- The store after a sequence of calls, each made whether or not the one
before it failed. -/
def runOps (store : Store) (ops : List Op) : Store :=
  ops.foldl (fun s op => (op.call s).2) store

/-! ### Notions used to state the properties of the store -/

/-- The ids of the workspaces of a document, in order. -/
def workspaceIDs (m : Meta) : List Str := m.Workspaces.map (·.ID)

/-- The ids of the workspaces of the stored document (none when no document
is stored). -/
def storedIDs (store : Store) : List Str :=
  match store with
  | none => []
  | some m => workspaceIDs m

/-- The active-workspace id of a document is empty or the id of one of its
workspaces. -/
def activeValid (m : Meta) : Prop :=
  m.ActiveWorkspace = [] ∨ m.ActiveWorkspace ∈ workspaceIDs m

/-- The commit list of the workspace with the given id (the first one, as the
loops of the store search), if there is one. -/
def commitsOf (id : Str) (m : Meta) : Option (List Str) :=
  (m.Workspaces.find? (fun w => w.ID = id)).map (·.Commits)

/-- The tags a document holds for a commit (`meta.Tags[commitSHA]`, nil when
absent). -/
def tagsOf (m : Meta) (commitSHA : Str) : List Str := (m.Tags.get commitSHA).getD []

/-- The entries of a map that JSON carries unchanged: no two entries have the
same key, and `jsonString` keeps every key and `f` every value. -/
def normalEntries {V : Type} (f : V → V) (l : List (Str × V)) : Prop :=
  (l.map (·.1)).Nodup ∧ ∀ p ∈ l, jsonString p.1 = p.1 ∧ f p.2 = p.2

/-- A document that JSON carries unchanged. -/
def normalMeta (m : Meta) : Prop :=
  jsonString m.Schema = m.Schema ∧ (∀ w ∈ m.Workspaces, jsonWorkspace w = w) ∧
    jsonString m.ActiveWorkspace = m.ActiveWorkspace ∧
    normalEntries (List.map jsonString) (m.Tags.getD []) ∧
    normalEntries jsonString (m.Impacts.getD [])

/-- The store holds no document, or one that JSON carries unchanged. -/
def normalStore (store : Store) : Prop := ∀ m, store = some m → normalMeta m

/-- Every string of the workspace is valid UTF-8. -/
def validWorkspace (w : Workspace) : Bool :=
  ValidString w.ID && ValidString w.Name && ValidString w.Description &&
    w.Commits.all ValidString && ValidString w.Status

/-- The entries of a map, one per key as in a Go map, whose keys and values
are valid UTF-8. -/
def validEntries {V : Type} (valid : V → Bool) (l : List (Str × V)) : Prop :=
  (l.map (·.1)).Nodup ∧ ∀ p ∈ l, ValidString p.1 = true ∧ valid p.2 = true

/-- Every string of the document is valid UTF-8. -/
def validMeta (m : Meta) : Prop :=
  ValidString m.Schema = true ∧ (∀ w ∈ m.Workspaces, validWorkspace w = true) ∧
    ValidString m.ActiveWorkspace = true ∧
    validEntries (fun tags => tags.all ValidString) (m.Tags.getD []) ∧
    validEntries ValidString (m.Impacts.getD [])

instance (m : Meta) : Decidable (validMeta m) := by
  unfold validMeta validEntries
  infer_instance

/-- A string of one byte, `0xFF`, which is part of no UTF-8 encoding. -/
def invalidByte : Str := [Char.ofNat 0xFF]

/-- A string of one byte, `0xFE`, which is part of no UTF-8 encoding. -/
def otherInvalidByte : Str := [Char.ofNat 0xFE]

/-- Three calls of `CreateWorkspace` with ids that are not valid UTF-8. -/
def invalidCreates : List Op :=
  [.createWorkspace invalidByte "A".toList [], .createWorkspace otherInvalidByte "B".toList [],
   .createWorkspace invalidByte "C".toList []]

/-- The text `café` in Latin-1: its last byte, `0xE9`, is followed by no
continuation byte. -/
def latin1Name : Str := "caf".toList ++ [Char.ofNat 0xE9]

/-- The ids given to the `CreateWorkspace` calls of a sequence. -/
def createdIDs (ops : List Op) : List Str :=
  ops.filterMap (fun op =>
    match op with
    | .createWorkspace id _ _ => some id
    | _ => none)

/-- The hashes given to the `AddCommitToWorkspace` calls of a sequence. -/
def addedCommits (ops : List Op) : List Str :=
  ops.filterMap (fun op =>
    match op with
    | .addCommitToWorkspace _ c => some c
    | _ => none)

/-- A sequence of calls that creates the workspace `docs` twice and uses it. -/
def sampleOps : List Op :=
  [.createWorkspace "docs".toList "Docs".toList [],
   .createWorkspace "docs".toList "Again".toList [],
   .setActiveWorkspace "docs".toList,
   .addCommitToWorkspace "docs".toList "abc123".toList,
   .addTag "abc123".toList "feature".toList,
   .addImpact "abc123".toList "minor".toList,
   .createWorkspace "api".toList "API".toList []]

/-- The workspace `CreateWorkspace` appends (workspace.go lines 246-252). -/
def newWorkspace (id name desc : Str) : Workspace :=
  { ID := id, Name := name, Description := desc, Commits := [], Status := "active".toList }

/-- A stored document whose workspace `general` lists the commit `abc` twice. -/
def twiceListedStore : Store :=
  some { initialMeta with
    Workspaces :=
      [{ ID := "general".toList, Name := "General".toList,
         Description := "Default project workspace".toList,
         Commits := ["abc".toList, "abc".toList], Status := "active".toList }] }

/-- The workspaces after a commit is appended to the first workspace with the
given id (the assignment at workspace.go line 183). -/
def appendCommit (workspaceID commitSHA : Str) : List Workspace → List Workspace
  | [] => []
  | w :: rest =>
    if w.ID = workspaceID then { w with Commits := w.Commits ++ [commitSHA] } :: rest
    else w :: appendCommit workspaceID commitSHA rest

/-- No workspace of the document lists a commit twice. -/
def commitsNodup (m : Meta) : Prop := ∀ w ∈ m.Workspaces, w.Commits.Nodup

/-! ## `internal/changelog/changelog.go`

The generator reads the repository through the interface `git.GitProvider`;
of its methods only `GetCommitsInRange` and `GetTags` are called.  A provider
is modelled by the results of these two queries.  The iteration order of a Go
map is not fixed by the language; where the program ranges over a map the
order is a parameter of the model. -/

/-- Go `strings.Join(elems, sep)`. -/
def Join : List Str → Str → Str
  | [], _ => []
  | [a], _ => a
  | a :: b :: rest, sep => a ++ sep ++ Join (b :: rest) sep

/-- The text `fmt.Sprintf` writes for `%d` and a non-negative integer: its
decimal digits. -/
def formatInt (n : Nat) : Str := Nat.toDigits 10 n

/-- The loop of `utf8.RuneCountInString`, run for at most `n` steps. -/
def runeCountN : Nat → Str → Nat
  | 0, _ => 0
  | n + 1, s => if s = [] then 0 else 1 + runeCountN n (s.drop (runeStep s))

/-- Go `utf8.RuneCountInString(s)`; every step consumes at least one byte, so
`len(s)` steps are enough. -/
def RuneCountInString (s : Str) : Nat := runeCountN s.length s

/-- The text `fmt.Sprintf` writes for `%-10s`: the string, then spaces up to
a width of ten runes. -/
def padRight10 (s : Str) : Str := s ++ List.replicate (10 - RuneCountInString s) ' '

/-- A single normalized change in the history. -/
structure ChangeEntry where
  Hash : Str
  ShortHash : Str
  Author : Str
  Subject : Str
  Tag : Str
  Impact : Str
  Workspace : Str
  Date : Str
  deriving DecidableEq, Repr

/-- A versioned collection of changes. -/
structure Release where
  Version : Str
  Date : Str
  Entries : List ChangeEntry
  deriving DecidableEq, Repr

/-- The part of `git.GitProvider` the generator uses: the result of
`GetCommitsInRange(ctx, base, head)` for every `base` and `head`, and the
result of `GetTags(ctx)`. -/
structure GitProvider where
  GetCommitsInRange : Str → Str → Except Str (List Commit)
  GetTags : Except Str (List Str)

/-- The revision range `GetCommitsInRange` passes to `git log`
(git.go lines 442-445). -/
def rangeSpec (base head : Str) : Str :=
  if base = [] then head else base ++ "..".toList ++ head

/-- The log format of `GetCommitsInRange` (git.go line 441). -/
def rangeLogFormat : Str := "%H%x1f%h%x1f%P%x1f%an%x1f%ae%x1f%cr%x1f%s%x1f%B%x1f%x1e".toList

/-- `(*Runner).GetCommitsInRange(ctx, base, head)`, given how git answers a
command line: `git log --reverse` lists the commits oldest first. -/
def Runner.GetCommitsInRange (run : List Str → Except Str Str) (base head : Str) :
    Except Str (List Commit) :=
  parseLog (run ["log".toList, "--pretty=format:".toList ++ rangeLogFormat,
    "--reverse".toList, rangeSpec base head])

/-- `(*Runner).GetTags(ctx)`, given how git answers a command line. -/
def Runner.GetTags (run : List Str → Except Str Str) : Except Str (List Str) :=
  match run ["tag".toList, "-l".toList, "--sort=-v:refname".toList] with
  | .error err => .error ("could not list tags: ".toList ++ err)
  | .ok output => if output = [] then .ok [] else .ok (Split (TrimSpace output) '\n')

/-- The provider `git.NewRunner` returns, given how git answers a command line. -/
def Runner (run : List Str → Except Str Str) : GitProvider :=
  { GetCommitsInRange := Runner.GetCommitsInRange run, GetTags := Runner.GetTags run }

/-- Orchestrates the creation of release data from git and tutugit metadata;
`Meta` is a pointer and may be nil. -/
structure Generator where
  Git : GitProvider
  Meta : Option Meta

/-- The tag of the entry of a commit (changelog.go lines 59-68). -/
def entryTag (m : Option Meta) (c : Commit) : Str :=
  match m with
  | some m =>
    match m.Tags with
    | some tagMap =>
      match tagMap.lookup c.Hash with
      | some (t :: _) => t
      | _ => DetectTag c.Message
    | none => DetectTag c.Message
  | none => DetectTag c.Message

/-- The inner loop over `ws.Commits` (changelog.go lines 73-78): `workspace` is
the value of `entry.Workspace` when the loop starts. -/
def scanCommits (name hash : Str) : List Str → Str → Str
  | [], workspace => workspace
  | h :: rest, workspace => if h = hash then name else scanCommits name hash rest workspace

/-- The loop over `g.Meta.Workspaces` (changelog.go lines 72-82); it ends when
`entry.Workspace` is not empty after a workspace has been scanned. -/
def scanWorkspaces (hash : Str) : List Workspace → Str → Str
  | [], workspace => workspace
  | ws :: rest, workspace =>
    let workspace := scanCommits ws.Name hash ws.Commits workspace
    if workspace ≠ [] then workspace else scanWorkspaces hash rest workspace

/-- The workspace of the entry of a commit (changelog.go lines 70-83). -/
def entryWorkspace (m : Option Meta) (c : Commit) : Str :=
  match m with
  | some m => scanWorkspaces c.Hash m.Workspaces []
  | none => []

/-- The impact of the entry of a commit (changelog.go lines 85-94). -/
def entryImpact (m : Option Meta) (c : Commit) : Str :=
  match m with
  | some m =>
    match m.Impacts with
    | some impacts =>
      match impacts.lookup c.Hash with
      | some level => level
      | none => DetectImpact c.Message
    | none => DetectImpact c.Message
  | none => DetectImpact c.Message

/-- The entry `GenerateRelease` appends for a commit (changelog.go lines 51-96). -/
def newEntry (m : Option Meta) (c : Commit) : ChangeEntry :=
  let entry : ChangeEntry :=
    { Hash := c.Hash, ShortHash := c.ShortHash, Author := c.Author, Subject := c.Message,
      Tag := [], Impact := [], Workspace := [], Date := c.Date }
  let entry := { entry with Tag := entryTag m c }
  let entry := { entry with Workspace := entryWorkspace m c }
  { entry with Impact := entryImpact m c }

/-- `(*Generator).GenerateRelease(ctx, version, base, head)`: collects the
commits of a range and returns a release. -/
def GenerateRelease (g : Generator) (version base head : Str) : Except Str Release :=
  match g.Git.GetCommitsInRange base head with
  | .error err => .error err
  | .ok commits =>
    let entries := commits.foldl (fun entries c => entries ++ [newEntry g.Meta c]) []
    let date : Str :=
      if commits.length > 0 then
        match commits[commits.length - 1]? with
        | some c => c.Date
        | none => []
      else []
    .ok { Version := version, Date := date, Entries := entries }

/-- The version label of the commits that no tag covers. -/
def unreleasedLabel : Str := "Unreleased".toList

/-- The revision `HEAD`. -/
def headRev : Str := "HEAD".toList

/-- Appends the release `Unreleased` of the range from `base` to `HEAD` when
the query succeeds and the release has entries (changelog.go lines 121-124
and 128-131). -/
def appendUnreleased (g : Generator) (base : Str) (releases : List Release) : List Release :=
  match GenerateRelease g unreleasedLabel base headRev with
  | .ok rel => if rel.Entries.length > 0 then releases ++ [rel] else releases
  | .error _ => releases

/-- Appends the release of a range when the query succeeds (changelog.go
lines 134-137 and 141-144). -/
def appendRelease (g : Generator) (version base head : Str) (releases : List Release) :
    List Release :=
  match GenerateRelease g version base head with
  | .ok rel => releases ++ [rel]
  | .error _ => releases

/-- `(*Generator).GenerateFull(ctx)`: iterates through all tags to produce a
complete release history. -/
def GenerateFull (g : Generator) : Except Str (List Release) :=
  match g.Git.GetTags with
  | .error err => .error err
  | .ok tags =>
    let releases : List Release := []
    if tags.length = 0 then .ok (appendUnreleased g [] releases)
    else
      let releases := appendUnreleased g (tags.getD 0 []) releases
      let releases :=
        (List.range (tags.length - 1)).foldl
          (fun releases i =>
            appendRelease g (tags.getD i []) (tags.getD (i + 1) []) (tags.getD i []) releases)
          releases
      let releases :=
        if tags.length > 0 then
          appendRelease g (tags.getD (tags.length - 1) []) [] (tags.getD (tags.length - 1) [])
            releases
        else releases
      .ok releases

/-- The order in which a `range` loop visits the keys of a map.  Go does not
fix it: `range i keys` is the order taken for the map of the release at
position `i` whose keys are `keys`, some arrangement of them. -/
structure MapOrder where
  range : Nat → List Str → List Str
  perm : ∀ (i : Nat) (keys : List Str), (range i keys).Perm keys

/-- The map `impactWeight` (changelog.go lines 162 and 250). -/
def impactWeight : List (Str × Nat) :=
  [("patch".toList, 0), ("minor".toList, 1), ("major".toList, 2)]

/-- The value `impactWeight[impact]`: zero for a key the map does not hold. -/
def weightOf (impact : Str) : Nat := (impactWeight.lookup impact).getD 0

/-- The category an entry is counted and listed under (changelog.go lines
165-168, 218-221, 253-256 and 306-309). -/
def displayTag (e : ChangeEntry) : Str :=
  if e.Tag = [] ∨ e.Tag = "none".toList then "other".toList else e.Tag

/-- One iteration of the counting loop (changelog.go lines 164-173 and
252-261) on the map `counts` and on `maxImpact`. -/
def countEntry (st : List (Str × Nat) × Str) (e : ChangeEntry) : List (Str × Nat) × Str :=
  let tag := displayTag e
  let counts := setEntry tag ((st.1.lookup tag).getD 0 + 1) st.1
  let maxImpact := if weightOf e.Impact > weightOf st.2 then e.Impact else st.2
  (counts, maxImpact)

/-- The counting loop on the entries of a release: the map `counts` and
`maxImpact` when it ends. -/
def countEntries (entries : List ChangeEntry) : List (Str × Nat) × Str :=
  entries.foldl countEntry ([], "patch".toList)

/-- The slice `order` (changelog.go lines 181-187 and 269-275). -/
def categoryOrder : List (Str × Str) :=
  [("feature".toList, "features".toList), ("fix".toList, "fixes".toList),
   ("refactor".toList, "refactors".toList), ("experiment".toList, "experiments".toList),
   ("other".toList, "other".toList)]

/-- One iteration of the loop over `order` (changelog.go lines 188-192 and
276-280). -/
def addPart (counts : List (Str × Nat)) (parts : List Str) (o : Str × Str) : List Str :=
  match counts.lookup o.1 with
  | some c => if c > 0 then parts ++ [formatInt c ++ " ".toList ++ o.2] else parts
  | none => parts

/-- The slice `parts` after the loop over `order`. -/
def changeParts (counts : List (Str × Nat)) : List Str :=
  categoryOrder.foldl (addPart counts) []

/-- The keys of the map `wsSet` after its loop (changelog.go lines 196-201
and 284-289), in the order they were first set. -/
def workspaceSet (entries : List ChangeEntry) : List Str :=
  entries.foldl
    (fun wsSet e =>
      if e.Workspace ≠ [] then (if e.Workspace ∈ wsSet then wsSet else wsSet ++ [e.Workspace])
      else wsSet)
    []

/-- The workspace lines (changelog.go lines 202-212 and 290-300): `one` and
`many` are the texts before the name and before the list of names. -/
def workspaceLines (one many : Str) (visit : List Str → List Str) (wsSet : List Str) : Str :=
  if wsSet.length = 1 then
    ((visit wsSet).foldl (fun (b : Builder) ws => b.WriteString (one ++ ws ++ "\n".toList))
      ({} : Builder)).String
  else if wsSet.length > 1 then
    let names := (visit wsSet).foldl (fun names ws => names ++ [ws]) []
    many ++ Join names ", ".toList ++ "\n".toList
  else []

/-- The text `FormatSummary` writes at lines 176-177 for a release. -/
def summaryHeader (rel : Release) : Str :=
  "Release ".toList ++ rel.Version ++ "\n".toList ++
    ("Impact: ".toList ++ (countEntries rel.Entries).2 ++ "\n".toList)

/-- The text `FormatSummary` writes at line 193 for a release. -/
def summaryChanges (rel : Release) : Str :=
  "Changes: ".toList ++ Join (changeParts (countEntries rel.Entries).1) ", ".toList ++
    "\n".toList

/-- The text `FormatSummary` writes at lines 195-212 for the release at
position `i`. -/
def summaryWorkspaces (ord : MapOrder) (i : Nat) (rel : Release) : Str :=
  workspaceLines "Workspace: ".toList "Workspaces: ".toList (ord.range i)
    (workspaceSet rel.Entries)

/-- The rule `FormatSummary` writes at line 214: 23 times U+2500 in UTF-8,
and a line feed. -/
def summaryRule : Str :=
  (List.replicate 23 [Char.ofNat 0xE2, Char.ofNat 0x94, Char.ofNat 0x80]).flatten ++ ['\n']

/-- The text `FormatSummary` writes at lines 214-226 for a release. -/
def summaryEntries (rel : Release) : Str :=
  ((rel.Entries.foldl
      (fun (b : Builder) e =>
        let padded := padRight10 (displayTag e ++ ":".toList)
        b.WriteString ("  ".toList ++ padded ++ " ".toList ++ e.Subject ++ " (".toList ++
          e.ShortHash ++ ")\n".toList))
      (({} : Builder).WriteString summaryRule)).WriteString "\n".toList).String

/-- `(*Generator).FormatSummary(releases)`: a clean, structured release
summary (the receiver is not used; no release pointer is nil). -/
def FormatSummary (ord : MapOrder) (releases : List Release) : Str :=
  if releases.length = 0 then "No releases found.".toList
  else
    (releases.enum.foldl
      (fun (b : Builder) ir =>
        (((b.WriteString (summaryHeader ir.2)).WriteString (summaryChanges ir.2)).WriteString
          (summaryWorkspaces ord ir.1 ir.2)).WriteString (summaryEntries ir.2))
      ({} : Builder)).String

/-- The text `ExportMarkdown` writes at lines 264-265 for a release. -/
def markdownHeader (rel : Release) : Str :=
  "## ".toList ++ rel.Version ++ "\n".toList ++
    ("- **Impact:** ".toList ++ (countEntries rel.Entries).2 ++ "\n".toList)

/-- The text `ExportMarkdown` writes at line 281 for a release. -/
def markdownChanges (rel : Release) : Str :=
  "- **Changes:** ".toList ++ Join (changeParts (countEntries rel.Entries).1) ", ".toList ++
    "\n".toList

/-- The text `ExportMarkdown` writes at lines 283-300 for the release at
position `i`. -/
def markdownWorkspaces (ord : MapOrder) (i : Nat) (rel : Release) : Str :=
  workspaceLines "- **Workspace:** ".toList "- **Workspaces:** ".toList (ord.range i)
    (workspaceSet rel.Entries)

/-- The text `ExportMarkdown` writes at lines 302-312 for a release. -/
def markdownEntries (rel : Release) : Str :=
  ((rel.Entries.foldl
      (fun (b : Builder) e =>
        b.WriteString ("- **".toList ++ displayTag e ++ ":** ".toList ++ e.Subject ++
          " (\x60".toList ++ e.ShortHash ++ "\x60)\n".toList))
      (({} : Builder).WriteString "\n---\n\n".toList)).WriteString "\n".toList).String

/-- `(*Generator).ExportMarkdown(releases)`: a human-readable Markdown
summary (the receiver is not used; no release pointer is nil). -/
def ExportMarkdown (ord : MapOrder) (releases : List Release) : Str :=
  if releases.length = 0 then "# Release Summary\n\nNo releases found.".toList
  else
    (releases.enum.foldl
      (fun (b : Builder) ir =>
        (((b.WriteString (markdownHeader ir.2)).WriteString (markdownChanges ir.2)).WriteString
          (markdownWorkspaces ord ir.1 ir.2)).WriteString (markdownEntries ir.2))
      (({} : Builder).WriteString "# Release Summary\n\n".toList)).String

/-! ### Notions used to state the properties of the generator -/

/-- The explicit tag the store holds for a commit: the first tag of the list
stored for its hash; none without a document, without a list for the hash,
or when the list is empty. -/
def explicitTag (m : Option Meta) (hash : Str) : Option Str :=
  match m with
  | none => none
  | some m => (tagsOf m hash).head?

/-- The explicit impact the store holds for a commit; none without a document
or without an impact for the hash. -/
def explicitImpact (m : Option Meta) (hash : Str) : Option Str :=
  match m with
  | none => none
  | some m => m.Impacts.get hash

/-- The entry carries the hash, short hash, author, subject and date of the
commit. -/
def entryOfCommit (e : ChangeEntry) (c : Commit) : Prop :=
  e.Hash = c.Hash ∧ e.ShortHash = c.ShortHash ∧ e.Author = c.Author ∧
    e.Subject = c.Message ∧ e.Date = c.Date

/-- A commit with the given hash, short hash, author, date and subject. -/
def commitOf (hash short author date message : String) : Commit :=
  { Hash := hash.toList, ShortHash := short.toList, Parents := [], Author := author.toList,
    Email := [], Date := date.toList, Message := message.toList, Body := [] }

/-- The commits of `TestGenerator_Simulation`. -/
def simCommits : List Commit :=
  [commitOf "hash1" "h1" "Carlos" "1 hour ago" "feat: add user login",
   commitOf "hash2" "h2" "Carlos" "45 mins ago" "fix: crash on logout",
   commitOf "hash3" "h3" "John" "30 mins ago" "refactor: optimize database",
   commitOf "hash4" "h4" "Carlos" "10 mins ago" "experiment: test new api",
   commitOf "hash5" "h5" "Carlos" "5 mins ago" "chore: update docs"]

/-- The document of `TestGenerator_Simulation`, with an explicit tag for
`hash2` and an explicit impact for `hash3` added. -/
def simMeta : Meta :=
  { Schema := [], Version := 0,
    Workspaces :=
      [{ ID := "auth".toList, Name := "Auth System".toList, Description := [],
         Commits := ["hash1".toList, "hash2".toList], Status := [] },
       { ID := "db".toList, Name := "Database".toList, Description := [],
         Commits := ["hash3".toList], Status := [] }],
    Tags := some [("hash2".toList, ["security".toList, "fix".toList])],
    ActiveWorkspace := [],
    Impacts := some [("hash3".toList, "major".toList)] }

/-- A provider that answers every range query with the same commits. -/
def constProvider (tags : List Str) (commits : List Commit) : GitProvider :=
  { GetCommitsInRange := fun _ _ => .ok commits, GetTags := .ok tags }

/-- The generator of `TestGenerator_Simulation`. -/
def simGen : Generator := { Git := constProvider [] simCommits, Meta := some simMeta }

/-- A document whose first workspace has no name; both workspaces list the
commit `hash1`. -/
def unnamedFirstMeta : Meta :=
  { Schema := [], Version := 1,
    Workspaces :=
      [{ ID := "a".toList, Name := [], Description := [], Commits := ["hash1".toList],
         Status := "active".toList },
       { ID := "b".toList, Name := "B".toList, Description := [], Commits := ["hash1".toList],
         Status := "active".toList }],
    Tags := some [], ActiveWorkspace := [], Impacts := some [] }

/-- A generator over `unnamedFirstMeta` whose range holds the commit `hash1`. -/
def unnamedFirstGen : Generator :=
  { Git := constProvider [] [commitOf "hash1" "h1" "Carlos" "1 hour ago" "feat: add user login"],
    Meta := some unnamedFirstMeta }

/-- A range of two commits, oldest first. -/
def oldestFirstCommits : List Commit :=
  [commitOf "hash1" "h1" "Carlos" "2 days ago" "feat: add user login",
   commitOf "hash2" "h2" "Carlos" "1 day ago" "fix: crash on logout"]

/-- A generator whose ranges are `oldestFirstCommits`. -/
def oldestFirstGen : Generator := { Git := constProvider [] oldestFirstCommits, Meta := none }

/-- The first workspace of the document, in list order, that has a name and
whose commit list contains the hash. -/
def firstNamedWorkspace (m : Option Meta) (hash : Str) : Option Workspace :=
  match m with
  | none => none
  | some m => m.Workspaces.find? (fun w => decide (hash ∈ w.Commits ∧ w.Name ≠ []))

/-- The first workspace of the document, in list order, whose commit list
contains the hash. -/
def firstWorkspace (m : Option Meta) (hash : Str) : Option Workspace :=
  match m with
  | none => none
  | some m => m.Workspaces.find? (fun w => decide (hash ∈ w.Commits))

/-- Every workspace of the document, if there is one, has a name. -/
def workspacesNamed (m : Option Meta) : Prop :=
  ∀ d, m = some d → ∀ w ∈ d.Workspaces, w.Name ≠ []

/-- The release `GenerateRelease` builds from the commits of a range
(changelog.go lines 49-108). -/
def buildRelease (m : Option Meta) (version : Str) (commits : List Commit) : Release :=
  { Version := version, Date := ((commits.getLast?).map (·.Date)).getD [],
    Entries := commits.map (newEntry m) }

/-- The release of a range as `GenerateFull` takes it in: the release
`GenerateRelease` returns when the range query succeeds, nothing when it
fails. -/
def releaseOf (g : Generator) (version base head : Str) : List Release :=
  match GenerateRelease g version base head with
  | .ok rel => [rel]
  | .error _ => []

/-- The release `Unreleased` of the range from `base` to `HEAD` as
`GenerateFull` takes it in: nothing when the range query fails or the release
has no entries. -/
def unreleasedOf (g : Generator) (base : Str) : List Release :=
  match GenerateRelease g unreleasedLabel base headRev with
  | .ok rel => if rel.Entries = [] then [] else [rel]
  | .error _ => []

/-- The ranges of the tags of a descending tag list: every tag with the next
older tag as its base, the oldest tag with the empty base. -/
def tagRanges : List Str → List (Str × Str)
  | [] => []
  | [t] => [(t, [])]
  | t :: older :: rest => (t, older) :: tagRanges (older :: rest)

/-- A range of one commit. -/
def oneCommit : List Commit :=
  [commitOf "hash1" "h1" "Carlos" "1 hour ago" "feat: add user login"]

/-- The ranges of a history in which no commit follows the newest tag: the
range from a tag to `HEAD` is empty, every other range holds one commit. -/
def releasedHeadRanges (_base head : Str) : List Commit :=
  if head = headRev then [] else oneCommit

/-- A provider with the tags `v2` and `v1` and the ranges `releasedHeadRanges`. -/
def releasedHeadProvider : GitProvider :=
  { GetCommitsInRange := fun base head => .ok (releasedHeadRanges base head),
    GetTags := .ok ["v2".toList, "v1".toList] }

/-- A provider with the tags `v2` and `v1` whose query for the range from `v1`
to `v2` fails; every other range holds one commit. -/
def failingRangeProvider : GitProvider :=
  { GetCommitsInRange := fun base _ =>
      if base = "v1".toList then .error "could not get git log: exit status 128".toList
      else .ok oneCommit,
    GetTags := .ok ["v2".toList, "v1".toList] }

/-- A provider with the tags `v2` and `v1` that answers the three range
queries `GenerateFull` issues for them with one commit and fails for every
other range, as git does for a revision it does not know. -/
def issuedRangesProvider : GitProvider :=
  { GetCommitsInRange := fun base head =>
      if (base, head) ∈ [("v2".toList, headRev), ("v1".toList, "v2".toList),
          ([], "v1".toList)] then .ok oneCommit
      else .error "could not get git log: exit status 128".toList,
    GetTags := .ok ["v2".toList, "v1".toList] }

/-- A generator over `issuedRangesProvider`, without a store document. -/
def issuedRangesGen : Generator := { Git := issuedRangesProvider, Meta := none }

/-- A generator over `releasedHeadProvider`, without a store document. -/
def releasedHeadGen : Generator := { Git := releasedHeadProvider, Meta := none }

/-- A generator over `failingRangeProvider`, without a store document. -/
def failingRangeGen : Generator := { Git := failingRangeProvider, Meta := none }

/-- The entry belongs to the category: its tag is the category, or the
category is `other` and its tag is `none` or empty. -/
def inCategory (category : Str) (e : ChangeEntry) : Bool :=
  decide (e.Tag = category ∨
    (category = "other".toList ∧ (e.Tag = "none".toList ∨ e.Tag = [])))

/-- The number of entries of a category. -/
def categoryCount (entries : List ChangeEntry) (category : Str) : Nat :=
  entries.countP (inCategory category)

/-- The text of one category on the Changes line: the count and the label,
nothing when the count is zero. -/
def countText (n : Nat) (label : Str) : List Str :=
  if n = 0 then [] else [formatInt n ++ " ".toList ++ label]

/-- The text of the Changes line after its title: the counts of the categories
features, fixes, refactors, experiments and other, in this order, without the
categories that have no entry, separated by a comma and a space. -/
def changesText (entries : List ChangeEntry) : Str :=
  Join
    (countText (categoryCount entries "feature".toList) "features".toList ++
      countText (categoryCount entries "fix".toList) "fixes".toList ++
      countText (categoryCount entries "refactor".toList) "refactors".toList ++
      countText (categoryCount entries "experiment".toList) "experiments".toList ++
      countText (categoryCount entries "other".toList) "other".toList)
    ", ".toList

/-- The maximum impact of the entries under patch < minor < major: `major` if
an entry has impact major, otherwise `minor` if an entry has impact minor,
otherwise `patch`. -/
def highestImpact (entries : List ChangeEntry) : Str :=
  if ∃ e ∈ entries, e.Impact = "major".toList then "major".toList
  else if ∃ e ∈ entries, e.Impact = "minor".toList then "minor".toList
  else "patch".toList

/-- The distinct workspace names that occur among the entries. -/
def workspaceNames (entries : List ChangeEntry) : List Str :=
  ((entries.map (·.Workspace)).filter (fun w => decide (w ≠ []))).dedup

/-- The order of a map that visits the keys as they were first set. -/
def insertionOrder : MapOrder := ⟨fun _ keys => keys, fun _ _ => List.Perm.refl _⟩

/-- The order of a map that visits the keys last set first. -/
def reverseOrder : MapOrder := ⟨fun _ keys => keys.reverse, fun _ keys => List.reverse_perm keys⟩

/-- The release of `TestFormatSummary`. -/
def testRelease : Release :=
  { Version := "v1.1.0".toList, Date := [],
    Entries :=
      [{ Hash := [], ShortHash := "abc1234".toList, Author := "Carlos Edu Js".toList,
         Subject := "add new logic".toList, Tag := "feature".toList,
         Impact := "minor".toList, Workspace := "Core".toList, Date := [] },
       { Hash := [], ShortHash := "def5678".toList, Author := "John Doe".toList,
         Subject := "fix nasty bug".toList, Tag := "fix".toList, Impact := "patch".toList,
         Workspace := [], Date := [] }] }

/-! ## `internal/hygiene/hygiene.go` -/

/-- The results of the repository hygiene checks. -/
structure HealthReport where
  WIPCommits : List Str
  SquashSuggestions : List Str
  StaleWorkspaces : List Str
  DirtyFiles : Bool
  deriving DecidableEq, Repr

/-- What `GetReport` reads through `a.Git` and `a.WS`: the results of
`GetStatus`, of `Load`, of `git log -n 10 --format=%s` and of `ValidateHash`
for every hash; and Go's `strings.ToLower`, which the analyzer applies to
arbitrary text. -/
structure Analyzer where
  GetStatus : Except Str Str
  Load : Except Str Meta
  Log : Except Str Str
  ValidateHash : Str → Bool
  ToLower : Str → Str

/-- One iteration of the loop over the subjects of the recent commits
(hygiene.go lines 49-54). -/
def wipLine (lower : Str → Str) (report : HealthReport) (msg : Str) : HealthReport :=
  let low := lower msg
  if Contains low "wip".toList || Contains low "fixme".toList || Contains low "temp".toList then
    { report with WIPCommits := report.WIPCommits ++ [msg] }
  else report

/-- The loop over `ws.Commits` (hygiene.go lines 65-71): `stale` when it ends. -/
def staleLoop (validate : Str → Bool) : List Str → Bool
  | [] => false
  | hash :: rest => if !validate hash then true else staleLoop validate rest

/-- One iteration of the loop over `meta.Workspaces` (hygiene.go lines 59-75). -/
def checkWorkspace (validate : Str → Bool) (report : HealthReport) (ws : Workspace) :
    HealthReport :=
  let report :=
    if ws.Commits.length > 3 then
      { report with SquashSuggestions := report.SquashSuggestions ++ [ws.Name] }
    else report
  let stale := staleLoop validate ws.Commits
  if stale then { report with StaleWorkspaces := report.StaleWorkspaces ++ [ws.Name] }
  else report

/-- `(*Analyzer).GetReport(ctx)`: a hygiene report for the current state. -/
def GetReport (a : Analyzer) : Except Str HealthReport :=
  let report : HealthReport :=
    { WIPCommits := [], SquashSuggestions := [], StaleWorkspaces := [], DirtyFiles := false }
  let report :=
    match a.GetStatus with
    | .ok status => if status ≠ [] then { report with DirtyFiles := true } else report
    | .error _ => report
  match a.Load with
  | .error err => .error err
  | .ok m =>
    let report :=
      match a.Log with
      | .ok commits => (Split commits '\n').foldl (wipLine a.ToLower) report
      | .error _ => report
    .ok (m.Workspaces.foldl (checkWorkspace a.ValidateHash) report)

/-- A workspace is stale: one of its member hashes fails the validation. -/
def isStale (validate : Str → Bool) (ws : Workspace) : Prop :=
  ∃ hash ∈ ws.Commits, validate hash = false

instance (validate : Str → Bool) (ws : Workspace) : Decidable (isStale validate ws) := by
  unfold isStale
  infer_instance

/-- A document with three workspaces: `General` with three commits, `Big`
with four, `Both` with four. -/
def hygieneMeta : Meta :=
  { initialMeta with
    Workspaces :=
      [{ ID := "general".toList, Name := "General".toList,
         Description := "Default project workspace".toList,
         Commits := ["a1".toList, "gone".toList, "a3".toList], Status := "active".toList },
       { ID := "big".toList, Name := "Big".toList, Description := [],
         Commits := ["a1".toList, "a2".toList, "a3".toList, "a4".toList],
         Status := "active".toList },
       { ID := "both".toList, Name := "Both".toList, Description := [],
         Commits := ["a1".toList, "a2".toList, "a3".toList, "gone".toList],
         Status := "active".toList }] }

/-- An analyzer over `hygieneMeta` for which only the hash `gone` fails the
validation. -/
def testAnalyzer : Analyzer :=
  { GetStatus := .ok [],
    Load := .ok hygieneMeta,
    Log := .ok "wip: working on stuff\ninitial".toList,
    ValidateHash := fun hash => decide (hash ≠ "gone".toList),
    ToLower := ToLower }

/-! ## The rebase plan (`git.go`, `cmd/tutugit/commands.go`, `cmd/tutugit/update.go`)

Of the fields of `model` the handler of the rebase-prepare state changes, the
plan `rebaseSteps` and `rebaseCursor` are modelled; an index out of range,
at which the program panics, is `none`. -/

/-- A single step in a rebase todo list; `Action` is a `RebaseAction`, a
string. -/
structure RebaseStep where
  Action : Str
  Hash : Str
  Message : Str
  deriving DecidableEq, Repr

/-- `ActionPick`. -/
def ActionPick : Str := "pick".toList

/-- `ActionSquash`. -/
def ActionSquash : Str := "squash".toList

/-- `ActionFixup`. -/
def ActionFixup : Str := "fixup".toList

/-- `ActionEdit`. -/
def ActionEdit : Str := "edit".toList

/-- `ActionDrop`. -/
def ActionDrop : Str := "drop".toList

/-- `ActionReword`. -/
def ActionReword : Str := "reword".toList

/-- The message `model.fetchRebaseSteps(base)` produces: the steps
(`steps[i]` is assigned once for every index of `commits`), or the error of
the range query. -/
def fetchRebaseSteps (git : GitProvider) (base : Str) : Except Str (List RebaseStep) :=
  match git.GetCommitsInRange base headRev with
  | .error err => .error err
  | .ok commits =>
    .ok (commits.map (fun c => { Action := ActionPick, Hash := c.Hash, Message := c.Message }))

/-- The rebase plan held by `model`. -/
structure RebasePlan where
  rebaseSteps : List RebaseStep
  rebaseCursor : Int
  deriving DecidableEq, Repr

/-- `(*model).handleRebaseStepsMsg(msg)` on the plan. -/
def handleRebaseStepsMsg (msg : List RebaseStep) : RebasePlan :=
  { rebaseSteps := msg, rebaseCursor := 0 }

/-- The element `steps[i]`, none when `i` is out of range. -/
def stepAt (steps : List RebaseStep) (i : Int) : Option RebaseStep :=
  if i < 0 then none else steps[i.toNat]?

/-- The assignment `steps[i], steps[j] = steps[j], steps[i]`. -/
def swapSteps (steps : List RebaseStep) (i j : Int) : Option (List RebaseStep) :=
  match stepAt steps i, stepAt steps j with
  | some a, some b => some ((steps.set i.toNat b).set j.toNat a)
  | _, _ => none

/-- The keys `up` and `k` (update.go lines 257-260). -/
def cursorUp (m : RebasePlan) : RebasePlan :=
  if m.rebaseCursor > 0 then { m with rebaseCursor := m.rebaseCursor - 1 } else m

/-- The keys `down` and `j` (update.go lines 261-264). -/
def cursorDown (m : RebasePlan) : RebasePlan :=
  if m.rebaseCursor < (m.rebaseSteps.length : Int) - 1 then
    { m with rebaseCursor := m.rebaseCursor + 1 }
  else m

/-- The key `K`, move up (update.go lines 265-269). -/
def moveUp (m : RebasePlan) : Option RebasePlan :=
  if m.rebaseCursor > 0 then
    (swapSteps m.rebaseSteps m.rebaseCursor (m.rebaseCursor - 1)).map
      (fun steps => { rebaseSteps := steps, rebaseCursor := m.rebaseCursor - 1 })
  else some m

/-- The key `J`, move down (update.go lines 270-274). -/
def moveDown (m : RebasePlan) : Option RebasePlan :=
  if m.rebaseCursor < (m.rebaseSteps.length : Int) - 1 then
    (swapSteps m.rebaseSteps m.rebaseCursor (m.rebaseCursor + 1)).map
      (fun steps => { rebaseSteps := steps, rebaseCursor := m.rebaseCursor + 1 })
  else some m

/-- An action key (update.go lines 275-298): the assignment
`m.rebaseSteps[m.rebaseCursor].Action = action` under its guard. -/
def setAction (m : RebasePlan) (action : Str) : RebasePlan :=
  if m.rebaseCursor ≥ 0 ∧ m.rebaseCursor < (m.rebaseSteps.length : Int) then
    match m.rebaseSteps[m.rebaseCursor.toNat]? with
    | some s =>
      { m with rebaseSteps := m.rebaseSteps.set m.rebaseCursor.toNat { s with Action := action } }
    | none => m
  else m

/-- `(*model).handleKeyRebasePrepare(msg)` on the plan, for the key
`msg.String()`; the keys `esc`, `q` and `enter` leave the plan as it is. -/
def handleKeyRebasePrepare (m : RebasePlan) (key : Str) : Option RebasePlan :=
  if key = "esc".toList ∨ key = "q".toList then some m
  else if key = "up".toList ∨ key = "k".toList then some (cursorUp m)
  else if key = "down".toList ∨ key = "j".toList then some (cursorDown m)
  else if key = "K".toList then moveUp m
  else if key = "J".toList then moveDown m
  else if key = "p".toList then some (setAction m ActionPick)
  else if key = "s".toList then some (setAction m ActionSquash)
  else if key = "f".toList then some (setAction m ActionFixup)
  else if key = "e".toList then some (setAction m ActionEdit)
  else if key = "d".toList then some (setAction m ActionDrop)
  else if key = "r".toList then some (setAction m ActionReword)
  else some m

/-- The plan after a sequence of keys. -/
def runKeys (m : RebasePlan) : List Str → Option RebasePlan
  | [] => some m
  | key :: keys => (handleKeyRebasePrepare m key).bind (fun m1 => runKeys m1 keys)

/-- The action keys and the action each of them sets. -/
def actionKeys : List (Str × Str) :=
  [("p".toList, ActionPick), ("s".toList, ActionSquash), ("f".toList, ActionFixup),
   ("e".toList, ActionEdit), ("d".toList, ActionDrop), ("r".toList, ActionReword)]

/-- The (hash, message) pairs of a plan, in order. -/
def stepCommits (steps : List RebaseStep) : List (Str × Str) :=
  steps.map (fun s => (s.Hash, s.Message))

/-- The cursor is on a step of the plan, or at 0 in an empty plan. -/
def cursorOk (m : RebasePlan) : Prop :=
  0 ≤ m.rebaseCursor ∧ (m.rebaseCursor < (m.rebaseSteps.length : Int) ∨ m.rebaseCursor = 0)

/-- The list `after` is `before` with the steps at the positions `i` and
`i + 1` exchanged. -/
def swappedAt (i : Nat) (before after : List RebaseStep) : Prop :=
  ∃ pre a b post, pre.length = i ∧ before = pre ++ a :: b :: post ∧
    after = pre ++ b :: a :: post

/-- The list `after` is `before` with the action of the step at position `i`
replaced by `action`. -/
def actionSetAt (i : Nat) (action : Str) (before after : List RebaseStep) : Prop :=
  ∃ pre s post, pre.length = i ∧ before = pre ++ s :: post ∧
    after = pre ++ { s with Action := action } :: post

/-- `(*Runner).RunInteractiveRebase`: the text built for the rebase todo
(git.go lines 452-455). -/
def rebaseTodo (steps : List RebaseStep) : Str :=
  (steps.foldl
    (fun (b : Builder) s =>
      b.WriteString (s.Action ++ " ".toList ++ s.Hash ++ " ".toList ++ s.Message ++ "\n".toList))
    ({} : Builder)).String

/-- The outcomes of the steps of `RunInteractiveRebase` that go through the
operating system: the name of the temporary file or the error of
`os.CreateTemp`, the error of `tmpFile.Write`, if any, the error of
`tmpFile.Close`, if any, and the error and the standard error text of
`git rebase -i`, if it fails. -/
structure RebaseRun where
  createTemp : Except Str Str
  write : Option Str
  close : Option Str
  rebase : Option (Str × Str)

/-- `(*Runner).RunInteractiveRebase(ctx, base, steps)`: the error returned,
if any, and the text handed to `tmpFile.Write`, if the call is reached. -/
def RunInteractiveRebase (os : RebaseRun) (_base : Str) (steps : List RebaseStep) :
    Option Str × Option Str :=
  let todo := rebaseTodo steps
  match os.createTemp with
  | .error err => (some ("could not create temp rebase todo: ".toList ++ err), none)
  | .ok _ =>
    match os.write with
    | some err => (some ("could not write rebase todo: ".toList ++ err), some todo)
    | none =>
      match os.close with
      | some err => (some ("could not close temp file: ".toList ++ err), some todo)
      | none =>
        match os.rebase with
        | some (err, stderr) =>
          (some ("rebase failed: ".toList ++ err ++ " (stderr: ".toList ++ stderr ++
            ")".toList), some todo)
        | none => (none, some todo)

/-- A line of the rebase todo: the action, a space, the hash, a space and the
message of a step. -/
def todoLine (s : RebaseStep) : Str :=
  s.Action ++ " ".toList ++ s.Hash ++ " ".toList ++ s.Message

/-- Two steps of which the first has a message of two lines. -/
def newlineSteps : List RebaseStep :=
  [⟨ActionPick, "a1".toList, "one\ntwo".toList⟩, ⟨ActionPick, "b2".toList, "x".toList⟩]

/-! ## The reflog and worktree parsers of `internal/git/git.go` -/

/-- The text before and the text after the first occurrence of `sep` in `s`,
none when `sep` does not occur (Go `strings.Index`, then the two slices). -/
def cutFirst : Str → Str → Option (Str × Str)
  | [], sep => if sep.isEmpty then some ([], []) else none
  | c :: cs, sep =>
    if sep.isPrefixOf (c :: cs) then some ([], (c :: cs).drop sep.length)
    else (cutFirst cs sep).map (fun p => (c :: p.1, p.2))

/-- Go `strings.SplitN(s, sep, 2)` for a non-empty `sep`: `s` cut at the first
occurrence of `sep`, or `s` alone when `sep` does not occur. -/
def SplitN2 (s sep : Str) : List Str :=
  match cutFirst s sep with
  | some (before, after) => [before, after]
  | none => [s]

/-- An entry in the git reflog. -/
structure ReflogEntry where
  Hash : Str
  Selector : Str
  Action : Str
  Message : Str
  Date : Str
  deriving DecidableEq, Repr

/-- The separator of action and message in a reflog subject. -/
def actionSep : Str := ": ".toList

/-- The action of a subject that starts with it and has no separator. -/
def commitWord : Str := "commit".toList

/-- One iteration of the loop of `GetReflog` (git.go lines 268-294). -/
def reflogLine (entries : List ReflogEntry) (line : Str) : List ReflogEntry :=
  let parts := Split line '|'
  if parts.length < 3 then entries
  else
    let subject := parts.getD 2 []
    let action := "unknown".toList
    let message := subject
    let am : Str × Str :=
      if Contains subject actionSep then
        let subParts := SplitN2 subject actionSep
        (subParts.getD 0 [], subParts.getD 1 [])
      else if HasPrefix subject commitWord then (commitWord, message)
      else (action, message)
    entries ++
      [{ Hash := parts.getD 0 [], Selector := parts.getD 1 [], Action := am.1, Message := am.2,
         Date := [] }]

/-- `(*Runner).GetReflog(ctx, n)`, given the result of `r.Run(ctx, args...)`. -/
def GetReflog (run : Except Str Str) : Except Str (List ReflogEntry) :=
  match run with
  | .error err => .error ("could not get git reflog: ".toList ++ err)
  | .ok output =>
    if output = [] then .ok []
    else .ok ((Split output '\n').foldl reflogLine [])

/-- A git worktree. -/
structure Worktree where
  Path : Str
  Branch : Str
  Hash : Str
  IsMain : Bool
  deriving DecidableEq, Repr

/-- The zero value `Worktree{}`. -/
def emptyWorktree : Worktree := { Path := [], Branch := [], Hash := [], IsMain := false }

/-- The variables `worktrees` and `current` of `ListWorktrees`. -/
structure WorktreeState where
  worktrees : List Worktree
  current : Worktree
  deriving DecidableEq, Repr

/-- One iteration of the loop of `ListWorktrees` over the lines (git.go lines
321-346). -/
def worktreeLine (st : WorktreeState) (line : Str) : WorktreeState :=
  if line = [] then
    if st.current.Path ≠ [] then
      { worktrees := st.worktrees ++ [st.current], current := emptyWorktree }
    else st
  else
    let parts := SplitN2 line " ".toList
    if parts.length < 2 then st
    else
      let key := parts.getD 0 []
      let value := parts.getD 1 []
      if key = "worktree".toList then { st with current := { st.current with Path := value } }
      else if key = "branch".toList then
        { st with current := { st.current with Branch := TrimPrefix value "refs/heads/".toList } }
      else if key = "HEAD".toList then { st with current := { st.current with Hash := value } }
      else st

/-- The loop that identifies the main worktree (git.go lines 353-357): the
element at index 0 is marked. -/
def markMain (worktrees : List Worktree) : List Worktree :=
  worktrees.enum.map (fun iw => if iw.1 = 0 then { iw.2 with IsMain := true } else iw.2)

/-- `(*Runner).ListWorktrees(ctx)`, given the result of
`r.Run(ctx, "worktree", "list", "--porcelain")`. -/
def ListWorktrees (run : Except Str Str) : Except Str (List Worktree) :=
  match run with
  | .error err => .error ("could not list worktrees: ".toList ++ err)
  | .ok output =>
    if output = [] then .ok []
    else
      let st :=
        (Split output '\n').foldl worktreeLine { worktrees := [], current := emptyWorktree }
      let worktrees :=
        if st.current.Path ≠ [] then st.worktrees ++ [st.current] else st.worktrees
      .ok (markMain worktrees)

/-- A listing of two worktrees as `git worktree list --porcelain` prints it. -/
def twoWorktrees : Str :=
  ("worktree /repo\nHEAD 1111\nbranch refs/heads/main\n\n" ++
    "worktree /repo-wt\nHEAD 2222\ndetached\n\n").toList

/-- A listing whose first block has no `worktree` line. -/
def pathlessBlockListing : Str :=
  ("HEAD 1111\nbranch refs/heads/ghost\n\n" ++
    "worktree /repo-wt\nHEAD 2222\ndetached\n\n").toList

/-- The second block of `pathlessBlockListing` alone. -/
def secondBlockListing : Str := "worktree /repo-wt\nHEAD 2222\ndetached\n\n".toList

/-! ### Notions used to state the properties of the parsers -/

/-- A hunk as the loop of `ParseDiff` builds it: the header is a line that
starts with `@@`, the content is the header line followed by lines that start
neither a file nor a hunk, every line ended by a newline. -/
def hunkOfLines (h : Hunk) : Prop :=
  ∃ lines : List Str,
    HasPrefix h.Header hunkMarker = true ∧ '\n' ∉ h.Header ∧
    h.Content = h.Header ++ ['\n'] ++ (lines.map (fun l => l ++ ['\n'])).flatten ∧
    ∀ l ∈ lines, '\n' ∉ l ∧ HasPrefix l fileMarker = false ∧ HasPrefix l hunkMarker = false

/-- Every hunk a parse state holds is built from lines. -/
def stateOfLines (st : ParseState) : Prop :=
  (∀ f ∈ st.files, ∀ h ∈ f.Hunks, hunkOfLines h) ∧
    (∀ f, st.currentFile = some f → ∀ h ∈ f.Hunks, hunkOfLines h) ∧
    (∀ h, st.currentHunk = some h → hunkOfLines h)

/-- A diff text with one file and one hunk. -/
def smallDiff : Str := "diff --git a/x b/x\n--- a/x\n+++ b/x\n@@ -1 +1 @@\n-a\n+b".toList

/-- The hunk of `smallDiff`. -/
def smallHunk : Hunk :=
  { Header := "@@ -1 +1 @@".toList, Content := "@@ -1 +1 @@\n-a\n+b\n".toList }

/-- The file of `smallDiff`. -/
def smallFile : FileDiff := { Path := "x".toList, Hunks := [smallHunk] }

/-- The conventional prefix of the trimmed message, if it has one, lies on
its first line: the first line has a conventional prefix as well. -/
def prefixOnFirstLine (message : Str) : Prop :=
  (∃ tok ∈ prefixTokens, ∃ b, ConvPrefix tok b (TrimSpace message)) →
    ∃ tok ∈ prefixTokens, ∃ b, ConvPrefix tok b (headerLine message)

/-! ### Notions used to state the properties of the renderers -/

/-- The count the map `counts` of a release holds for a category, zero when
it holds none. -/
def shownCount (entries : List ChangeEntry) (category : Str) : Nat :=
  ((countEntries entries).1.lookup category).getD 0

/-- The sum of the counts the Changes line shows: the counts of the five
categories of `order` (a count of zero is not shown and adds nothing). -/
def shownTotal (entries : List ChangeEntry) : Nat :=
  shownCount entries "feature".toList + shownCount entries "fix".toList +
    shownCount entries "refactor".toList + shownCount entries "experiment".toList +
    shownCount entries "other".toList

/-- The tag of the entry is empty or one of none, feature, fix, refactor,
experiment, other. -/
def knownTag (e : ChangeEntry) : Bool :=
  decide (e.Tag ∈ [[], "none".toList, "feature".toList, "fix".toList, "refactor".toList,
    "experiment".toList, "other".toList])

/-- In how many of the five categories the entry is counted. -/
def categoriesOf (e : ChangeEntry) : Nat :=
  (if inCategory "feature".toList e then 1 else 0) + (if inCategory "fix".toList e then 1 else 0) +
    (if inCategory "refactor".toList e then 1 else 0) +
    (if inCategory "experiment".toList e then 1 else 0) +
    (if inCategory "other".toList e then 1 else 0)

/-- A release with one entry, tagged `security` in the store. -/
def securityRelease : Release :=
  { Version := "v1.0.0".toList, Date := [],
    Entries :=
      [{ Hash := "hash1".toList, ShortHash := "h1".toList, Author := "Carlos".toList,
         Subject := "harden login".toList, Tag := "security".toList, Impact := "patch".toList,
         Workspace := [], Date := [] }] }

/-- A release whose two entries name the workspaces `Core` and `Auth`. -/
def twoWorkspaceRelease : Release :=
  { Version := "v1.0.0".toList, Date := [],
    Entries :=
      [{ Hash := "hash1".toList, ShortHash := "h1".toList, Author := "Carlos".toList,
         Subject := "add login".toList, Tag := "feature".toList, Impact := "minor".toList,
         Workspace := "Core".toList, Date := [] },
       { Hash := "hash2".toList, ShortHash := "h2".toList, Author := "Carlos".toList,
         Subject := "fix logout".toList, Tag := "fix".toList, Impact := "patch".toList,
         Workspace := "Auth".toList, Date := [] }] }

/-! # Theorems -/

/-! ## Facts about `Split` -/

theorem Split_ne_nil (s : Str) (sep : Char) : Split s sep ≠ [] := by
  induction s with
  | nil => simp [Split]
  | cons c cs ih =>
    unfold Split
    split
    · simp
    · cases h : Split cs sep with
      | nil => exact absurd h ih
      | cons p ps => simp [consHead]

theorem consHead_append (c : Char) (l r : List Str) (h : l ≠ []) :
    consHead c (l ++ r) = consHead c l ++ r := by
  cases l with
  | nil => exact absurd rfl h
  | cons p ps => simp [consHead]

theorem Split_append_sep (a b : Str) (sep : Char) :
    Split (a ++ sep :: b) sep = Split a sep ++ Split b sep := by
  induction a with
  | nil => simp [Split]
  | cons c cs ih =>
    by_cases hc : c = sep
    · simp [Split, hc, ih]
    · simp [Split, hc, ih, consHead_append _ _ _ (Split_ne_nil cs sep)]

theorem Split_of_not_mem (s : Str) (sep : Char) (h : sep ∉ s) : Split s sep = [s] := by
  induction s with
  | nil => simp [Split]
  | cons c cs ih =>
    have hc : c ≠ sep := fun e => h (by simp [e])
    have hcs : sep ∉ cs := fun e => h (by simp [e])
    simp [Split, hc, ih hcs, consHead]

/-! ## Facts about `ParseDiff` -/

theorem flush_paths (st : ParseState) : (flush st).map (·.Path) = openPaths st := by
  obtain ⟨files, cf, ch⟩ := st
  cases cf <;> cases ch <;> simp [flush, openPaths]

theorem parseLine_paths (st : ParseState) (line : Str) :
    openPaths (parseLine st line) =
      openPaths st ++ (if HasPrefix line fileMarker then [markerPath line] else []) := by
  unfold parseLine
  by_cases h1 : HasPrefix line fileMarker = true
  · simp only [h1, if_true]
    obtain ⟨files, cf, ch⟩ := st
    cases cf <;> cases ch <;> simp [openFile, openPaths]
  · simp only [h1, if_false]
    by_cases h2 : HasPrefix line hunkMarker = true
    · simp only [h2, if_true]
      obtain ⟨files, cf, ch⟩ := st
      cases cf <;> cases ch <;> simp [openHunk, openPaths]
    · simp only [h2, if_false]
      obtain ⟨files, cf, ch⟩ := st
      cases ch <;> simp [openPaths]

theorem foldl_paths (lines : List Str) (st : ParseState) :
    openPaths (lines.foldl parseLine st) =
      openPaths st ++
        (lines.filter (fun l => HasPrefix l fileMarker)).map markerPath := by
  induction lines generalizing st with
  | nil => simp
  | cons l ls ih =>
    rw [List.foldl_cons, ih, parseLine_paths]
    by_cases h : HasPrefix l fileMarker = true <;> simp [h]

theorem parseLines_paths (lines : List Str) :
    (parseLines lines).map (·.Path) =
      (lines.filter (fun l => HasPrefix l fileMarker)).map markerPath := by
  unfold parseLines
  rw [flush_paths, foldl_paths]
  simp [openPaths]

theorem markerPath_ab (X Y : Str) (hX : ' ' ∉ X) :
    markerPath ("diff --git a/".toList ++ X ++ " b/".toList ++ Y) = X := by
  have e : "diff --git a/".toList ++ X ++ " b/".toList ++ Y =
      "diff".toList ++ ' ' :: ("--git".toList ++ ' ' :: (("a/".toList ++ X) ++ ' ' :: ("b/".toList ++ Y))) := by
    simp
  have h1 : Split "diff".toList ' ' = ["diff".toList] := by decide
  have h2 : Split "--git".toList ' ' = ["--git".toList] := by decide
  have h3 : Split ("a/".toList ++ X) ' ' = ["a/".toList ++ X] := by
    apply Split_of_not_mem
    simp [hX]
  unfold markerPath
  rw [e, Split_append_sep, Split_append_sep, Split_append_sep, h1, h2, h3]
  cases hY : Split ("b/".toList ++ Y) ' ' with
  | nil => exact absurd hY (Split_ne_nil _ _)
  | cons p ps =>
    simp [TrimPrefix, HasPrefix]

/-! ## The hunks of a file's section -/

theorem sectionHeaders_cons (l : Str) (ls : List Str) :
    sectionHeaders (l :: ls) =
      if HasPrefix l fileMarker then headersUntilMarker ls :: sectionHeaders ls
      else sectionHeaders ls := rfl

theorem headersUntilMarker_cons (l : Str) (ls : List Str) :
    headersUntilMarker (l :: ls) =
      if HasPrefix l fileMarker then []
      else if HasPrefix l hunkMarker then l :: headersUntilMarker ls
      else headersUntilMarker ls := by
  unfold headersUntilMarker
  by_cases h1 : HasPrefix l fileMarker = true
  · simp [h1]
  · by_cases h2 : HasPrefix l hunkMarker = true
    · simp [h1, h2, List.takeWhile_cons, List.filter_cons]
    · simp [h1, h2, List.takeWhile_cons, List.filter_cons]

/-- Once a file is open, the rest of the input is attributed section by
section. -/
theorem foldl_open_headers (lines : List Str) (files : List FileDiff) (f : FileDiff)
    (ch : Option Hunk) :
    hunkHeaders (flush (lines.foldl parseLine
        { files := files, currentFile := some f, currentHunk := ch })) =
      hunkHeaders files ++
        ((f.Hunks.map (·.Header) ++ ch.toList.map (·.Header) ++ headersUntilMarker lines) ::
          sectionHeaders lines) := by
  induction lines generalizing files f ch with
  | nil =>
    cases ch <;> simp [flush, hunkHeaders, headersUntilMarker, sectionHeaders]
  | cons l ls ih =>
    rw [List.foldl_cons, sectionHeaders_cons, headersUntilMarker_cons]
    by_cases h1 : HasPrefix l fileMarker = true
    · simp only [parseLine, h1, if_true]
      cases ch with
      | none =>
        simp only [openFile]
        rw [ih]
        simp [hunkHeaders]
      | some h =>
        simp only [openFile]
        rw [ih]
        simp [hunkHeaders]
    · by_cases h2 : HasPrefix l hunkMarker = true
      · simp only [parseLine, h1, h2, if_true, if_false, Bool.false_eq_true]
        cases ch with
        | none =>
          simp only [openHunk]
          rw [ih]
          simp
        | some h =>
          simp only [openHunk]
          rw [ih]
          simp
      · simp only [parseLine, h1, h2, if_false, Bool.false_eq_true]
        cases ch with
        | none =>
          simp only []
          rw [ih]
        | some h =>
          simp only []
          rw [ih]
          simp

/-- When no `@@` line precedes the first `diff --git` line, every FileDiff
holds exactly the hunks whose header lines lie in its section. -/
theorem parseLines_headers (lines : List Str)
    (h : headersUntilMarker lines = []) :
    hunkHeaders (parseLines lines) = sectionHeaders lines := by
  unfold parseLines
  induction lines with
  | nil => rfl
  | cons l ls ih =>
    rw [List.foldl_cons, sectionHeaders_cons]
    rw [headersUntilMarker_cons] at h
    by_cases h1 : HasPrefix l fileMarker = true
    · simp only [parseLine, h1, if_true, openFile]
      rw [foldl_open_headers]
      simp [hunkHeaders]
    · by_cases h2 : HasPrefix l hunkMarker = true
      · simp [h1, h2] at h
      · simp only [h1, h2, if_false, Bool.false_eq_true] at h
        simp only [parseLine, h1, h2, if_false, Bool.false_eq_true]
        exact ih h

set_option maxRecDepth 100000 in
theorem testDiff_hunk_counts :
    (ParseDiff testDiff).map (fun f => (f.Path, f.Hunks.length)) =
      [("file1.go".toList, 2), ("file2.txt".toList, 1)] := by
  decide

/-! ## Claims about `ParseDiff` and `ToPatch` -/

/-- C2: on a diff text whose first hunk header precedes the first
`diff --git` line, `ParseDiff` attributes that hunk to the file opened
afterwards: the file `y` receives the headers `@@ -1 +1 @@` and `@@ -2 +2 @@`,
although only `@@ -2 +2 @@` lies in its section.  On the two-file diff of the
test the hunk counts are 2 and 1. -/
theorem ParseDiff_stray_hunk :
    hunkHeaders (ParseDiff strayHunkDiff) =
        [["@@ -1 +1 @@".toList, "@@ -2 +2 @@".toList]] ∧
      (ParseDiff strayHunkDiff).map (·.Path) = ["y".toList] ∧
      sectionHeaders (Split strayHunkDiff '\n') = [["@@ -2 +2 @@".toList]] ∧
      hunkHeaders (ParseDiff strayHunkDiff) ≠ sectionHeaders (Split strayHunkDiff '\n') ∧
      (ParseDiff testDiff).map (fun f => (f.Path, f.Hunks.length)) =
        [("file1.go".toList, 2), ("file2.txt".toList, 1)] :=
  ⟨by decide, by decide, by decide, by decide, testDiff_hunk_counts⟩

/-- C3: `ParseDiff` returns one FileDiff per line that starts with
`diff --git`, in order of appearance (the k-th FileDiff carries the path of the
k-th such line); it returns the empty list exactly when there is no such line,
in particular on the empty string. -/
theorem ParseDiff_one_file_per_marker (raw : Str) :
    (ParseDiff raw).map (·.Path) =
        ((Split raw '\n').filter (fun l => HasPrefix l fileMarker)).map markerPath ∧
      (ParseDiff raw).length =
        ((Split raw '\n').filter (fun l => HasPrefix l fileMarker)).length ∧
      (ParseDiff raw = [] ↔ (Split raw '\n').filter (fun l => HasPrefix l fileMarker) = []) ∧
      ParseDiff [] = [] := by
  have h := parseLines_paths (Split raw '\n')
  have hl : (ParseDiff raw).length =
      ((Split raw '\n').filter (fun l => HasPrefix l fileMarker)).length := by
    have := congrArg List.length h
    simpa [ParseDiff] using this
  refine ⟨h, hl, ?_, by decide⟩
  rw [← List.length_eq_zero, hl, List.length_eq_zero]

/-- C4 (as stated, refuted): for the line `diff --git a/old.go b/new.go` the
path of the FileDiff is `old.go`, not the second path token `new.go`. -/
theorem ParseDiff_path_not_second_token :
    (ParseDiff "diff --git a/old.go b/new.go".toList).map (·.Path) = ["old.go".toList] ∧
      (ParseDiff "diff --git a/old.go b/new.go".toList).map (·.Path) ≠ ["new.go".toList] := by
  decide

/-- C4 (amended): when a line of the raw text is `diff --git a/X b/Y` with no
space in `X`, the FileDiff opened for it has path `X`, the first path token
with its prefix `a/` stripped; the paths before and after it are those of the
lines before and after. -/
theorem ParseDiff_path_first_token (raw : Str) (before after : List Str) (X Y : Str)
    (hX : ' ' ∉ X)
    (hline : Split raw '\n' =
      before ++ ("diff --git a/".toList ++ X ++ " b/".toList ++ Y) :: after) :
    (ParseDiff raw).map (·.Path) =
      (parseLines before).map (·.Path) ++ X :: (parseLines after).map (·.Path) := by
  have hm : HasPrefix ("diff --git a/".toList ++ X ++ " b/".toList ++ Y) fileMarker = true := by
    have e : "diff --git a/".toList ++ X ++ " b/".toList ++ Y =
        fileMarker ++ (" a/".toList ++ X ++ " b/".toList ++ Y) := by
      simp [fileMarker]
    rw [e, HasPrefix, List.isPrefixOf_iff_prefix]
    exact List.prefix_append _ _
  unfold ParseDiff
  rw [hline, parseLines_paths, parseLines_paths, parseLines_paths, List.filter_append,
    List.filter_cons]
  simp only [hm, if_true, List.map_append, List.map_cons, markerPath_ab X Y hX]

/-- Witness of C4 (amended) at the one-line text `diff --git a/old.go b/new.go`. -/
theorem ParseDiff_path_first_token_witness :
    ' ' ∉ "old.go".toList ∧
      Split "diff --git a/old.go b/new.go".toList '\n' =
        [] ++ ("diff --git a/".toList ++ "old.go".toList ++ " b/".toList ++ "new.go".toList) :: [] ∧
      (ParseDiff "diff --git a/old.go b/new.go".toList).map (·.Path) =
        (parseLines []).map (·.Path) ++ "old.go".toList :: (parseLines []).map (·.Path) :=
  ⟨by decide, by decide,
    ParseDiff_path_first_token "diff --git a/old.go b/new.go".toList [] [] "old.go".toList
      "new.go".toList (by decide) (by decide)⟩

/-- C5: `h.ToPatch(p)` is the three lines `diff --git a/p b/p`, `--- a/p`,
`+++ b/p`, each ended by a newline, followed by `h.Content` unchanged. -/
theorem ToPatch_eq (h : Hunk) (p : Str) :
    h.ToPatch p =
      ("diff --git a/".toList ++ p ++ " b/".toList ++ p ++ ['\n']) ++
        ("--- a/".toList ++ p ++ ['\n']) ++ ("+++ b/".toList ++ p ++ ['\n']) ++ h.Content := by
  simp [Hunk.ToPatch, Builder.WriteString, Builder.String]

/-! ## Facts about `Contains` and `TrimSpace` -/

theorem Contains_iff (s sub : Str) : Contains s sub = true ↔ sub <:+: s := by
  induction s with
  | nil =>
    cases sub with
    | nil => simp [Contains]
    | cons c cs => simp [Contains]
  | cons c cs ih =>
    rw [Contains, Bool.or_eq_true, ih, List.isPrefixOf_iff_prefix, List.infix_cons_iff]

theorem infix_of_append_left (x : Char) (n pre r : Str) (hx : x ∉ pre)
    (h : (x :: n) <:+: pre ++ r) : (x :: n) <:+: r := by
  induction pre with
  | nil => simpa using h
  | cons c cs ih =>
    have hc : x ≠ c := fun e => hx (by simp [e])
    have hcs : x ∉ cs := fun e => hx (by simp [e])
    rw [List.cons_append, List.infix_cons_iff] at h
    rcases h with h | h
    · obtain ⟨t, ht⟩ := h
      simp only [List.cons_append, List.cons.injEq] at ht
      exact absurd ht.1 hc
    · exact ih hcs h

theorem infix_of_append_right (x : Char) (n suf r : Str) (hx : x ∉ suf)
    (h : (n ++ [x]) <:+: r ++ suf) : (n ++ [x]) <:+: r := by
  have h1 : (x :: n.reverse) <:+: suf.reverse ++ r.reverse := by
    have := List.reverse_infix.2 h
    simpa using this
  have h2 := infix_of_append_left x n.reverse suf.reverse r.reverse (by simpa using hx) h1
  have := List.reverse_infix.2 h2
  simpa using this

theorem dropSpaceRune_some (s r : Str) (h : dropSpaceRune s = some r) :
    ∃ rune ∈ spaceRunes, s = rune ++ r := by
  unfold dropSpaceRune at h
  cases hf : spaceRunes.find? (fun r => r.isPrefixOf s) with
  | none => simp [hf] at h
  | some rune =>
    simp only [hf, Option.map_some', Option.some.injEq] at h
    have hp := List.find?_some hf
    have hm := List.mem_of_find?_eq_some hf
    obtain ⟨t, rfl⟩ := List.isPrefixOf_iff_prefix.1 hp
    refine ⟨rune, hm, ?_⟩
    rw [← h, List.drop_left]

theorem dropLastSpaceRune_some (s r : Str) (h : dropLastSpaceRune s = some r) :
    ∃ rune ∈ spaceRunes, s = r ++ rune := by
  unfold dropLastSpaceRune at h
  cases hf : spaceRunes.find? (fun r => r.reverse.isPrefixOf s.reverse) with
  | none => simp [hf] at h
  | some rune =>
    simp only [hf, Option.map_some', Option.some.injEq] at h
    have hp := List.find?_some hf
    have hm := List.mem_of_find?_eq_some hf
    obtain ⟨t, ht⟩ := List.isPrefixOf_iff_prefix.1 hp
    refine ⟨rune, hm, ?_⟩
    have hs : s = t.reverse ++ rune := by
      have := congrArg List.reverse ht
      simpa using this.symm
    rw [← h, ← ht, ← List.length_reverse rune, List.drop_left, hs]

theorem trimLeftN_split (n : Nat) (s : Str) :
    ∃ pre, s = pre ++ trimLeftN n s ∧ ∀ c ∈ pre, SpaceByte c := by
  induction n generalizing s with
  | zero => exact ⟨[], by simp [trimLeftN], by simp⟩
  | succ k ih =>
    unfold trimLeftN
    cases hd : dropSpaceRune s with
    | none => exact ⟨[], by simp, by simp⟩
    | some rest =>
      obtain ⟨rune, hm, rfl⟩ := dropSpaceRune_some s rest hd
      obtain ⟨pre, hp, hs⟩ := ih rest
      refine ⟨rune ++ pre, ?_, ?_⟩
      · simp only [List.append_assoc]
        rw [← hp]
      · intro c hc
        rcases List.mem_append.1 hc with h | h
        · exact ⟨rune, hm, h⟩
        · exact hs c h

theorem trimRightN_split (n : Nat) (s : Str) :
    ∃ suf, s = trimRightN n s ++ suf ∧ ∀ c ∈ suf, SpaceByte c := by
  induction n generalizing s with
  | zero => exact ⟨[], by simp [trimRightN], by simp⟩
  | succ k ih =>
    unfold trimRightN
    cases hd : dropLastSpaceRune s with
    | none => exact ⟨[], by simp, by simp⟩
    | some rest =>
      obtain ⟨rune, hm, rfl⟩ := dropLastSpaceRune_some s rest hd
      obtain ⟨suf, hp, hs⟩ := ih rest
      refine ⟨suf ++ rune, ?_, ?_⟩
      · rw [← List.append_assoc, ← hp]
      · intro c hc
        rcases List.mem_append.1 hc with h | h
        · exact hs c h
        · exact ⟨rune, hm, h⟩

theorem TrimSpace_split (s : Str) :
    ∃ pre suf, s = pre ++ (TrimSpace s ++ suf) ∧ (∀ c ∈ pre, SpaceByte c) ∧
      ∀ c ∈ suf, SpaceByte c := by
  obtain ⟨pre, hp, hpre⟩ := trimLeftN_split s.length s
  obtain ⟨suf, hs, hsuf⟩ := trimRightN_split (TrimLeft s).length (TrimLeft s)
  refine ⟨pre, suf, ?_, hpre, hsuf⟩
  unfold TrimSpace TrimRight
  rw [← hs]
  exact hp

theorem not_spaceByte_B : ¬ SpaceByte 'B' := by
  rintro ⟨rune, hm, hc⟩
  have : ∀ r ∈ spaceRunes, 'B' ∉ r := by decide
  exact this rune hm hc

theorem not_spaceByte_E : ¬ SpaceByte 'E' := by
  rintro ⟨rune, hm, hc⟩
  have : ∀ r ∈ spaceRunes, 'E' ∉ r := by decide
  exact this rune hm hc

theorem breakingMarker_infix_TrimSpace (s : Str) :
    breakingMarker <:+: TrimSpace s ↔ breakingMarker <:+: s := by
  obtain ⟨pre, suf, e, hpre, hsuf⟩ := TrimSpace_split s
  constructor
  · intro h
    rw [e]
    exact List.IsInfix.trans h ⟨pre, suf, by simp⟩
  · intro h
    rw [e] at h
    have h1 : breakingMarker <:+: TrimSpace s ++ suf :=
      infix_of_append_left 'B' "REAKING CHANGE".toList pre _
        (fun hm => not_spaceByte_B (hpre _ hm)) h
    exact infix_of_append_right 'E' "BREAKING CHANG".toList suf _
      (fun hm => not_spaceByte_E (hsuf _ hm)) h1

theorem spaceRunes_ne_nil : ∀ r ∈ spaceRunes, 0 < r.length := by
  decide

theorem dropSpaceRune_length (s r : Str) (h : dropSpaceRune s = some r) :
    r.length < s.length := by
  obtain ⟨rune, hm, rfl⟩ := dropSpaceRune_some s r h
  have := spaceRunes_ne_nil rune hm
  simp only [List.length_append]
  omega

theorem dropLastSpaceRune_length (s r : Str) (h : dropLastSpaceRune s = some r) :
    r.length < s.length := by
  obtain ⟨rune, hm, rfl⟩ := dropLastSpaceRune_some s r h
  have := spaceRunes_ne_nil rune hm
  simp only [List.length_append]
  omega

/-- The fuel of `TrimLeft` suffices: the result starts with no white-space rune. -/
theorem trimLeftN_done (n : Nat) (s : Str) (h : s.length ≤ n) :
    dropSpaceRune (trimLeftN n s) = none := by
  induction n generalizing s with
  | zero =>
    have : s = [] := List.length_eq_zero.1 (Nat.le_zero.1 h)
    subst this
    decide
  | succ k ih =>
    unfold trimLeftN
    cases hd : dropSpaceRune s with
    | none => simp only [hd]
    | some rest =>
      have := dropSpaceRune_length s rest hd
      exact ih rest (by omega)

/-- The fuel of `TrimRight` suffices: the result ends with no white-space rune. -/
theorem trimRightN_done (n : Nat) (s : Str) (h : s.length ≤ n) :
    dropLastSpaceRune (trimRightN n s) = none := by
  induction n generalizing s with
  | zero =>
    have : s = [] := List.length_eq_zero.1 (Nat.le_zero.1 h)
    subst this
    decide
  | succ k ih =>
    unfold trimRightN
    cases hd : dropLastSpaceRune s with
    | none => simp only [hd]
    | some rest =>
      have := dropLastSpaceRune_length s rest hd
      exact ih rest (by omega)

/-- `TrimSpace s` neither starts nor ends with a white-space rune. -/
theorem TrimSpace_done (s : Str) :
    dropLastSpaceRune (TrimSpace s) = none ∧ dropSpaceRune (TrimLeft s) = none :=
  ⟨trimRightN_done _ _ (Nat.le_refl _), trimLeftN_done _ _ (Nat.le_refl _)⟩

/-! ## Claims about `parseLog` -/

theorem commitOfParts_eq (parts : List Str) :
    commitOfParts parts = commitOfFields parts := by
  unfold commitOfParts commitOfFields
  by_cases h7 : parts.length > 7
  · by_cases h2 : parts.getD 2 [] = [] <;> simp [h7, h2]
  · have h8 : parts.length ≤ 7 := Nat.le_of_not_gt h7
    have e : parts[7]? = none := List.getElem?_eq_none h8
    by_cases h2 : parts.getD 2 [] = [] <;> simp [h7, h2, e]

theorem parseLogRecord_eq (commits : List Commit) (record : Str) :
    parseLogRecord commits record =
      commits ++ (([TrimSpace record].filter (fun r => 7 ≤ (Split r unitSep).length)).map
        (fun r => commitOfFields (Split r unitSep))) := by
  unfold parseLogRecord
  by_cases he : TrimSpace record = []
  · have : ¬ 7 ≤ (Split ([] : Str) unitSep).length := by decide
    simp [he, this]
  · by_cases hl : (Split (TrimSpace record) unitSep).length < minLogPartsCount
    · have : ¬ 7 ≤ (Split (TrimSpace record) unitSep).length := by
        unfold minLogPartsCount at hl
        omega
      simp [he, hl, this]
    · have h7 : 7 ≤ (Split (TrimSpace record) unitSep).length := by
        unfold minLogPartsCount at hl
        omega
      simp [he, hl, h7, commitOfParts_eq]

theorem foldl_parseLogRecord (records : List Str) (commits : List Commit) :
    records.foldl parseLogRecord commits =
      commits ++ (((records.map TrimSpace).filter (fun r => 7 ≤ (Split r unitSep).length)).map
        (fun r => commitOfFields (Split r unitSep))) := by
  induction records generalizing commits with
  | nil => simp
  | cons r rs ih =>
    rw [List.foldl_cons, ih, parseLogRecord_eq]
    by_cases h : 7 ≤ (Split (TrimSpace r) unitSep).length <;> simp [h, List.filter_cons]

/-- C1 (as stated, refuted): on the log text of two commits the second record
is `\nh2`, `s2`, ...; its first field is `\nh2` but the commit returned by
`parseLog` has Hash `h2`, so the fields are not mapped verbatim. -/
theorem parseLog_not_verbatim :
    (parseLog (.ok twoCommitLog)).map (List.map (·.Hash)) =
        .ok ["h1".toList, "h2".toList] ∧
      (logRecordsVerbatim twoCommitLog).map (·.Hash) = ["h1".toList, "\nh2".toList] ∧
      parseLog (.ok twoCommitLog) ≠ .ok (logRecordsVerbatim twoCommitLog) := by
  decide

theorem consHead_length (c : Char) (l : List Str) (h : l ≠ []) :
    (consHead c l).length = l.length := by
  cases l with
  | nil => exact absurd rfl h
  | cons p ps => rfl

theorem Split_length (s : Str) (sep : Char) : (Split s sep).length = s.count sep + 1 := by
  induction s with
  | nil => rfl
  | cons c cs ih =>
    by_cases hc : c = sep
    · subst hc
      simp [Split, ih]
    · have hne : (c == sep) = false := by simpa using hc
      rw [Split, if_neg hc, consHead_length _ _ (Split_ne_nil cs sep), ih, List.count_cons, hne]
      simp

theorem unitSep_not_spaceByte : ¬ SpaceByte unitSep := by
  rintro ⟨rune, hm, hc⟩
  have : ∀ r ∈ spaceRunes, unitSep ∉ r := by decide
  exact this rune hm hc

theorem Split_TrimSpace_length (r : Str) :
    (Split (TrimSpace r) unitSep).length = (Split r unitSep).length := by
  obtain ⟨pre, suf, e, hpre, hsuf⟩ := TrimSpace_split r
  have h1 : pre.count unitSep = 0 :=
    List.count_eq_zero_of_not_mem (fun hm => unitSep_not_spaceByte (hpre _ hm))
  have h2 : suf.count unitSep = 0 :=
    List.count_eq_zero_of_not_mem (fun hm => unitSep_not_spaceByte (hsuf _ hm))
  rw [Split_length, Split_length]
  conv_rhs => rw [e]
  simp [List.count_append, h1, h2]

/-- C1 (amended): `parseLog` splits the output into records on `\x1e` and
returns exactly one Commit per record that has at least 7 fields on `\x1f`, in
record order; the fields mapped are those of the record with the white space
around it trimmed (which leaves the number of fields unchanged): Hash,
ShortHash, Author, Email, Date, Message are fields 1, 2, 4, 5, 6, 7, Parents is
field 3 split on single spaces (empty when field 3 is empty) and Body is field
8 when present; records with fewer than 7 fields are dropped. -/
theorem parseLog_eq_logRecordsTrimmed (output : Str) :
    parseLog (.ok output) = .ok (logRecordsTrimmed output) ∧
      (logRecordsTrimmed output).length =
        ((Split output recordSep).filter (fun r => 7 ≤ (Split r unitSep).length)).length := by
  refine ⟨?_, by simp [logRecordsTrimmed]⟩
  unfold parseLog logRecordsTrimmed
  by_cases h : output = []
  · subst h
    decide
  · simp only [h, if_false]
    rw [foldl_parseLogRecord, List.filter_map, List.map_map]
    simp only [List.nil_append, Except.ok.injEq]
    congr 1
    apply List.filter_congr
    intro r _
    simp [Split_TrimSpace_length]

/-! ## Claims about `ParseStatus` -/

theorem parseStatusLine_cons (files : List FileStatus) (x y : Char) (rest : Str) :
    parseStatusLine files (x :: y :: rest) =
      if rest.length < 2 then files else files ++ [statusRecord x y rest] := by
  have e : ((x :: y :: rest).length < 4) = (rest.length < 2) := by
    simp only [List.length_cons, eq_iff_iff]
    omega
  simp only [parseStatusLine, e]
  by_cases h : rest.length < 2
  · simp only [h, if_true]
  · simp only [h, if_false]
    congr 2
    unfold statusRecord
    split_ifs <;> simp_all

theorem parseStatusLine_append (files : List FileStatus) (line : Str) :
    parseStatusLine files line = files ++ parseStatusLine [] line := by
  match line with
  | [] => simp [parseStatusLine]
  | [_] => simp [parseStatusLine]
  | x :: y :: rest =>
    rw [parseStatusLine_cons, parseStatusLine_cons]
    by_cases h : rest.length < 2 <;> simp [h]

theorem parseStatusLine_staged (line : Str) :
    (parseStatusLine [] line).map (·.Staged) =
      ([line].filter (fun l => 4 ≤ l.length)).map indexColumnStaged := by
  match line with
  | [] => simp [parseStatusLine]
  | [_] => simp [parseStatusLine]
  | x :: y :: rest =>
    rw [parseStatusLine_cons]
    by_cases h : rest.length < 2
    · have : ¬ 4 ≤ (x :: y :: rest).length := by
        simp only [List.length_cons]
        omega
      simp [h, this, List.filter_cons]
    · have : 4 ≤ (x :: y :: rest).length := by
        simp only [List.length_cons]
        omega
      have h2 : 2 ≤ rest.length := by omega
      simp [h, h2, List.filter_cons, statusRecord, indexColumnStaged]

theorem foldl_parseStatusLine_staged (lines : List Str) (files : List FileStatus) :
    (lines.foldl parseStatusLine files).map (·.Staged) =
      files.map (·.Staged) ++ (lines.filter (fun l => 4 ≤ l.length)).map indexColumnStaged := by
  induction lines generalizing files with
  | nil => simp
  | cons l ls ih =>
    rw [List.foldl_cons, ih, parseStatusLine_append, List.map_append, parseStatusLine_staged]
    by_cases h : 4 ≤ l.length <;> simp [h, List.filter_cons]

/-- C6: for every status text, the records returned by `ParseStatus` are, in
order, those of the lines of at least 4 characters, and the Staged flag of each
is true exactly when the first character of its line is neither a space nor
`?`; `M  path` gives staged, ` M path`, `?? path` and ` D path` give not
staged. -/
theorem ParseStatus_staged (output : Str) :
    ((ParseStatus (.ok output)).map (List.map (·.Staged)) =
        .ok (((Split output '\n').filter (fun l => 4 ≤ l.length)).map indexColumnStaged)) ∧
      (ParseStatus (.ok "M  path".toList)).map (List.map (·.Staged)) = .ok [true] ∧
      (ParseStatus (.ok " M path".toList)).map (List.map (·.Staged)) = .ok [false] ∧
      (ParseStatus (.ok "?? path".toList)).map (List.map (·.Staged)) = .ok [false] ∧
      (ParseStatus (.ok " D path".toList)).map (List.map (·.Staged)) = .ok [false] := by
  refine ⟨?_, by decide, by decide, by decide, by decide⟩
  unfold ParseStatus
  by_cases h : output = []
  · subst h
    decide
  · simp only [h, if_false]
    have := foldl_parseStatusLine_staged (Split output '\n') []
    simpa [Except.map] using this

/-- C7: for the status line ` A path` (worktree code `A`, as printed after
`git add -N`) `ParseStatus` returns New = false, although the second column is
`A`; the index column `A` of `A  path` does set New, and the worktree column is
consulted for `M`, `D` and `?`. -/
theorem ParseStatus_worktree_A_not_new :
    ParseStatus (.ok " A path".toList) =
        .ok [{ Path := "path".toList, Staged := false, Modified := false, New := false,
               Deleted := false }] ∧
      ParseStatus (.ok "A  path".toList) =
        .ok [{ Path := "path".toList, Staged := true, Modified := false, New := true,
               Deleted := false }] ∧
      ParseStatus (.ok " M path".toList) =
        .ok [{ Path := "path".toList, Staged := false, Modified := true, New := false,
               Deleted := false }] ∧
      ParseStatus (.ok " D path".toList) =
        .ok [{ Path := "path".toList, Staged := false, Modified := false, New := false,
               Deleted := true }] := by
  decide

/-! ## Facts about the matcher of `commitPrefixRegex` -/

theorem ToLower_length (s : Str) : (ToLower s).length = s.length := by
  simp [ToLower]

theorem matchToken_iff (tok s t r : Str) :
    matchToken tok s = some (t, r) ↔ s = t ++ r ∧ ToLower t = tok := by
  unfold matchToken
  constructor
  · intro h
    by_cases hl : ToLower (s.take tok.length) = tok
    · simp only [hl, if_true, Option.some.injEq, Prod.mk.injEq] at h
      obtain ⟨rfl, rfl⟩ := h
      exact ⟨(List.take_append_drop _ _).symm, hl⟩
    · simp [hl] at h
  · rintro ⟨rfl, hl⟩
    have hlen : t.length = tok.length := by rw [← hl, ToLower_length]
    rw [List.take_left' hlen, List.drop_left' hlen]
    simp [hl]

theorem takeWhile_append_stop (p : Char → Bool) (body : Str) (x : Char) (r : Str)
    (hb : ∀ c ∈ body, p c = true) (hx : p x = false) :
    (body ++ x :: r).takeWhile p = body ∧ (body ++ x :: r).dropWhile p = x :: r := by
  induction body with
  | nil => simp [List.takeWhile, List.dropWhile, hx]
  | cons c cs ih =>
    have hc : p c = true := hb c (by simp)
    have := ih (fun d hd => hb d (by simp [hd]))
    simp [List.takeWhile, List.dropWhile, hc, this]

theorem dropWhile_cons_stop (p : Char → Bool) (t : Str) (x : Char) (rest : Str)
    (h : t.dropWhile p = x :: rest) : p x = false := by
  induction t with
  | nil => simp at h
  | cons c cs ih =>
    by_cases hc : p c = true
    · rw [List.dropWhile_cons_of_pos hc] at h
      exact ih h
    · rw [List.dropWhile_cons_of_neg hc] at h
      simp only [List.cons.injEq] at h
      rw [← h.1]
      simpa using hc

theorem matchScope_iff (s g r : Str) :
    matchScope s = some (g, r) ↔
      ∃ body, ')' ∉ body ∧ g = '(' :: (body ++ [')']) ∧ s = g ++ r := by
  constructor
  · intro h
    match s, h with
    | c :: t, h =>
      unfold matchScope at h
      by_cases hc : c = '('
      · simp only [hc, if_true] at h
        cases hd : t.dropWhile (fun x => x != ')') with
        | nil => simp [hd] at h
        | cons x rest =>
          simp only [hd, Option.some.injEq, Prod.mk.injEq] at h
          obtain ⟨rfl, rfl⟩ := h
          have hx : x = ')' := by
            have := dropWhile_cons_stop _ _ _ _ hd
            simpa using this
          refine ⟨t.takeWhile (fun x => x != ')'), ?_, rfl, ?_⟩
          · intro hm
            have := List.mem_takeWhile_imp hm
            simp at this
          · have e := List.takeWhile_append_dropWhile (fun x => x != ')') t
            rw [hd, hx] at e
            subst hc
            simp only [List.cons_append, List.append_assoc, List.singleton_append, List.cons.injEq,
              true_and]
            exact e.symm
      · simp [hc] at h
  · rintro ⟨body, hb, rfl, rfl⟩
    have hp : ∀ c ∈ body, (fun x => x != ')') c = true := by
      intro c hc
      have : c ≠ ')' := fun e => hb (e ▸ hc)
      simpa using this
    have := takeWhile_append_stop (fun x => x != ')') body ')' r hp (by simp)
    simp only [List.cons_append, List.append_assoc, List.singleton_append, List.nil_append,
      matchScope, if_true, this.1, this.2]

theorem matchColon_iff (s r : Str) :
    matchColon s = some r ↔ ∃ rest, s = ':' :: rest ∧ r = rest.dropWhile reSpace := by
  cases s with
  | nil => simp [matchColon]
  | cons c t =>
    by_cases hc : c = ':'
    · subst hc
      simp [matchColon, eq_comm]
    · simp [matchColon, hc]

theorem matchBangColon_iff (s g r : Str) :
    matchBangColon s = some (g, r) ↔
      ∃ b rest, g = bangText b ∧ s = bangText b ++ ':' :: rest ∧ r = rest.dropWhile reSpace := by
  constructor
  · intro h
    unfold matchBangColon at h
    cases s with
    | nil => simp [matchColon] at h
    | cons c t =>
      by_cases hc : c = '!'
      · subst hc
        cases hm : matchColon t with
        | none =>
          have : matchColon ('!' :: t) = none := by simp [matchColon]
          simp [hm, this] at h
        | some r1 =>
          simp only [hm, if_true, Option.map_some', Option.some.injEq, Prod.mk.injEq] at h
          obtain ⟨rfl, rfl⟩ := h
          obtain ⟨rest, rfl, rfl⟩ := (matchColon_iff _ _).1 hm
          exact ⟨true, rest, rfl, rfl, rfl⟩
      · simp only [hc, if_false] at h
        cases hm : matchColon (c :: t) with
        | none => simp [hm] at h
        | some r1 =>
          simp only [hm, Option.map_some', Option.some.injEq, Prod.mk.injEq] at h
          obtain ⟨rfl, rfl⟩ := h
          obtain ⟨rest, e, rfl⟩ := (matchColon_iff _ _).1 hm
          exact ⟨false, rest, rfl, by simpa [bangText] using e, rfl⟩
  · rintro ⟨b, rest, rfl, rfl, rfl⟩
    cases b with
    | true => simp [matchBangColon, bangText, matchColon]
    | false => simp [matchBangColon, bangText, matchColon]

theorem matchScope_bangColon_none (b : Bool) (rest : Str) :
    matchScope (bangText b ++ ':' :: rest) = none := by
  cases b <;> simp [bangText, matchScope]

theorem matchTail_iff (s g2 g3 r : Str) :
    matchTail s = some (g2, g3, r) ↔
      ∃ b rest, ScopeText g2 ∧ g3 = bangText b ∧ s = g2 ++ (bangText b ++ ':' :: rest) ∧
        r = rest.dropWhile reSpace := by
  constructor
  · intro h
    unfold matchTail at h
    cases hs : matchScope s with
    | none =>
      simp only [hs, Option.none_bind] at h
      cases hm : matchBangColon s with
      | none => simp [hm] at h
      | some q =>
        obtain ⟨q1, q2⟩ := q
        simp only [hm, Option.map_some', Option.some.injEq, Prod.mk.injEq] at h
        obtain ⟨rfl, rfl, rfl⟩ := h
        obtain ⟨b, rest, e1, e2, e3⟩ := (matchBangColon_iff _ _ _).1 hm
        exact ⟨b, rest, Or.inl rfl, e1, by simpa using e2, e3⟩
    | some p =>
      obtain ⟨p1, p2⟩ := p
      obtain ⟨body, hb, e1, e2⟩ := (matchScope_iff _ _ _).1 hs
      simp only [hs, Option.some_bind] at h
      cases hm : matchBangColon p2 with
      | none =>
        simp only [hm, Option.map_none'] at h
        cases hm2 : matchBangColon s with
        | none => simp [hm2] at h
        | some q =>
          obtain ⟨b, rest, _, e4, _⟩ := (matchBangColon_iff _ _ _).1 hm2
          rw [e4, matchScope_bangColon_none] at hs
          exact absurd hs (by simp)
      | some q =>
        obtain ⟨q1, q2⟩ := q
        simp only [hm, Option.map_some', Option.some.injEq, Prod.mk.injEq] at h
        obtain ⟨rfl, rfl, rfl⟩ := h
        obtain ⟨b, rest, e3, e4, e5⟩ := (matchBangColon_iff _ _ _).1 hm
        exact ⟨b, rest, Or.inr ⟨body, hb, e1⟩, e3, by rw [e2, e4], e5⟩
  · rintro ⟨b, rest, hsc, rfl, rfl, rfl⟩
    unfold matchTail
    have hbc : matchBangColon (bangText b ++ ':' :: rest) =
        some (bangText b, rest.dropWhile reSpace) :=
      (matchBangColon_iff _ _ _).2 ⟨b, rest, rfl, rfl, rfl⟩
    rcases hsc with rfl | ⟨body, hb, rfl⟩
    · simp only [List.nil_append, matchScope_bangColon_none, Option.none_bind, hbc,
        Option.map_some']
    · have hs : matchScope ('(' :: (body ++ [')']) ++ (bangText b ++ ':' :: rest)) =
          some ('(' :: (body ++ [')']), bangText b ++ ':' :: rest) :=
        (matchScope_iff _ _ _).2 ⟨body, hb, rfl, rfl⟩
      simp only [hs, Option.some_bind, hbc, Option.map_some']

theorem matchWithToken_some (s tok : Str) (l : List Str) (h : matchWithToken s tok = some l) :
    ∃ m0 t g2 b, l = [m0, t, g2, bangText b] ∧ ToLower t = tok ∧ ConvPrefix tok b s := by
  unfold matchWithToken at h
  cases ht : matchToken tok s with
  | none => simp [ht] at h
  | some p =>
    obtain ⟨t, r⟩ := p
    simp only [ht, Option.some_bind] at h
    cases hm : matchTail r with
    | none => simp [hm] at h
    | some q =>
      obtain ⟨g2, g3, r2⟩ := q
      simp only [hm, Option.map_some', Option.some.injEq] at h
      obtain ⟨e1, e2⟩ := (matchToken_iff _ _ _ _).1 ht
      obtain ⟨b, rest, hsc, e3, e4, _⟩ := (matchTail_iff _ _ _ _).1 hm
      refine ⟨s.take (s.length - r2.length), t, g2, b, ?_, e2, t, g2, rest, ?_, e2, hsc⟩
      · rw [← h, e3]
      · rw [e1, e4]

theorem matchWithToken_of_ConvPrefix (s tok : Str) (b : Bool) (h : ConvPrefix tok b s) :
    ∃ m0 t g2, matchWithToken s tok = some [m0, t, g2, bangText b] ∧ ToLower t = tok := by
  obtain ⟨t, scope, rest, e1, e2, hsc⟩ := h
  have ht : matchToken tok s = some (t, scope ++ (bangText b ++ ':' :: rest)) :=
    (matchToken_iff _ _ _ _).2 ⟨e1, e2⟩
  have hm : matchTail (scope ++ (bangText b ++ ':' :: rest)) =
      some (scope, bangText b, rest.dropWhile reSpace) :=
    (matchTail_iff _ _ _ _).2 ⟨b, rest, hsc, rfl, rfl, rfl⟩
  refine ⟨s.take (s.length - (rest.dropWhile reSpace).length), t, scope, ?_, e2⟩
  simp only [matchWithToken, ht, Option.some_bind, hm, Option.map_some']

theorem bangText_inj (b0 b : Bool) (h : bangText b0 = bangText b) : b0 = b := by
  cases b0 <;> cases b <;> simp [bangText] at h ⊢

theorem ConvPrefix_bang_unique (s tok : Str) (b0 b : Bool) (h0 : ConvPrefix tok b0 s)
    (h : ConvPrefix tok b s) : b0 = b := by
  obtain ⟨m0, t, g2, e, _⟩ := matchWithToken_of_ConvPrefix s tok b0 h0
  obtain ⟨m0', t', g2', e', _⟩ := matchWithToken_of_ConvPrefix s tok b h
  rw [e] at e'
  simp only [Option.some.injEq, List.cons.injEq, and_true] at e'
  exact bangText_inj _ _ e'.2.2.2

theorem ConvPrefix_sep (s tok : Str) (b : Bool) (h : ConvPrefix tok b s) :
    ∃ d ∈ ['(', '!', ':'], (tok ++ [d]) <+: ToLower s := by
  obtain ⟨t, scope, rest, rfl, rfl, hsc⟩ := h
  rcases hsc with rfl | ⟨body, _, rfl⟩
  · cases b with
    | true =>
      refine ⟨'!', by simp, ToLower (':' :: rest), ?_⟩
      have : lowerByte '!' = '!' := by decide
      simp [ToLower, bangText, this]
    | false =>
      refine ⟨':', by simp, ToLower rest, ?_⟩
      have : lowerByte ':' = ':' := by decide
      simp [ToLower, bangText, this]
  · refine ⟨'(', by simp, ToLower (body ++ [')'] ++ (bangText b ++ ':' :: rest)), ?_⟩
    have : lowerByte '(' = '(' := by decide
    simp [ToLower, this]

theorem token_sep_unique :
    ∀ t0 ∈ prefixTokens, ∀ t1 ∈ prefixTokens, ∀ d0 ∈ ['(', '!', ':'], ∀ d1 ∈ ['(', '!', ':'],
      (t0 ++ [d0]).isPrefixOf (t1 ++ [d1]) = true → t0 = t1 := by
  decide

theorem ConvPrefix_token_unique (s tok0 tok : Str) (b0 b : Bool) (m0 : tok0 ∈ prefixTokens)
    (m : tok ∈ prefixTokens) (h0 : ConvPrefix tok0 b0 s) (h : ConvPrefix tok b s) :
    tok0 = tok := by
  obtain ⟨d0, hd0, p0⟩ := ConvPrefix_sep s tok0 b0 h0
  obtain ⟨d, hd, p⟩ := ConvPrefix_sep s tok b h
  rcases List.prefix_or_prefix_of_prefix p0 p with q | q
  · exact token_sep_unique tok0 m0 tok m d0 hd0 d hd (List.isPrefixOf_iff_prefix.2 q)
  · exact (token_sep_unique tok m tok0 m0 d hd d0 hd0 (List.isPrefixOf_iff_prefix.2 q)).symm

theorem FindStringSubmatch_of_ConvPrefix (s tok : Str) (b : Bool) (m : tok ∈ prefixTokens)
    (h : ConvPrefix tok b s) :
    ∃ m0 t g2, FindStringSubmatch s = [m0, t, g2, bangText b] ∧ ToLower t = tok := by
  obtain ⟨m0, t, g2, e, _⟩ := matchWithToken_of_ConvPrefix s tok b h
  unfold FindStringSubmatch
  cases hf : prefixTokens.findSome? (matchWithToken s) with
  | none =>
    have := List.findSome?_eq_none_iff.1 hf tok m
    rw [e] at this
    exact absurd this (by simp)
  | some l =>
    obtain ⟨tok0, mem0, e0⟩ := List.exists_of_findSome?_eq_some hf
    obtain ⟨m0', t', g2', b0, rfl, el, hc⟩ := matchWithToken_some s tok0 l e0
    have ht : tok0 = tok := ConvPrefix_token_unique s tok0 tok b0 b mem0 m hc h
    subst ht
    have hb : b0 = b := ConvPrefix_bang_unique s tok0 b0 b hc h
    subst hb
    exact ⟨m0', t', g2', rfl, el⟩

theorem FindStringSubmatch_cases (s : Str) :
    (FindStringSubmatch s = [] ∧ ∀ tok ∈ prefixTokens, ∀ b, ¬ ConvPrefix tok b s) ∨
      ∃ tok ∈ prefixTokens, ∃ b m0 t g2,
        FindStringSubmatch s = [m0, t, g2, bangText b] ∧ ToLower t = tok ∧ ConvPrefix tok b s := by
  cases hf : prefixTokens.findSome? (matchWithToken s) with
  | none =>
    left
    refine ⟨by simp [FindStringSubmatch, hf], ?_⟩
    intro tok m b hc
    obtain ⟨m0, t, g2, e, _⟩ := matchWithToken_of_ConvPrefix s tok b hc
    have := List.findSome?_eq_none_iff.1 hf tok m
    rw [e] at this
    exact absurd this (by simp)
  | some l =>
    right
    obtain ⟨tok0, mem0, e0⟩ := List.exists_of_findSome?_eq_some hf
    obtain ⟨m0, t, g2, b0, rfl, el, hc⟩ := matchWithToken_some s tok0 l e0
    exact ⟨tok0, mem0, b0, m0, t, g2, by simp [FindStringSubmatch, hf], el, hc⟩

/-! ## Claims about `DetectTag` and `DetectImpact` -/

theorem prefixToTag_lookup :
    ∀ p ∈ prefixToTag, p.1 ∈ prefixTokens ∧ prefixToTag.lookup p.1 = some p.2 := by
  decide

theorem prefixTokens_lookup :
    ∀ tok ∈ prefixTokens, ∃ tag, prefixToTag.lookup tok = some tag ∧ (tok, tag) ∈ prefixToTag := by
  intro tok h
  simp only [prefixTokens, List.map_cons, List.map_nil, List.mem_cons, List.mem_singleton,
    List.not_mem_nil, or_false] at h
  rcases h with rfl | rfl | rfl | rfl | rfl | rfl | rfl
  · exact ⟨"feature".toList, by decide, by decide⟩
  · exact ⟨"feature".toList, by decide, by decide⟩
  · exact ⟨"fix".toList, by decide, by decide⟩
  · exact ⟨"fix".toList, by decide, by decide⟩
  · exact ⟨"refactor".toList, by decide, by decide⟩
  · exact ⟨"experiment".toList, by decide, by decide⟩
  · exact ⟨"experiment".toList, by decide, by decide⟩

/-- C8 (as stated, refuted): `feat:x` has no white space after the colon, so
it does not start with a prefix in the claim's sense, yet `DetectTag` returns
`feature` for it. -/
theorem DetectTag_colon_without_space :
    DetectTag "feat:x".toList = "feature".toList ∧
      ¬ ∃ tok b, ConvPrefixSpace tok b (TrimSpace "feat:x".toList) := by
  refine ⟨by decide, ?_⟩
  rintro ⟨tok, b, t, scope, w, rest, e, hw, _⟩
  have ht : TrimSpace "feat:x".toList = "feat:x".toList := by decide
  rw [ht] at e
  have hmem : w ∈ "feat:x".toList := by
    rw [e]
    simp
  have hall : ∀ c ∈ "feat:x".toList, reSpace c = false := by decide
  rw [hall w hmem] at hw
  exact absurd hw (by simp)

/-- C8 (amended): `DetectTag` returns the tag mapped to a token (feat, feature
-> feature; fix, bugfix -> fix; refactor -> refactor; experiment, exp ->
experiment) exactly when the white-space-trimmed message starts,
case-insensitively, with that token followed by an optional parenthesized
scope, an optional `!` and then `:` (white space after the colon is not
required); it returns `none` exactly when the trimmed message starts with no
such prefix, as for `chore: x`, `docs: x` and `random message`. -/
theorem DetectTag_iff (message tag : Str) :
    (DetectTag message = tag ↔
        (∃ tok b, (tok, tag) ∈ prefixToTag ∧ ConvPrefix tok b (TrimSpace message)) ∨
          (tag = "none".toList ∧
            ∀ tok ∈ prefixTokens, ∀ b, ¬ ConvPrefix tok b (TrimSpace message))) ∧
      DetectTag "chore: update deps".toList = "none".toList ∧
      DetectTag "docs: update readme".toList = "none".toList ∧
      DetectTag "random message".toList = "none".toList ∧
      DetectTag "FEAT: uppercase works".toList = "feature".toList ∧
      DetectTag "fix(parser)!: x".toList = "fix".toList := by
  refine ⟨?_, by decide, by decide, by decide, by decide, by decide⟩
  rcases FindStringSubmatch_cases (TrimSpace message) with ⟨hnil, hno⟩ | ⟨tok, mem, b, m0, t, g2, hfind, hlow, hc⟩
  · have hd : DetectTag message = "none".toList := by
      simp [DetectTag, hnil]
    rw [hd]
    constructor
    · intro h
      exact Or.inr ⟨h.symm, hno⟩
    · rintro (⟨tok, b, hm, hc⟩ | ⟨h, _⟩)
      · exact absurd hc (hno tok (prefixToTag_lookup _ hm).1 b)
      · exact h.symm
  · obtain ⟨tg, hl, hmem⟩ := prefixTokens_lookup tok mem
    have hd : DetectTag message = tg := by
      simp [DetectTag, hfind, hlow, hl]
    rw [hd]
    constructor
    · intro h
      exact Or.inl ⟨tok, b, h ▸ hmem, hc⟩
    · rintro (⟨tok', b', hm, hc'⟩ | ⟨_, hno⟩)
      · have ht : tok' = tok :=
          ConvPrefix_token_unique _ tok' tok b' b (prefixToTag_lookup _ hm).1 mem hc' hc
        subst ht
        have := (prefixToTag_lookup _ hm).2
        simp only at this
        rw [hl] at this
        exact Option.some.inj this
      · exact absurd hc (hno tok mem b)

theorem impact_levels_distinct :
    "major".toList ≠ "minor".toList ∧ "major".toList ≠ "patch".toList ∧
      "minor".toList ≠ "patch".toList := by
  decide

theorem bangText_eq_bang (b : Bool) : bangText b = "!".toList ↔ b = true := by
  cases b <;> decide

/-- The three outcomes of `DetectImpact` in terms of the prefix of the header
line and the body marker. -/
theorem DetectImpact_cases (message : Str) :
    (((∃ tok ∈ prefixTokens, ConvPrefix tok true (headerLine message)) ∨
          breakingMarker <:+: message) → DetectImpact message = "major".toList) ∧
      (¬ ((∃ tok ∈ prefixTokens, ConvPrefix tok true (headerLine message)) ∨
            breakingMarker <:+: message) →
          (∃ b, ConvPrefix "feat".toList b (headerLine message) ∨
            ConvPrefix "feature".toList b (headerLine message)) →
          DetectImpact message = "minor".toList) ∧
      (¬ ((∃ tok ∈ prefixTokens, ConvPrefix tok true (headerLine message)) ∨
            breakingMarker <:+: message) →
          ¬ (∃ b, ConvPrefix "feat".toList b (headerLine message) ∨
            ConvPrefix "feature".toList b (headerLine message)) →
          DetectImpact message = "patch".toList) := by
  have hfeat : "feat".toList ∈ prefixTokens := by decide
  have hfeature : "feature".toList ∈ prefixTokens := by decide
  have hbc : Contains (TrimSpace message) breakingMarker = true ↔ breakingMarker <:+: message := by
    rw [Contains_iff, breakingMarker_infix_TrimSpace]
  have hdef : DetectImpact message =
      if (FindStringSubmatch (headerLine message)).length > 0 ∧
          (FindStringSubmatch (headerLine message)).getD 3 [] = "!".toList then "major".toList
      else if Contains (TrimSpace message) breakingMarker then "major".toList
      else if (FindStringSubmatch (headerLine message)).length > 0 ∧
          (ToLower ((FindStringSubmatch (headerLine message)).getD 1 []) = "feat".toList ∨
            ToLower ((FindStringSubmatch (headerLine message)).getD 1 []) = "feature".toList) then
        "minor".toList
      else "patch".toList := rfl
  rcases FindStringSubmatch_cases (headerLine message) with
    ⟨hnil, hno⟩ | ⟨tok, mem, b, m0, t, g2, hfind, hlow, hc⟩
  · have hnb : ¬ ∃ tok ∈ prefixTokens, ConvPrefix tok true (headerLine message) := by
      rintro ⟨tok, m, h⟩
      exact hno tok m true h
    have hnf : ¬ ∃ b, ConvPrefix "feat".toList b (headerLine message) ∨
        ConvPrefix "feature".toList b (headerLine message) := by
      rintro ⟨b, h | h⟩
      · exact hno _ hfeat b h
      · exact hno _ hfeature b h
    rw [hdef, hnil]
    refine ⟨?_, ?_, ?_⟩
    · rintro (h | h)
      · exact absurd h hnb
      · simp [hbc.2 h]
    · intro _ h
      exact absurd h hnf
    · intro h _
      have : ¬ Contains (TrimSpace message) breakingMarker = true := fun c => h (Or.inr (hbc.1 c))
      simp [this]
  · have hbang : (∃ tok ∈ prefixTokens, ConvPrefix tok true (headerLine message)) ↔ b = true := by
      constructor
      · rintro ⟨tok', m', h'⟩
        have ht : tok' = tok := ConvPrefix_token_unique _ tok' tok true b m' mem h' hc
        subst ht
        exact (ConvPrefix_bang_unique _ tok' true b h' hc).symm
      · intro h
        subst h
        exact ⟨tok, mem, hc⟩
    have hfe : (∃ b, ConvPrefix "feat".toList b (headerLine message) ∨
        ConvPrefix "feature".toList b (headerLine message)) ↔
          (tok = "feat".toList ∨ tok = "feature".toList) := by
      constructor
      · rintro ⟨b', h | h⟩
        · exact Or.inl (ConvPrefix_token_unique _ _ tok b' b hfeat mem h hc).symm
        · exact Or.inr (ConvPrefix_token_unique _ _ tok b' b hfeature mem h hc).symm
      · rintro (h | h)
        · exact ⟨b, Or.inl (h ▸ hc)⟩
        · exact ⟨b, Or.inr (h ▸ hc)⟩
    have hlen : [m0, t, g2, bangText b].length > 0 := by simp
    have hdef2 : DetectImpact message =
        if b = true then "major".toList
        else if Contains (TrimSpace message) breakingMarker then "major".toList
        else if tok = "feat".toList ∨ tok = "feature".toList then "minor".toList
        else "patch".toList := by
      rw [hdef, hfind]
      simp only [hlen, true_and, List.getD_cons_succ, List.getD_cons_zero, bangText_eq_bang, hlow]
    rw [hbang, hfe]
    refine ⟨?_, ?_, ?_⟩
    · rintro (h | h)
      · rw [hdef2, if_pos h]
      · by_cases hb : b = true
        · rw [hdef2, if_pos hb]
        · rw [hdef2, if_neg hb, if_pos (hbc.2 h)]
    · intro h1 h2
      have hb : ¬ b = true := fun c => h1 (Or.inl c)
      have hcn : ¬ Contains (TrimSpace message) breakingMarker = true :=
        fun c => h1 (Or.inr (hbc.1 c))
      rw [hdef2, if_neg hb, if_neg hcn, if_pos h2]
    · intro h1 h2
      have hb : ¬ b = true := fun c => h1 (Or.inl c)
      have hcn : ¬ Contains (TrimSpace message) breakingMarker = true :=
        fun c => h1 (Or.inr (hbc.1 c))
      rw [hdef2, if_neg hb, if_neg hcn, if_neg h2]

/-- C9 (as stated, refuted): the trimmed message `feat(a\nb)!: x` starts with
the token feat, a parenthesized scope, `!` and `:`, and `commitPrefixRegex`
matches it with group 3 equal to `!`, yet `DetectImpact` returns `patch`: it
matches the expression against the first line `feat(a` only. -/
theorem DetectImpact_multiline_scope :
    DetectImpact "feat(a\nb)!: x".toList = "patch".toList ∧
      ConvPrefix "feat".toList true (TrimSpace "feat(a\nb)!: x".toList) ∧
      FindStringSubmatch (TrimSpace "feat(a\nb)!: x".toList) =
        ["feat(a\nb)!: ".toList, "feat".toList, "(a\nb)".toList, "!".toList] ∧
      headerLine "feat(a\nb)!: x".toList = "feat(a".toList := by
  refine ⟨by decide, ?_, by decide, by decide⟩
  refine ⟨"feat".toList, "(a\nb)".toList, " x".toList, by decide, by decide, Or.inr ?_⟩
  exact ⟨"a\nb".toList, by decide, by decide⟩

/-- C9 (amended): `DetectImpact` returns `major` exactly when the conventional
prefix matched on the first line of the trimmed message carries `!` or the
message contains `BREAKING CHANGE`; otherwise `minor` exactly when the token of
that prefix is feat or feature; otherwise `patch`.  In particular `feat: x`
gives minor, `fix: x` patch, `feat!: x` and `fix!: x` major, a fix whose body
contains `BREAKING CHANGE` major, and a message with no prefix patch. -/
theorem DetectImpact_spec (message : Str) :
    (DetectImpact message = "major".toList ↔
        ((∃ tok ∈ prefixTokens, ConvPrefix tok true (headerLine message)) ∨
          breakingMarker <:+: message)) ∧
      (DetectImpact message = "minor".toList ↔
        (¬ ((∃ tok ∈ prefixTokens, ConvPrefix tok true (headerLine message)) ∨
            breakingMarker <:+: message) ∧
          ∃ b, ConvPrefix "feat".toList b (headerLine message) ∨
            ConvPrefix "feature".toList b (headerLine message))) ∧
      (DetectImpact message = "patch".toList ↔
        (¬ ((∃ tok ∈ prefixTokens, ConvPrefix tok true (headerLine message)) ∨
            breakingMarker <:+: message) ∧
          ¬ ∃ b, ConvPrefix "feat".toList b (headerLine message) ∨
            ConvPrefix "feature".toList b (headerLine message))) ∧
      DetectImpact "feat: x".toList = "minor".toList ∧
      DetectImpact "fix: x".toList = "patch".toList ∧
      DetectImpact "feat!: x".toList = "major".toList ∧
      DetectImpact "fix!: x".toList = "major".toList ∧
      DetectImpact "fix: x\n\nBREAKING CHANGE: y".toList = "major".toList ∧
      DetectImpact "random message".toList = "patch".toList := by
  obtain ⟨h1, h2, h3⟩ := DetectImpact_cases message
  obtain ⟨d1, d2, d3⟩ := impact_levels_distinct
  refine ⟨?_, ?_, ?_, by decide, by decide, by decide, by decide, by decide, by decide⟩
  · constructor
    · intro h
      by_contra hn
      by_cases hf : ∃ b, ConvPrefix "feat".toList b (headerLine message) ∨
          ConvPrefix "feature".toList b (headerLine message)
      · exact d1 (h.symm.trans (h2 hn hf))
      · exact d2 (h.symm.trans (h3 hn hf))
    · exact h1
  · constructor
    · intro h
      have hn : ¬ ((∃ tok ∈ prefixTokens, ConvPrefix tok true (headerLine message)) ∨
          breakingMarker <:+: message) := fun c => d1 ((h1 c).symm.trans h)
      refine ⟨hn, ?_⟩
      by_contra hf
      exact d3 (h.symm.trans (h3 hn hf))
    · rintro ⟨hn, hf⟩
      exact h2 hn hf
  · constructor
    · intro h
      have hn : ¬ ((∃ tok ∈ prefixTokens, ConvPrefix tok true (headerLine message)) ∨
          breakingMarker <:+: message) := fun c => d2 ((h1 c).symm.trans h)
      refine ⟨hn, ?_⟩
      intro hf
      exact d3 ((h2 hn hf).symm.trans h)
    · rintro ⟨hn, hf⟩
      exact h3 hn hf

/-! ## Facts about `jsonString` -/

theorem runeStep_pos (c : Char) (rest : Str) : 1 ≤ runeStep (c :: rest) := by
  simp only [runeStep]
  repeat' split
  all_goals omega

theorem runeStep_le (s : Str) : runeStep s ≤ s.length := by
  cases s with
  | nil => simp [runeStep]
  | cons c rest =>
    simp only [runeStep]
    repeat' split
    all_goals simp only [List.length_cons] at *
    all_goals omega

theorem leadInfo_size (c : Char) (size lo hi : Nat) (h : leadInfo c = some (size, lo, hi)) :
    size = 2 ∨ size = 3 ∨ size = 4 := by
  unfold leadInfo at h
  simp only [] at h
  split_ifs at h <;> simp only [Option.some.injEq, Prod.mk.injEq] at h <;> omega

theorem runeStep_two (c c1 : Char) (t : Str) (lo hi : Nat) (hc : ¬ c.toNat < 0x80)
    (hl : leadInfo c = some (2, lo, hi)) (h1 : ¬ outside lo hi c1 = true) :
    runeStep (c :: c1 :: t) = 2 := by
  simp only [runeStep, hc, hl, h1, if_false, List.length_cons]
  rw [if_neg (by omega)]
  simp

theorem runeStep_three (c c1 c2 : Char) (t : Str) (lo hi : Nat) (hc : ¬ c.toNat < 0x80)
    (hl : leadInfo c = some (3, lo, hi)) (h1 : ¬ outside lo hi c1 = true)
    (h2 : ¬ outside 0x80 0xBF c2 = true) :
    runeStep (c :: c1 :: c2 :: t) = 3 := by
  simp only [runeStep, hc, hl, h1, h2, if_false, List.length_cons]
  rw [if_neg (by omega)]
  simp

theorem runeStep_four (c c1 c2 c3 : Char) (t : Str) (lo hi : Nat) (hc : ¬ c.toNat < 0x80)
    (hl : leadInfo c = some (4, lo, hi)) (h1 : ¬ outside lo hi c1 = true)
    (h2 : ¬ outside 0x80 0xBF c2 = true) (h3 : ¬ outside 0x80 0xBF c3 = true) :
    runeStep (c :: c1 :: c2 :: c3 :: t) = 4 := by
  simp only [runeStep, hc, hl, h1, h2, h3, if_false, List.length_cons]
  rw [if_neg (by omega)]
  simp

/-- A step of more than one byte is over a valid encoding: the bytes of the
step are a unit that is read as one step wherever it stands. -/
theorem runeStep_unit (c : Char) (rest : Str) (hk : runeStep (c :: rest) ≠ 1) :
    ∃ u r, rest = u ++ r ∧ ¬ c.toNat < 0x80 ∧ u ≠ [] ∧
      ∀ t, runeStep (c :: (u ++ t)) = (c :: u).length := by
  simp only [runeStep] at hk
  by_cases hc : c.toNat < 0x80
  · simp [hc] at hk
  · simp only [hc, if_false] at hk
    cases hl : leadInfo c with
    | none => simp [hl] at hk
    | some info =>
      obtain ⟨size, lo, hi⟩ := info
      have hs := leadInfo_size c size lo hi hl
      simp only [hl] at hk
      by_cases hlen : 1 + rest.length < size
      · simp [hlen] at hk
      · simp only [hlen, if_false] at hk
        cases rest with
        | nil => simp at hk
        | cons c1 rest1 =>
          simp only [] at hk
          by_cases h1 : outside lo hi c1 = true
          · simp [h1] at hk
          · simp only [h1, if_false] at hk
            by_cases s2 : size = 2
            · subst s2
              exact ⟨[c1], rest1, rfl, hc, by simp, fun t => runeStep_two c c1 t lo hi hc hl h1⟩
            · simp only [s2, if_false] at hk
              cases rest1 with
              | nil => simp at hk
              | cons c2 rest2 =>
                simp only [] at hk
                by_cases h2 : outside 0x80 0xBF c2 = true
                · simp [h2] at hk
                · simp only [h2, if_false] at hk
                  by_cases s3 : size = 3
                  · subst s3
                    exact ⟨[c1, c2], rest2, rfl, hc, by simp,
                      fun t => runeStep_three c c1 c2 t lo hi hc hl h1 h2⟩
                  · simp only [s3, if_false] at hk
                    have s4 : size = 4 := by omega
                    subst s4
                    cases rest2 with
                    | nil => simp at hk
                    | cons c3 rest3 =>
                      simp only [] at hk
                      by_cases h3 : outside 0x80 0xBF c3 = true
                      · simp [h3] at hk
                      · exact ⟨[c1, c2, c3], rest3, rfl, hc, by simp,
                          fun t => runeStep_four c c1 c2 c3 t lo hi hc hl h1 h2 h3⟩

theorem jsonStringN_fuel (n : Nat) : ∀ (m : Nat) (s : Str), s.length ≤ n → s.length ≤ m →
    jsonStringN n s = jsonStringN m s := by
  induction n with
  | zero =>
    intro m s h1 _
    have : s = [] := List.length_eq_zero.1 (by omega)
    subst this
    cases m <;> rfl
  | succ n ih =>
    intro m s h1 h2
    cases s with
    | nil => cases m <;> rfl
    | cons c rest =>
      cases m with
      | zero => simp at h2
      | succ m =>
        simp only [List.length_cons] at h1 h2
        have hp := runeStep_pos c rest
        have hd : ((c :: rest).drop (runeStep (c :: rest))).length ≤ rest.length := by
          rw [List.length_drop, List.length_cons]
          omega
        simp only [jsonStringN]
        rw [ih m rest (by omega) (by omega),
          ih m ((c :: rest).drop (runeStep (c :: rest))) (by omega) (by omega)]

theorem jsonString_nil : jsonString [] = [] := rfl

theorem jsonString_cons (c : Char) (rest : Str) :
    jsonString (c :: rest) =
      if c.toNat < 0x80 then c :: jsonString rest
      else if runeStep (c :: rest) = 1 then replacementRune ++ jsonString rest
      else
        (c :: rest).take (runeStep (c :: rest)) ++
          jsonString ((c :: rest).drop (runeStep (c :: rest))) := by
  have hp := runeStep_pos c rest
  have hd : ((c :: rest).drop (runeStep (c :: rest))).length ≤ rest.length := by
    rw [List.length_drop, List.length_cons]
    omega
  unfold jsonString
  simp only [List.length_cons, jsonStringN]
  rw [jsonStringN_fuel rest.length _ ((c :: rest).drop (runeStep (c :: rest))) hd (le_refl _)]

/-- A valid encoding of more than one byte is kept. -/
theorem jsonString_unit (c : Char) (u t : Str) (hc : ¬ c.toNat < 0x80) (hu : u ≠ [])
    (h : runeStep (c :: (u ++ t)) = (c :: u).length) :
    jsonString (c :: (u ++ t)) = c :: u ++ jsonString t := by
  have h1 : runeStep (c :: (u ++ t)) ≠ 1 := by
    rw [h]
    cases u with
    | nil => exact absurd rfl hu
    | cons a b => simp
  rw [jsonString_cons, if_neg hc, if_neg h1, h]
  have e1 : (c :: (u ++ t)).take (c :: u).length = c :: u := by
    rw [← List.cons_append, List.take_left]
  have e2 : (c :: (u ++ t)).drop (c :: u).length = t := by
    rw [← List.cons_append, List.drop_left]
  rw [e1, e2]

theorem runeStep_replacementRune (t : Str) : runeStep (replacementRune ++ t) = 3 :=
  runeStep_three _ _ _ t 0x80 0xBF (by decide) (by decide) (by decide) (by decide)

theorem jsonString_replacementRune (t : Str) :
    jsonString (replacementRune ++ t) = replacementRune ++ jsonString t :=
  jsonString_unit (Char.ofNat 0xEF) [Char.ofNat 0xBF, Char.ofNat 0xBD] t (by decide) (by simp)
    (runeStep_replacementRune t)

theorem jsonString_idem_aux (n : Nat) : ∀ s : Str, s.length ≤ n →
    jsonString (jsonString s) = jsonString s := by
  induction n with
  | zero =>
    intro s h
    have : s = [] := List.length_eq_zero.1 (by omega)
    subst this
    rfl
  | succ n ih =>
    intro s h
    cases s with
    | nil => rfl
    | cons c rest =>
      simp only [List.length_cons] at h
      by_cases hc : c.toNat < 0x80
      · have e : jsonString (c :: rest) = c :: jsonString rest := by
          rw [jsonString_cons, if_pos hc]
        rw [e, jsonString_cons, if_pos hc, ih rest (by omega)]
      · by_cases hk : runeStep (c :: rest) = 1
        · have e : jsonString (c :: rest) = replacementRune ++ jsonString rest := by
            rw [jsonString_cons, if_neg hc, if_pos hk]
          rw [e, jsonString_replacementRune, ih rest (by omega)]
        · obtain ⟨u, r, hr, _, hu, hall⟩ := runeStep_unit c rest hk
          subst hr
          have hlen : r.length ≤ n := by
            simp only [List.length_append] at h
            omega
          rw [jsonString_unit c u r hc hu (hall r), List.cons_append,
            jsonString_unit c u _ hc hu (hall _), ih r hlen]
          rfl

/-- What is read back is kept when it is written again. -/
theorem jsonString_idem (s : Str) : jsonString (jsonString s) = jsonString s :=
  jsonString_idem_aux s.length s (le_refl _)

theorem validN_fuel (n : Nat) : ∀ (m : Nat) (s : Str), s.length ≤ n → s.length ≤ m →
    validN n s = validN m s := by
  induction n with
  | zero =>
    intro m s h1 _
    have : s = [] := List.length_eq_zero.1 (by omega)
    subst this
    cases m <;> rfl
  | succ n ih =>
    intro m s h1 h2
    cases s with
    | nil => cases m <;> rfl
    | cons c rest =>
      cases m with
      | zero => simp at h2
      | succ m =>
        simp only [List.length_cons] at h1 h2
        have hp := runeStep_pos c rest
        have hd : ((c :: rest).drop (runeStep (c :: rest))).length ≤ rest.length := by
          rw [List.length_drop, List.length_cons]
          omega
        simp only [validN]
        rw [ih m rest (by omega) (by omega),
          ih m ((c :: rest).drop (runeStep (c :: rest))) (by omega) (by omega)]

theorem ValidString_cons (c : Char) (rest : Str) :
    ValidString (c :: rest) =
      if c.toNat < 0x80 then ValidString rest
      else if runeStep (c :: rest) = 1 then false
      else ValidString ((c :: rest).drop (runeStep (c :: rest))) := by
  have hp := runeStep_pos c rest
  have hd : ((c :: rest).drop (runeStep (c :: rest))).length ≤ rest.length := by
    rw [List.length_drop, List.length_cons]
    omega
  unfold ValidString
  simp only [List.length_cons, validN]
  rw [validN_fuel rest.length _ ((c :: rest).drop (runeStep (c :: rest))) hd (le_refl _)]

theorem jsonString_valid_aux (n : Nat) : ∀ s : Str, s.length ≤ n → ValidString s = true →
    jsonString s = s := by
  induction n with
  | zero =>
    intro s h _
    have : s = [] := List.length_eq_zero.1 (by omega)
    subst this
    rfl
  | succ n ih =>
    intro s h hv
    cases s with
    | nil => rfl
    | cons c rest =>
      simp only [List.length_cons] at h
      rw [ValidString_cons] at hv
      rw [jsonString_cons]
      have hp := runeStep_pos c rest
      by_cases hc : c.toNat < 0x80
      · rw [if_pos hc] at hv ⊢
        rw [ih rest (by omega) hv]
      · rw [if_neg hc] at hv ⊢
        by_cases hk : runeStep (c :: rest) = 1
        · rw [if_pos hk] at hv
          cases hv
        · rw [if_neg hk] at hv ⊢
          rw [ih _ (by rw [List.length_drop, List.length_cons]; omega) hv]
          exact List.take_append_drop _ _

/-- JSON carries a valid UTF-8 string unchanged. -/
theorem jsonString_valid (s : Str) (h : ValidString s = true) : jsonString s = s :=
  jsonString_valid_aux s.length s (le_refl _) h

theorem jsonString_length_aux (n : Nat) : ∀ s : Str, s.length ≤ n →
    s.length ≤ (jsonString s).length ∧
      (ValidString s = false → s.length < (jsonString s).length) := by
  induction n with
  | zero =>
    intro s h
    have : s = [] := List.length_eq_zero.1 (by omega)
    subst this
    exact ⟨le_refl _, fun c => by cases c⟩
  | succ n ih =>
    intro s h
    cases s with
    | nil => exact ⟨le_refl _, fun c => by cases c⟩
    | cons c rest =>
      simp only [List.length_cons] at h
      rw [ValidString_cons, jsonString_cons]
      have hp := runeStep_pos c rest
      have hle := runeStep_le (c :: rest)
      simp only [List.length_cons] at hle
      by_cases hc : c.toNat < 0x80
      · rw [if_pos hc, if_pos hc]
        obtain ⟨h1, h2⟩ := ih rest (by omega)
        simp only [List.length_cons]
        exact ⟨by omega, fun hv => by have := h2 hv; omega⟩
      · rw [if_neg hc, if_neg hc]
        by_cases hk : runeStep (c :: rest) = 1
        · rw [if_pos hk, if_pos hk]
          obtain ⟨h1, _⟩ := ih rest (by omega)
          have e : (replacementRune ++ jsonString rest).length = 3 + (jsonString rest).length := by
            rw [List.length_append]
            rfl
          rw [e]
          simp only [List.length_cons]
          exact ⟨by omega, fun _ => by omega⟩
        · rw [if_neg hk, if_neg hk]
          have hd : ((c :: rest).drop (runeStep (c :: rest))).length =
              rest.length + 1 - runeStep (c :: rest) := by
            rw [List.length_drop, List.length_cons]
          obtain ⟨h1, h2⟩ := ih ((c :: rest).drop (runeStep (c :: rest))) (by omega)
          have e : ((c :: rest).take (runeStep (c :: rest)) ++
              jsonString ((c :: rest).drop (runeStep (c :: rest)))).length =
              runeStep (c :: rest) +
                (jsonString ((c :: rest).drop (runeStep (c :: rest)))).length := by
            rw [List.length_append, List.length_take, List.length_cons]
            omega
          rw [e]
          simp only [List.length_cons]
          exact ⟨by omega, fun hv => by have := h2 hv; omega⟩

/-- JSON carries a string unchanged exactly when it is valid UTF-8. -/
theorem jsonString_eq_iff (s : Str) : jsonString s = s ↔ ValidString s = true := by
  constructor
  · intro h
    by_contra hv
    have hf : ValidString s = false := by simpa using hv
    have := (jsonString_length_aux s.length s (le_refl _)).2 hf
    rw [h] at this
    omega
  · exact jsonString_valid s

/-! ## Facts about `jsonObject` and `jsonMeta` -/

/-- The key texts of the entries. -/
theorem keepMember_texts {V : Type} (k : Str) (v : V) (kept : List (Str × V)) :
    (keepMember k v kept).map (fun kv => jsonString kv.1) =
      if jsonString k ∈ kept.map (fun kv => jsonString kv.1) then
        kept.map (fun kv => jsonString kv.1)
      else kept.map (fun kv => jsonString kv.1) ++ [jsonString k] := by
  induction kept with
  | nil => simp [keepMember]
  | cons p rest ih =>
    obtain ⟨k1, v1⟩ := p
    by_cases h : jsonString k1 = jsonString k
    · have hm : jsonString k ∈ ((k1, v1) :: rest).map (fun kv => jsonString kv.1) := by
        rw [List.map_cons, ← h]
        exact List.mem_cons_self _ _
      rw [if_pos hm]
      simp only [keepMember, if_pos h]
      by_cases hl : lessBytes k1 k = true
      · simp [hl, h]
      · simp [hl]
    · simp only [keepMember, if_neg h, List.map_cons, ih]
      have hne : ¬ jsonString k = jsonString k1 := fun e => h e.symm
      by_cases hm : jsonString k ∈ rest.map (fun kv => jsonString kv.1)
      · rw [if_pos hm, if_pos (List.mem_cons_of_mem _ hm)]
      · have hm2 : jsonString k ∉ jsonString k1 :: rest.map (fun kv => jsonString kv.1) := by
          intro c
          rcases List.mem_cons.1 c with c | c
          · exact hne c
          · exact hm c
        rw [if_neg hm, if_neg hm2]
        rfl

theorem keepMember_new {V : Type} (k : Str) (v : V) (kept : List (Str × V))
    (h : jsonString k ∉ kept.map (fun kv => jsonString kv.1)) :
    keepMember k v kept = kept ++ [(k, v)] := by
  induction kept with
  | nil => rfl
  | cons p rest ih =>
    obtain ⟨k1, v1⟩ := p
    simp only [List.map_cons, List.mem_cons, not_or] at h
    have hne : ¬ jsonString k1 = jsonString k := fun e => h.1 e.symm
    simp only [keepMember, if_neg hne, ih h.2, List.cons_append]

theorem foldl_keepMember_texts_nodup {V : Type} (l kept : List (Str × V))
    (h : (kept.map (fun kv => jsonString kv.1)).Nodup) :
    ((l.foldl (fun kept kv => keepMember kv.1 kv.2 kept) kept).map
      (fun kv => jsonString kv.1)).Nodup := by
  induction l generalizing kept with
  | nil => exact h
  | cons p rest ih =>
    rw [List.foldl_cons]
    apply ih
    rw [keepMember_texts]
    by_cases hm : jsonString p.1 ∈ kept.map (fun kv => jsonString kv.1)
    · rw [if_pos hm]
      exact h
    · rw [if_neg hm, List.nodup_append]
      refine ⟨h, by simp, ?_⟩
      intro a ha hb
      simp only [List.mem_singleton] at hb
      exact hm (hb ▸ ha)

theorem foldl_keepMember_distinct {V : Type} (l kept : List (Str × V))
    (h : ((kept ++ l).map (fun kv => jsonString kv.1)).Nodup) :
    l.foldl (fun kept kv => keepMember kv.1 kv.2 kept) kept = kept ++ l := by
  induction l generalizing kept with
  | nil => simp
  | cons p rest ih =>
    rw [List.foldl_cons]
    have hm : jsonString p.1 ∉ kept.map (fun kv => jsonString kv.1) := by
      rw [List.map_append, List.map_cons, List.nodup_append] at h
      intro c
      exact h.2.2 c (List.mem_cons_self _ _)
    rw [keepMember_new p.1 p.2 kept hm, ih]
    · simp
    · simpa using h

theorem jsonObject_keys {V : Type} (f : V → V) (l : List (Str × V)) :
    (jsonObject f l).map (·.1) =
      (l.foldl (fun kept kv => keepMember kv.1 kv.2 kept) []).map (fun kv => jsonString kv.1) := by
  unfold jsonObject
  rw [List.map_map]
  rfl

/-- What JSON carries of a map is carried unchanged. -/
theorem jsonObject_normal {V : Type} (f : V → V) (hf : ∀ v, f (f v) = f v)
    (l : List (Str × V)) : normalEntries f (jsonObject f l) := by
  constructor
  · rw [jsonObject_keys]
    exact foldl_keepMember_texts_nodup l [] List.nodup_nil
  · intro p hp
    unfold jsonObject at hp
    rw [List.mem_map] at hp
    obtain ⟨q, _, rfl⟩ := hp
    exact ⟨jsonString_idem _, hf _⟩

/-- A map with distinct keys that JSON carries unchanged: only the values
change. -/
theorem jsonObject_of_keys {V : Type} (f : V → V) (l : List (Str × V))
    (hn : (l.map (·.1)).Nodup) (hk : ∀ p ∈ l, jsonString p.1 = p.1) :
    jsonObject f l = l.map (fun kv => (kv.1, f kv.2)) := by
  have ht : l.map (fun kv => jsonString kv.1) = l.map (·.1) :=
    List.map_congr_left (fun p hp => hk p hp)
  unfold jsonObject
  rw [foldl_keepMember_distinct l [] (by rw [List.nil_append, ht]; exact hn), List.nil_append]
  apply List.map_congr_left
  intro p hp
  rw [hk p hp]

theorem jsonObject_of_normal {V : Type} (f : V → V) (l : List (Str × V))
    (h : normalEntries f l) : jsonObject f l = l := by
  rw [jsonObject_of_keys f l h.1 (fun p hp => (h.2 p hp).1)]
  conv_rhs => rw [← List.map_id l]
  apply List.map_congr_left
  intro p hp
  rw [(h.2 p hp).2]
  rfl

theorem setEntry_keys {V : Type} (k : Str) (v : V) (l : List (Str × V)) :
    (setEntry k v l).map (·.1) =
      if k ∈ l.map (·.1) then l.map (·.1) else l.map (·.1) ++ [k] := by
  induction l with
  | nil => rfl
  | cons p rest ih =>
    obtain ⟨k1, v1⟩ := p
    by_cases h : k1 = k
    · subst h
      simp only [setEntry, if_true, List.map_cons]
      rw [if_pos (List.mem_cons_self _ _)]
    · simp only [setEntry, if_neg h, List.map_cons, ih]
      have hne : ¬ k = k1 := fun e => h e.symm
      by_cases hm : k ∈ rest.map (·.1)
      · rw [if_pos hm, if_pos (List.mem_cons_of_mem _ hm)]
      · have hm2 : k ∉ k1 :: rest.map (·.1) := by
          intro c
          rcases List.mem_cons.1 c with c | c
          · exact hne c
          · exact hm c
        rw [if_neg hm, if_neg hm2]
        rfl

theorem mem_setEntry {V : Type} (k : Str) (v : V) (l : List (Str × V)) (p : Str × V)
    (hp : p ∈ setEntry k v l) : p = (k, v) ∨ p ∈ l := by
  induction l with
  | nil =>
    simp only [setEntry, List.mem_singleton] at hp
    exact Or.inl hp
  | cons q rest ih =>
    obtain ⟨k1, v1⟩ := q
    by_cases h : k1 = k
    · simp only [setEntry, if_pos h, List.mem_cons] at hp
      rcases hp with hp | hp
      · exact Or.inl hp
      · exact Or.inr (List.mem_cons_of_mem _ hp)
    · simp only [setEntry, if_neg h, List.mem_cons] at hp
      rcases hp with hp | hp
      · exact Or.inr (hp ▸ List.mem_cons_self _ _)
      · rcases ih hp with h1 | h1
        · exact Or.inl h1
        · exact Or.inr (List.mem_cons_of_mem _ h1)

theorem setEntry_keys_nodup {V : Type} (k : Str) (v : V) (l : List (Str × V))
    (h : (l.map (·.1)).Nodup) : ((setEntry k v l).map (·.1)).Nodup := by
  rw [setEntry_keys]
  by_cases hm : k ∈ l.map (·.1)
  · rw [if_pos hm]
    exact h
  · rw [if_neg hm, List.nodup_append]
    refine ⟨h, List.nodup_singleton _, ?_⟩
    intro a ha hb
    rw [List.mem_singleton] at hb
    exact hm (hb ▸ ha)

theorem normalEntries_setEntry {V : Type} (f : V → V) (k : Str) (v : V) (l : List (Str × V))
    (h : normalEntries f l) (hk : jsonString k = k) (hv : f v = v) :
    normalEntries f (setEntry k v l) := by
  refine ⟨setEntry_keys_nodup k v l h.1, ?_⟩
  intro p hp
  rcases mem_setEntry k v l p hp with rfl | hp
  · exact ⟨hk, hv⟩
  · exact h.2 p hp

theorem map_setEntry {V : Type} (f : V → V) (k : Str) (v : V) (l : List (Str × V)) :
    (setEntry k v l).map (fun kv => (kv.1, f kv.2)) =
      setEntry k (f v) (l.map (fun kv => (kv.1, f kv.2))) := by
  induction l with
  | nil => rfl
  | cons p rest ih =>
    obtain ⟨k1, v1⟩ := p
    by_cases h : k1 = k
    · simp only [setEntry, if_pos h, List.map_cons]
    · simp only [setEntry, if_neg h, List.map_cons, ih]

/-- What JSON carries of the entries of a normal map after an assignment to a
key it carries unchanged. -/
theorem jsonObject_setEntry {V : Type} (f : V → V) (k : Str) (v : V) (l : List (Str × V))
    (h : normalEntries f l) (hk : jsonString k = k) :
    jsonObject f (setEntry k v l) = setEntry k (f v) l := by
  rw [jsonObject_of_keys f _ (setEntry_keys_nodup k v l h.1), map_setEntry]
  · congr 1
    conv_rhs => rw [← List.map_id l]
    apply List.map_congr_left
    intro p hp
    rw [(h.2 p hp).2]
    rfl
  · intro p hp
    rcases mem_setEntry k v l p hp with rfl | hp
    · exact hk
    · exact (h.2 p hp).1

theorem jsonWorkspace_idem (w : Workspace) : jsonWorkspace (jsonWorkspace w) = jsonWorkspace w := by
  simp only [jsonWorkspace, jsonString_idem, List.map_map]
  congr 1
  apply List.map_congr_left
  intro c _
  exact jsonString_idem c

theorem map_jsonString_idem (l : List Str) :
    (l.map jsonString).map jsonString = l.map jsonString := by
  rw [List.map_map]
  apply List.map_congr_left
  intro c _
  exact jsonString_idem c

theorem normalMeta_jsonMeta (m : Meta) : normalMeta (jsonMeta m) := by
  refine ⟨jsonString_idem _, ?_, jsonString_idem _, ?_, ?_⟩
  · intro w hw
    simp only [jsonMeta, List.mem_map] at hw
    obtain ⟨w0, _, rfl⟩ := hw
    exact jsonWorkspace_idem w0
  · simp only [jsonMeta]
    cases m.Tags with
    | none => exact ⟨List.nodup_nil, fun p hp => absurd hp (List.not_mem_nil _)⟩
    | some l => exact jsonObject_normal _ map_jsonString_idem l
  · simp only [jsonMeta]
    cases m.Impacts with
    | none => exact ⟨List.nodup_nil, fun p hp => absurd hp (List.not_mem_nil _)⟩
    | some l => exact jsonObject_normal _ jsonString_idem l

theorem jsonMeta_of_normal (m : Meta) (h : normalMeta m) : jsonMeta m = m := by
  obtain ⟨h1, h2, h3, h4, h5⟩ := h
  obtain ⟨sch, ver, ws, tags, act, imp⟩ := m
  simp only [jsonMeta, Meta.mk.injEq]
  refine ⟨h1, trivial, ?_, ?_, h3, ?_⟩
  · conv_rhs => rw [← List.map_id ws]
    exact List.map_congr_left (fun w hw => h2 w hw)
  · cases tags with
    | none => rfl
    | some l => exact congrArg some (jsonObject_of_normal _ l h4)
  · cases imp with
    | none => rfl
    | some l => exact congrArg some (jsonObject_of_normal _ l h5)

theorem jsonMeta_idem (m : Meta) : jsonMeta (jsonMeta m) = jsonMeta m :=
  jsonMeta_of_normal _ (normalMeta_jsonMeta m)

/-! ## Facts about `Load` and `Save` -/

theorem Load_some (doc : Meta) :
    Load (some doc) =
      { jsonMeta doc with
        Tags := some ((jsonMeta doc).Tags.getD []),
        Impacts := some ((jsonMeta doc).Impacts.getD []),
        Version := if doc.Version = 0 then 1 else doc.Version } := by
  have e : ∀ m : Meta,
      (let m1 := if m.Tags = none then { m with Tags := some [] } else m
       let m2 := if m1.Impacts = none then { m1 with Impacts := some [] } else m1
       if m2.Version = 0 then { m2 with Version := 1 } else m2) =
      { m with
        Tags := some (m.Tags.getD []),
        Impacts := some (m.Impacts.getD []),
        Version := if m.Version = 0 then 1 else m.Version } := by
    intro m
    obtain ⟨sch, ver, ws, tags, act, imp⟩ := m
    cases tags <;> cases imp <;> by_cases hv : ver = 0 <;> simp [hv]
  exact e (jsonMeta doc)

/-- What `Load` returns for a stored document that JSON carries unchanged. -/
theorem Load_some_normal (m : Meta) (h : normalMeta m) :
    Load (some m) =
      { m with
        Tags := some (m.Tags.getD []),
        Impacts := some (m.Impacts.getD []),
        Version := if m.Version = 0 then 1 else m.Version } := by
  rw [Load_some, jsonMeta_of_normal m h]

theorem Load_tags_ne_none (store : Store) : ∃ entries, (Load store).Tags = some entries := by
  cases store with
  | none => exact ⟨[], rfl⟩
  | some m => exact ⟨(jsonMeta m).Tags.getD [], by rw [Load_some]⟩

theorem normalEntries_nil {V : Type} (f : V → V) : normalEntries f ([] : List (Str × V)) :=
  ⟨List.nodup_nil, fun _ hp => absurd hp (List.not_mem_nil _)⟩

/-- The document `Load` returns is one that JSON carries unchanged. -/
theorem Load_normal (store : Store) : normalMeta (Load store) := by
  cases store with
  | none =>
    exact ⟨rfl, fun w hw => absurd hw (List.not_mem_nil _), rfl, normalEntries_nil _,
      normalEntries_nil _⟩
  | some doc =>
    rw [Load_some]
    obtain ⟨h1, h2, h3, h4, h5⟩ := normalMeta_jsonMeta doc
    exact ⟨h1, h2, h3, h4, h5⟩

/-- The store holds no document or one that JSON carries unchanged. -/
theorem Save_normal (store : Store) (m d : Meta) (h : (Save store m).2 = some d) :
    normalMeta d := by
  simp only [Save, Option.some.injEq] at h
  rw [← h]
  exact normalMeta_jsonMeta m

/-- What `Load` returns after `Save`. -/
theorem Load_Save (store : Store) (m : Meta) :
    Load (Save store m).2 =
      { jsonMeta m with
        Tags := some ((jsonMeta m).Tags.getD []),
        Impacts := some ((jsonMeta m).Impacts.getD []),
        Version := if m.Version = 0 then 1 else m.Version } := by
  show Load (some (jsonMeta m)) = _
  rw [Load_some, jsonMeta_idem]
  rfl

theorem Load_workspaces (store : Store) :
    workspaceIDs (Load store) = (storedIDs store).map jsonString := by
  cases store with
  | none => rfl
  | some m =>
    rw [Load_some]
    simp only [workspaceIDs, storedIDs, jsonMeta, List.map_map]
    rfl

theorem workspaceIDs_normal (m : Meta) (h : normalMeta m) (id : Str)
    (hid : id ∈ workspaceIDs m) : jsonString id = id := by
  unfold workspaceIDs at hid
  rw [List.mem_map] at hid
  obtain ⟨w, hw, rfl⟩ := hid
  have := h.2.1 w hw
  exact congrArg Workspace.ID this

/-- Saving a document that differs from a normal one in its workspaces. -/
theorem jsonMeta_workspaces (m : Meta) (h : normalMeta m) (ws : List Workspace) :
    jsonMeta { m with Workspaces := ws } = { m with Workspaces := ws.map jsonWorkspace } := by
  have e := jsonMeta_of_normal m h
  obtain ⟨sch, ver, ws0, tags, act, imp⟩ := m
  simp only [jsonMeta, Meta.mk.injEq] at e ⊢
  exact ⟨e.1, trivial, trivial, e.2.2.2.1, e.2.2.2.2.1, e.2.2.2.2.2⟩

theorem jsonMeta_active (m : Meta) (h : normalMeta m) (id : Str) :
    jsonMeta { m with ActiveWorkspace := id } = { m with ActiveWorkspace := jsonString id } := by
  have e := jsonMeta_of_normal m h
  obtain ⟨sch, ver, ws0, tags, act, imp⟩ := m
  simp only [jsonMeta, Meta.mk.injEq] at e ⊢
  exact ⟨e.1, trivial, e.2.2.1, e.2.2.2.1, trivial, e.2.2.2.2.2⟩

theorem jsonMeta_tags (m : Meta) (h : normalMeta m) (entries : List (Str × List Str)) :
    jsonMeta { m with Tags := some entries } =
      { m with Tags := some (jsonObject (List.map jsonString) entries) } := by
  have e := jsonMeta_of_normal m h
  obtain ⟨sch, ver, ws0, tags, act, imp⟩ := m
  simp only [jsonMeta, Meta.mk.injEq] at e ⊢
  exact ⟨e.1, trivial, e.2.2.1, rfl, e.2.2.2.2.1, e.2.2.2.2.2⟩

theorem jsonMeta_impacts (m : Meta) (h : normalMeta m) (entries : List (Str × Str)) :
    jsonMeta { m with Impacts := some entries } =
      { m with Impacts := some (jsonObject jsonString entries) } := by
  have e := jsonMeta_of_normal m h
  obtain ⟨sch, ver, ws0, tags, act, imp⟩ := m
  simp only [jsonMeta, Meta.mk.injEq] at e ⊢
  exact ⟨e.1, trivial, e.2.2.1, e.2.2.2.1, e.2.2.2.2.1, rfl⟩

/-- What `Load` returns for a saved document that JSON carries unchanged and
whose Tags map is initialised. -/
theorem Load_saved (m : Meta) (hn : normalMeta m) (hw : ∃ e, m.Tags = some e) :
    (Load (some m)).Workspaces = m.Workspaces ∧ (Load (some m)).Tags = m.Tags ∧
      (Load (some m)).ActiveWorkspace = m.ActiveWorkspace ∧
      (Load (some m)).Schema = m.Schema ∧
      (∀ k, (Load (some m)).Impacts.get k = m.Impacts.get k) := by
  obtain ⟨e, he⟩ := hw
  rw [Load_some_normal m hn]
  refine ⟨rfl, by simp [he], rfl, rfl, ?_⟩
  intro k
  cases h : m.Impacts <;> simp [GoMap.get]

/-! ## Facts about the entries of a map -/

theorem lookup_setEntry_self {V : Type} (k : Str) (v : V) (l : List (Str × V)) :
    (setEntry k v l).lookup k = some v := by
  induction l with
  | nil => simp [setEntry, List.lookup]
  | cons p rest ih =>
    obtain ⟨k1, v1⟩ := p
    by_cases h : k1 = k
    · simp [setEntry, h, List.lookup]
    · have hne : (k == k1) = false := by
        simpa using fun e : k = k1 => h e.symm
      simp [setEntry, h, List.lookup, hne, ih]

theorem lookup_setEntry_ne {V : Type} (k k2 : Str) (v : V) (l : List (Str × V)) (h2 : k2 ≠ k) :
    (setEntry k v l).lookup k2 = l.lookup k2 := by
  induction l with
  | nil =>
    have hne : (k2 == k) = false := by simpa using h2
    simp [setEntry, List.lookup, hne]
  | cons p rest ih =>
    obtain ⟨k1, v1⟩ := p
    by_cases h : k1 = k
    · subst h
      have hne : (k2 == k1) = false := by simpa using h2
      simp [setEntry, List.lookup, hne]
    · by_cases h3 : k2 = k1
      · subst h3
        simp [setEntry, h, List.lookup]
      · have hne : (k2 == k1) = false := by simpa using h3
        simp [setEntry, h, List.lookup, hne, ih]

theorem any_id_iff (ws : List Workspace) (id : Str) :
    ws.any (fun w => decide (w.ID = id)) = true ↔ id ∈ ws.map (·.ID) := by
  simp only [List.any_eq_true, decide_eq_true_eq, List.mem_map]

theorem GoMap_get_eq_lookup {V : Type} (m : GoMap V) (k : Str) :
    m.get k = (m.getD []).lookup k := by
  cases m <;> simp [GoMap.get, List.lookup]

theorem mem_of_lookup {V : Type} (k : Str) (v : V) (l : List (Str × V))
    (h : l.lookup k = some v) : (k, v) ∈ l := by
  induction l with
  | nil => simp [List.lookup] at h
  | cons p rest ih =>
    obtain ⟨k1, v1⟩ := p
    by_cases hk : k = k1
    · subst hk
      simp only [List.lookup, beq_self_eq_true, Option.some.injEq] at h
      subst h
      exact List.mem_cons_self _ _
    · have hne : (k == k1) = false := by simpa using hk
      simp only [List.lookup, hne] at h
      exact List.mem_cons_of_mem _ (ih h)

/-- The tags `Load` returns for a commit are carried unchanged by JSON. -/
theorem tagsOf_normal (m : Meta) (h : normalMeta m) (k : Str) :
    (tagsOf m k).map jsonString = tagsOf m k := by
  unfold tagsOf
  rw [GoMap_get_eq_lookup]
  cases hl : (m.Tags.getD []).lookup k with
  | none => rfl
  | some ts => exact (h.2.2.2.1.2 (k, ts) (mem_of_lookup k ts _ hl)).2

theorem mem_of_map_eq_self (f : Str → Str) (l : List Str) (h : l.map f = l) :
    ∀ x ∈ l, f x = x := by
  induction l with
  | nil =>
    intro x hx
    exact absurd hx (List.not_mem_nil _)
  | cons a rest ih =>
    simp only [List.map_cons, List.cons.injEq] at h
    intro x hx
    rcases List.mem_cons.1 hx with rfl | hx
    · exact h.1
    · exact ih h.2 x hx

/-- The tags `Load` returns for a commit are valid UTF-8. -/
theorem tagsOf_valid (m : Meta) (h : normalMeta m) (k t : Str) (ht : t ∈ tagsOf m k) :
    ValidString t = true :=
  (jsonString_eq_iff t).1 (mem_of_map_eq_self jsonString _ (tagsOf_normal m h k) t ht)

/-- The commits `Load` returns for a workspace are valid UTF-8. -/
theorem commitsOf_valid (m : Meta) (h : normalMeta m) (id : Str) (cs : List Str)
    (hc : commitsOf id m = some cs) (c : Str) (hm : c ∈ cs) : ValidString c = true := by
  unfold commitsOf at hc
  cases hf : m.Workspaces.find? (fun w => decide (w.ID = id)) with
  | none => simp [hf] at hc
  | some w =>
    simp only [hf, Option.map_some', Option.some.injEq] at hc
    have hw : jsonWorkspace w = w := h.2.1 w (List.mem_of_find?_eq_some hf)
    have hcs : w.Commits.map jsonString = w.Commits := congrArg Workspace.Commits hw
    rw [hc] at hcs
    exact (jsonString_eq_iff c).1 (mem_of_map_eq_self jsonString _ hcs c hm)

/-- A key for which a normal map holds a value is valid UTF-8. -/
theorem key_valid {V : Type} (f : V → V) (l : List (Str × V)) (h : normalEntries f l)
    (k : Str) (v : V) (hl : l.lookup k = some v) : ValidString k = true :=
  (jsonString_eq_iff k).1 (h.2 (k, v) (mem_of_lookup k v l hl)).1

/-! ## The documents the operations save -/

theorem normalMeta_workspaces (m : Meta) (h : normalMeta m) (ws : List Workspace)
    (hws : ∀ w ∈ ws, jsonWorkspace w = w) : normalMeta { m with Workspaces := ws } :=
  ⟨h.1, hws, h.2.2.1, h.2.2.2.1, h.2.2.2.2⟩

theorem normalMeta_active (m : Meta) (h : normalMeta m) (id : Str) (hid : jsonString id = id) :
    normalMeta { m with ActiveWorkspace := id } :=
  ⟨h.1, h.2.1, hid, h.2.2.2.1, h.2.2.2.2⟩

theorem normalMeta_tags (m : Meta) (h : normalMeta m) (entries : List (Str × List Str))
    (he : normalEntries (List.map jsonString) entries) :
    normalMeta { m with Tags := some entries } :=
  ⟨h.1, h.2.1, h.2.2.1, he, h.2.2.2.2⟩

theorem normalMeta_impacts (m : Meta) (h : normalMeta m) (entries : List (Str × Str))
    (he : normalEntries jsonString entries) :
    normalMeta { m with Impacts := some entries } :=
  ⟨h.1, h.2.1, h.2.2.1, h.2.2.2.1, he⟩

theorem jsonWorkspace_newWorkspace (id name desc : Str) :
    jsonWorkspace (newWorkspace id name desc) =
      newWorkspace (jsonString id) (jsonString name) (jsonString desc) := by
  simp only [jsonWorkspace, newWorkspace, List.map_nil, Workspace.mk.injEq, and_true, true_and]
  decide

theorem map_jsonWorkspace_normal (ws : List Workspace) (h : ∀ w ∈ ws, jsonWorkspace w = w) :
    ws.map jsonWorkspace = ws := by
  conv_rhs => rw [← List.map_id ws]
  exact List.map_congr_left (fun w hw => h w hw)

theorem CreateWorkspace_eq (store : Store) (id name desc : Str) :
    CreateWorkspace store id name desc =
      (if id ∈ workspaceIDs (Load store) then (some (.workspaceExists id), store)
       else
        (none, some { Load store with
          Workspaces := (Load store).Workspaces ++
            [newWorkspace (jsonString id) (jsonString name) (jsonString desc)] })) := by
  have hany := any_id_iff (Load store).Workspaces id
  by_cases hid : id ∈ workspaceIDs (Load store)
  · have ha : (Load store).Workspaces.any (fun w => decide (w.ID = id)) = true := hany.2 hid
    rw [if_pos hid]
    simp only [CreateWorkspace]
    rw [if_pos ha]
  · have ha : ¬ (Load store).Workspaces.any (fun w => decide (w.ID = id)) = true :=
      fun c => hid (hany.1 c)
    rw [if_neg hid]
    simp only [CreateWorkspace]
    rw [if_neg ha]
    show (none, some (jsonMeta { Load store with
      Workspaces := (Load store).Workspaces ++ [newWorkspace id name desc] })) = _
    rw [jsonMeta_workspaces _ (Load_normal store), List.map_append,
      map_jsonWorkspace_normal _ (Load_normal store).2.1, List.map_singleton,
      jsonWorkspace_newWorkspace]

/-- The active-workspace id `SetActiveWorkspace` saves is one JSON carries
unchanged. -/
theorem active_id_normal (store : Store) (id : Str)
    (hc : ¬ (id ≠ [] ∧ id ∉ workspaceIDs (Load store))) : jsonString id = id := by
  by_cases h0 : id = []
  · rw [h0]
    rfl
  · apply workspaceIDs_normal (Load store) (Load_normal store)
    by_contra hn
    exact hc ⟨h0, hn⟩

theorem SetActiveWorkspace_eq (store : Store) (id : Str) :
    SetActiveWorkspace store id =
      (if id ≠ [] ∧ id ∉ workspaceIDs (Load store) then (some (.workspaceNotFound id), store)
       else (none, some { Load store with ActiveWorkspace := id })) := by
  have hany := any_id_iff (Load store).Workspaces id
  by_cases hc : id ≠ [] ∧ id ∉ workspaceIDs (Load store)
  · have hc2 : id ≠ [] ∧ ¬ (Load store).Workspaces.any (fun w => decide (w.ID = id)) = true :=
      ⟨hc.1, fun c => hc.2 (hany.1 c)⟩
    rw [if_pos hc]
    simp only [SetActiveWorkspace]
    rw [if_pos hc2]
  · have hc2 : ¬ (id ≠ [] ∧ ¬ (Load store).Workspaces.any (fun w => decide (w.ID = id)) = true) :=
      fun c => hc ⟨c.1, fun d => c.2 (hany.2 d)⟩
    rw [if_neg hc]
    simp only [SetActiveWorkspace]
    rw [if_neg hc2]
    show (none, some (jsonMeta { Load store with ActiveWorkspace := id })) = _
    rw [jsonMeta_active _ (Load_normal store), active_id_normal store id hc]

theorem AddTag_saved (store : Store) (h t : Str) :
    AddTag store h t =
      (if t ∈ tagsOf (Load store) h then (none, store)
       else
        (none, some { Load store with
          Tags := some (jsonObject (List.map jsonString)
            (setEntry h (tagsOf (Load store) h ++ [t]) ((Load store).Tags.getD []))) })) := by
  have e : tagsOf (Load store) h = (((Load store).Tags.getD []).lookup h).getD [] := by
    rw [tagsOf, GoMap_get_eq_lookup]
  rw [e]
  simp only [AddTag]
  by_cases ht : t ∈ (((Load store).Tags.getD []).lookup h).getD []
  · rw [if_pos ht, if_pos ht]
  · rw [if_neg ht, if_neg ht]
    show (none, some (jsonMeta { Load store with Tags := some _ })) = _
    rw [jsonMeta_tags _ (Load_normal store)]

theorem AddTag_eq (store : Store) (h t : Str) (hh : jsonString h = h) :
    AddTag store h t =
      (if t ∈ tagsOf (Load store) h then (none, store)
       else
        (none, some { Load store with
          Tags := some (setEntry h (tagsOf (Load store) h ++ [jsonString t])
            ((Load store).Tags.getD [])) })) := by
  rw [AddTag_saved, jsonObject_setEntry _ _ _ _ (Load_normal store).2.2.2.1 hh, List.map_append,
    tagsOf_normal _ (Load_normal store), List.map_singleton]

theorem AddImpact_saved (store : Store) (h l : Str) :
    AddImpact store h l =
      (none, some { Load store with
        Impacts := some (jsonObject jsonString
          (setEntry h l ((Load store).Impacts.getD []))) }) := by
  show (none, some (jsonMeta { Load store with Impacts := some _ })) = _
  rw [jsonMeta_impacts _ (Load_normal store)]

theorem AddImpact_eq (store : Store) (h l : Str) (hh : jsonString h = h) :
    AddImpact store h l =
      (none, some { Load store with
        Impacts := some (setEntry h (jsonString l) ((Load store).Impacts.getD [])) }) := by
  rw [AddImpact_saved, jsonObject_setEntry _ _ _ _ (Load_normal store).2.2.2.2 hh]

theorem addCommitLoop_eq (id h : Str) (ws : List Workspace) :
    addCommitLoop id h ws =
      match ws.find? (fun w => decide (w.ID = id)) with
      | none => .notFound
      | some w =>
        if h ∈ w.Commits then .alreadyMember else .appended (appendCommit id h ws) := by
  induction ws with
  | nil => rfl
  | cons w rest ih =>
    by_cases hw : w.ID = id
    · have hf : (w :: rest).find? (fun w => decide (w.ID = id)) = some w := by
        simp [List.find?, hw]
      rw [hf]
      simp only [addCommitLoop, appendCommit, if_pos hw]
    · have hf : (w :: rest).find? (fun w => decide (w.ID = id)) =
          rest.find? (fun w => decide (w.ID = id)) := by
        simp [List.find?, hw]
      rw [hf]
      simp only [addCommitLoop, appendCommit, if_neg hw, ih]
      cases rest.find? (fun w => decide (w.ID = id)) with
      | none => rfl
      | some w1 =>
        by_cases hm : h ∈ w1.Commits
        · simp only [if_pos hm]
        · simp only [if_neg hm]

theorem find?_appendCommit (id h : Str) (ws : List Workspace) :
    (appendCommit id h ws).find? (fun w => decide (w.ID = id)) =
      (ws.find? (fun w => decide (w.ID = id))).map
        (fun w => { w with Commits := w.Commits ++ [h] }) := by
  induction ws with
  | nil => rfl
  | cons w rest ih =>
    by_cases hw : w.ID = id
    · simp [appendCommit, List.find?, hw]
    · simp [appendCommit, List.find?, hw, ih]

theorem appendCommit_ids (id h : Str) (ws : List Workspace) :
    (appendCommit id h ws).map (·.ID) = ws.map (·.ID) := by
  induction ws with
  | nil => rfl
  | cons w rest ih =>
    by_cases hw : w.ID = id
    · simp [appendCommit, hw]
    · simp [appendCommit, hw, ih]

theorem commitsOf_eq_none (id : Str) (m : Meta) :
    commitsOf id m = none ↔ id ∉ workspaceIDs m := by
  unfold commitsOf workspaceIDs
  rw [Option.map_eq_none', List.find?_eq_none]
  simp only [decide_eq_true_eq, List.mem_map, not_exists, not_and]

/-- What JSON carries of normal workspaces after a commit is appended. -/
theorem map_jsonWorkspace_appendCommit (id h : Str) (ws : List Workspace)
    (hws : ∀ w ∈ ws, jsonWorkspace w = w) :
    (appendCommit id h ws).map jsonWorkspace = appendCommit id (jsonString h) ws := by
  induction ws with
  | nil => rfl
  | cons w rest ih =>
    have hw0 : jsonWorkspace w = w := hws w (List.mem_cons_self _ _)
    have hrest : ∀ x ∈ rest, jsonWorkspace x = x := fun x hx => hws x (List.mem_cons_of_mem _ hx)
    by_cases hw : w.ID = id
    · simp only [appendCommit, if_pos hw, List.map_cons, map_jsonWorkspace_normal rest hrest]
      congr 1
      obtain ⟨i, n, d, cs, st⟩ := w
      simp only [jsonWorkspace, Workspace.mk.injEq] at hw0 ⊢
      refine ⟨hw0.1, hw0.2.1, hw0.2.2.1, ?_, hw0.2.2.2.2⟩
      rw [List.map_append, hw0.2.2.2.1, List.map_singleton]
    · simp only [appendCommit, if_neg hw, List.map_cons, ih hrest, hw0]

theorem AddCommitToWorkspace_eq (store : Store) (id h : Str) :
    AddCommitToWorkspace store id h =
      match commitsOf id (Load store) with
      | none => (some (.workspaceNotFound id), store)
      | some cs =>
        if h ∈ cs then (none, store)
        else
          (none, some { Load store with
            Workspaces := appendCommit id (jsonString h) (Load store).Workspaces }) := by
  simp only [AddCommitToWorkspace, commitsOf, addCommitLoop_eq]
  cases (Load store).Workspaces.find? (fun w => decide (w.ID = id)) with
  | none => rfl
  | some w =>
    by_cases hm : h ∈ w.Commits
    · simp only [Option.map_some', if_pos hm]
    · simp only [Option.map_some', if_neg hm]
      show (none, some (jsonMeta { Load store with Workspaces := _ })) = _
      rw [jsonMeta_workspaces _ (Load_normal store),
        map_jsonWorkspace_appendCommit _ _ _ (Load_normal store).2.1]

/-- Every operation leaves in the store a document that JSON carries
unchanged. -/
theorem call_normal (op : Op) (store : Store) (h : normalStore store) :
    normalStore (op.call store).2 := by
  have hs : ∀ m, normalStore (Save store m).2 := fun m d hd => Save_normal store m d hd
  cases op with
  | createWorkspace id name desc =>
    simp only [Op.call, CreateWorkspace]
    split
    · exact h
    · exact hs _
  | setActiveWorkspace id =>
    simp only [Op.call, SetActiveWorkspace]
    split
    · exact h
    · exact hs _
  | addCommitToWorkspace w c =>
    simp only [Op.call, AddCommitToWorkspace]
    split
    · exact h
    · exact h
    · exact hs _
  | addTag c t =>
    simp only [Op.call, AddTag]
    split
    · exact h
    · exact hs _
  | addImpact c l => exact hs _

theorem runOps_normal (ops : List Op) (store : Store) (h : normalStore store) :
    normalStore (runOps store ops) := by
  induction ops generalizing store with
  | nil => exact h
  | cons op rest ih =>
    unfold runOps
    rw [List.foldl_cons]
    exact ih _ (call_normal op store h)

theorem normalStore_none : normalStore none := fun _ hm => by cases hm

theorem normalStore_Bootstrap : normalStore (Bootstrap none).2 :=
  fun d hd => Save_normal none initialMeta d hd

/-- The ids of a stored document that JSON carries unchanged are the ids `Load`
returns. -/
theorem storedIDs_normal (store : Store) (h : normalStore store) :
    storedIDs store = workspaceIDs (Load store) := by
  cases store with
  | none => rfl
  | some m =>
    rw [Load_some_normal m (h m rfl)]
    rfl

/-! ## Claims about the ids of the workspaces -/

theorem call_preserves_unique (op : Op) (store : Store)
    (hv : ∀ id ∈ createdIDs [op], ValidString id = true)
    (h : (workspaceIDs (Load store)).Nodup) :
    (workspaceIDs (Load (op.call store).2)).Nodup := by
  have hn := Load_normal store
  cases op with
  | createWorkspace id name desc =>
    show (workspaceIDs (Load (CreateWorkspace store id name desc).2)).Nodup
    have hid : jsonString id = id := jsonString_valid id (hv id (by simp [createdIDs]))
    rw [CreateWorkspace_eq]
    by_cases hm : id ∈ workspaceIDs (Load store)
    · rw [if_pos hm]
      exact h
    · rw [if_neg hm, hid]
      have hnw : normalMeta { Load store with
          Workspaces := (Load store).Workspaces ++
            [newWorkspace id (jsonString name) (jsonString desc)] } := by
        apply normalMeta_workspaces _ hn
        intro w hw
        rcases List.mem_append.1 hw with hw | hw
        · exact hn.2.1 w hw
        · rw [List.mem_singleton] at hw
          rw [hw, ← hid, ← jsonWorkspace_newWorkspace, jsonWorkspace_idem]
      rw [Load_some_normal _ hnw]
      show (List.map _ ((Load store).Workspaces ++ [_])).Nodup
      rw [List.map_append, List.nodup_append]
      refine ⟨h, List.nodup_singleton _, ?_⟩
      intro a ha hb
      simp only [List.map_singleton, List.mem_singleton] at hb
      have hb2 : a = id := hb
      exact hm (hb2 ▸ ha)
  | setActiveWorkspace id =>
    show (workspaceIDs (Load (SetActiveWorkspace store id).2)).Nodup
    simp only [SetActiveWorkspace]
    split
    · exact h
    · rw [Load_Save]
      show (List.map _ (List.map jsonWorkspace (Load store).Workspaces)).Nodup
      rw [map_jsonWorkspace_normal _ hn.2.1]
      exact h
  | addCommitToWorkspace w c =>
    show (workspaceIDs (Load (AddCommitToWorkspace store w c).2)).Nodup
    rw [AddCommitToWorkspace_eq]
    cases commitsOf w (Load store) with
    | none => exact h
    | some cs =>
      by_cases hm : c ∈ cs
      · simp only [if_pos hm]
        exact h
      · simp only [if_neg hm]
        have hnw : normalMeta { Load store with
            Workspaces := appendCommit w (jsonString c) (Load store).Workspaces } := by
          apply normalMeta_workspaces _ hn
          intro x hx
          rw [← map_jsonWorkspace_appendCommit _ _ _ hn.2.1, List.mem_map] at hx
          obtain ⟨y, _, rfl⟩ := hx
          exact jsonWorkspace_idem y
        rw [Load_some_normal _ hnw]
        show (List.map _ (appendCommit w (jsonString c) (Load store).Workspaces)).Nodup
        rw [appendCommit_ids]
        exact h
  | addTag c t =>
    show (workspaceIDs (Load (AddTag store c t).2)).Nodup
    simp only [AddTag]
    split
    · exact h
    · rw [Load_Save]
      show (List.map _ (List.map jsonWorkspace (Load store).Workspaces)).Nodup
      rw [map_jsonWorkspace_normal _ hn.2.1]
      exact h
  | addImpact c l =>
    show (workspaceIDs (Load (AddImpact store c l).2)).Nodup
    simp only [AddImpact]
    rw [Load_Save]
    show (List.map _ (List.map jsonWorkspace (Load store).Workspaces)).Nodup
    rw [map_jsonWorkspace_normal _ hn.2.1]
    exact h

theorem createdIDs_cons (op : Op) (ops : List Op) :
    createdIDs (op :: ops) = createdIDs [op] ++ createdIDs ops := by
  cases op <;> rfl

theorem runOps_preserves_unique (ops : List Op) (store : Store)
    (hv : ∀ id ∈ createdIDs ops, ValidString id = true)
    (h : (workspaceIDs (Load store)).Nodup) :
    (workspaceIDs (Load (runOps store ops))).Nodup := by
  induction ops generalizing store with
  | nil => exact h
  | cons op rest ih =>
    rw [createdIDs_cons] at hv
    unfold runOps
    rw [List.foldl_cons]
    exact ih _ (fun id hid => hv id (List.mem_append_right _ hid))
      (call_preserves_unique op store (fun id hid => hv id (List.mem_append_left _ hid)) h)

/-- C10 (as stated, refuted): on the document written by `Bootstrap`,
`CreateWorkspace` called twice with the id of the one byte `0xFF` succeeds both
times, and the stored document then has two workspaces with the same id, the
encoding of U+FFFD.  Three calls with the ids `0xFF`, `0xFE` and `0xFF` store
the id U+FFFD three times, on the document written by `Bootstrap` and on a
store without a document. -/
theorem CreateWorkspace_twice_same_id :
    (CreateWorkspace (Bootstrap none).2 invalidByte "A".toList []).1 = none ∧
      (CreateWorkspace (CreateWorkspace (Bootstrap none).2 invalidByte "A".toList []).2
        invalidByte "B".toList []).1 = none ∧
      storedIDs (runOps (Bootstrap none).2
        [.createWorkspace invalidByte "A".toList [], .createWorkspace invalidByte "B".toList []]) =
        ["general".toList, replacementRune, replacementRune] ∧
      ¬ (storedIDs (runOps (Bootstrap none).2
        [.createWorkspace invalidByte "A".toList [],
         .createWorkspace invalidByte "B".toList []])).Nodup ∧
      storedIDs (runOps (Bootstrap none).2 invalidCreates) =
        ["general".toList, replacementRune, replacementRune, replacementRune] ∧
      storedIDs (runOps none invalidCreates) =
        [replacementRune, replacementRune, replacementRune] ∧
      ¬ (storedIDs (runOps none invalidCreates)).Nodup := by
  decide

/-- C10 (amended): starting from the document written by `Bootstrap`, or from
no persisted document (where `Load` returns the empty document), after any
sequence of CreateWorkspace, SetActiveWorkspace, AddCommitToWorkspace, AddTag
and AddImpact calls, whether each succeeds or fails, in which every id given
to CreateWorkspace is valid UTF-8, no two workspaces of the stored document
(and of the document `Load` returns) have the same id. -/
theorem workspace_ids_unique (ops : List Op)
    (hv : ∀ id ∈ createdIDs ops, ValidString id = true) :
    (storedIDs (runOps (Bootstrap none).2 ops)).Nodup ∧
      (storedIDs (runOps none ops)).Nodup ∧
      (workspaceIDs (Load (runOps (Bootstrap none).2 ops))).Nodup ∧
      (workspaceIDs (Load (runOps none ops))).Nodup := by
  have h1 : (workspaceIDs (Load (runOps (Bootstrap none).2 ops))).Nodup :=
    runOps_preserves_unique ops _ hv (by decide)
  have h2 : (workspaceIDs (Load (runOps none ops))).Nodup :=
    runOps_preserves_unique ops _ hv (by decide)
  rw [storedIDs_normal _ (runOps_normal ops _ normalStore_Bootstrap),
    storedIDs_normal _ (runOps_normal ops _ normalStore_none)]
  exact ⟨h1, h2, h1, h2⟩

/-- Witness of C10 (amended) on a sequence of calls that creates the workspace
`docs` twice. -/
theorem workspace_ids_unique_witness :
    (∀ id ∈ createdIDs sampleOps, ValidString id = true) ∧
      (storedIDs (runOps (Bootstrap none).2 sampleOps)).Nodup ∧
      (storedIDs (runOps none sampleOps)).Nodup ∧
      (workspaceIDs (Load (runOps (Bootstrap none).2 sampleOps))).Nodup ∧
      (workspaceIDs (Load (runOps none sampleOps))).Nodup :=
  ⟨by decide, workspace_ids_unique sampleOps (by decide)⟩

/-! ## Claims about `Load`, `Bootstrap` and `Save` -/

/-- C18: when no document is persisted `Load` returns a document with an empty
workspace list and an initialised, empty Tags map, but with a nil Impacts map;
on a persisted document it does initialise both maps. -/
theorem Load_none_impacts_nil :
    (Load none).Workspaces = [] ∧ (Load none).Tags = some [] ∧ (Load none).Impacts = none ∧
      (∀ m : Meta, (Load (some m)).Tags ≠ none ∧ (Load (some m)).Impacts ≠ none) := by
  refine ⟨rfl, rfl, rfl, ?_⟩
  intro m
  rw [Load_some]
  simp

/-- C19: on a store with no persisted document `Bootstrap` succeeds and `Load`
then returns a document with exactly one workspace, with id `general`, name
`General`, an empty commit list and status `active`; on a store that holds a
document `Bootstrap` fails and leaves the document unchanged. -/
theorem Bootstrap_spec :
    (Bootstrap none).1 = none ∧
      (Load (Bootstrap none).2).Workspaces =
        [{ ID := "general".toList, Name := "General".toList,
           Description := "Default project workspace".toList, Commits := [],
           Status := "active".toList }] ∧
      (∀ m : Meta, Bootstrap (some m) = (some .alreadyInitialized, some m)) := by
  refine ⟨rfl, by decide, ?_⟩
  intro m
  rfl

theorem all_valid_map (l : List Str) (h : l.all ValidString = true) : l.map jsonString = l := by
  conv_rhs => rw [← List.map_id l]
  apply List.map_congr_left
  intro c hc
  exact jsonString_valid c (List.all_eq_true.1 h c hc)

theorem jsonWorkspace_valid (w : Workspace) (h : validWorkspace w = true) :
    jsonWorkspace w = w := by
  obtain ⟨i, n, d, cs, st⟩ := w
  simp only [validWorkspace, Bool.and_eq_true] at h
  obtain ⟨⟨⟨⟨h1, h2⟩, h3⟩, h4⟩, h5⟩ := h
  simp only [jsonWorkspace, Workspace.mk.injEq]
  exact ⟨jsonString_valid _ h1, jsonString_valid _ h2, jsonString_valid _ h3,
    all_valid_map _ h4, jsonString_valid _ h5⟩

/-- JSON carries a document of valid UTF-8 strings unchanged. -/
theorem normalMeta_of_valid (m : Meta) (h : validMeta m) : normalMeta m := by
  obtain ⟨h1, h2, h3, h4, h5⟩ := h
  refine ⟨jsonString_valid _ h1, fun w hw => jsonWorkspace_valid w (h2 w hw),
    jsonString_valid _ h3, ⟨h4.1, ?_⟩, ⟨h5.1, ?_⟩⟩
  · intro p hp
    exact ⟨jsonString_valid _ (h4.2 p hp).1, all_valid_map _ (h4.2 p hp).2⟩
  · intro p hp
    exact ⟨jsonString_valid _ (h5.2 p hp).1, jsonString_valid _ (h5.2 p hp).2⟩

theorem normalMeta_created (store : Store) (id name desc : Str) :
    normalMeta { Load store with
      Workspaces := (Load store).Workspaces ++
        [newWorkspace (jsonString id) (jsonString name) (jsonString desc)] } := by
  apply normalMeta_workspaces _ (Load_normal store)
  intro w hw
  rcases List.mem_append.1 hw with hw | hw
  · exact (Load_normal store).2.1 w hw
  · rw [List.mem_singleton] at hw
    rw [hw, ← jsonWorkspace_newWorkspace, jsonWorkspace_idem]

/-- C12 (as stated, refuted): on the document written by `Bootstrap`,
`CreateWorkspace` with the id of the one byte `0xFF` and the name `café` in
Latin-1 succeeds, and the workspace it appends has the encoding of U+FFFD as
its id and `caf` followed by U+FFFD as its name, not the id and the name
given. -/
theorem CreateWorkspace_stores_replacement :
    (CreateWorkspace (Bootstrap none).2 invalidByte latin1Name []).1 = none ∧
      (Load (CreateWorkspace (Bootstrap none).2 invalidByte latin1Name []).2).Workspaces =
        (Load (Bootstrap none).2).Workspaces ++
          [newWorkspace replacementRune ("caf".toList ++ replacementRune) []] ∧
      newWorkspace replacementRune ("caf".toList ++ replacementRune) [] ≠
        newWorkspace invalidByte latin1Name [] ∧
      invalidByte ∉ workspaceIDs
        (Load (CreateWorkspace (Bootstrap none).2 invalidByte latin1Name []).2) := by
  decide

/-- C12 (amended): `CreateWorkspace` fails exactly when some workspace of the
document has the id, and then leaves the store unchanged; otherwise it saves
the document it loaded with one workspace appended, which has an empty commit
list, status `active`, and the given id, name and description as JSON carries
them: with each byte that is part of no valid UTF-8 encoding replaced by
U+FFFD, so the given ones themselves exactly when they are valid UTF-8; the
existing workspaces, the tags, the impacts and the active-workspace id are
unchanged. -/
theorem CreateWorkspace_spec (store : Store) (id name desc : Str) :
    ((CreateWorkspace store id name desc).1 ≠ none ↔ id ∈ workspaceIDs (Load store)) ∧
      CreateWorkspace store id name desc =
        (if id ∈ workspaceIDs (Load store) then (some (.workspaceExists id), store)
         else
          (none, some { Load store with
            Workspaces := (Load store).Workspaces ++
              [newWorkspace (jsonString id) (jsonString name) (jsonString desc)] })) ∧
      (Load (CreateWorkspace store id name desc).2).Workspaces =
        (if id ∈ workspaceIDs (Load store) then (Load store).Workspaces
         else (Load store).Workspaces ++
          [newWorkspace (jsonString id) (jsonString name) (jsonString desc)]) ∧
      (Load (CreateWorkspace store id name desc).2).Tags = (Load store).Tags ∧
      (∀ k, (Load (CreateWorkspace store id name desc).2).Impacts.get k =
        (Load store).Impacts.get k) ∧
      (Load (CreateWorkspace store id name desc).2).ActiveWorkspace =
        (Load store).ActiveWorkspace ∧
      (newWorkspace (jsonString id) (jsonString name) (jsonString desc) =
          newWorkspace id name desc ↔
        ValidString id = true ∧ ValidString name = true ∧ ValidString desc = true) := by
  have e := CreateWorkspace_eq store id name desc
  have hlast : newWorkspace (jsonString id) (jsonString name) (jsonString desc) =
        newWorkspace id name desc ↔
      ValidString id = true ∧ ValidString name = true ∧ ValidString desc = true := by
    simp only [newWorkspace, Workspace.mk.injEq, and_true, jsonString_eq_iff]
  by_cases hid : id ∈ workspaceIDs (Load store)
  · rw [if_pos hid] at e
    refine ⟨?_, ?_, ?_, ?_, ?_, ?_, hlast⟩
    · rw [e]
      simp [hid]
    · rw [e, if_pos hid]
    · rw [e, if_pos hid]
    · rw [e]
    · intro k
      rw [e]
    · rw [e]
  · rw [if_neg hid] at e
    obtain ⟨h1, h2, h3, _, h5⟩ :=
      Load_saved _ (normalMeta_created store id name desc) (Load_tags_ne_none store)
    refine ⟨?_, ?_, ?_, ?_, ?_, ?_, hlast⟩
    · rw [e]
      simp [hid]
    · rw [e, if_neg hid]
    · rw [e, if_neg hid]
      exact h1
    · rw [e]
      exact h2
    · intro k
      rw [e]
      exact h5 k
    · rw [e]
      exact h3

/-- Witness of C12 (amended) on the document written by `Bootstrap`, with the
id `docs`, the name `Docs` and an empty description. -/
theorem CreateWorkspace_spec_witness :
    ValidString "docs".toList = true ∧ ValidString "Docs".toList = true ∧
      ValidString [] = true ∧
      "docs".toList ∉ workspaceIDs (Load (Bootstrap none).2) ∧
      (Load (CreateWorkspace (Bootstrap none).2 "docs".toList "Docs".toList []).2).Workspaces =
        (if "docs".toList ∈ workspaceIDs (Load (Bootstrap none).2) then
          (Load (Bootstrap none).2).Workspaces
         else (Load (Bootstrap none).2).Workspaces ++
          [newWorkspace (jsonString "docs".toList) (jsonString "Docs".toList) (jsonString [])]) ∧
      newWorkspace (jsonString "docs".toList) (jsonString "Docs".toList) (jsonString []) =
        newWorkspace "docs".toList "Docs".toList [] :=
  ⟨by decide, by decide, by decide, by decide,
    (CreateWorkspace_spec (Bootstrap none).2 "docs".toList "Docs".toList []).2.2.1,
    (CreateWorkspace_spec (Bootstrap none).2 "docs".toList "Docs".toList []).2.2.2.2.2.2.2
      ⟨by decide, by decide, by decide⟩⟩

/-- C13: `SetActiveWorkspace` fails exactly when the id is not empty and no
workspace of the document has it, and then leaves the store unchanged;
otherwise (always for the empty id) it saves the document it loaded with the
active-workspace id set to the id.  On a persisted document nothing else
changes in what `Load` returns. -/
theorem SetActiveWorkspace_spec (store : Store) (id : Str) :
    SetActiveWorkspace store id =
        (if id ≠ [] ∧ id ∉ workspaceIDs (Load store) then (some (.workspaceNotFound id), store)
         else (none, some { Load store with ActiveWorkspace := id })) ∧
      ((SetActiveWorkspace store id).1 = none ↔ id = [] ∨ id ∈ workspaceIDs (Load store)) ∧
      (SetActiveWorkspace store []).1 = none ∧
      (Load (SetActiveWorkspace store []).2).ActiveWorkspace = [] ∧
      (∀ m : Meta, Load (SetActiveWorkspace (some m) id).2 =
        (if id ≠ [] ∧ id ∉ workspaceIDs (Load (some m)) then Load (some m)
         else { Load (some m) with ActiveWorkspace := id })) := by
  have hnil : ¬ (([] : Str) ≠ [] ∧ ([] : Str) ∉ workspaceIDs (Load store)) := fun c => c.1 rfl
  refine ⟨SetActiveWorkspace_eq store id, ?_, ?_, ?_, ?_⟩
  · rw [SetActiveWorkspace_eq store id]
    by_cases hc : id ≠ [] ∧ id ∉ workspaceIDs (Load store)
    · rw [if_pos hc]
      constructor
      · intro h
        exact absurd h (by simp)
      · rintro (h | h)
        · exact absurd h hc.1
        · exact absurd h hc.2
    · rw [if_neg hc]
      refine ⟨fun _ => ?_, fun _ => rfl⟩
      by_cases h0 : id = []
      · exact Or.inl h0
      · right
        by_contra hn
        exact hc ⟨h0, hn⟩
  · rw [SetActiveWorkspace_eq store [], if_neg hnil]
  · rw [SetActiveWorkspace_eq store [], if_neg hnil]
    exact (Load_saved { Load store with ActiveWorkspace := [] }
      (normalMeta_active _ (Load_normal store) [] rfl) (Load_tags_ne_none store)).2.2.1
  · intro m
    rw [SetActiveWorkspace_eq (some m) id]
    by_cases hc : id ≠ [] ∧ id ∉ workspaceIDs (Load (some m))
    · rw [if_pos hc, if_pos hc]
    · rw [if_neg hc, if_neg hc]
      show Load (some { Load (some m) with ActiveWorkspace := id }) = _
      rw [Load_some_normal _
        (normalMeta_active _ (Load_normal (some m)) id (active_id_normal (some m) id hc)),
        Load_some m]
      by_cases hv : m.Version = 0 <;> simp [hv]

/-! ## Claims about `AddTag` and `AddImpact` -/

/-- What `Load` returns after `AddTag`, apart from the tags. -/
theorem AddTag_others (store : Store) (h t : Str) :
    (Load (AddTag store h t).2).Workspaces = (Load store).Workspaces ∧
      (∀ k, (Load (AddTag store h t).2).Impacts.get k = (Load store).Impacts.get k) ∧
      (Load (AddTag store h t).2).ActiveWorkspace = (Load store).ActiveWorkspace := by
  rw [AddTag_saved]
  by_cases ht : t ∈ tagsOf (Load store) h
  · rw [if_pos ht]
    exact ⟨rfl, fun _ => rfl, rfl⟩
  · rw [if_neg ht]
    obtain ⟨h1, _, h3, _, h5⟩ :=
      Load_saved _ (normalMeta_tags _ (Load_normal store) _
        (jsonObject_normal _ map_jsonString_idem
          (setEntry h (tagsOf (Load store) h ++ [t]) ((Load store).Tags.getD []))))
        ⟨_, rfl⟩
    exact ⟨h1, h5, h3⟩

/-- C16 (as stated, refuted): on the document written by `Bootstrap`, `AddTag`
called twice for the commit `h1` with the tag of the one byte `0xFF` succeeds
both times and stores the tag twice, as the encoding of U+FFFD; the second call
changes the store. -/
theorem AddTag_twice_stored :
    (AddTag (Bootstrap none).2 "h1".toList invalidByte).1 = none ∧
      (AddTag (AddTag (Bootstrap none).2 "h1".toList invalidByte).2 "h1".toList
        invalidByte).1 = none ∧
      tagsOf (Load (AddTag (Bootstrap none).2 "h1".toList invalidByte).2) "h1".toList =
        [replacementRune] ∧
      tagsOf (Load (AddTag (AddTag (Bootstrap none).2 "h1".toList invalidByte).2 "h1".toList
        invalidByte).2) "h1".toList = [replacementRune, replacementRune] ∧
      (AddTag (AddTag (Bootstrap none).2 "h1".toList invalidByte).2 "h1".toList invalidByte).2 ≠
        (AddTag (Bootstrap none).2 "h1".toList invalidByte).2 := by
  decide

/-- The tags of a commit after `AddTag` for a hash that JSON carries unchanged. -/
theorem tagsOf_AddTag (store : Store) (h t : Str) (hk : jsonString h = h) :
    tagsOf (Load (AddTag store h t).2) h =
      (if t ∈ tagsOf (Load store) h then tagsOf (Load store) h
       else tagsOf (Load store) h ++ [jsonString t]) := by
  have e := AddTag_eq store h t hk
  by_cases ht : t ∈ tagsOf (Load store) h
  · rw [if_pos ht] at e ⊢
    rw [e]
  · rw [if_neg ht] at e ⊢
    have hnorm : normalMeta { Load store with
          Tags := some (setEntry h (tagsOf (Load store) h ++ [jsonString t])
            ((Load store).Tags.getD [])) } := by
      apply normalMeta_tags _ (Load_normal store)
      apply normalEntries_setEntry _ _ _ _ (Load_normal store).2.2.2.1 hk
      rw [List.map_append, tagsOf_normal _ (Load_normal store), List.map_singleton,
        jsonString_idem]
    obtain ⟨_, h2, _, _, _⟩ := Load_saved _ hnorm ⟨_, rfl⟩
    rw [e, tagsOf, h2]
    simp only [GoMap.get, lookup_setEntry_self, Option.getD_some]

/-- C16 (amended): `AddTag(h, t)` always succeeds and leaves the workspaces,
the impacts and the active-workspace id unchanged; when `t` is among the tags
of `h` the store is unchanged.  For a hash `h` that is valid UTF-8: otherwise
the document loaded is saved with `t`, as JSON carries it, appended to the end
of the tag list of `h`, the tags of the other hashes are unchanged and every
earlier tag of `h` is kept; it is `t` itself that is appended exactly when `t`
is valid UTF-8, a second call changes nothing exactly when `t` is valid UTF-8,
and for such a tag a duplicate-free tag list stays duplicate-free. -/
theorem AddTag_spec (store : Store) (h t : Str) :
    (AddTag store h t).1 = none ∧
      (t ∈ tagsOf (Load store) h → AddTag store h t = (none, store)) ∧
      (Load (AddTag store h t).2).Workspaces = (Load store).Workspaces ∧
      (∀ k, (Load (AddTag store h t).2).Impacts.get k = (Load store).Impacts.get k) ∧
      (Load (AddTag store h t).2).ActiveWorkspace = (Load store).ActiveWorkspace ∧
      (jsonString t = t ↔ ValidString t = true) ∧
      (ValidString h = true →
        AddTag store h t =
          (if t ∈ tagsOf (Load store) h then (none, store)
           else
            (none, some { Load store with
              Tags := some (setEntry h (tagsOf (Load store) h ++ [jsonString t])
                ((Load store).Tags.getD [])) })) ∧
        tagsOf (Load (AddTag store h t).2) h =
          (if t ∈ tagsOf (Load store) h then tagsOf (Load store) h
           else tagsOf (Load store) h ++ [jsonString t]) ∧
        (∀ k, k ≠ h → (Load (AddTag store h t).2).Tags.get k = (Load store).Tags.get k) ∧
        (∀ u ∈ tagsOf (Load store) h, u ∈ tagsOf (Load (AddTag store h t).2) h) ∧
        (AddTag (AddTag store h t).2 h t = (none, (AddTag store h t).2) ↔
          ValidString t = true) ∧
        (ValidString t = true →
          (tagsOf (Load store) h).Nodup → (tagsOf (Load (AddTag store h t).2) h).Nodup)) := by
  obtain ⟨o1, o2, o3⟩ := AddTag_others store h t
  have hs : AddTag store h t =
      (if t ∈ tagsOf (Load store) h then (none, store)
       else
        (none, some { Load store with
          Tags := some (jsonObject (List.map jsonString)
            (setEntry h (tagsOf (Load store) h ++ [t]) ((Load store).Tags.getD []))) })) :=
    AddTag_saved store h t
  refine ⟨?_, ?_, o1, o2, o3, jsonString_eq_iff t, ?_⟩
  · rw [hs]
    split <;> rfl
  · intro ht
    rw [hs, if_pos ht]
  · intro hh
    have hk : jsonString h = h := jsonString_valid h hh
    have e := AddTag_eq store h t hk
    have htags := tagsOf_AddTag store h t hk
    have htags2 := tagsOf_AddTag (AddTag store h t).2 h t hk
    have hidem : AddTag (AddTag store h t).2 h t = (none, (AddTag store h t).2) ↔
        ValidString t = true := by
      constructor
      · intro e3
        by_contra hv
        have hnt : t ∉ tagsOf (Load store) h :=
          fun c => hv (tagsOf_valid _ (Load_normal store) h t c)
        have hne : jsonString t ≠ t := fun c => hv ((jsonString_eq_iff t).1 c)
        rw [if_neg hnt] at htags
        have hnt2 : t ∉ tagsOf (Load (AddTag store h t).2) h := by
          rw [htags]
          intro c
          rcases List.mem_append.1 c with c | c
          · exact hnt c
          · rw [List.mem_singleton] at c
            exact hne c.symm
        rw [if_neg hnt2, e3] at htags2
        have hl := congrArg List.length htags2
        rw [List.length_append] at hl
        simp at hl
      · intro hv
        have hj : jsonString t = t := jsonString_valid t hv
        have e3 := AddTag_eq (AddTag store h t).2 h t hk
        have hmem : t ∈ tagsOf (Load (AddTag store h t).2) h := by
          rw [htags]
          by_cases ht : t ∈ tagsOf (Load store) h
          · rw [if_pos ht]
            exact ht
          · rw [if_neg ht, hj]
            exact List.mem_append_right _ (List.mem_singleton_self _)
        rw [if_pos hmem] at e3
        exact e3
    refine ⟨e, htags, ?_, ?_, hidem, ?_⟩
    · intro k hkh
      by_cases ht : t ∈ tagsOf (Load store) h
      · rw [if_pos ht] at e
        rw [e]
      · rw [if_neg ht] at e
        have hnorm : normalMeta { Load store with
              Tags := some (setEntry h (tagsOf (Load store) h ++ [jsonString t])
                ((Load store).Tags.getD [])) } := by
          apply normalMeta_tags _ (Load_normal store)
          apply normalEntries_setEntry _ _ _ _ (Load_normal store).2.2.2.1 hk
          rw [List.map_append, tagsOf_normal _ (Load_normal store), List.map_singleton,
            jsonString_idem]
        obtain ⟨_, h2, _, _, _⟩ := Load_saved _ hnorm ⟨_, rfl⟩
        rw [e, h2, GoMap_get_eq_lookup (Load store).Tags k]
        simp only [GoMap.get]
        rw [lookup_setEntry_ne _ _ _ _ hkh]
    · intro u hu
      rw [htags]
      by_cases ht : t ∈ tagsOf (Load store) h
      · rw [if_pos ht]
        exact hu
      · rw [if_neg ht]
        exact List.mem_append_left _ hu
    · intro hv hn
      rw [htags]
      by_cases ht : t ∈ tagsOf (Load store) h
      · rw [if_pos ht]
        exact hn
      · rw [if_neg ht, List.nodup_append]
        refine ⟨hn, by simp, ?_⟩
        intro a ha hb
        simp only [List.mem_singleton] at hb
        rw [jsonString_valid t hv] at hb
        exact ht (hb ▸ ha)

/-- Witness of C16 (amended) on the document written by `Bootstrap`, with the
commit `abc123` and the tag `feature`. -/
theorem AddTag_spec_witness :
    ValidString "abc123".toList = true ∧ ValidString "feature".toList = true ∧
      tagsOf (Load (AddTag (Bootstrap none).2 "abc123".toList "feature".toList).2)
          "abc123".toList =
        (if "feature".toList ∈ tagsOf (Load (Bootstrap none).2) "abc123".toList then
          tagsOf (Load (Bootstrap none).2) "abc123".toList
         else tagsOf (Load (Bootstrap none).2) "abc123".toList ++
          [jsonString "feature".toList]) ∧
      jsonString "feature".toList = "feature".toList ∧
      AddTag (AddTag (Bootstrap none).2 "abc123".toList "feature".toList).2 "abc123".toList
          "feature".toList =
        (none, (AddTag (Bootstrap none).2 "abc123".toList "feature".toList).2) :=
  ⟨by decide, by decide,
    ((AddTag_spec (Bootstrap none).2 "abc123".toList "feature".toList).2.2.2.2.2.2
      (by decide)).2.1,
    (AddTag_spec (Bootstrap none).2 "abc123".toList "feature".toList).2.2.2.2.2.1.2
      (by decide),
    ((AddTag_spec (Bootstrap none).2 "abc123".toList "feature".toList).2.2.2.2.2.2
      (by decide)).2.2.2.2.1.2 (by decide)⟩

/-- What `Load` returns after `AddImpact`, apart from the impacts. -/
theorem AddImpact_others (store : Store) (h l : Str) :
    (Load (AddImpact store h l).2).Workspaces = (Load store).Workspaces ∧
      (Load (AddImpact store h l).2).Tags = (Load store).Tags ∧
      (Load (AddImpact store h l).2).ActiveWorkspace = (Load store).ActiveWorkspace := by
  rw [AddImpact_saved]
  obtain ⟨h1, h2, h3, _, _⟩ :=
    Load_saved _ (normalMeta_impacts _ (Load_normal store) _
      (jsonObject_normal _ jsonString_idem
        (setEntry h l ((Load store).Impacts.getD []))))
      (Load_tags_ne_none store)
  exact ⟨h1, h2, h3⟩

/-- C17 (as stated, refuted): on the document written by `Bootstrap`,
`AddImpact` with the hash of the one byte `0xFF` and the level `major`
succeeds, and the document then holds no impact for that hash: the level is
stored for the encoding of U+FFFD.  With the hash `h1` and the level of the
one byte `0xFF`, the document maps `h1` to the encoding of U+FFFD. -/
theorem AddImpact_stores_replacement :
    (AddImpact (Bootstrap none).2 invalidByte "major".toList).1 = none ∧
      (Load (AddImpact (Bootstrap none).2 invalidByte "major".toList).2).Impacts.get
        invalidByte = none ∧
      (Load (AddImpact (Bootstrap none).2 invalidByte "major".toList).2).Impacts.get
        replacementRune = some "major".toList ∧
      (Load (AddImpact (Bootstrap none).2 "h1".toList invalidByte).2).Impacts.get
        "h1".toList = some replacementRune ∧
      replacementRune ≠ invalidByte := by
  decide

/-- C17 (amended): `AddImpact(h, l)` succeeds and leaves the workspaces, the
tags and the active-workspace id unchanged.  The document then maps `h` to `l`
as JSON carries it exactly when `h` is valid UTF-8, and that is `l` itself
exactly when `l` is valid UTF-8.  For a hash `h` that is valid UTF-8 it saves
the document it loaded with `h` mapped to `l` as JSON carries it, whatever `h`
was mapped to; a later call with another level overwrites it; the impacts of
the other hashes are unchanged. -/
theorem AddImpact_spec (store : Store) (h l : Str) :
    (AddImpact store h l).1 = none ∧
      (Load (AddImpact store h l).2).Workspaces = (Load store).Workspaces ∧
      (Load (AddImpact store h l).2).Tags = (Load store).Tags ∧
      (Load (AddImpact store h l).2).ActiveWorkspace = (Load store).ActiveWorkspace ∧
      (jsonString l = l ↔ ValidString l = true) ∧
      ((Load (AddImpact store h l).2).Impacts.get h = some (jsonString l) ↔
        ValidString h = true) ∧
      (ValidString h = true →
        AddImpact store h l =
          (none, some { Load store with
            Impacts := some (setEntry h (jsonString l) ((Load store).Impacts.getD [])) }) ∧
        (∀ l2, (Load (AddImpact (AddImpact store h l).2 h l2).2).Impacts.get h =
          some (jsonString l2)) ∧
        (∀ k, k ≠ h →
          (Load (AddImpact store h l).2).Impacts.get k = (Load store).Impacts.get k)) := by
  obtain ⟨o1, o2, o3⟩ := AddImpact_others store h l
  have hnorm : ∀ (s : Store) (v : Str), jsonString h = h → normalMeta { Load s with
      Impacts := some (setEntry h (jsonString v) ((Load s).Impacts.getD [])) } := by
    intro s v hk
    apply normalMeta_impacts _ (Load_normal s)
    exact normalEntries_setEntry _ _ _ _ (Load_normal s).2.2.2.2 hk (jsonString_idem v)
  have key : ∀ (s : Store) (v : Str), jsonString h = h →
      (Load (AddImpact s h v).2).Impacts.get h = some (jsonString v) := by
    intro s v hk
    rw [AddImpact_eq s h v hk]
    obtain ⟨_, _, _, _, h5⟩ := Load_saved _ (hnorm s v hk) (Load_tags_ne_none s)
    rw [h5 h]
    simp only [GoMap.get, lookup_setEntry_self]
  refine ⟨rfl, o1, o2, o3, jsonString_eq_iff l, ?_, ?_⟩
  · constructor
    · intro hg
      rw [GoMap_get_eq_lookup] at hg
      exact key_valid jsonString _ (Load_normal (AddImpact store h l).2).2.2.2.2 h _ hg
    · intro hh
      exact key store l (jsonString_valid h hh)
  · intro hh
    have hk : jsonString h = h := jsonString_valid h hh
    obtain ⟨_, _, _, _, h5⟩ := Load_saved _ (hnorm store l hk) (Load_tags_ne_none store)
    refine ⟨AddImpact_eq store h l hk, fun l2 => key _ l2 hk, ?_⟩
    intro k hkh
    rw [AddImpact_eq store h l hk, h5 k, GoMap_get_eq_lookup (Load store).Impacts k]
    simp only [GoMap.get]
    rw [lookup_setEntry_ne _ _ _ _ hkh]

/-- Witness of C17 (amended) on the document written by `Bootstrap`, with the
commit `abc123` and the levels `minor` and `major`. -/
theorem AddImpact_spec_witness :
    ValidString "abc123".toList = true ∧ ValidString "minor".toList = true ∧
      jsonString "minor".toList = "minor".toList ∧
      (Load (AddImpact (Bootstrap none).2 "abc123".toList "minor".toList).2).Impacts.get
        "abc123".toList = some (jsonString "minor".toList) ∧
      (Load (AddImpact (AddImpact (Bootstrap none).2 "abc123".toList "minor".toList).2
        "abc123".toList "major".toList).2).Impacts.get "abc123".toList =
        some (jsonString "major".toList) :=
  ⟨by decide, by decide,
    (AddImpact_spec (Bootstrap none).2 "abc123".toList "minor".toList).2.2.2.2.1.2 (by decide),
    (AddImpact_spec (Bootstrap none).2 "abc123".toList "minor".toList).2.2.2.2.2.1.2
      (by decide),
    ((AddImpact_spec (Bootstrap none).2 "abc123".toList "minor".toList).2.2.2.2.2.2
      (by decide)).2.1 "major".toList⟩

/-! ## Claims about `AddCommitToWorkspace` -/

/-- C15: `AddCommitToWorkspace` with a workspace id that no workspace of the
document has returns the error `workspace not found` and leaves the store as
it was; when no document is persisted every id is unknown and no document is
written. -/
theorem AddCommitToWorkspace_unknown (store : Store) (id h : Str)
    (hid : id ∉ workspaceIDs (Load store)) :
    AddCommitToWorkspace store id h = (some (.workspaceNotFound id), store) ∧
      AddCommitToWorkspace none id h = (some (.workspaceNotFound id), none) := by
  have e := AddCommitToWorkspace_eq store id h
  rw [(commitsOf_eq_none id (Load store)).2 hid] at e
  exact ⟨e, rfl⟩

/-- Witness of C15 on the document written by `Bootstrap`, with the id
`non-existent`. -/
theorem AddCommitToWorkspace_unknown_witness :
    "non-existent".toList ∉ workspaceIDs (Load (Bootstrap none).2) ∧
      AddCommitToWorkspace (Bootstrap none).2 "non-existent".toList "abc123".toList =
        (some (.workspaceNotFound "non-existent".toList), (Bootstrap none).2) ∧
      AddCommitToWorkspace none "non-existent".toList "abc123".toList =
        (some (.workspaceNotFound "non-existent".toList), none) :=
  ⟨by decide,
    AddCommitToWorkspace_unknown (Bootstrap none).2 "non-existent".toList "abc123".toList
      (by decide)⟩

/-- C14 (as stated, refuted): in a stored document whose workspace `general`
lists the commit `abc` twice, `AddCommitToWorkspace(general, abc)` applied once
or twice leaves the document unchanged, and `abc` occurs two times in the
commit list, not one.  On the document written by `Bootstrap`,
`AddCommitToWorkspace` called twice for `general` with the hash of the one
byte `0xFF` appends the encoding of U+FFFD both times: the second call changes
the store. -/
theorem AddCommitToWorkspace_twice_listed :
    AddCommitToWorkspace twiceListedStore "general".toList "abc".toList =
        (none, twiceListedStore) ∧
      commitsOf "general".toList
          (Load (AddCommitToWorkspace
            (AddCommitToWorkspace twiceListedStore "general".toList "abc".toList).2
            "general".toList "abc".toList).2) =
        some ["abc".toList, "abc".toList] ∧
      ["abc".toList, "abc".toList].count "abc".toList = 2 ∧
      commitsOf "general".toList
          (Load (AddCommitToWorkspace (Bootstrap none).2 "general".toList invalidByte).2) =
        some [replacementRune] ∧
      commitsOf "general".toList
          (Load (AddCommitToWorkspace
            (AddCommitToWorkspace (Bootstrap none).2 "general".toList invalidByte).2
            "general".toList invalidByte).2) =
        some [replacementRune, replacementRune] ∧
      (AddCommitToWorkspace
          (AddCommitToWorkspace (Bootstrap none).2 "general".toList invalidByte).2
          "general".toList invalidByte).2 ≠
        (AddCommitToWorkspace (Bootstrap none).2 "general".toList invalidByte).2 := by
  decide

theorem normalMeta_appended (store : Store) (id h : Str) :
    normalMeta { Load store with
      Workspaces := appendCommit id (jsonString h) (Load store).Workspaces } := by
  apply normalMeta_workspaces _ (Load_normal store)
  intro x hx
  rw [← map_jsonWorkspace_appendCommit _ _ _ (Load_normal store).2.1, List.mem_map] at hx
  obtain ⟨y, _, rfl⟩ := hx
  exact jsonWorkspace_idem y

/-- The commits of a workspace after `AddCommitToWorkspace`. -/
theorem commitsOf_AddCommit (store : Store) (id h : Str) (cs : List Str)
    (hc : commitsOf id (Load store) = some cs) :
    commitsOf id (Load (AddCommitToWorkspace store id h).2) =
      some (if h ∈ cs then cs else cs ++ [jsonString h]) := by
  have e := AddCommitToWorkspace_eq store id h
  rw [hc] at e
  by_cases hm : h ∈ cs
  · simp only [if_pos hm] at e ⊢
    rw [e]
    exact hc
  · simp only [if_neg hm] at e ⊢
    obtain ⟨h1, _, _, _, _⟩ :=
      Load_saved _ (normalMeta_appended store id h) (Load_tags_ne_none store)
    rw [e, commitsOf, h1]
    show Option.map _ ((appendCommit id (jsonString h) (Load store).Workspaces).find? _) = _
    rw [find?_appendCommit]
    unfold commitsOf at hc
    cases hf : (Load store).Workspaces.find? (fun w => decide (w.ID = id)) with
    | none => simp [hf] at hc
    | some w =>
      simp only [hf, Option.map_some', Option.some.injEq] at hc
      simp [hc]

/-- C14 (amended): for an existing workspace id, `AddCommitToWorkspace(id, h)`
succeeds, and the commit list of that workspace afterwards is the earlier list
when `h` was a member and the earlier list with `h`, as JSON carries it,
appended when it was not.  A call with a hash that is already a member succeeds
and leaves the store unchanged.  It is `h` itself that is appended exactly when
`h` is valid UTF-8, and a second call leaves the store of the first unchanged
exactly when `h` is valid UTF-8; `h` then occurs exactly once when it occurred
at most once before. -/
theorem AddCommitToWorkspace_idempotent (store : Store) (id h : Str)
    (hid : id ∈ workspaceIDs (Load store)) :
    ∃ cs, commitsOf id (Load store) = some cs ∧
      (AddCommitToWorkspace store id h).1 = none ∧
      commitsOf id (Load (AddCommitToWorkspace store id h).2) =
        some (if h ∈ cs then cs else cs ++ [jsonString h]) ∧
      (h ∈ cs → AddCommitToWorkspace store id h = (none, store)) ∧
      (jsonString h = h ↔ ValidString h = true) ∧
      (AddCommitToWorkspace (AddCommitToWorkspace store id h).2 id h =
          (none, (AddCommitToWorkspace store id h).2) ↔
        ValidString h = true) ∧
      (ValidString h = true →
        commitsOf id (Load (AddCommitToWorkspace store id h).2) =
          some (if h ∈ cs then cs else cs ++ [h]) ∧
        (cs.count h ≤ 1 → (if h ∈ cs then cs else cs ++ [h]).count h = 1)) := by
  cases hc : commitsOf id (Load store) with
  | none => exact absurd hid ((commitsOf_eq_none id (Load store)).1 hc)
  | some cs =>
    have e := AddCommitToWorkspace_eq store id h
    rw [hc] at e
    have hc2 := commitsOf_AddCommit store id h cs hc
    have hc3 := commitsOf_AddCommit (AddCommitToWorkspace store id h).2 id h _ hc2
    have e3 := AddCommitToWorkspace_eq (AddCommitToWorkspace store id h).2 id h
    rw [hc2] at e3
    refine ⟨cs, rfl, ?_, hc2, ?_, jsonString_eq_iff h, ?_, ?_⟩
    · by_cases hm : h ∈ cs
      · simp only [if_pos hm] at e
        rw [e]
      · simp only [if_neg hm] at e
        rw [e]
    · intro hm
      simp only [if_pos hm] at e
      exact e
    · constructor
      · intro e4
        by_contra hv
        have hm : h ∉ cs := fun c => hv (commitsOf_valid _ (Load_normal store) id cs hc h c)
        have hne : jsonString h ≠ h := fun c => hv ((jsonString_eq_iff h).1 c)
        have hm2 : h ∉ cs ++ [jsonString h] := by
          intro c
          rcases List.mem_append.1 c with c | c
          · exact hm c
          · rw [List.mem_singleton] at c
            exact hne c.symm
        rw [if_neg hm] at hc2 hc3
        rw [if_neg hm2, e4, hc2] at hc3
        have hl := congrArg (fun o => (o.getD []).length) hc3
        simp at hl
      · intro hv
        have hj : jsonString h = h := jsonString_valid h hv
        have hmem : h ∈ (if h ∈ cs then cs else cs ++ [jsonString h]) := by
          by_cases hm : h ∈ cs
          · rw [if_pos hm]
            exact hm
          · rw [if_neg hm, hj]
            exact List.mem_append_right _ (List.mem_singleton_self _)
        simp only [if_pos hmem] at e3
        exact e3
    · intro hv
      have hj : jsonString h = h := jsonString_valid h hv
      refine ⟨by rw [hc2, hj], ?_⟩
      intro hle
      by_cases hm : h ∈ cs
      · rw [if_pos hm]
        have hpos : 0 < cs.count h := List.count_pos_iff.2 hm
        omega
      · rw [if_neg hm, List.count_append, List.count_eq_zero_of_not_mem hm]
        simp

/-- Witness of C14 (amended) on the document written by `Bootstrap`, with the
workspace `general` and the commit `abc123def456` of the test. -/
theorem AddCommitToWorkspace_idempotent_witness :
    "general".toList ∈ workspaceIDs (Load (Bootstrap none).2) ∧
      ValidString "abc123def456".toList = true ∧
      ∃ cs, commitsOf "general".toList (Load (Bootstrap none).2) = some cs ∧
        (AddCommitToWorkspace (Bootstrap none).2 "general".toList "abc123def456".toList).1 =
          none ∧
        commitsOf "general".toList
            (Load (AddCommitToWorkspace (Bootstrap none).2 "general".toList
              "abc123def456".toList).2) =
          some (if "abc123def456".toList ∈ cs then cs
            else cs ++ [jsonString "abc123def456".toList]) ∧
        ("abc123def456".toList ∈ cs →
          AddCommitToWorkspace (Bootstrap none).2 "general".toList "abc123def456".toList =
            (none, (Bootstrap none).2)) ∧
        (jsonString "abc123def456".toList = "abc123def456".toList ↔
          ValidString "abc123def456".toList = true) ∧
        (AddCommitToWorkspace
              (AddCommitToWorkspace (Bootstrap none).2 "general".toList
                "abc123def456".toList).2
              "general".toList "abc123def456".toList =
            (none,
              (AddCommitToWorkspace (Bootstrap none).2 "general".toList
                "abc123def456".toList).2) ↔
          ValidString "abc123def456".toList = true) ∧
        (ValidString "abc123def456".toList = true →
          commitsOf "general".toList
              (Load (AddCommitToWorkspace (Bootstrap none).2 "general".toList
                "abc123def456".toList).2) =
            some (if "abc123def456".toList ∈ cs then cs else cs ++ ["abc123def456".toList]) ∧
          (cs.count "abc123def456".toList ≤ 1 →
            (if "abc123def456".toList ∈ cs then cs
              else cs ++ ["abc123def456".toList]).count "abc123def456".toList = 1)) :=
  ⟨by decide, by decide,
    AddCommitToWorkspace_idempotent (Bootstrap none).2 "general".toList "abc123def456".toList
      (by decide)⟩

/-! ## The active-workspace id -/

theorem activeValid_of_eq (m1 m2 : Meta) (ha : m2.ActiveWorkspace = m1.ActiveWorkspace)
    (hw : ∀ i ∈ workspaceIDs m1, i ∈ workspaceIDs m2) (h : activeValid m1) : activeValid m2 := by
  rcases h with h | h
  · exact Or.inl (ha.trans h)
  · exact Or.inr (ha ▸ hw _ h)

theorem activeValid_saved (store : Store) (m : Meta) (hn : normalMeta m)
    (ha : m.ActiveWorkspace = (Load store).ActiveWorkspace)
    (hw : ∀ i ∈ workspaceIDs (Load store), i ∈ workspaceIDs m)
    (h : activeValid (Load store)) : activeValid (Load (some m)) := by
  rw [Load_some_normal m hn]
  exact activeValid_of_eq (Load store) _ ha hw h

theorem call_preserves_active (op : Op) (store : Store) (h : activeValid (Load store)) :
    activeValid (Load (op.call store).2) := by
  cases op with
  | createWorkspace id name desc =>
    show activeValid (Load (CreateWorkspace store id name desc).2)
    rw [CreateWorkspace_eq]
    by_cases hid : id ∈ workspaceIDs (Load store)
    · rw [if_pos hid]
      exact h
    · rw [if_neg hid]
      refine activeValid_saved store _ (normalMeta_created store id name desc) rfl ?_ h
      intro i hi
      unfold workspaceIDs at hi ⊢
      show i ∈ List.map _ ((Load store).Workspaces ++ [_])
      rw [List.map_append]
      exact List.mem_append_left _ hi
  | setActiveWorkspace id =>
    show activeValid (Load (SetActiveWorkspace store id).2)
    rw [SetActiveWorkspace_eq]
    by_cases hc : id ≠ [] ∧ id ∉ workspaceIDs (Load store)
    · rw [if_pos hc]
      exact h
    · rw [if_neg hc]
      show activeValid (Load (some { Load store with ActiveWorkspace := id }))
      rw [Load_some_normal _
        (normalMeta_active _ (Load_normal store) id (active_id_normal store id hc))]
      by_cases h0 : id = []
      · exact Or.inl h0
      · right
        by_contra hn
        exact hc ⟨h0, hn⟩
  | addCommitToWorkspace w c =>
    show activeValid (Load (AddCommitToWorkspace store w c).2)
    rw [AddCommitToWorkspace_eq]
    cases commitsOf w (Load store) with
    | none => exact h
    | some cs =>
      by_cases hm : c ∈ cs
      · simp only [if_pos hm]
        exact h
      · simp only [if_neg hm]
        refine activeValid_saved store _ (normalMeta_appended store w c) rfl ?_ h
        intro i hi
        unfold workspaceIDs at hi ⊢
        show i ∈ List.map _ (appendCommit w (jsonString c) (Load store).Workspaces)
        rw [appendCommit_ids]
        exact hi
  | addTag c t =>
    show activeValid (Load (AddTag store c t).2)
    obtain ⟨o1, _, o3⟩ := AddTag_others store c t
    exact activeValid_of_eq (Load store) _ o3 (fun i hi => by
      unfold workspaceIDs at hi ⊢
      rw [o1]
      exact hi) h
  | addImpact c l =>
    show activeValid (Load (AddImpact store c l).2)
    obtain ⟨o1, _, o3⟩ := AddImpact_others store c l
    exact activeValid_of_eq (Load store) _ o3 (fun i hi => by
      unfold workspaceIDs at hi ⊢
      rw [o1]
      exact hi) h

theorem runOps_preserves_active (ops : List Op) (store : Store)
    (h : activeValid (Load store)) : activeValid (Load (runOps store ops)) := by
  induction ops generalizing store with
  | nil => exact h
  | cons op rest ih =>
    unfold runOps
    rw [List.foldl_cons]
    exact ih _ (call_preserves_active op store h)

theorem activeValid_stored (store : Store) (m : Meta) (hs : store = some m)
    (hn : normalStore store) (h : activeValid (Load store)) : activeValid m := by
  subst hs
  rw [Load_some_normal m (hn m rfl)] at h
  exact h

/-- C11: starting from the document written by `Bootstrap`, or from no
persisted document, after any sequence of CreateWorkspace, SetActiveWorkspace,
AddCommitToWorkspace, AddTag and AddImpact calls the active-workspace id of the
document (as `Load` returns it, and as stored) is empty or the id of one of
its workspaces. -/
theorem active_workspace_valid (ops : List Op) :
    activeValid (Load (runOps (Bootstrap none).2 ops)) ∧
      activeValid (Load (runOps none ops)) ∧
      (∀ m, runOps (Bootstrap none).2 ops = some m → activeValid m) ∧
      (∀ m, runOps none ops = some m → activeValid m) := by
  have h1 : activeValid (Load (runOps (Bootstrap none).2 ops)) :=
    runOps_preserves_active ops _ (by
      right
      decide)
  have h2 : activeValid (Load (runOps none ops)) :=
    runOps_preserves_active ops _ (Or.inl rfl)
  exact ⟨h1, h2,
    fun m hm => activeValid_stored _ m hm (runOps_normal ops _ normalStore_Bootstrap) h1,
    fun m hm => activeValid_stored _ m hm (runOps_normal ops _ normalStore_none) h2⟩

/-! ## Commit lists built by the operations hold no commit twice -/

theorem appendCommit_nodup (id h : Str) (ws : List Workspace)
    (hall : ∀ w ∈ ws, w.Commits.Nodup)
    (hm : ∀ w, ws.find? (fun w => decide (w.ID = id)) = some w → h ∉ w.Commits) :
    ∀ w ∈ appendCommit id h ws, w.Commits.Nodup := by
  induction ws with
  | nil =>
    intro w hw
    simp [appendCommit] at hw
  | cons w0 rest ih =>
    intro w hw
    by_cases h0 : w0.ID = id
    · have hf : (w0 :: rest).find? (fun w => decide (w.ID = id)) = some w0 := by
        simp [List.find?, h0]
      simp only [appendCommit, if_pos h0, List.mem_cons] at hw
      rcases hw with rfl | hw
      · show (w0.Commits ++ [h]).Nodup
        rw [List.nodup_append]
        refine ⟨hall w0 (by simp), by simp, ?_⟩
        intro a ha hb
        simp only [List.mem_singleton] at hb
        exact hm w0 hf (hb ▸ ha)
      · exact hall w (by simp [hw])
    · have hf : (w0 :: rest).find? (fun w => decide (w.ID = id)) =
          rest.find? (fun w => decide (w.ID = id)) := by
        simp [List.find?, h0]
      simp only [appendCommit, if_neg h0, List.mem_cons] at hw
      rcases hw with rfl | hw
      · exact hall w (by simp)
      · exact ih (fun x hx => hall x (by simp [hx])) (fun x hx => hm x (hf ▸ hx)) w hw

theorem call_preserves_commitsNodup (op : Op) (store : Store)
    (hv : ∀ c ∈ addedCommits [op], ValidString c = true)
    (h : commitsNodup (Load store)) : commitsNodup (Load (op.call store).2) := by
  cases op with
  | createWorkspace id name desc =>
    show commitsNodup (Load (CreateWorkspace store id name desc).2)
    rw [CreateWorkspace_eq]
    by_cases hid : id ∈ workspaceIDs (Load store)
    · rw [if_pos hid]
      exact h
    · rw [if_neg hid, Load_some_normal _ (normalMeta_created store id name desc)]
      intro w hw
      rcases List.mem_append.1 hw with hw | hw
      · exact h w hw
      · simp only [List.mem_singleton] at hw
        subst hw
        exact List.nodup_nil
  | setActiveWorkspace id =>
    show commitsNodup (Load (SetActiveWorkspace store id).2)
    rw [SetActiveWorkspace_eq]
    by_cases hc : id ≠ [] ∧ id ∉ workspaceIDs (Load store)
    · rw [if_pos hc]
      exact h
    · rw [if_neg hc, Load_some_normal _
        (normalMeta_active _ (Load_normal store) id (active_id_normal store id hc))]
      exact h
  | addCommitToWorkspace w c =>
    show commitsNodup (Load (AddCommitToWorkspace store w c).2)
    have hj : jsonString c = c := jsonString_valid c (hv c (by simp [addedCommits]))
    rw [AddCommitToWorkspace_eq]
    cases hc : commitsOf w (Load store) with
    | none => exact h
    | some cs =>
      by_cases hm : c ∈ cs
      · simp only [if_pos hm]
        exact h
      · simp only [if_neg hm]
        rw [Load_some_normal _ (normalMeta_appended store w c), hj]
        refine appendCommit_nodup w c _ h ?_
        intro x hx
        unfold commitsOf at hc
        rw [hx] at hc
        simp only [Option.map_some', Option.some.injEq] at hc
        rw [hc]
        exact hm
  | addTag c t =>
    show commitsNodup (Load (AddTag store c t).2)
    unfold commitsNodup
    rw [(AddTag_others store c t).1]
    exact h
  | addImpact c l =>
    show commitsNodup (Load (AddImpact store c l).2)
    unfold commitsNodup
    rw [(AddImpact_others store c l).1]
    exact h

theorem addedCommits_cons (op : Op) (ops : List Op) :
    addedCommits (op :: ops) = addedCommits [op] ++ addedCommits ops := by
  cases op <;> rfl

/-- Starting from the document written by `Bootstrap`, or from no persisted
document, no sequence of calls in which every hash given to
AddCommitToWorkspace is valid UTF-8 makes a workspace list a commit twice. -/
theorem runOps_commitsNodup (ops : List Op)
    (hv : ∀ c ∈ addedCommits ops, ValidString c = true) :
    commitsNodup (Load (runOps (Bootstrap none).2 ops)) ∧
      commitsNodup (Load (runOps none ops)) := by
  have key : ∀ (l : List Op) (s : Store), (∀ c ∈ addedCommits l, ValidString c = true) →
      commitsNodup (Load s) → commitsNodup (Load (runOps s l)) := by
    intro l
    induction l with
    | nil => exact fun _ _ h => h
    | cons op rest ih =>
      intro s hl h
      rw [addedCommits_cons] at hl
      unfold runOps
      rw [List.foldl_cons]
      exact ih _ (fun c hc => hl c (List.mem_append_right _ hc))
        (call_preserves_commitsNodup op s (fun c hc => hl c (List.mem_append_left _ hc)) h)
  refine ⟨key ops _ hv ?_, key ops _ hv ?_⟩
  · intro w hw
    have : w.Commits = [] := by
      have hall : ∀ x ∈ (Load (Bootstrap none).2).Workspaces, x.Commits = [] := by decide
      exact hall w hw
    rw [this]
    exact List.nodup_nil
  · intro w hw
    exact absurd hw (by simp [Load])

/-! ## The release generator (`changelog.go`) -/

theorem foldl_append_singleton {α β : Type} (f : α → β) (l : List α) (init : List β) :
    l.foldl (fun acc x => acc ++ [f x]) init = init ++ l.map f := by
  induction l generalizing init with
  | nil => simp
  | cons x xs ih => simp [List.foldl_cons, ih, List.append_assoc]

/-- The release `GenerateRelease` returns when the range query succeeds. -/
theorem GenerateRelease_ok (g : Generator) (version base head : Str) (commits : List Commit)
    (hq : g.Git.GetCommitsInRange base head = .ok commits) :
    GenerateRelease g version base head =
      .ok { Version := version, Date := ((commits.getLast?).map (·.Date)).getD [],
            Entries := commits.map (newEntry g.Meta) } := by
  unfold GenerateRelease
  rw [hq]
  simp only [foldl_append_singleton, List.nil_append]
  congr 2
  rw [List.getLast?_eq_getElem?]
  cases commits with
  | nil => simp
  | cons c cs => cases h : (c :: cs)[(c :: cs).length - 1]? <;> simp [h]

/-- The error `GenerateRelease` returns when the range query fails. -/
theorem GenerateRelease_error (g : Generator) (version base head err : Str)
    (hq : g.Git.GetCommitsInRange base head = .error err) :
    GenerateRelease g version base head = .error err := by
  unfold GenerateRelease
  rw [hq]

theorem entryTag_eq (m : Option Meta) (c : Commit) :
    entryTag m c = (explicitTag m c.Hash).getD (DetectTag c.Message) := by
  cases m with
  | none => rfl
  | some m =>
    simp only [entryTag, explicitTag, tagsOf, GoMap.get]
    cases hT : m.Tags with
    | none => rfl
    | some tagMap =>
      simp only []
      cases hl : tagMap.lookup c.Hash with
      | none => rfl
      | some tags => cases tags <;> rfl

theorem entryImpact_eq (m : Option Meta) (c : Commit) :
    entryImpact m c = (explicitImpact m c.Hash).getD (DetectImpact c.Message) := by
  cases m with
  | none => rfl
  | some m =>
    simp only [entryImpact, explicitImpact, GoMap.get]
    cases hT : m.Impacts with
    | none => rfl
    | some impacts =>
      simp only []
      cases hl : impacts.lookup c.Hash <;> rfl

/-- C21: when the range query returns `commits`, `GenerateRelease` returns a
release with one entry per commit, in order; the tag of the entry of a commit
is the explicit tag of the store for the hash of the commit (the first tag of
a non-empty list) when there is one and `DetectTag` of the subject otherwise;
its impact is the explicit impact of the store for the hash when there is one
and `DetectImpact` of the subject otherwise; without a store document both
come from the classifiers. -/
theorem GenerateRelease_tag_impact (g : Generator) (version base head : Str)
    (commits : List Commit) (hq : g.Git.GetCommitsInRange base head = .ok commits) :
    ∃ rel, GenerateRelease g version base head = .ok rel ∧
      rel.Entries.length = commits.length ∧
      ∀ (i : Nat) (c : Commit) (e : ChangeEntry),
        commits[i]? = some c → rel.Entries[i]? = some e →
          e.Hash = c.Hash ∧ e.Subject = c.Message ∧
          e.Tag = (explicitTag g.Meta c.Hash).getD (DetectTag c.Message) ∧
          e.Impact = (explicitImpact g.Meta c.Hash).getD (DetectImpact c.Message) ∧
          (g.Meta = none → e.Tag = DetectTag c.Message ∧ e.Impact = DetectImpact c.Message) := by
  refine ⟨_, GenerateRelease_ok g version base head commits hq, by simp, ?_⟩
  intro i c e hc he
  simp only [List.getElem?_map, hc, Option.map_some', Option.some.injEq] at he
  subst he
  refine ⟨rfl, rfl, entryTag_eq g.Meta c, entryImpact_eq g.Meta c, ?_⟩
  intro hm
  have h1 := entryTag_eq g.Meta c
  have h2 := entryImpact_eq g.Meta c
  rw [hm] at h1 h2
  simp only [newEntry]
  rw [hm]
  exact ⟨h1, h2⟩

/-- Witness of C21 on the generator of `TestGenerator_Simulation`. -/
theorem GenerateRelease_tag_impact_witness :
    simGen.Git.GetCommitsInRange "base".toList "head".toList = .ok simCommits ∧
      ∃ rel, GenerateRelease simGen "v1.0.0".toList "base".toList "head".toList = .ok rel ∧
        rel.Entries.length = simCommits.length ∧
        ∀ (i : Nat) (c : Commit) (e : ChangeEntry),
          simCommits[i]? = some c → rel.Entries[i]? = some e →
            e.Hash = c.Hash ∧ e.Subject = c.Message ∧
            e.Tag = (explicitTag simGen.Meta c.Hash).getD (DetectTag c.Message) ∧
            e.Impact = (explicitImpact simGen.Meta c.Hash).getD (DetectImpact c.Message) ∧
            (simGen.Meta = none →
              e.Tag = DetectTag c.Message ∧ e.Impact = DetectImpact c.Message) :=
  ⟨rfl, GenerateRelease_tag_impact simGen "v1.0.0".toList "base".toList "head".toList
    simCommits rfl⟩

/-- The tags, impacts and workspaces `GenerateRelease` gives the commits of
`TestGenerator_Simulation`. -/
theorem GenerateRelease_simulation :
    (GenerateRelease simGen "v1.0.0".toList "base".toList "head".toList).map
    (fun r => r.Entries.map (fun e => (e.Tag, e.Impact, e.Workspace))) =
    .ok [("feature".toList, "minor".toList, "Auth System".toList),
         ("security".toList, "patch".toList, "Auth System".toList),
         ("refactor".toList, "major".toList, "Database".toList),
         ("experiment".toList, "patch".toList, []),
         ("none".toList, "patch".toList, [])] := by decide

theorem scanCommits_eq (name hash : Str) (l : List Str) (w : Str) :
    scanCommits name hash l w = if hash ∈ l then name else w := by
  induction l with
  | nil => simp [scanCommits]
  | cons h rest ih =>
    simp only [scanCommits, ih, List.mem_cons]
    by_cases h1 : h = hash
    · simp [h1]
    · have h2 : ¬ hash = h := fun e => h1 e.symm
      simp [h1, h2]

theorem scanWorkspaces_eq (hash : Str) (wss : List Workspace) :
    scanWorkspaces hash wss [] =
      ((wss.find? (fun w => decide (hash ∈ w.Commits ∧ w.Name ≠ []))).map (·.Name)).getD
        [] := by
  induction wss with
  | nil => simp [scanWorkspaces]
  | cons ws rest ih =>
    simp only [scanWorkspaces, scanCommits_eq, List.find?_cons]
    by_cases hm : hash ∈ ws.Commits
    · by_cases hn : ws.Name = []
      · simp [hm, hn, ih]
      · simp [hm, hn]
    · simp [hm, ih]

theorem entryWorkspace_eq (m : Option Meta) (c : Commit) :
    entryWorkspace m c = ((firstNamedWorkspace m c.Hash).map (·.Name)).getD [] := by
  cases m with
  | none => rfl
  | some m => simp only [entryWorkspace, firstNamedWorkspace, scanWorkspaces_eq]

theorem firstNamedWorkspace_of_named (m : Option Meta) (hash : Str) (hn : workspacesNamed m) :
    firstNamedWorkspace m hash = firstWorkspace m hash := by
  cases m with
  | none => rfl
  | some d =>
    simp only [firstNamedWorkspace, firstWorkspace]
    have h := hn d rfl
    generalize d.Workspaces = wss at h
    induction wss with
    | nil => rfl
    | cons w rest ih =>
      have hw : w.Name ≠ [] := h w (List.mem_cons_self _ _)
      have hr : ∀ x ∈ rest, x.Name ≠ [] := fun x hx => h x (List.mem_cons_of_mem _ hx)
      simp only [List.find?_cons, ih hr]
      by_cases hm : hash ∈ w.Commits <;> simp [hm, hw]

/-- C22 (as stated, refuted): in `unnamedFirstMeta` the first workspace whose
commit list contains `hash1` has the empty name, and the workspace of the entry
of `hash1` is `B`, the name of the second workspace. -/
theorem GenerateRelease_skips_unnamed_workspace :
    (firstWorkspace unnamedFirstGen.Meta "hash1".toList).map (·.Name) = some [] ∧
      (GenerateRelease unnamedFirstGen "v1.0.0".toList "base".toList "head".toList).map
          (fun r => r.Entries.map (fun e => (e.Hash, e.Workspace))) =
        .ok [("hash1".toList, "B".toList)] := by
  decide

/-- C22 (amended): when the range query returns `commits`, the workspace of the
entry of a commit is the name of the first workspace of the store document, in
list order, that has a name and whose commit list contains the hash of the
commit, and it is empty when there is none or no document; when every
workspace has a name it is the name of the first workspace whose commit list
contains the hash. -/
theorem GenerateRelease_workspace (g : Generator) (version base head : Str)
    (commits : List Commit) (hq : g.Git.GetCommitsInRange base head = .ok commits) :
    ∃ rel, GenerateRelease g version base head = .ok rel ∧
      rel.Entries.length = commits.length ∧
      ∀ (i : Nat) (c : Commit) (e : ChangeEntry),
        commits[i]? = some c → rel.Entries[i]? = some e →
          e.Hash = c.Hash ∧
          e.Workspace = ((firstNamedWorkspace g.Meta c.Hash).map (·.Name)).getD [] ∧
          (workspacesNamed g.Meta →
            e.Workspace = ((firstWorkspace g.Meta c.Hash).map (·.Name)).getD []) := by
  refine ⟨_, GenerateRelease_ok g version base head commits hq, by simp, ?_⟩
  intro i c e hc he
  simp only [List.getElem?_map, hc, Option.map_some', Option.some.injEq] at he
  subst he
  refine ⟨rfl, entryWorkspace_eq g.Meta c, ?_⟩
  intro hn
  rw [← firstNamedWorkspace_of_named g.Meta c.Hash hn]
  exact entryWorkspace_eq g.Meta c

/-- Witness of C22 (amended) on the generator of `TestGenerator_Simulation`. -/
theorem GenerateRelease_workspace_witness :
    simGen.Git.GetCommitsInRange "base".toList "head".toList = .ok simCommits ∧
      ∃ rel, GenerateRelease simGen "v1.0.0".toList "base".toList "head".toList = .ok rel ∧
        rel.Entries.length = simCommits.length ∧
        ∀ (i : Nat) (c : Commit) (e : ChangeEntry),
          simCommits[i]? = some c → rel.Entries[i]? = some e →
            e.Hash = c.Hash ∧
            e.Workspace = ((firstNamedWorkspace simGen.Meta c.Hash).map (·.Name)).getD [] ∧
            (workspacesNamed simGen.Meta →
              e.Workspace = ((firstWorkspace simGen.Meta c.Hash).map (·.Name)).getD []) :=
  ⟨rfl, GenerateRelease_workspace simGen "v1.0.0".toList "base".toList "head".toList
    simCommits rfl⟩

/-- C23 (as stated, refuted): for a range of two commits returned oldest
first, dated `2 days ago` and `1 day ago`, the date of the release is
`1 day ago`, the date of the newest commit, not that of the oldest. -/
theorem GenerateRelease_newest_date :
    oldestFirstGen.Git.GetCommitsInRange "v1".toList "v2".toList = .ok oldestFirstCommits ∧
      oldestFirstCommits.head?.map (·.Date) = some "2 days ago".toList ∧
      (GenerateRelease oldestFirstGen "v2".toList "v1".toList "v2".toList).map (·.Date) =
        .ok "1 day ago".toList ∧
      (GenerateRelease oldestFirstGen "v2".toList "v1".toList "v2".toList).map (·.Date) ≠
        .ok "2 days ago".toList := by
  decide

/-- C23 (amended): when the range query returns `commits`, the date of the
release `GenerateRelease` returns is the date of the last commit of the list,
which is the newest commit of the range when the backend lists the commits
oldest first, and it is the empty string when the range has no commits. -/
theorem GenerateRelease_date (g : Generator) (version base head : Str)
    (commits : List Commit) (hq : g.Git.GetCommitsInRange base head = .ok commits) :
    ∃ rel, GenerateRelease g version base head = .ok rel ∧
      (∀ c, commits.getLast? = some c → rel.Date = c.Date) ∧
      (commits = [] → rel.Date = []) := by
  refine ⟨_, GenerateRelease_ok g version base head commits hq, ?_, ?_⟩
  · intro c hc
    simp [hc]
  · intro hc
    simp [hc]

/-- Witness of C23 (amended) on the range of two commits listed oldest first. -/
theorem GenerateRelease_date_witness :
    oldestFirstGen.Git.GetCommitsInRange "v1".toList "v2".toList = .ok oldestFirstCommits ∧
      ∃ rel, GenerateRelease oldestFirstGen "v2".toList "v1".toList "v2".toList = .ok rel ∧
        (∀ c, oldestFirstCommits.getLast? = some c → rel.Date = c.Date) ∧
        (oldestFirstCommits = [] → rel.Date = []) :=
  ⟨rfl, GenerateRelease_date oldestFirstGen "v2".toList "v1".toList "v2".toList
    oldestFirstCommits rfl⟩

theorem GenerateRelease_build (g : Generator) (version base head : Str) (commits : List Commit)
    (hq : g.Git.GetCommitsInRange base head = .ok commits) :
    GenerateRelease g version base head = .ok (buildRelease g.Meta version commits) :=
  GenerateRelease_ok g version base head commits hq

theorem buildRelease_entries (m : Option Meta) (version : Str) (commits : List Commit) :
    List.Forall₂ entryOfCommit (buildRelease m version commits).Entries commits := by
  simp only [buildRelease]
  rw [List.forall₂_map_left_iff, List.forall₂_same]
  intro c _
  exact ⟨rfl, rfl, rfl, rfl, rfl⟩

theorem appendUnreleased_ok (g : Generator) (base : Str) (releases : List Release)
    (commits : List Commit) (hq : g.Git.GetCommitsInRange base headRev = .ok commits) :
    appendUnreleased g base releases =
      if commits = [] then releases
      else releases ++ [buildRelease g.Meta unreleasedLabel commits] := by
  unfold appendUnreleased
  rw [GenerateRelease_build g unreleasedLabel base headRev commits hq]
  cases commits with
  | nil => simp [buildRelease]
  | cons c cs => simp [buildRelease]

theorem appendRelease_ok (g : Generator) (version base head : Str) (releases : List Release)
    (commits : List Commit) (hq : g.Git.GetCommitsInRange base head = .ok commits) :
    appendRelease g version base head releases =
      releases ++ [buildRelease g.Meta version commits] := by
  unfold appendRelease
  rw [GenerateRelease_build g version base head commits hq]

theorem releaseOf_ok (g : Generator) (version base head : Str) (commits : List Commit)
    (hq : g.Git.GetCommitsInRange base head = .ok commits) :
    releaseOf g version base head = [buildRelease g.Meta version commits] := by
  unfold releaseOf
  rw [GenerateRelease_build g version base head commits hq]

theorem releaseOf_error (g : Generator) (version base head err : Str)
    (hq : g.Git.GetCommitsInRange base head = .error err) :
    releaseOf g version base head = [] := by
  unfold releaseOf
  rw [GenerateRelease_error g version base head err hq]

theorem unreleasedOf_ok (g : Generator) (base : Str) (commits : List Commit)
    (hq : g.Git.GetCommitsInRange base headRev = .ok commits) :
    unreleasedOf g base =
      if commits = [] then [] else [buildRelease g.Meta unreleasedLabel commits] := by
  unfold unreleasedOf
  rw [GenerateRelease_build g unreleasedLabel base headRev commits hq]
  cases commits with
  | nil => simp [buildRelease]
  | cons c cs => simp [buildRelease]

theorem unreleasedOf_error (g : Generator) (base err : Str)
    (hq : g.Git.GetCommitsInRange base headRev = .error err) :
    unreleasedOf g base = [] := by
  unfold unreleasedOf
  rw [GenerateRelease_error g unreleasedLabel base headRev err hq]

theorem appendUnreleased_eq (g : Generator) (base : Str) (releases : List Release) :
    appendUnreleased g base releases = releases ++ unreleasedOf g base := by
  unfold appendUnreleased unreleasedOf
  cases GenerateRelease g unreleasedLabel base headRev with
  | error err => simp
  | ok rel =>
    cases h : rel.Entries with
    | nil => simp [h]
    | cons e es => simp [h]

theorem appendRelease_eq (g : Generator) (version base head : Str) (releases : List Release) :
    appendRelease g version base head releases = releases ++ releaseOf g version base head := by
  unfold appendRelease releaseOf
  cases GenerateRelease g version base head with
  | error err => simp
  | ok rel => rfl

theorem foldl_appendRelease (g : Generator) (v b h : Nat → Str) (l : List Nat)
    (init : List Release) :
    l.foldl (fun releases i => appendRelease g (v i) (b i) (h i) releases) init =
      init ++ (l.map (fun i => releaseOf g (v i) (b i) (h i))).flatten := by
  induction l generalizing init with
  | nil => simp
  | cons i rest ih =>
    simp only [List.foldl_cons, List.map_cons, List.flatten_cons]
    rw [ih, appendRelease_eq, List.append_assoc]

/-- The releases `GenerateFull` returns when the tag query succeeds, whatever
the range queries return. -/
theorem GenerateFull_ok (g : Generator) (tags : List Str) (ht : g.Git.GetTags = .ok tags) :
    GenerateFull g =
      .ok (unreleasedOf g (tags.getD 0 []) ++
        ((List.range tags.length).map (fun i =>
          releaseOf g (tags.getD i []) (tags.getD (i + 1) []) (tags.getD i []))).flatten) := by
  unfold GenerateFull
  rw [ht]
  by_cases h0 : tags.length = 0
  · have e : tags = [] := List.length_eq_zero.1 h0
    subst e
    simp only [List.length_nil, if_true, appendUnreleased_eq]
    simp
  · have hlen : 0 < tags.length := by omega
    simp only [h0, if_false, gt_iff_lt, hlen, if_true]
    rw [appendUnreleased_eq, foldl_appendRelease g (fun i => tags.getD i [])
      (fun i => tags.getD (i + 1) []) (fun i => tags.getD i []), appendRelease_eq]
    have hr : List.range tags.length = List.range (tags.length - 1) ++ [tags.length - 1] := by
      have e : tags.length = (tags.length - 1) + 1 := by omega
      nth_rewrite 1 [e]
      exact List.range_succ _
    have hlast : tags.getD (tags.length - 1 + 1) [] = [] := by
      rw [List.getD_eq_getElem?_getD, List.getElem?_eq_none (by omega)]
      rfl
    rw [hr, List.map_append, List.map_singleton, List.flatten_append, hlast]
    simp only [List.nil_append, List.append_assoc, List.flatten_cons, List.flatten_nil,
      List.append_nil]

theorem tagRanges_cons (t : Str) (rest : List Str) :
    tagRanges (t :: rest) = (t, rest.getD 0 []) :: tagRanges rest := by
  cases rest <;> rfl

theorem tagRanges_eq (tags : List Str) :
    tagRanges tags =
      (List.range tags.length).map (fun i => (tags.getD i [], tags.getD (i + 1) [])) := by
  induction tags with
  | nil => rfl
  | cons t rest ih =>
    rw [tagRanges_cons, ih, List.length_cons, List.range_succ_eq_map, List.map_cons,
      List.map_map]
    rfl

/-- The releases `GenerateFull` returns for a non-empty tag list when the range
queries it issues succeed. -/
theorem GenerateFull_tags_eq (g : Generator) (tags : List Str) (q : Str → Str → List Commit)
    (ht : g.Git.GetTags = .ok tags)
    (h0 : g.Git.GetCommitsInRange (tags.getD 0 []) headRev = .ok (q (tags.getD 0 []) headRev))
    (hq : ∀ i, i < tags.length →
      g.Git.GetCommitsInRange (tags.getD (i + 1) []) (tags.getD i []) =
        .ok (q (tags.getD (i + 1) []) (tags.getD i []))) :
    GenerateFull g =
      .ok ((if q (tags.getD 0 []) headRev = [] then []
            else [buildRelease g.Meta unreleasedLabel (q (tags.getD 0 []) headRev)]) ++
        (List.range tags.length).map (fun i =>
          buildRelease g.Meta (tags.getD i []) (q (tags.getD (i + 1) []) (tags.getD i [])))) := by
  rw [GenerateFull_ok g tags ht, unreleasedOf_ok g _ _ h0]
  congr 2
  have e : (List.range tags.length).map (fun i =>
      releaseOf g (tags.getD i []) (tags.getD (i + 1) []) (tags.getD i [])) =
      (List.range tags.length).map (fun i =>
        [buildRelease g.Meta (tags.getD i []) (q (tags.getD (i + 1) []) (tags.getD i []))]) := by
    apply List.map_congr_left
    intro i hi
    exact releaseOf_ok g _ _ _ _ (hq i (List.mem_range.1 hi))
  rw [e]
  generalize List.range tags.length = l
  induction l with
  | nil => rfl
  | cons i rest ih => simp only [List.map_cons, List.flatten_cons, ih, List.singleton_append]
/-- C24: when the backend reports no tag and the history of `HEAD` has the
commits `commits`, `GenerateFull` returns no release if there is no commit,
and otherwise exactly one release, labeled `Unreleased`, with one entry per
commit, in the order of the backend. -/
theorem GenerateFull_no_tags (g : Generator) (commits : List Commit)
    (ht : g.Git.GetTags = .ok [])
    (hq : g.Git.GetCommitsInRange [] headRev = .ok commits) :
    (commits = [] → GenerateFull g = .ok []) ∧
      (commits ≠ [] → ∃ rel, GenerateFull g = .ok [rel] ∧ rel.Version = unreleasedLabel ∧
        rel.Entries.length = commits.length ∧
        List.Forall₂ entryOfCommit rel.Entries commits) := by
  have h : GenerateFull g =
      .ok (if commits = [] then [] else [buildRelease g.Meta unreleasedLabel commits]) := by
    unfold GenerateFull
    rw [ht]
    simp only [List.length_nil, if_true]
    rw [appendUnreleased_ok g [] [] commits hq]
    simp
  constructor
  · intro hc
    rw [h, if_pos hc]
  · intro hc
    refine ⟨buildRelease g.Meta unreleasedLabel commits, ?_, rfl, ?_, ?_⟩
    · rw [h, if_neg hc]
    · simp [buildRelease]
    · exact buildRelease_entries _ _ _

/-- Witness of C24 on the generator of `TestGenerator_Simulation`, whose
backend has no tag and five commits. -/
theorem GenerateFull_no_tags_witness :
    simGen.Git.GetTags = .ok [] ∧
      simGen.Git.GetCommitsInRange [] headRev = .ok simCommits ∧
      (simCommits = [] → GenerateFull simGen = .ok []) ∧
      (simCommits ≠ [] → ∃ rel, GenerateFull simGen = .ok [rel] ∧
        rel.Version = unreleasedLabel ∧ rel.Entries.length = simCommits.length ∧
        List.Forall₂ entryOfCommit rel.Entries simCommits) :=
  ⟨rfl, rfl, GenerateFull_no_tags simGen simCommits rfl rfl⟩

/-- C25 (as stated, refuted): with the tags `v2` and `v1` and a history in
which no commit follows `v2`, `GenerateFull` returns the releases `v2` and
`v1`; the first release is labeled `v2`, not `Unreleased`. -/
theorem GenerateFull_first_not_unreleased :
    releasedHeadGen.Git.GetTags = .ok ["v2".toList, "v1".toList] ∧
      (GenerateFull releasedHeadGen).map (List.map (·.Version)) =
        .ok ["v2".toList, "v1".toList] ∧
      (GenerateFull releasedHeadGen).map (fun rels => rels.head?.map (·.Version)) ≠
        .ok (some "Unreleased".toList) := by
  decide

/-- C25 (amended): when the tag list of the backend is `[v2, v1]` and the
three range queries `GenerateFull` issues succeed (from `v2` to `HEAD`, from
`v1` to `v2`, and all history up to `v1`), `GenerateFull` returns at least 2
releases: the releases `Unreleased`, `v2`, `v1` when the range from `v2` to
`HEAD` has commits, and the releases `v2`, `v1` when it has none. -/
theorem GenerateFull_two_tags (g : Generator) (v2 v1 : Str) (c0 c1 c2 : List Commit)
    (ht : g.Git.GetTags = .ok [v2, v1])
    (h0 : g.Git.GetCommitsInRange v2 headRev = .ok c0)
    (h1 : g.Git.GetCommitsInRange v1 v2 = .ok c1)
    (h2 : g.Git.GetCommitsInRange [] v1 = .ok c2) :
    ∃ rels, GenerateFull g = .ok rels ∧ 2 ≤ rels.length ∧
      (c0 ≠ [] → rels.map (·.Version) = [unreleasedLabel, v2, v1]) ∧
      (c0 = [] → rels.map (·.Version) = [v2, v1]) := by
  have e : GenerateFull g =
      .ok ((if c0 = [] then [] else [buildRelease g.Meta unreleasedLabel c0]) ++
        [buildRelease g.Meta v2 c1, buildRelease g.Meta v1 c2]) := by
    rw [GenerateFull_ok g [v2, v1] ht]
    have e0 : unreleasedOf g ([v2, v1].getD 0 []) =
        if c0 = [] then [] else [buildRelease g.Meta unreleasedLabel c0] :=
      unreleasedOf_ok g v2 c0 h0
    have e1 : releaseOf g v2 v1 v2 = [buildRelease g.Meta v2 c1] := releaseOf_ok g _ _ _ _ h1
    have e2 : releaseOf g v1 [] v1 = [buildRelease g.Meta v1 c2] := releaseOf_ok g _ _ _ _ h2
    rw [e0]
    show Except.ok (_ ++ (releaseOf g v2 v1 v2 ++ (releaseOf g v1 [] v1 ++ []))) = _
    rw [e1, e2]
    rfl
  refine ⟨_, e, ?_, ?_, ?_⟩
  · simp
  · intro h
    simp [h, buildRelease]
  · intro h
    simp [h, buildRelease]

/-- Witness of C25 (amended) on a backend that answers only the three range
queries issued for the tags `v2` and `v1`. -/
theorem GenerateFull_two_tags_witness :
    issuedRangesGen.Git.GetTags = .ok ["v2".toList, "v1".toList] ∧
      issuedRangesGen.Git.GetCommitsInRange "v2".toList headRev = .ok oneCommit ∧
      issuedRangesGen.Git.GetCommitsInRange "v1".toList "v2".toList = .ok oneCommit ∧
      issuedRangesGen.Git.GetCommitsInRange [] "v1".toList = .ok oneCommit ∧
      issuedRangesGen.Git.GetCommitsInRange "v2".toList "v1".toList =
        .error "could not get git log: exit status 128".toList ∧
      ∃ rels, GenerateFull issuedRangesGen = .ok rels ∧ 2 ≤ rels.length ∧
        (oneCommit ≠ [] → rels.map (·.Version) = [unreleasedLabel, "v2".toList, "v1".toList]) ∧
        (oneCommit = [] → rels.map (·.Version) = ["v2".toList, "v1".toList]) :=
  ⟨rfl, by decide, by decide, by decide, by decide,
    GenerateFull_two_tags issuedRangesGen "v2".toList "v1".toList oneCommit oneCommit oneCommit
      rfl (by decide) (by decide) (by decide)⟩
theorem map_getD_range (tags : List Str) :
    (List.range tags.length).map (fun i => tags.getD i []) = tags := by
  apply List.ext_getElem?
  intro i
  by_cases hi : i < tags.length
  · rw [List.getElem?_map, List.getElem?_range hi, List.getElem?_eq_getElem hi]
    simp [List.getD_eq_getElem?_getD, List.getElem?_eq_getElem hi]
  · rw [List.getElem?_eq_none (by simpa using hi), List.getElem?_eq_none (by simpa using hi)]

/-- The revision `git log` is asked for when the base is empty: the head
alone, that is all history up to the head. -/
theorem rangeSpec_all (head : Str) : rangeSpec [] head = head := rfl

/-- The revision range `git log` is asked for when the base is not empty:
`base..head`, the commits of `head` that are not commits of `base`. -/
theorem rangeSpec_between (base head : Str) (h : base ≠ []) :
    rangeSpec base head = base ++ "..".toList ++ head := by
  unfold rangeSpec
  rw [if_neg h]

/-- C26: for a non-empty tag list `t[0..n-1]` and a backend that answers the
range queries `GenerateFull` issues (from `t[0]` to `HEAD`, from `t[i+1]` to
`t[i]`, and all history up to `t[n-1]`), `GenerateFull` returns first the
release `Unreleased` built from the range from `t[0]` to `HEAD`, if that
release has entries, and then exactly `n` releases labeled `t[0]`, ...,
`t[n-1]` in this order; the release labeled `t[i]` with `i < n-1` is the one
`GenerateRelease` builds from the range from `t[i+1]` to `t[i]`, and the
release labeled `t[n-1]` the one it builds from the range with the empty base
and the head `t[n-1]`, all history up to `t[n-1]`; the entries of each are the
commits of its range. -/
theorem GenerateFull_tagged (g : Generator) (tags : List Str) (q : Str → Str → List Commit)
    (hne : tags ≠ []) (ht : g.Git.GetTags = .ok tags)
    (h0 : ∀ t, tags.head? = some t → g.Git.GetCommitsInRange t headRev = .ok (q t headRev))
    (hq : ∀ (i : Nat) (t older : Str), tags[i]? = some t → tags[i + 1]? = some older →
      g.Git.GetCommitsInRange older t = .ok (q older t))
    (hl : ∀ t, tags.getLast? = some t → g.Git.GetCommitsInRange [] t = .ok (q [] t)) :
    ∃ unreleased rels, GenerateFull g = .ok (unreleased ++ rels) ∧
      (∀ t, tags.head? = some t →
        ∃ rel, GenerateRelease g unreleasedLabel t headRev = .ok rel ∧
          List.Forall₂ entryOfCommit rel.Entries (q t headRev) ∧
          unreleased = if rel.Entries = [] then [] else [rel]) ∧
      rels.map (·.Version) = tags ∧
      (∀ (i : Nat) (t older : Str), tags[i]? = some t → tags[i + 1]? = some older →
        ∃ rel, rels[i]? = some rel ∧ GenerateRelease g t older t = .ok rel ∧
          List.Forall₂ entryOfCommit rel.Entries (q older t)) ∧
      (∀ t, tags.getLast? = some t →
        ∃ rel, rels.getLast? = some rel ∧ GenerateRelease g t [] t = .ok rel ∧
          List.Forall₂ entryOfCommit rel.Entries (q [] t)) := by
  have hlen : 0 < tags.length := List.length_pos.2 hne
  have hhead : tags.head? = some (tags.getD 0 []) := by
    cases tags with
    | nil => exact absurd rfl hne
    | cons a rest => rfl
  have hlastq : tags.getLast? = some (tags.getD (tags.length - 1) []) := by
    rw [List.getLast?_eq_getElem?, List.getD_eq_getElem?_getD,
      List.getElem?_eq_getElem (by omega)]
    rfl
  have hend : tags.getD (tags.length - 1 + 1) [] = [] := by
    rw [List.getD_eq_getElem?_getD, List.getElem?_eq_none (by omega)]
    rfl
  have hq2 : ∀ i, i < tags.length →
      g.Git.GetCommitsInRange (tags.getD (i + 1) []) (tags.getD i []) =
        .ok (q (tags.getD (i + 1) []) (tags.getD i [])) := by
    intro i hi
    have e1 : tags[i]? = some (tags.getD i []) := by
      rw [List.getD_eq_getElem?_getD, List.getElem?_eq_getElem hi]
      rfl
    by_cases hi1 : i + 1 < tags.length
    · have e2 : tags[i + 1]? = some (tags.getD (i + 1) []) := by
        rw [List.getD_eq_getElem?_getD, List.getElem?_eq_getElem hi1]
        rfl
      exact hq i _ _ e1 e2
    · have e3 : i = tags.length - 1 := by omega
      rw [e3, hend]
      exact hl _ hlastq
  refine ⟨_, _, GenerateFull_tags_eq g tags q ht (h0 _ hhead) hq2, ?_, ?_, ?_, ?_⟩
  · intro t ht0
    have e : tags.getD 0 [] = t := by
      rw [hhead] at ht0
      exact Option.some.inj ht0
    rw [e]
    refine ⟨_, GenerateRelease_build g unreleasedLabel t headRev _ (h0 t ht0),
      buildRelease_entries _ _ _, ?_⟩
    cases h : q t headRev <;> simp [buildRelease]
  · rw [List.map_map]
    exact map_getD_range tags
  · intro i t older hi hi1
    have hlt : i < tags.length := by
      rcases Nat.lt_or_ge i tags.length with h | h
      · exact h
      · rw [List.getElem?_eq_none h] at hi
        cases hi
    have e1 : tags.getD i [] = t := by simp [List.getD_eq_getElem?_getD, hi]
    have e2 : tags.getD (i + 1) [] = older := by simp [List.getD_eq_getElem?_getD, hi1]
    refine ⟨buildRelease g.Meta t (q older t), ?_,
      GenerateRelease_build g t older t _ (hq i t older hi hi1), buildRelease_entries _ _ _⟩
    rw [List.getElem?_map, List.getElem?_range hlt, Option.map_some', e1, e2]
  · intro t hlt
    have hi : tags[tags.length - 1]? = some t := by
      rw [← List.getLast?_eq_getElem?]
      exact hlt
    have e1 : tags.getD (tags.length - 1) [] = t := by
      simp [List.getD_eq_getElem?_getD, hi]
    refine ⟨buildRelease g.Meta t (q [] t), ?_,
      GenerateRelease_build g t [] t _ (hl t hlt), buildRelease_entries _ _ _⟩
    rw [List.getLast?_eq_getElem?, List.length_map, List.length_range, List.getElem?_map,
      List.getElem?_range (by omega), Option.map_some', e1, hend]

/-- Witness of C26 on a backend that answers only the three range queries
issued for the tags `v2` and `v1`, each with one commit. -/
theorem GenerateFull_tagged_witness :
    ["v2".toList, "v1".toList] ≠ [] ∧
      issuedRangesGen.Git.GetTags = .ok ["v2".toList, "v1".toList] ∧
      issuedRangesGen.Git.GetCommitsInRange "v2".toList "v1".toList =
        .error "could not get git log: exit status 128".toList ∧
      ∃ unreleased rels, GenerateFull issuedRangesGen = .ok (unreleased ++ rels) ∧
        (∀ t, ["v2".toList, "v1".toList].head? = some t →
          ∃ rel, GenerateRelease issuedRangesGen unreleasedLabel t headRev = .ok rel ∧
            List.Forall₂ entryOfCommit rel.Entries oneCommit ∧
            unreleased = if rel.Entries = [] then [] else [rel]) ∧
        rels.map (·.Version) = ["v2".toList, "v1".toList] ∧
        (∀ (i : Nat) (t older : Str), ["v2".toList, "v1".toList][i]? = some t →
          ["v2".toList, "v1".toList][i + 1]? = some older →
          ∃ rel, rels[i]? = some rel ∧ GenerateRelease issuedRangesGen t older t = .ok rel ∧
            List.Forall₂ entryOfCommit rel.Entries oneCommit) ∧
        (∀ t, ["v2".toList, "v1".toList].getLast? = some t →
          ∃ rel, rels.getLast? = some rel ∧ GenerateRelease issuedRangesGen t [] t = .ok rel ∧
            List.Forall₂ entryOfCommit rel.Entries oneCommit) :=
  ⟨by simp, rfl, by decide,
    GenerateFull_tagged issuedRangesGen ["v2".toList, "v1".toList] (fun _ _ => oneCommit)
      (by simp) rfl
      (fun t h => by
        have e : t = "v2".toList := (Option.some.inj h).symm
        subst e
        decide)
      (fun i t older h1 h2 => by
        match i with
        | 0 =>
          have e1 : t = "v2".toList := (Option.some.inj h1).symm
          have e2 : older = "v1".toList := (Option.some.inj h2).symm
          subst e1 e2
          decide
        | i + 1 => cases h2)
      (fun t h => by
        have e : t = "v1".toList := (Option.some.inj h).symm
        subst e
        decide)⟩
/-- C27 (as stated, refuted): with the tags `v2` and `v1` and a backend whose
query for the range from `v1` to `v2` fails, `GenerateFull` reports no error:
it returns the releases `Unreleased` and `v1`, and the release `v2` is left
out. -/
theorem GenerateFull_swallows_range_error :
    failingRangeGen.Git.GetTags = .ok ["v2".toList, "v1".toList] ∧
      failingRangeGen.Git.GetCommitsInRange "v1".toList "v2".toList =
        .error "could not get git log: exit status 128".toList ∧
      (GenerateFull failingRangeGen).map (List.map (·.Version)) =
        .ok ["Unreleased".toList, "v1".toList] := by
  decide

/-- C27 (amended): `GenerateFull` reports an error to its caller exactly when
the tag query `GetTags` fails, and it is the error of that query.  When the
tag query succeeds no error is reported, whatever the range queries return:
the result holds, in order, the release `Unreleased` of the range from the
newest tag (or from the start of history) to `HEAD`, and for each tag the
release of its range; the release of a range whose query fails is left out,
the release of a range whose query succeeds is there, built from the commits
of the range (`Unreleased` only when it has entries). -/
theorem GenerateFull_errors (g : Generator) :
    (∀ err, g.Git.GetTags = .error err → GenerateFull g = .error err) ∧
      (∀ tags, g.Git.GetTags = .ok tags →
        GenerateFull g =
          .ok (unreleasedOf g (tags.headD []) ++
            ((tagRanges tags).map (fun r => releaseOf g r.1 r.2 r.1)).flatten)) ∧
      (∀ version base head err, g.Git.GetCommitsInRange base head = .error err →
        releaseOf g version base head = []) ∧
      (∀ version base head commits, g.Git.GetCommitsInRange base head = .ok commits →
        releaseOf g version base head = [buildRelease g.Meta version commits]) ∧
      (∀ base err, g.Git.GetCommitsInRange base headRev = .error err →
        unreleasedOf g base = []) ∧
      (∀ base commits, g.Git.GetCommitsInRange base headRev = .ok commits →
        unreleasedOf g base =
          if commits = [] then [] else [buildRelease g.Meta unreleasedLabel commits]) := by
  refine ⟨?_, ?_, fun v b h err hq => releaseOf_error g v b h err hq,
    fun v b h cs hq => releaseOf_ok g v b h cs hq,
    fun b err hq => unreleasedOf_error g b err hq,
    fun b cs hq => unreleasedOf_ok g b cs hq⟩
  · intro err he
    unfold GenerateFull
    rw [he]
  · intro tags ht
    rw [GenerateFull_ok g tags ht, tagRanges_eq, List.map_map]
    have e : tags.getD 0 [] = tags.headD [] := by cases tags <;> rfl
    rw [e]
    rfl

/-! ## The renderers (`FormatSummary`, `ExportMarkdown`) -/

theorem foldl_WriteString {α : Type} (f : α → Str) (l : List α) (b : Builder) :
    (l.foldl (fun (b : Builder) x => b.WriteString (f x)) b).String =
      b.String ++ (l.map f).flatten := by
  induction l generalizing b with
  | nil => simp [Builder.String]
  | cons x xs ih =>
    simp only [List.foldl_cons, ih, List.map_cons, List.flatten_cons]
    simp [Builder.String, Builder.WriteString, List.append_assoc]

theorem WriteString_four (b : Builder) (s1 s2 s3 s4 : Str) :
    (((b.WriteString s1).WriteString s2).WriteString s3).WriteString s4 =
      b.WriteString (s1 ++ s2 ++ s3 ++ s4) := by
  simp [Builder.WriteString, List.append_assoc]

/-- The text of `FormatSummary`: the blocks of the releases, one after the
other. -/
theorem FormatSummary_eq (ord : MapOrder) (releases : List Release) :
    FormatSummary ord releases =
      if releases = [] then "No releases found.".toList
      else
        (releases.enum.map (fun ir =>
          summaryHeader ir.2 ++ summaryChanges ir.2 ++ summaryWorkspaces ord ir.1 ir.2 ++
            summaryEntries ir.2)).flatten := by
  unfold FormatSummary
  by_cases h : releases = []
  · subst h
    rfl
  · have hl : ¬ releases.length = 0 := fun e => h (List.length_eq_zero.1 e)
    rw [if_neg hl, if_neg h]
    simp only [WriteString_four]
    rw [foldl_WriteString (fun (ir : Nat × Release) =>
      summaryHeader ir.2 ++ summaryChanges ir.2 ++ summaryWorkspaces ord ir.1 ir.2 ++
        summaryEntries ir.2)]
    rfl

/-- The text of `ExportMarkdown`: the title, then the blocks of the releases,
one after the other. -/
theorem ExportMarkdown_eq (ord : MapOrder) (releases : List Release) :
    ExportMarkdown ord releases =
      if releases = [] then "# Release Summary\n\nNo releases found.".toList
      else
        "# Release Summary\n\n".toList ++
          (releases.enum.map (fun ir =>
            markdownHeader ir.2 ++ markdownChanges ir.2 ++ markdownWorkspaces ord ir.1 ir.2 ++
              markdownEntries ir.2)).flatten := by
  unfold ExportMarkdown
  by_cases h : releases = []
  · subst h
    rfl
  · have hl : ¬ releases.length = 0 := fun e => h (List.length_eq_zero.1 e)
    rw [if_neg hl, if_neg h]
    simp only [WriteString_four]
    rw [foldl_WriteString (fun (ir : Nat × Release) =>
      markdownHeader ir.2 ++ markdownChanges ir.2 ++ markdownWorkspaces ord ir.1 ir.2 ++
        markdownEntries ir.2)]
    rfl

theorem displayTag_eq_iff (e : ChangeEntry) (category : Str) (h1 : category ≠ [])
    (h2 : category ≠ "none".toList) :
    displayTag e = category ↔ inCategory category e = true := by
  unfold displayTag inCategory
  rw [decide_eq_true_iff]
  by_cases he : e.Tag = [] ∨ e.Tag = "none".toList
  · rw [if_pos he]
    constructor
    · intro h
      exact Or.inr ⟨h.symm, he.symm⟩
    · rintro (h | ⟨h, _⟩)
      · rcases he with he | he
        · exact absurd (h.symm.trans he) h1
        · exact absurd (h.symm.trans he) h2
      · exact h.symm
  · rw [if_neg he]
    constructor
    · intro h
      exact Or.inl h
    · rintro (h | ⟨_, h⟩)
      · exact h
      · exact absurd h.symm he

theorem countEntry_lookup (st : List (Str × Nat) × Str) (e : ChangeEntry) (tag : Str) :
    ((countEntry st e).1.lookup tag).getD 0 =
      (st.1.lookup tag).getD 0 + (if displayTag e = tag then 1 else 0) := by
  simp only [countEntry]
  by_cases h : displayTag e = tag
  · rw [if_pos h, ← h, lookup_setEntry_self]
    rfl
  · rw [if_neg h, lookup_setEntry_ne _ _ _ _ (fun e1 => h e1.symm)]
    rfl

theorem countEntries_lookup (entries : List ChangeEntry) (st : List (Str × Nat) × Str)
    (tag : Str) :
    ((entries.foldl countEntry st).1.lookup tag).getD 0 =
      (st.1.lookup tag).getD 0 + entries.countP (fun e => decide (displayTag e = tag)) := by
  induction entries generalizing st with
  | nil => simp
  | cons e rest ih =>
    rw [List.foldl_cons, ih, countEntry_lookup, List.countP_cons]
    by_cases h : displayTag e = tag
    · simp [h]
      omega
    · simp [h]

theorem counts_eq_categoryCount (entries : List ChangeEntry) (category : Str)
    (h1 : category ≠ []) (h2 : category ≠ "none".toList) :
    (((countEntries entries).1.lookup category).getD 0) = categoryCount entries category := by
  unfold countEntries categoryCount
  rw [countEntries_lookup]
  have e : (([] : List (Str × Nat)), "patch".toList).1.lookup category = none := rfl
  rw [e, Option.getD_none, Nat.zero_add]
  apply List.countP_congr
  intro x _
  rw [decide_eq_true_iff]
  exact displayTag_eq_iff x category h1 h2

theorem addPart_eq (counts : List (Str × Nat)) (parts : List Str) (o : Str × Str) :
    addPart counts parts o = parts ++ countText ((counts.lookup o.1).getD 0) o.2 := by
  unfold addPart countText
  cases h : counts.lookup o.1 with
  | none => simp
  | some c =>
    simp only [Option.getD_some]
    by_cases hc : c = 0
    · simp [hc]
    · have : c > 0 := by omega
      simp [hc, this]

theorem changeParts_eq (entries : List ChangeEntry) :
    Join (changeParts (countEntries entries).1) ", ".toList = changesText entries := by
  unfold changeParts changesText categoryOrder
  simp only [List.foldl_cons, List.foldl_nil, addPart_eq, List.nil_append]
  rw [counts_eq_categoryCount entries "feature".toList (by decide) (by decide),
    counts_eq_categoryCount entries "fix".toList (by decide) (by decide),
    counts_eq_categoryCount entries "refactor".toList (by decide) (by decide),
    counts_eq_categoryCount entries "experiment".toList (by decide) (by decide),
    counts_eq_categoryCount entries "other".toList (by decide) (by decide)]

/-- C28: the text of `FormatSummary` and of `ExportMarkdown` is made of one
block per release whose Changes line holds, after its title, the number of
entries of each category in the order features, fixes, refactors,
experiments, other; an entry whose tag is `none` or empty is counted under
other, and a category without entries is left out. -/
theorem Changes_line_counts (ord : MapOrder) (releases : List Release) :
    FormatSummary ord releases =
        (if releases = [] then "No releases found.".toList
         else
          (releases.enum.map (fun ir =>
            summaryHeader ir.2 ++
              ("Changes: ".toList ++ changesText ir.2.Entries ++ "\n".toList) ++
              summaryWorkspaces ord ir.1 ir.2 ++ summaryEntries ir.2)).flatten) ∧
      ExportMarkdown ord releases =
        (if releases = [] then "# Release Summary\n\nNo releases found.".toList
         else
          "# Release Summary\n\n".toList ++
            (releases.enum.map (fun ir =>
              markdownHeader ir.2 ++
                ("- **Changes:** ".toList ++ changesText ir.2.Entries ++ "\n".toList) ++
                markdownWorkspaces ord ir.1 ir.2 ++ markdownEntries ir.2)).flatten) := by
  constructor
  · rw [FormatSummary_eq]
    simp only [summaryChanges, changeParts_eq]
  · rw [ExportMarkdown_eq]
    simp only [markdownChanges, changeParts_eq]

/-- The Changes text of the first three commits of `TestGenerator_Simulation`
classified without a store: one feature, one fix and one refactor. -/
theorem changesText_simulation :
    changesText (buildRelease none "v1.0.0".toList (simCommits.take 3)).Entries =
      "1 features, 1 fixes, 1 refactors".toList := by
  decide

theorem weightOf_other (s : Str) (h1 : s ≠ "minor".toList) (h2 : s ≠ "major".toList) :
    weightOf s = 0 := by
  unfold weightOf impactWeight
  by_cases h0 : s = "patch".toList
  · subst h0
    decide
  · have e0 : (s == "patch".toList) = false := beq_eq_false_iff_ne.2 h0
    have e1 : (s == "minor".toList) = false := beq_eq_false_iff_ne.2 h1
    have e2 : (s == "major".toList) = false := beq_eq_false_iff_ne.2 h2
    rw [List.lookup_cons, e0]
    simp only []
    rw [List.lookup_cons, e1]
    simp only []
    rw [List.lookup_cons, e2]
    rfl

/-- The loop that keeps the heaviest impact, for any weights that order three
impacts and give every other text the weight zero. -/
theorem foldl_heaviest (w : Str → Nat) (P Mi Ma : Str) (hP : w P = 0) (hMi : w Mi = 1)
    (hMa : w Ma = 2) (ho : ∀ s, s ≠ Mi → s ≠ Ma → w s = 0) (l : List Str) (m : Str)
    (hm : m = P ∨ m = Mi ∨ m = Ma) :
    l.foldl (fun m imp => if w imp > w m then imp else m) m =
      if m = Ma ∨ Ma ∈ l then Ma else if m = Mi ∨ Mi ∈ l then Mi else P := by
  have hPMi : P ≠ Mi := fun e => by rw [e, hMi] at hP; cases hP
  have hPMa : P ≠ Ma := fun e => by rw [e, hMa] at hP; cases hP
  have hMiMa : Mi ≠ Ma := fun e => by rw [e, hMa] at hMi; cases hMi
  induction l generalizing m with
  | nil =>
    rcases hm with h | h | h <;> subst h <;> simp [hPMi, hPMa, hMiMa]
  | cons imp rest ih =>
    rw [List.foldl_cons]
    by_cases h1 : imp = Ma
    · subst h1
      rcases hm with h | h | h
      · subst h
        rw [hMa, hP, if_pos (by omega), ih _ (Or.inr (Or.inr rfl))]
        simp
      · subst h
        rw [hMa, hMi, if_pos (by omega), ih _ (Or.inr (Or.inr rfl))]
        simp
      · subst h
        rw [if_neg (by omega), ih _ (Or.inr (Or.inr rfl))]
        simp
    · by_cases h2 : imp = Mi
      · subst h2
        rcases hm with h | h | h
        · subst h
          rw [hMi, hP, if_pos (by omega), ih _ (Or.inr (Or.inl rfl))]
          simp [hPMa, hMiMa, hMiMa.symm]
        · subst h
          rw [if_neg (by omega), ih _ (Or.inr (Or.inl rfl))]
          simp [hMiMa, hMiMa.symm]
        · subst h
          rw [hMi, hMa, if_neg (by omega), ih _ (Or.inr (Or.inr rfl))]
          simp
      · have h0 : w imp = 0 := ho imp h2 h1
        rw [h0, if_neg (by omega), ih m hm]
        have e1 : Ma ≠ imp := fun e => h1 e.symm
        have e2 : Mi ≠ imp := fun e => h2 e.symm
        simp [e1, e2]

theorem countEntries_snd (entries : List ChangeEntry) (st : List (Str × Nat) × Str) :
    (entries.foldl countEntry st).2 =
      (entries.map (·.Impact)).foldl
        (fun m imp => if weightOf imp > weightOf m then imp else m) st.2 := by
  induction entries generalizing st with
  | nil => rfl
  | cons e rest ih =>
    rw [List.foldl_cons, ih]
    rfl

theorem maxImpact_eq (entries : List ChangeEntry) :
    (countEntries entries).2 = highestImpact entries := by
  unfold countEntries highestImpact
  rw [countEntries_snd,
    foldl_heaviest weightOf "patch".toList "minor".toList "major".toList (by decide)
      (by decide) (by decide) weightOf_other _ _ (Or.inl rfl)]
  have hp1 : ¬ "patch".toList = "major".toList := by decide
  have hp2 : ¬ "patch".toList = "minor".toList := by decide
  have m1 : "major".toList ∈ entries.map (·.Impact) ↔
      ∃ e ∈ entries, e.Impact = "major".toList := by
    rw [List.mem_map]
  have m2 : "minor".toList ∈ entries.map (·.Impact) ↔
      ∃ e ∈ entries, e.Impact = "minor".toList := by
    rw [List.mem_map]
  by_cases a : ∃ e ∈ entries, e.Impact = "major".toList
  · rw [if_pos (Or.inr (m1.2 a)), if_pos a]
  · have a1 : ¬ ("patch".toList = "major".toList ∨ "major".toList ∈ entries.map (·.Impact)) :=
      fun h => h.elim hp1 (fun h => a (m1.1 h))
    rw [if_neg a1, if_neg a]
    by_cases b : ∃ e ∈ entries, e.Impact = "minor".toList
    · rw [if_pos (Or.inr (m2.2 b)), if_pos b]
    · have b1 : ¬ ("patch".toList = "minor".toList ∨
          "minor".toList ∈ entries.map (·.Impact)) :=
        fun h => h.elim hp2 (fun h => b (m2.1 h))
      rw [if_neg b1, if_neg b]

theorem highestImpact_max (entries : List ChangeEntry) :
    ∀ e ∈ entries, weightOf e.Impact ≤ weightOf (highestImpact entries) := by
  intro e he
  unfold highestImpact
  by_cases a : ∃ e ∈ entries, e.Impact = "major".toList
  · rw [if_pos a]
    by_cases h1 : e.Impact = "major".toList
    · rw [h1]
    · by_cases h2 : e.Impact = "minor".toList
      · rw [h2]
        decide
      · rw [weightOf_other _ h2 h1]
        exact Nat.zero_le _
  · rw [if_neg a]
    have h1 : e.Impact ≠ "major".toList := fun h => a ⟨e, he, h⟩
    by_cases b : ∃ e ∈ entries, e.Impact = "minor".toList
    · rw [if_pos b]
      by_cases h2 : e.Impact = "minor".toList
      · rw [h2]
      · rw [weightOf_other _ h2 h1]
        exact Nat.zero_le _
    · rw [if_neg b]
      have h2 : e.Impact ≠ "minor".toList := fun h => b ⟨e, he, h⟩
      rw [weightOf_other _ h2 h1]
      exact Nat.zero_le _

/-- C29: the text of `FormatSummary` and of `ExportMarkdown` is made of one
block per release whose Impact line holds the maximum impact of the entries
of the release under patch < minor < major: `major` if an entry has impact
major, otherwise `minor` if an entry has impact minor, otherwise `patch`, also
for a release without entries; no entry weighs more than it. -/
theorem Impact_line_maximum (ord : MapOrder) (releases : List Release) :
    FormatSummary ord releases =
        (if releases = [] then "No releases found.".toList
         else
          (releases.enum.map (fun ir =>
            ("Release ".toList ++ ir.2.Version ++ "\n".toList ++
              ("Impact: ".toList ++ highestImpact ir.2.Entries ++ "\n".toList)) ++
              summaryChanges ir.2 ++ summaryWorkspaces ord ir.1 ir.2 ++
              summaryEntries ir.2)).flatten) ∧
      ExportMarkdown ord releases =
        (if releases = [] then "# Release Summary\n\nNo releases found.".toList
         else
          "# Release Summary\n\n".toList ++
            (releases.enum.map (fun ir =>
              ("## ".toList ++ ir.2.Version ++ "\n".toList ++
                ("- **Impact:** ".toList ++ highestImpact ir.2.Entries ++ "\n".toList)) ++
                markdownChanges ir.2 ++ markdownWorkspaces ord ir.1 ir.2 ++
                markdownEntries ir.2)).flatten) ∧
      highestImpact [] = "patch".toList ∧
      ∀ rel ∈ releases, ∀ e ∈ rel.Entries,
        weightOf e.Impact ≤ weightOf (highestImpact rel.Entries) := by
  refine ⟨?_, ?_, rfl, fun rel _ => highestImpact_max rel.Entries⟩
  · rw [FormatSummary_eq]
    simp only [summaryHeader, maxImpact_eq]
  · rw [ExportMarkdown_eq]
    simp only [markdownHeader, maxImpact_eq]

theorem workspaceSet_fold_nodup (entries : List ChangeEntry) (init : List Str)
    (h : init.Nodup) :
    (entries.foldl
      (fun wsSet e =>
        if e.Workspace ≠ [] then
          (if e.Workspace ∈ wsSet then wsSet else wsSet ++ [e.Workspace])
        else wsSet)
      init).Nodup := by
  induction entries generalizing init with
  | nil => exact h
  | cons e rest ih =>
    rw [List.foldl_cons]
    apply ih
    by_cases h1 : e.Workspace ≠ []
    · rw [if_pos h1]
      by_cases h2 : e.Workspace ∈ init
      · rw [if_pos h2]
        exact h
      · rw [if_neg h2]
        exact List.Nodup.append h (List.nodup_singleton _)
          (by
            intro a ha hb
            rw [List.mem_singleton] at hb
            subst hb
            exact h2 ha)
    · rw [if_neg h1]
      exact h

theorem workspaceSet_fold_mem (entries : List ChangeEntry) (init : List Str) (w : Str) :
    w ∈ entries.foldl
        (fun wsSet e =>
          if e.Workspace ≠ [] then
            (if e.Workspace ∈ wsSet then wsSet else wsSet ++ [e.Workspace])
          else wsSet)
        init ↔
      w ∈ init ∨ (w ≠ [] ∧ ∃ e ∈ entries, e.Workspace = w) := by
  induction entries generalizing init with
  | nil => simp
  | cons e rest ih =>
    rw [List.foldl_cons, ih]
    by_cases h1 : e.Workspace ≠ []
    · rw [if_pos h1]
      by_cases h2 : e.Workspace ∈ init
      · rw [if_pos h2]
        constructor
        · rintro (h | ⟨hw, x, hx, he⟩)
          · exact Or.inl h
          · exact Or.inr ⟨hw, x, List.mem_cons_of_mem _ hx, he⟩
        · rintro (h | ⟨hw, x, hx, he⟩)
          · exact Or.inl h
          · rcases List.mem_cons.1 hx with hx | hx
            · subst hx
              left
              rw [← he]
              exact h2
            · exact Or.inr ⟨hw, x, hx, he⟩
      · rw [if_neg h2]
        constructor
        · rintro (h | ⟨hw, x, hx, he⟩)
          · rcases List.mem_append.1 h with h | h
            · exact Or.inl h
            · rw [List.mem_singleton] at h
              subst h
              exact Or.inr ⟨h1, e, List.mem_cons_self _ _, rfl⟩
          · exact Or.inr ⟨hw, x, List.mem_cons_of_mem _ hx, he⟩
        · rintro (h | ⟨hw, x, hx, he⟩)
          · exact Or.inl (List.mem_append_left _ h)
          · rcases List.mem_cons.1 hx with hx | hx
            · subst hx
              left
              rw [← he]
              exact List.mem_append_right _ (List.mem_singleton_self _)
            · exact Or.inr ⟨hw, x, hx, he⟩
    · rw [if_neg h1]
      constructor
      · rintro (h | ⟨hw, x, hx, he⟩)
        · exact Or.inl h
        · exact Or.inr ⟨hw, x, List.mem_cons_of_mem _ hx, he⟩
      · rintro (h | ⟨hw, x, hx, he⟩)
        · exact Or.inl h
        · rcases List.mem_cons.1 hx with hx | hx
          · subst hx
            rw [he] at h1
            exact absurd hw h1
          · exact Or.inr ⟨hw, x, hx, he⟩

theorem mem_workspaceNames (entries : List ChangeEntry) (w : Str) :
    w ∈ workspaceNames entries ↔ w ≠ [] ∧ ∃ e ∈ entries, e.Workspace = w := by
  unfold workspaceNames
  rw [List.mem_dedup, List.mem_filter, List.mem_map, decide_eq_true_iff]
  exact And.comm

theorem workspaceSet_perm (entries : List ChangeEntry) :
    (workspaceSet entries).Perm (workspaceNames entries) := by
  have hn : (workspaceNames entries).Nodup := List.nodup_dedup _
  apply (List.perm_ext_iff_of_nodup (workspaceSet_fold_nodup entries [] List.nodup_nil) hn).2
  intro w
  rw [workspaceSet_fold_mem, mem_workspaceNames]
  simp

theorem workspaceNames_eq_nil (entries : List ChangeEntry)
    (h : ∀ e ∈ entries, e.Workspace = []) : workspaceNames entries = [] := by
  apply List.eq_nil_iff_forall_not_mem.2
  intro w hw
  rw [mem_workspaceNames] at hw
  obtain ⟨hw, e, he, hew⟩ := hw
  rw [← hew] at hw
  exact hw (h e he)

/-- The workspace lines for a set of keys that is an arrangement of `names`,
visited in some arrangement of the keys. -/
theorem workspaceLines_eq (one many : Str) (visit : List Str → List Str) (wsSet names : List Str)
    (hv : (visit wsSet).Perm wsSet) (hp : wsSet.Perm names) :
    (names = [] → workspaceLines one many visit wsSet = []) ∧
      (∀ name, names = [name] →
        workspaceLines one many visit wsSet = one ++ name ++ "\n".toList) ∧
      (1 < names.length →
        workspaceLines one many visit wsSet =
          many ++ Join (visit wsSet) ", ".toList ++ "\n".toList) := by
  have hlen : wsSet.length = names.length := hp.length_eq
  refine ⟨?_, ?_, ?_⟩
  · intro h
    subst h
    have e : wsSet = [] := List.Perm.eq_nil hp
    subst e
    rfl
  · intro name h
    subst h
    have e : wsSet = [name] := List.perm_singleton.1 hp
    subst e
    have e2 : visit [name] = [name] := List.perm_singleton.1 hv
    unfold workspaceLines
    rw [if_pos (show [name].length = 1 from rfl), e2]
    simp [Builder.String, Builder.WriteString]
  · intro h
    unfold workspaceLines
    rw [if_neg (by omega), if_pos (by omega)]
    have e : (visit wsSet).foldl (fun names ws => names ++ [ws]) [] = visit wsSet := by
      rw [foldl_append_singleton (fun ws => ws)]
      simp
    simp only [e]

/-- C30: the text of `FormatSummary` and of `ExportMarkdown` is made of one
block per release; the workspace part of the block is empty when no entry has
a workspace, is the line `Workspace: <name>` when exactly one distinct
workspace name occurs among the entries, and is a line `Workspaces:` with the
distinct workspace names, each exactly once, separated by a comma and a space,
when more than one occurs (in the order the map of the names is visited). -/
theorem Workspace_line (ord : MapOrder) (releases : List Release) :
    FormatSummary ord releases =
        (if releases = [] then "No releases found.".toList
         else
          (releases.enum.map (fun ir =>
            summaryHeader ir.2 ++ summaryChanges ir.2 ++ summaryWorkspaces ord ir.1 ir.2 ++
              summaryEntries ir.2)).flatten) ∧
      ExportMarkdown ord releases =
        (if releases = [] then "# Release Summary\n\nNo releases found.".toList
         else
          "# Release Summary\n\n".toList ++
            (releases.enum.map (fun ir =>
              markdownHeader ir.2 ++ markdownChanges ir.2 ++
                markdownWorkspaces ord ir.1 ir.2 ++ markdownEntries ir.2)).flatten) ∧
      ∀ (i : Nat) (rel : Release),
        ((∀ e ∈ rel.Entries, e.Workspace = []) →
          summaryWorkspaces ord i rel = [] ∧ markdownWorkspaces ord i rel = []) ∧
        (∀ name, workspaceNames rel.Entries = [name] →
          summaryWorkspaces ord i rel = "Workspace: ".toList ++ name ++ "\n".toList ∧
          markdownWorkspaces ord i rel =
            "- **Workspace:** ".toList ++ name ++ "\n".toList) ∧
        (1 < (workspaceNames rel.Entries).length →
          ∃ names, names.Perm (workspaceNames rel.Entries) ∧ names.Nodup ∧
            summaryWorkspaces ord i rel =
              "Workspaces: ".toList ++ Join names ", ".toList ++ "\n".toList ∧
            markdownWorkspaces ord i rel =
              "- **Workspaces:** ".toList ++ Join names ", ".toList ++ "\n".toList) := by
  refine ⟨FormatSummary_eq ord releases, ExportMarkdown_eq ord releases, ?_⟩
  intro i rel
  have hv := ord.perm i (workspaceSet rel.Entries)
  have hp := workspaceSet_perm rel.Entries
  have hs := workspaceLines_eq "Workspace: ".toList "Workspaces: ".toList (ord.range i)
    (workspaceSet rel.Entries) (workspaceNames rel.Entries) hv hp
  have hm := workspaceLines_eq "- **Workspace:** ".toList "- **Workspaces:** ".toList
    (ord.range i) (workspaceSet rel.Entries) (workspaceNames rel.Entries) hv hp
  refine ⟨?_, ?_, ?_⟩
  · intro h
    have e := workspaceNames_eq_nil rel.Entries h
    exact ⟨hs.1 e, hm.1 e⟩
  · intro name h
    exact ⟨hs.2.1 name h, hm.2.1 name h⟩
  · intro h
    refine ⟨ord.range i (workspaceSet rel.Entries), hv.trans hp, ?_, hs.2.2 h, hm.2.2 h⟩
    exact (hv.trans hp).nodup_iff.2 (List.nodup_dedup _)

set_option maxRecDepth 100000 in
/-- The text `FormatSummary` returns for the release of `TestFormatSummary`. -/
theorem FormatSummary_test :
    FormatSummary insertionOrder [testRelease] =
      "Release v1.1.0\nImpact: minor\nChanges: 1 features, 1 fixes\nWorkspace: Core\n".toList ++
        summaryRule ++
        ("  feature:   add new logic (abc1234)\n" ++
          "  fix:       fix nasty bug (def5678)\n\n").toList := by
  decide

set_option maxRecDepth 100000 in
/-- The text `ExportMarkdown` returns for the release `GenerateRelease` makes
of the commits of `TestGenerator_Simulation`, with the workspace names in
either order. -/
theorem ExportMarkdown_simulation :
    (GenerateRelease simGen "v1.0.0".toList "base".toList "head".toList).map
        (fun r => ExportMarkdown reverseOrder [r]) =
      .ok ("# Release Summary\n\n## v1.0.0\n- **Impact:** major\n" ++
        "- **Changes:** 1 features, 1 refactors, 1 experiments, 1 other\n" ++
        "- **Workspaces:** Database, Auth System\n\n---\n\n" ++
        "- **feature:** feat: add user login (\x60h1\x60)\n" ++
        "- **security:** fix: crash on logout (\x60h2\x60)\n" ++
        "- **refactor:** refactor: optimize database (\x60h3\x60)\n" ++
        "- **experiment:** experiment: test new api (\x60h4\x60)\n" ++
        "- **other:** chore: update docs (\x60h5\x60)\n\n").toList := by
  decide

/-! ## The hygiene analyzer (`hygiene.go`) -/

theorem staleLoop_iff (validate : Str → Bool) (commits : List Str) :
    staleLoop validate commits = true ↔ ∃ hash ∈ commits, validate hash = false := by
  induction commits with
  | nil => simp [staleLoop]
  | cons h rest ih =>
    simp only [staleLoop, List.exists_mem_cons_iff]
    cases hv : validate h
    · simp
    · simp [ih]

theorem wipLine_lists (lower : Str → Str) (report : HealthReport) (msg : Str) :
    (wipLine lower report msg).SquashSuggestions = report.SquashSuggestions ∧
      (wipLine lower report msg).StaleWorkspaces = report.StaleWorkspaces := by
  unfold wipLine
  simp only []
  split <;> exact ⟨rfl, rfl⟩

theorem foldl_wipLine_lists (lower : Str → Str) (lines : List Str) (report : HealthReport) :
    (lines.foldl (wipLine lower) report).SquashSuggestions = report.SquashSuggestions ∧
      (lines.foldl (wipLine lower) report).StaleWorkspaces = report.StaleWorkspaces := by
  induction lines generalizing report with
  | nil => exact ⟨rfl, rfl⟩
  | cons l rest ih =>
    rw [List.foldl_cons]
    have h := wipLine_lists lower report l
    have h2 := ih (wipLine lower report l)
    exact ⟨h2.1.trans h.1, h2.2.trans h.2⟩

theorem foldl_checkWorkspace (validate : Str → Bool) (wss : List Workspace)
    (report : HealthReport) :
    (wss.foldl (checkWorkspace validate) report).SquashSuggestions =
        report.SquashSuggestions ++
          (wss.filter (fun ws => decide (ws.Commits.length > 3))).map (·.Name) ∧
      (wss.foldl (checkWorkspace validate) report).StaleWorkspaces =
        report.StaleWorkspaces ++
          (wss.filter (fun ws => decide (isStale validate ws))).map (·.Name) := by
  induction wss generalizing report with
  | nil => simp
  | cons ws rest ih =>
    rw [List.foldl_cons]
    have h := ih (checkWorkspace validate report ws)
    rw [h.1, h.2]
    have hs : staleLoop validate ws.Commits = true ↔ isStale validate ws :=
      staleLoop_iff validate ws.Commits
    simp only [checkWorkspace, List.filter_cons]
    by_cases h3 : ws.Commits.length > 3 <;> by_cases h4 : isStale validate ws
    · simp [h3, h4, hs.2 h4]
    · have : staleLoop validate ws.Commits = false := by
        cases e : staleLoop validate ws.Commits
        · rfl
        · exact absurd (hs.1 e) h4
      simp [h3, h4, this]
    · simp [h3, h4, hs.2 h4]
    · have : staleLoop validate ws.Commits = false := by
        cases e : staleLoop validate ws.Commits
        · rfl
        · exact absurd (hs.1 e) h4
      simp [h3, h4, this]

/-- C31: when the store document is loaded, `GetReport` returns a report whose
StaleWorkspaces are the names of the workspaces with at least one member hash
that fails `ValidateHash`, in store order, and whose SquashSuggestions are the
names of the workspaces with more than 3 member commits, in store order: a
workspace is listed in the one whether or not it is listed in the other. -/
theorem GetReport_lists (a : Analyzer) (m : Meta) (hl : a.Load = .ok m) :
    ∃ report, GetReport a = .ok report ∧
      report.StaleWorkspaces =
        (m.Workspaces.filter (fun ws => decide (isStale a.ValidateHash ws))).map (·.Name) ∧
      report.SquashSuggestions =
        (m.Workspaces.filter (fun ws => decide (ws.Commits.length > 3))).map (·.Name) := by
  unfold GetReport
  rw [hl]
  refine ⟨_, rfl, ?_, ?_⟩
  · rw [(foldl_checkWorkspace _ _ _).2]
    cases a.Log with
    | error e =>
      cases a.GetStatus with
      | error e2 => rfl
      | ok status =>
        simp only []
        split <;> rfl
    | ok commits =>
      simp only []
      rw [(foldl_wipLine_lists _ _ _).2]
      cases a.GetStatus with
      | error e2 => rfl
      | ok status =>
        simp only []
        split <;> rfl
  · rw [(foldl_checkWorkspace _ _ _).1]
    cases a.Log with
    | error e =>
      cases a.GetStatus with
      | error e2 => rfl
      | ok status =>
        simp only []
        split <;> rfl
    | ok commits =>
      simp only []
      rw [(foldl_wipLine_lists _ _ _).1]
      cases a.GetStatus with
      | error e2 => rfl
      | ok status =>
        simp only []
        split <;> rfl

/-- Witness of C31 on `testAnalyzer`. -/
theorem GetReport_lists_witness :
    testAnalyzer.Load = .ok hygieneMeta ∧
      ∃ report, GetReport testAnalyzer = .ok report ∧
        report.StaleWorkspaces =
          (hygieneMeta.Workspaces.filter
            (fun ws => decide (isStale testAnalyzer.ValidateHash ws))).map (·.Name) ∧
        report.SquashSuggestions =
          (hygieneMeta.Workspaces.filter
            (fun ws => decide (ws.Commits.length > 3))).map (·.Name) :=
  ⟨rfl, GetReport_lists testAnalyzer hygieneMeta rfl⟩

/-- The report of `testAnalyzer`: `General` is stale through one hash among
valid ones, `Big` is suggested for squash, `Both` is in both lists. -/
theorem GetReport_test :
    GetReport testAnalyzer =
      .ok { WIPCommits := ["wip: working on stuff".toList],
            SquashSuggestions := ["Big".toList, "Both".toList],
            StaleWorkspaces := ["General".toList, "Both".toList],
            DirtyFiles := false } := by
  decide

/-! ## The rebase plan -/

theorem exists_adjacent (l : List RebaseStep) (n : Nat) (h : n + 1 < l.length) :
    ∃ pre a b post, pre.length = n ∧ l = pre ++ a :: b :: post := by
  induction n generalizing l with
  | zero =>
    match l, h with
    | a :: b :: post, _ => exact ⟨[], a, b, post, rfl, rfl⟩
  | succ n ih =>
    match l, h with
    | x :: rest, h =>
      have h1 : n + 1 < rest.length := by simpa using h
      obtain ⟨pre, a, b, post, hp, he⟩ := ih rest h1
      exact ⟨x :: pre, a, b, post, by simp [hp], by simp [he]⟩

theorem exists_at (l : List RebaseStep) (n : Nat) (h : n < l.length) :
    ∃ pre s post, pre.length = n ∧ l = pre ++ s :: post := by
  induction n generalizing l with
  | zero =>
    match l, h with
    | a :: post, _ => exact ⟨[], a, post, rfl, rfl⟩
  | succ n ih =>
    match l, h with
    | x :: rest, h =>
      have h1 : n < rest.length := by simpa using h
      obtain ⟨pre, s, post, hp, he⟩ := ih rest h1
      exact ⟨x :: pre, s, post, by simp [hp], by simp [he]⟩

theorem getElem?_adjacent (pre post : List RebaseStep) (a b : RebaseStep) :
    (pre ++ a :: b :: post)[pre.length]? = some a ∧
      (pre ++ a :: b :: post)[pre.length + 1]? = some b := by
  constructor
  · rw [List.getElem?_append_right (Nat.le_refl _)]
    simp
  · rw [List.getElem?_append_right (by omega)]
    simp

theorem set_adjacent (pre post : List RebaseStep) (a b : RebaseStep) :
    ((pre ++ a :: b :: post).set (pre.length + 1) a).set pre.length b =
        pre ++ b :: a :: post ∧
      ((pre ++ a :: b :: post).set pre.length b).set (pre.length + 1) a =
        pre ++ b :: a :: post := by
  constructor
  · induction pre with
    | nil => rfl
    | cons x xs ih => simp [ih]
  · induction pre with
    | nil => rfl
    | cons x xs ih => simp [ih]

theorem set_at (pre post : List RebaseStep) (s t : RebaseStep) :
    (pre ++ s :: post)[pre.length]? = some s ∧
      (pre ++ s :: post).set pre.length t = pre ++ t :: post := by
  constructor
  · rw [List.getElem?_append_right (Nat.le_refl _)]
    simp
  · induction pre with
    | nil => rfl
    | cons x xs ih => simp [ih]

theorem swappedAt_length (i : Nat) (l l2 : List RebaseStep) (h : swappedAt i l l2) :
    l2.length = l.length ∧ (stepCommits l2).Perm (stepCommits l) := by
  obtain ⟨pre, a, b, post, _, h1, h2⟩ := h
  subst h1
  subst h2
  constructor
  · simp
  · simp only [stepCommits, List.map_append, List.map_cons]
    exact List.Perm.append_left _ (List.Perm.swap _ _ _)

theorem actionSetAt_length (i : Nat) (action : Str) (l l2 : List RebaseStep)
    (h : actionSetAt i action l l2) :
    l2.length = l.length ∧ stepCommits l2 = stepCommits l := by
  obtain ⟨pre, s, post, _, h1, h2⟩ := h
  subst h1
  subst h2
  constructor
  · simp
  · simp [stepCommits]

/-- The key `K` on a plan whose cursor is in range. -/
theorem moveUp_spec (m : RebasePlan) (hc : cursorOk m) :
    ∃ m2, moveUp m = some m2 ∧ cursorOk m2 ∧
      (m.rebaseCursor = 0 → m2 = m) ∧
      (m.rebaseCursor > 0 →
        m2.rebaseCursor = m.rebaseCursor - 1 ∧
          swappedAt (m.rebaseCursor - 1).toNat m.rebaseSteps m2.rebaseSteps) := by
  obtain ⟨steps, cursor⟩ := m
  obtain ⟨h0, h1⟩ := hc
  simp only at h0 h1
  unfold moveUp
  by_cases hp : cursor > 0
  · have hlt : cursor < (steps.length : Int) := by omega
    obtain ⟨n, hn⟩ : ∃ n : Nat, cursor = (n : Int) + 1 := ⟨(cursor - 1).toNat, by omega⟩
    subst hn
    have hlen : n + 1 < steps.length := by omega
    obtain ⟨pre, a, b, post, hpre, he⟩ := exists_adjacent steps n hlen
    subst he
    subst hpre
    have e1 : stepAt (pre ++ a :: b :: post) ((pre.length : Int) + 1) = some b := by
      unfold stepAt
      rw [if_neg (by omega)]
      have : ((pre.length : Int) + 1).toNat = pre.length + 1 := by omega
      rw [this]
      exact (getElem?_adjacent pre post a b).2
    have e2 : stepAt (pre ++ a :: b :: post) ((pre.length : Int) + 1 - 1) = some a := by
      unfold stepAt
      rw [if_neg (by omega)]
      have : ((pre.length : Int) + 1 - 1).toNat = pre.length := by omega
      rw [this]
      exact (getElem?_adjacent pre post a b).1
    have t1 : ((pre.length : Int) + 1).toNat = pre.length + 1 := by omega
    have t2 : ((pre.length : Int) + 1 - 1).toNat = pre.length := by omega
    have hsw : swapSteps (pre ++ a :: b :: post) ((pre.length : Int) + 1)
        ((pre.length : Int) + 1 - 1) = some (pre ++ b :: a :: post) := by
      unfold swapSteps
      rw [e1, e2]
      simp only [t1, t2]
      rw [(set_adjacent pre post a b).1]
    rw [if_pos hp, hsw]
    refine ⟨_, rfl, ?_, ?_, ?_⟩
    · constructor
      · show (0 : Int) ≤ (pre.length : Int) + 1 - 1
        omega
      · left
        show (pre.length : Int) + 1 - 1 < ((pre ++ b :: a :: post).length : Int)
        simp only [List.length_append, List.length_cons]
        push_cast
        omega
    · intro h
      exact absurd h (by show ¬ ((pre.length : Int) + 1 = 0); omega)
    · intro _
      refine ⟨rfl, pre, a, b, post, ?_, rfl, rfl⟩
      exact t2.symm
  · have hz : cursor = 0 := by omega
    rw [if_neg hp]
    refine ⟨_, rfl, ⟨h0, h1⟩, fun _ => rfl, ?_⟩
    intro h
    exact absurd h hp

/-- The key `J` on a plan whose cursor is in range. -/
theorem moveDown_spec (m : RebasePlan) (hc : cursorOk m) :
    ∃ m2, moveDown m = some m2 ∧ cursorOk m2 ∧
      (¬ m.rebaseCursor < (m.rebaseSteps.length : Int) - 1 → m2 = m) ∧
      (m.rebaseCursor < (m.rebaseSteps.length : Int) - 1 →
        m2.rebaseCursor = m.rebaseCursor + 1 ∧
          swappedAt m.rebaseCursor.toNat m.rebaseSteps m2.rebaseSteps) := by
  obtain ⟨steps, cursor⟩ := m
  obtain ⟨h0, h1⟩ := hc
  simp only at h0 h1
  unfold moveDown
  by_cases hp : cursor < (steps.length : Int) - 1
  · obtain ⟨n, hn⟩ : ∃ n : Nat, cursor = (n : Int) := ⟨cursor.toNat, by omega⟩
    subst hn
    have hlen : n + 1 < steps.length := by omega
    obtain ⟨pre, a, b, post, hpre, he⟩ := exists_adjacent steps n hlen
    subst he
    subst hpre
    have e1 : stepAt (pre ++ a :: b :: post) (pre.length : Int) = some a := by
      unfold stepAt
      rw [if_neg (by omega)]
      have : ((pre.length : Int)).toNat = pre.length := by omega
      rw [this]
      exact (getElem?_adjacent pre post a b).1
    have e2 : stepAt (pre ++ a :: b :: post) ((pre.length : Int) + 1) = some b := by
      unfold stepAt
      rw [if_neg (by omega)]
      have : ((pre.length : Int) + 1).toNat = pre.length + 1 := by omega
      rw [this]
      exact (getElem?_adjacent pre post a b).2
    have t1 : ((pre.length : Int) + 1).toNat = pre.length + 1 := by omega
    have t2 : ((pre.length : Int)).toNat = pre.length := by omega
    have hsw : swapSteps (pre ++ a :: b :: post) (pre.length : Int)
        ((pre.length : Int) + 1) = some (pre ++ b :: a :: post) := by
      unfold swapSteps
      rw [e1, e2]
      simp only [t1, t2]
      rw [(set_adjacent pre post a b).2]
    rw [if_pos hp, hsw]
    refine ⟨_, rfl, ?_, ?_, ?_⟩
    · constructor
      · show (0 : Int) ≤ (pre.length : Int) + 1
        omega
      · left
        show (pre.length : Int) + 1 < ((pre ++ b :: a :: post).length : Int)
        simp only [List.length_append, List.length_cons]
        push_cast
        omega
    · intro h
      exact absurd hp h
    · intro _
      exact ⟨rfl, pre, a, b, post, t2.symm, rfl, rfl⟩
  · rw [if_neg hp]
    exact ⟨_, rfl, ⟨h0, h1⟩, fun _ => rfl, fun h => absurd h hp⟩

/-- An action key on a plan whose cursor is in range. -/
theorem setAction_spec (m : RebasePlan) (action : Str) (hc : cursorOk m) :
    cursorOk (setAction m action) ∧
      (setAction m action).rebaseCursor = m.rebaseCursor ∧
      (m.rebaseSteps = [] → setAction m action = m) ∧
      (m.rebaseSteps ≠ [] →
        actionSetAt m.rebaseCursor.toNat action m.rebaseSteps
          (setAction m action).rebaseSteps) := by
  obtain ⟨steps, cursor⟩ := m
  obtain ⟨h0, h1⟩ := hc
  simp only at h0 h1
  unfold setAction
  by_cases hg : cursor ≥ 0 ∧ cursor < (steps.length : Int)
  · obtain ⟨n, hn⟩ : ∃ n : Nat, cursor = (n : Int) := ⟨cursor.toNat, by omega⟩
    subst hn
    have hlen : n < steps.length := by omega
    obtain ⟨pre, s, post, hpre, he⟩ := exists_at steps n hlen
    subst he
    subst hpre
    have t : ((pre.length : Int)).toNat = pre.length := by omega
    have hset : (if (pre.length : Int) ≥ 0 ∧
          (pre.length : Int) < ((pre ++ s :: post).length : Int) then
          match (pre ++ s :: post)[((pre.length : Int)).toNat]? with
          | some s1 =>
            ({ rebaseSteps := (pre ++ s :: post).set ((pre.length : Int)).toNat
                  { s1 with Action := action },
               rebaseCursor := (pre.length : Int) } : RebasePlan)
          | none => { rebaseSteps := pre ++ s :: post, rebaseCursor := (pre.length : Int) }
        else { rebaseSteps := pre ++ s :: post, rebaseCursor := (pre.length : Int) }) =
        { rebaseSteps := pre ++ { s with Action := action } :: post,
          rebaseCursor := (pre.length : Int) } := by
      rw [if_pos hg, t, (set_at pre post s s).1]
      simp only []
      rw [(set_at pre post s { s with Action := action }).2]
    rw [hset]
    refine ⟨⟨h0, ?_⟩, rfl, ?_, ?_⟩
    · left
      show (pre.length : Int) < ((pre ++ { s with Action := action } :: post).length : Int)
      simp only [List.length_append, List.length_cons]
      push_cast
      omega
    · intro h
      simp at h
    · intro _
      exact ⟨pre, s, post, t.symm, rfl, rfl⟩
  · rw [if_neg hg]
    have hnil : steps = [] := by
      cases steps with
      | nil => rfl
      | cons x xs =>
        exfalso
        apply hg
        simp only [List.length_cons]
        push_cast
        rcases h1 with h1 | h1
        · simp only [List.length_cons] at h1
          push_cast at h1
          omega
        · omega
    exact ⟨⟨h0, h1⟩, rfl, fun _ => rfl, fun h => absurd hnil h⟩

theorem cursorUp_spec (m : RebasePlan) (hc : cursorOk m) :
    cursorOk (cursorUp m) ∧ (cursorUp m).rebaseSteps = m.rebaseSteps := by
  obtain ⟨steps, cursor⟩ := m
  obtain ⟨h0, h1⟩ := hc
  simp only at h0 h1
  unfold cursorUp
  by_cases hp : cursor > 0
  · rw [if_pos hp]
    refine ⟨⟨?_, ?_⟩, rfl⟩
    · show (0 : Int) ≤ cursor - 1
      omega
    · show cursor - 1 < (steps.length : Int) ∨ cursor - 1 = 0
      omega
  · rw [if_neg hp]
    exact ⟨⟨h0, h1⟩, rfl⟩

theorem cursorDown_spec (m : RebasePlan) (hc : cursorOk m) :
    cursorOk (cursorDown m) ∧ (cursorDown m).rebaseSteps = m.rebaseSteps := by
  obtain ⟨steps, cursor⟩ := m
  obtain ⟨h0, h1⟩ := hc
  simp only at h0 h1
  unfold cursorDown
  by_cases hp : cursor < (steps.length : Int) - 1
  · rw [if_pos hp]
    refine ⟨⟨?_, ?_⟩, rfl⟩
    · show (0 : Int) ≤ cursor + 1
      omega
    · show cursor + 1 < (steps.length : Int) ∨ cursor + 1 = 0
      omega
  · rw [if_neg hp]
    exact ⟨⟨h0, h1⟩, rfl⟩

theorem handleKey_K (m : RebasePlan) : handleKeyRebasePrepare m "K".toList = moveUp m := rfl

theorem handleKey_J (m : RebasePlan) : handleKeyRebasePrepare m "J".toList = moveDown m := rfl

theorem handleKey_action (m : RebasePlan) :
    ∀ ka ∈ actionKeys, handleKeyRebasePrepare m ka.1 = some (setAction m ka.2) := by
  intro ka h
  simp only [actionKeys, List.mem_cons, List.mem_singleton, List.not_mem_nil, or_false] at h
  rcases h with h | h | h | h | h | h <;> subst h <;> rfl

/-- Every key keeps the cursor in range, the length of the plan and, up to
their order, its (hash, message) pairs. -/
theorem handleKey_inv (m : RebasePlan) (key : Str) (hc : cursorOk m) :
    ∃ m2, handleKeyRebasePrepare m key = some m2 ∧ cursorOk m2 ∧
      m2.rebaseSteps.length = m.rebaseSteps.length ∧
      (stepCommits m2.rebaseSteps).Perm (stepCommits m.rebaseSteps) := by
  have same : ∃ m2, some m = some m2 ∧ cursorOk m2 ∧
      m2.rebaseSteps.length = m.rebaseSteps.length ∧
      (stepCommits m2.rebaseSteps).Perm (stepCommits m.rebaseSteps) :=
    ⟨m, rfl, hc, rfl, List.Perm.refl _⟩
  have act : ∀ action, ∃ m2, some (setAction m action) = some m2 ∧ cursorOk m2 ∧
      m2.rebaseSteps.length = m.rebaseSteps.length ∧
      (stepCommits m2.rebaseSteps).Perm (stepCommits m.rebaseSteps) := by
    intro action
    obtain ⟨h1, _, h3, h4⟩ := setAction_spec m action hc
    refine ⟨_, rfl, h1, ?_, ?_⟩
    · by_cases hn : m.rebaseSteps = []
      · rw [h3 hn]
      · exact (actionSetAt_length _ _ _ _ (h4 hn)).1
    · by_cases hn : m.rebaseSteps = []
      · rw [h3 hn]
      · rw [(actionSetAt_length _ _ _ _ (h4 hn)).2]
  have up : ∃ m2, some (cursorUp m) = some m2 ∧ cursorOk m2 ∧
      m2.rebaseSteps.length = m.rebaseSteps.length ∧
      (stepCommits m2.rebaseSteps).Perm (stepCommits m.rebaseSteps) :=
    ⟨_, rfl, (cursorUp_spec m hc).1, by rw [(cursorUp_spec m hc).2],
      by rw [(cursorUp_spec m hc).2]⟩
  have down : ∃ m2, some (cursorDown m) = some m2 ∧ cursorOk m2 ∧
      m2.rebaseSteps.length = m.rebaseSteps.length ∧
      (stepCommits m2.rebaseSteps).Perm (stepCommits m.rebaseSteps) :=
    ⟨_, rfl, (cursorDown_spec m hc).1, by rw [(cursorDown_spec m hc).2],
      by rw [(cursorDown_spec m hc).2]⟩
  have mup : ∃ m2, moveUp m = some m2 ∧ cursorOk m2 ∧
      m2.rebaseSteps.length = m.rebaseSteps.length ∧
      (stepCommits m2.rebaseSteps).Perm (stepCommits m.rebaseSteps) := by
    obtain ⟨m2, h1, h2, h3, h4⟩ := moveUp_spec m hc
    refine ⟨m2, h1, h2, ?_, ?_⟩
    · by_cases hz : m.rebaseCursor = 0
      · rw [h3 hz]
      · exact (swappedAt_length _ _ _ (h4 (by have := hc.1; omega)).2).1
    · by_cases hz : m.rebaseCursor = 0
      · rw [h3 hz]
      · exact (swappedAt_length _ _ _ (h4 (by have := hc.1; omega)).2).2
  have mdown : ∃ m2, moveDown m = some m2 ∧ cursorOk m2 ∧
      m2.rebaseSteps.length = m.rebaseSteps.length ∧
      (stepCommits m2.rebaseSteps).Perm (stepCommits m.rebaseSteps) := by
    obtain ⟨m2, h1, h2, h3, h4⟩ := moveDown_spec m hc
    refine ⟨m2, h1, h2, ?_, ?_⟩
    · by_cases hz : m.rebaseCursor < (m.rebaseSteps.length : Int) - 1
      · exact (swappedAt_length _ _ _ (h4 hz).2).1
      · rw [h3 hz]
    · by_cases hz : m.rebaseCursor < (m.rebaseSteps.length : Int) - 1
      · exact (swappedAt_length _ _ _ (h4 hz).2).2
      · rw [h3 hz]
  unfold handleKeyRebasePrepare
  by_cases k1 : key = "esc".toList ∨ key = "q".toList
  · rw [if_pos k1]
    exact same
  rw [if_neg k1]
  by_cases k2 : key = "up".toList ∨ key = "k".toList
  · rw [if_pos k2]
    exact up
  rw [if_neg k2]
  by_cases k3 : key = "down".toList ∨ key = "j".toList
  · rw [if_pos k3]
    exact down
  rw [if_neg k3]
  by_cases k4 : key = "K".toList
  · rw [if_pos k4]
    exact mup
  rw [if_neg k4]
  by_cases k5 : key = "J".toList
  · rw [if_pos k5]
    exact mdown
  rw [if_neg k5]
  by_cases k6 : key = "p".toList
  · rw [if_pos k6]
    exact act _
  rw [if_neg k6]
  by_cases k7 : key = "s".toList
  · rw [if_pos k7]
    exact act _
  rw [if_neg k7]
  by_cases k8 : key = "f".toList
  · rw [if_pos k8]
    exact act _
  rw [if_neg k8]
  by_cases k9 : key = "e".toList
  · rw [if_pos k9]
    exact act _
  rw [if_neg k9]
  by_cases k10 : key = "d".toList
  · rw [if_pos k10]
    exact act _
  rw [if_neg k10]
  by_cases k11 : key = "r".toList
  · rw [if_pos k11]
    exact act _
  rw [if_neg k11]
  exact same

theorem runKeys_inv (keys : List Str) (m : RebasePlan) (hc : cursorOk m) :
    ∃ m2, runKeys m keys = some m2 ∧ cursorOk m2 ∧
      m2.rebaseSteps.length = m.rebaseSteps.length ∧
      (stepCommits m2.rebaseSteps).Perm (stepCommits m.rebaseSteps) := by
  induction keys generalizing m with
  | nil => exact ⟨m, rfl, hc, rfl, List.Perm.refl _⟩
  | cons key rest ih =>
    obtain ⟨m1, h1, h2, h3, h4⟩ := handleKey_inv m key hc
    obtain ⟨m2, k1, k2, k3, k4⟩ := ih m1 h2
    refine ⟨m2, ?_, k2, k3.trans h3, k4.trans h4⟩
    simp only [runKeys, h1, Option.some_bind]
    exact k1

/-- C32: when the range query for `base` and `HEAD` returns `commits`, the
plan seeded has one step per commit, in the same order, with the action
`pick`, the hash and the subject of the commit.  After any sequence of keys
the plan has the same length and its (hash, message) pairs are those of the
seeded plan, rearranged.  On a plan whose cursor is in range, `K` at the first
step and `J` at the last change nothing, otherwise `K` exchanges the step
under the cursor with the one before it and `J` with the one after it, and the
cursor follows; an action key replaces the action of the step under the cursor
and nothing else. -/
theorem rebase_plan_steps (git : GitProvider) (base : Str) (commits : List Commit)
    (hq : git.GetCommitsInRange base headRev = .ok commits) :
    ∃ seeded, fetchRebaseSteps git base = .ok seeded ∧
      seeded = commits.map (fun c =>
        ({ Action := ActionPick, Hash := c.Hash, Message := c.Message } : RebaseStep)) ∧
      (∀ keys, ∃ m, runKeys (handleRebaseStepsMsg seeded) keys = some m ∧
        m.rebaseSteps.length = commits.length ∧
        (stepCommits m.rebaseSteps).Perm (stepCommits seeded)) ∧
      ∀ m, cursorOk m →
        (∃ m2, handleKeyRebasePrepare m "K".toList = some m2 ∧
          (m.rebaseCursor = 0 → m2 = m) ∧
          (m.rebaseCursor > 0 →
            m2.rebaseCursor = m.rebaseCursor - 1 ∧
              swappedAt (m.rebaseCursor - 1).toNat m.rebaseSteps m2.rebaseSteps)) ∧
        (∃ m2, handleKeyRebasePrepare m "J".toList = some m2 ∧
          (¬ m.rebaseCursor < (m.rebaseSteps.length : Int) - 1 → m2 = m) ∧
          (m.rebaseCursor < (m.rebaseSteps.length : Int) - 1 →
            m2.rebaseCursor = m.rebaseCursor + 1 ∧
              swappedAt m.rebaseCursor.toNat m.rebaseSteps m2.rebaseSteps)) ∧
        ∀ ka ∈ actionKeys,
          ∃ m2, handleKeyRebasePrepare m ka.1 = some m2 ∧
            m2.rebaseCursor = m.rebaseCursor ∧
            (m.rebaseSteps = [] → m2 = m) ∧
            (m.rebaseSteps ≠ [] →
              actionSetAt m.rebaseCursor.toNat ka.2 m.rebaseSteps m2.rebaseSteps) := by
  refine ⟨_, by unfold fetchRebaseSteps; rw [hq], rfl, ?_, ?_⟩
  · intro keys
    have hc : cursorOk (handleRebaseStepsMsg (commits.map (fun c =>
        ({ Action := ActionPick, Hash := c.Hash, Message := c.Message } : RebaseStep)))) :=
      ⟨Int.le_refl 0, Or.inr rfl⟩
    obtain ⟨m, h1, _, h3, h4⟩ := runKeys_inv keys _ hc
    refine ⟨m, h1, ?_, h4⟩
    rw [h3]
    simp [handleRebaseStepsMsg]
  · intro m hc
    refine ⟨?_, ?_, ?_⟩
    · obtain ⟨m2, h1, _, h3, h4⟩ := moveUp_spec m hc
      exact ⟨m2, by rw [handleKey_K]; exact h1, h3, h4⟩
    · obtain ⟨m2, h1, _, h3, h4⟩ := moveDown_spec m hc
      exact ⟨m2, by rw [handleKey_J]; exact h1, h3, h4⟩
    · intro ka hka
      obtain ⟨_, h2, h3, h4⟩ := setAction_spec m ka.2 hc
      exact ⟨_, handleKey_action m ka hka, h2, h3, h4⟩

/-- Witness of C32 on the commits of `TestGenerator_Simulation`. -/
theorem rebase_plan_steps_witness :
    simGen.Git.GetCommitsInRange "hash0".toList headRev = .ok simCommits ∧
      ∃ seeded, fetchRebaseSteps simGen.Git "hash0".toList = .ok seeded ∧
        seeded = simCommits.map (fun c =>
          ({ Action := ActionPick, Hash := c.Hash, Message := c.Message } : RebaseStep)) ∧
        (∀ keys, ∃ m, runKeys (handleRebaseStepsMsg seeded) keys = some m ∧
          m.rebaseSteps.length = simCommits.length ∧
          (stepCommits m.rebaseSteps).Perm (stepCommits seeded)) ∧
        ∀ m, cursorOk m →
          (∃ m2, handleKeyRebasePrepare m "K".toList = some m2 ∧
            (m.rebaseCursor = 0 → m2 = m) ∧
            (m.rebaseCursor > 0 →
              m2.rebaseCursor = m.rebaseCursor - 1 ∧
                swappedAt (m.rebaseCursor - 1).toNat m.rebaseSteps m2.rebaseSteps)) ∧
          (∃ m2, handleKeyRebasePrepare m "J".toList = some m2 ∧
            (¬ m.rebaseCursor < (m.rebaseSteps.length : Int) - 1 → m2 = m) ∧
            (m.rebaseCursor < (m.rebaseSteps.length : Int) - 1 →
              m2.rebaseCursor = m.rebaseCursor + 1 ∧
                swappedAt m.rebaseCursor.toNat m.rebaseSteps m2.rebaseSteps)) ∧
          ∀ ka ∈ actionKeys,
            ∃ m2, handleKeyRebasePrepare m ka.1 = some m2 ∧
              m2.rebaseCursor = m.rebaseCursor ∧
              (m.rebaseSteps = [] → m2 = m) ∧
              (m.rebaseSteps ≠ [] →
                actionSetAt m.rebaseCursor.toNat ka.2 m.rebaseSteps m2.rebaseSteps) :=
  ⟨rfl, rebase_plan_steps simGen.Git "hash0".toList simCommits rfl⟩

/-- The plan of three commits after the keys `J`, `s`, `down`, `K`, `K`, `d`:
the steps are rearranged and two actions are replaced. -/
theorem runKeys_example :
    (runKeys
        (handleRebaseStepsMsg
          [⟨ActionPick, "h1".toList, "one".toList⟩, ⟨ActionPick, "h2".toList, "two".toList⟩,
           ⟨ActionPick, "h3".toList, "three".toList⟩])
        ["J".toList, "s".toList, "down".toList, "K".toList, "K".toList, "d".toList]) =
      some
        { rebaseSteps :=
            [⟨ActionDrop, "h3".toList, "three".toList⟩, ⟨ActionPick, "h2".toList, "two".toList⟩,
             ⟨ActionSquash, "h1".toList, "one".toList⟩],
          rebaseCursor := 0 } := by
  decide

/-! ## The rebase todo text -/

theorem Split_no_sep (s : Str) (sep : Char) : ∀ l ∈ Split s sep, sep ∉ l := by
  induction s with
  | nil =>
    intro l hl
    simp only [Split, List.mem_singleton] at hl
    subst hl
    simp
  | cons c cs ih =>
    intro l hl
    unfold Split at hl
    by_cases h : c = sep
    · rw [if_pos h] at hl
      rcases List.mem_cons.1 hl with hl | hl
      · subst hl
        simp
      · exact ih l hl
    · rw [if_neg h] at hl
      cases hs : Split cs sep with
      | nil => exact absurd hs (Split_ne_nil cs sep)
      | cons p ps =>
        rw [hs] at hl ih
        simp only [consHead, List.mem_cons] at hl
        rcases hl with hl | hl
        · subst hl
          intro hm
          rcases List.mem_cons.1 hm with hm | hm
          · exact h hm.symm
          · exact ih p (List.mem_cons_self _ _) hm
        · exact ih l (List.mem_cons_of_mem _ hl)

theorem rebaseTodo_eq (steps : List RebaseStep) :
    rebaseTodo steps = (steps.map (fun s => todoLine s ++ "\n".toList)).flatten := by
  unfold rebaseTodo
  rw [foldl_WriteString (fun (s : RebaseStep) =>
    s.Action ++ " ".toList ++ s.Hash ++ " ".toList ++ s.Message ++ "\n".toList)]
  rfl

/-- The lines of a text made of lines that are each ended by a newline. -/
theorem Split_lines (lines : List Str) (h : ∀ l ∈ lines, '\n' ∉ l) :
    Split (lines.map (fun l => l ++ "\n".toList)).flatten '\n' = lines ++ [[]] := by
  induction lines with
  | nil => rfl
  | cons l rest ih =>
    have hl : '\n' ∉ l := h l (List.mem_cons_self _ _)
    have hr : ∀ x ∈ rest, '\n' ∉ x := fun x hx => h x (List.mem_cons_of_mem _ hx)
    have e : ((l :: rest).map (fun l => l ++ "\n".toList)).flatten =
        l ++ '\n' :: (rest.map (fun l => l ++ "\n".toList)).flatten := by
      simp
    rw [e, Split_append_sep, Split_of_not_mem l '\n' hl, ih hr]
    rfl

/-- C33 (as stated, refuted): for two steps of which the first has the message
`one`, a newline, `two`, the text written to the scratch file has three lines
ended by a newline, `pick a1 one`, `two` and `pick b2 x`: the lines of the text
are not the lines of the steps. -/
theorem rebaseTodo_message_newline :
    (RunInteractiveRebase
        { createTemp := .ok "/tmp/tutugit-rebase-todo-1".toList, write := none, close := none,
          rebase := none }
        "base".toList newlineSteps).2 = some "pick a1 one\ntwo\npick b2 x\n".toList ∧
      Split "pick a1 one\ntwo\npick b2 x\n".toList '\n' =
        ["pick a1 one".toList, "two".toList, "pick b2 x".toList, []] ∧
      newlineSteps.map todoLine = ["pick a1 one\ntwo".toList, "pick b2 x".toList] ∧
      Split "pick a1 one\ntwo\npick b2 x\n".toList '\n' ≠ newlineSteps.map todoLine ++ [[]] := by
  decide

/-- C33 (amended): whenever the scratch file is created, the text
`RunInteractiveRebase` writes to it is, for each step in the order of the
list, the action, a space, the hash, a space and the message of the step,
ended by a newline; these are the lines of the text, one per step, exactly
when no action, hash or message of a step holds a newline. -/
theorem RunInteractiveRebase_todo (os : RebaseRun) (base : Str) (steps : List RebaseStep) :
    (∀ name, os.createTemp = .ok name →
        (RunInteractiveRebase os base steps).2 =
          some (steps.map (fun s => todoLine s ++ "\n".toList)).flatten) ∧
      (Split (steps.map (fun s => todoLine s ++ "\n".toList)).flatten '\n' =
          steps.map todoLine ++ [[]] ↔
        ∀ s ∈ steps, '\n' ∉ todoLine s) := by
  constructor
  · intro name hn
    unfold RunInteractiveRebase
    rw [hn, rebaseTodo_eq]
    cases os.write with
    | some e => rfl
    | none =>
      cases os.close with
      | some e => rfl
      | none =>
        cases os.rebase with
        | some e => rfl
        | none => rfl
  · constructor
    · intro h s hs
      apply Split_no_sep (steps.map (fun s => todoLine s ++ "\n".toList)).flatten '\n'
      rw [h]
      exact List.mem_append_left _ (List.mem_map.2 ⟨s, hs, rfl⟩)
    · intro h
      have e : steps.map (fun s => todoLine s ++ "\n".toList) =
          (steps.map todoLine).map (fun l => l ++ "\n".toList) := by
        rw [List.map_map]
        rfl
      rw [e]
      apply Split_lines
      intro l hl
      obtain ⟨s, hs, rfl⟩ := List.mem_map.1 hl
      exact h s hs

/-- Witness of C33 (amended) on a plan of two steps without a newline. -/
theorem RunInteractiveRebase_todo_witness :
    (∀ s ∈ [(⟨ActionPick, "h1".toList, "feat: one".toList⟩ : RebaseStep),
        ⟨ActionSquash, "h2".toList, "fix: two".toList⟩], '\n' ∉ todoLine s) ∧
      Split ([(⟨ActionPick, "h1".toList, "feat: one".toList⟩ : RebaseStep),
          ⟨ActionSquash, "h2".toList, "fix: two".toList⟩].map
            (fun s => todoLine s ++ "\n".toList)).flatten '\n' =
        [(⟨ActionPick, "h1".toList, "feat: one".toList⟩ : RebaseStep),
          ⟨ActionSquash, "h2".toList, "fix: two".toList⟩].map todoLine ++ [[]] :=
  ⟨by decide,
    (RunInteractiveRebase_todo
      { createTemp := .ok "/tmp/tutugit-rebase-todo-1".toList, write := none, close := none,
        rebase := none }
      "base".toList
      [⟨ActionPick, "h1".toList, "feat: one".toList⟩,
       ⟨ActionSquash, "h2".toList, "fix: two".toList⟩]).2.2 (by decide)⟩

/-- The todo text of a plan of two steps. -/
theorem RunInteractiveRebase_example :
    (RunInteractiveRebase
        { createTemp := .ok "/tmp/tutugit-rebase-todo-1".toList, write := none, close := none,
          rebase := none }
        "base".toList
        [⟨ActionPick, "h1".toList, "feat: one".toList⟩,
         ⟨ActionSquash, "h2".toList, "fix: two".toList⟩]) =
      (none, some "pick h1 feat: one\nsquash h2 fix: two\n".toList) := by
  decide

/-! ## The reflog parser -/

theorem cutFirst_of_Contains (s sep : Str) (hs : sep ≠ []) (h : Contains s sep = true) :
    ∃ a b, cutFirst s sep = some (a, b) ∧ s = a ++ (sep ++ b) ∧ Contains a sep = false := by
  induction s with
  | nil =>
    cases sep with
    | nil => exact absurd rfl hs
    | cons x xs => simp [Contains] at h
  | cons c cs ih =>
    unfold cutFirst
    by_cases hp : sep.isPrefixOf (c :: cs) = true
    · rw [if_pos hp]
      refine ⟨[], (c :: cs).drop sep.length, rfl, ?_, ?_⟩
      · rw [List.isPrefixOf_iff_prefix, List.prefix_iff_eq_append] at hp
        rw [List.nil_append]
        exact hp.symm
      · cases sep with
        | nil => exact absurd rfl hs
        | cons x xs => rfl
    · rw [if_neg hp]
      rw [Contains, Bool.or_eq_true] at h
      have hc : Contains cs sep = true := h.resolve_left hp
      obtain ⟨a, b, h1, h2, h3⟩ := ih hc
      refine ⟨c :: a, b, by rw [h1]; rfl, by rw [h2]; rfl, ?_⟩
      rw [Contains, h3, Bool.or_false]
      cases hq : sep.isPrefixOf (c :: a) with
      | false => rfl
      | true =>
        exfalso
        apply hp
        rw [List.isPrefixOf_iff_prefix] at hq ⊢
        rw [h2]
        exact hq.trans (List.prefix_append (c :: a) (sep ++ b))

theorem SplitN2_of_Contains (s sep : Str) (hs : sep ≠ []) (h : Contains s sep = true) :
    ∃ a b, SplitN2 s sep = [a, b] ∧ s = a ++ (sep ++ b) ∧ Contains a sep = false := by
  obtain ⟨a, b, h1, h2, h3⟩ := cutFirst_of_Contains s sep hs h
  exact ⟨a, b, by unfold SplitN2; rw [h1], h2, h3⟩

theorem GetReflog_eq (output : Str) :
    GetReflog (.ok output) = .ok ((Split output '\n').foldl reflogLine []) := by
  unfold GetReflog
  by_cases h : output = []
  · subst h
    rfl
  · simp only [h, if_false]

/-- C34: `GetReflog` passes the lines of the reflog text through its loop.  A
line with fewer than 3 pipe-delimited fields adds no entry.  A line with at
least 3 adds one entry with the first two fields as hash and selector; for the
third field `s`: if `s` contains `: `, the action followed by `: ` and the
message is `s` and the action contains no `: `, so that the action is the text
before the first `: ` and the message the text after it; otherwise the message
is `s` and the action is `commit` when `s` starts with `commit` and `unknown`
when it does not. -/
theorem GetReflog_entries (output : Str) :
    GetReflog (.ok output) = .ok ((Split output '\n').foldl reflogLine []) ∧
      ∀ (entries : List ReflogEntry) (line : Str),
        ((Split line '|').length < 3 → reflogLine entries line = entries) ∧
        (3 ≤ (Split line '|').length →
          ∃ e, reflogLine entries line = entries ++ [e] ∧
            e.Hash = (Split line '|').getD 0 [] ∧
            e.Selector = (Split line '|').getD 1 [] ∧
            (Contains ((Split line '|').getD 2 []) ": ".toList = true →
              e.Action ++ ": ".toList ++ e.Message = (Split line '|').getD 2 [] ∧
                Contains e.Action ": ".toList = false) ∧
            (Contains ((Split line '|').getD 2 []) ": ".toList = false →
              e.Message = (Split line '|').getD 2 [] ∧
                (HasPrefix ((Split line '|').getD 2 []) "commit".toList = true →
                  e.Action = "commit".toList) ∧
                (HasPrefix ((Split line '|').getD 2 []) "commit".toList = false →
                  e.Action = "unknown".toList))) := by
  refine ⟨GetReflog_eq output, ?_⟩
  intro entries line
  constructor
  · intro h
    unfold reflogLine
    simp only [h, if_true]
  · intro h
    have hlt : ¬ (Split line '|').length < 3 := by omega
    unfold reflogLine
    simp only [hlt, if_false]
    refine ⟨_, rfl, rfl, rfl, ?_, ?_⟩
    · intro hc
      have hc2 : Contains ((Split line '|').getD 2 []) actionSep = true := hc
      obtain ⟨a, b, h1, h2, h3⟩ :=
        SplitN2_of_Contains ((Split line '|').getD 2 []) actionSep (by decide) hc2
      simp only [hc2, if_true, h1]
      constructor
      · show a ++ actionSep ++ b = _
        rw [List.append_assoc]
        exact h2.symm
      · exact h3
    · intro hc
      have hc2 : Contains ((Split line '|').getD 2 []) actionSep = false := hc
      simp only [hc2, Bool.false_eq_true, if_false]
      refine ⟨?_, ?_, ?_⟩
      · split <;> rfl
      · intro hp
        have hp2 : HasPrefix ((Split line '|').getD 2 []) commitWord = true := hp
        simp only [hp2, if_true]
        rfl
      · intro hp
        have hp2 : HasPrefix ((Split line '|').getD 2 []) commitWord = false := hp
        simp only [hp2, Bool.false_eq_true, if_false]

/-- The entries of a reflog text of four lines: a subject with two
separators, a subject that starts with `commit`, another subject, and a line
of two fields. -/
theorem GetReflog_example :
    GetReflog (.ok ("a1|HEAD@\x7b0\x7d|rebase (pick): fix: x|0\na2|HEAD@\x7b1\x7d|commit|1\n" ++
        "a3|HEAD@\x7b2\x7d|checkout|2\na4|HEAD@\x7b3\x7d").toList) =
      .ok [⟨"a1".toList, "HEAD@\x7b0\x7d".toList, "rebase (pick)".toList, "fix: x".toList, []⟩,
           ⟨"a2".toList, "HEAD@\x7b1\x7d".toList, "commit".toList, "commit".toList, []⟩,
           ⟨"a3".toList, "HEAD@\x7b2\x7d".toList, "unknown".toList, "checkout".toList, []⟩] := by
  decide

/-! ## The worktree parser -/

theorem worktreeLine_notMain (st : WorktreeState) (line : Str)
    (hc : st.current.IsMain = false) (hw : ∀ w ∈ st.worktrees, w.IsMain = false) :
    (worktreeLine st line).current.IsMain = false ∧
      ∀ w ∈ (worktreeLine st line).worktrees, w.IsMain = false := by
  unfold worktreeLine
  by_cases h1 : line = []
  · rw [if_pos h1]
    by_cases h2 : st.current.Path ≠ []
    · rw [if_pos h2]
      refine ⟨rfl, ?_⟩
      intro w hm
      rcases List.mem_append.1 hm with hm | hm
      · exact hw w hm
      · rw [List.mem_singleton] at hm
        rw [hm]
        exact hc
    · rw [if_neg h2]
      exact ⟨hc, hw⟩
  · rw [if_neg h1]
    simp only []
    by_cases h2 : (SplitN2 line " ".toList).length < 2
    · rw [if_pos h2]
      exact ⟨hc, hw⟩
    · rw [if_neg h2]
      by_cases k1 : (SplitN2 line " ".toList).getD 0 [] = "worktree".toList
      · rw [if_pos k1]
        exact ⟨hc, hw⟩
      · rw [if_neg k1]
        by_cases k2 : (SplitN2 line " ".toList).getD 0 [] = "branch".toList
        · rw [if_pos k2]
          exact ⟨hc, hw⟩
        · rw [if_neg k2]
          by_cases k3 : (SplitN2 line " ".toList).getD 0 [] = "HEAD".toList
          · rw [if_pos k3]
            exact ⟨hc, hw⟩
          · rw [if_neg k3]
            exact ⟨hc, hw⟩

theorem foldl_worktreeLine_notMain (lines : List Str) (st : WorktreeState)
    (hc : st.current.IsMain = false) (hw : ∀ w ∈ st.worktrees, w.IsMain = false) :
    (lines.foldl worktreeLine st).current.IsMain = false ∧
      ∀ w ∈ (lines.foldl worktreeLine st).worktrees, w.IsMain = false := by
  induction lines generalizing st with
  | nil => exact ⟨hc, hw⟩
  | cons l rest ih =>
    rw [List.foldl_cons]
    have h := worktreeLine_notMain st l hc hw
    exact ih _ h.1 h.2

theorem map_enumFrom_succ (l : List Worktree) (n : Nat) :
    (l.enumFrom (n + 1)).map
        (fun iw => if iw.1 = 0 then { iw.2 with IsMain := true } else iw.2) = l := by
  induction l generalizing n with
  | nil => rfl
  | cons w rest ih =>
    rw [List.enumFrom_cons, List.map_cons, ih]
    simp

theorem markMain_cons (w : Worktree) (rest : List Worktree) :
    markMain (w :: rest) = { w with IsMain := true } :: rest := by
  unfold markMain
  rw [List.enum_cons, List.map_cons, map_enumFrom_succ]
  rfl

/-- C35: in the list `ListWorktrees` returns for a listing text, the record
at index 0 has IsMain set and no other record has: when the list is not empty
exactly one record is flagged, the first, whatever the records hold. -/
theorem ListWorktrees_main (output : Str) :
    ∃ wts, ListWorktrees (.ok output) = .ok wts ∧
      ∀ (i : Nat) (w : Worktree), wts[i]? = some w → (w.IsMain = true ↔ i = 0) := by
  unfold ListWorktrees
  by_cases h : output = []
  · refine ⟨[], by simp [h], ?_⟩
    intro i w hw
    simp at hw
  · simp only [h, if_false]
    refine ⟨_, rfl, ?_⟩
    have inv := foldl_worktreeLine_notMain (Split output '\n')
      { worktrees := [], current := emptyWorktree } rfl (fun w hw => by simp at hw)
    have hall : ∀ w ∈ (if ((Split output '\n').foldl worktreeLine
          { worktrees := [], current := emptyWorktree }).current.Path ≠ [] then
          ((Split output '\n').foldl worktreeLine
            { worktrees := [], current := emptyWorktree }).worktrees ++
            [((Split output '\n').foldl worktreeLine
              { worktrees := [], current := emptyWorktree }).current]
        else ((Split output '\n').foldl worktreeLine
          { worktrees := [], current := emptyWorktree }).worktrees), w.IsMain = false := by
      intro w hm
      split at hm
      · rcases List.mem_append.1 hm with hm | hm
        · exact inv.2 w hm
        · rw [List.mem_singleton] at hm
          rw [hm]
          exact inv.1
      · exact inv.2 w hm
    revert hall
    generalize (if ((Split output '\n').foldl worktreeLine
          { worktrees := [], current := emptyWorktree }).current.Path ≠ [] then
          ((Split output '\n').foldl worktreeLine
            { worktrees := [], current := emptyWorktree }).worktrees ++
            [((Split output '\n').foldl worktreeLine
              { worktrees := [], current := emptyWorktree }).current]
        else ((Split output '\n').foldl worktreeLine
          { worktrees := [], current := emptyWorktree }).worktrees) = l
    intro hall i w hw
    cases l with
    | nil => simp [markMain] at hw
    | cons x rest =>
      rw [markMain_cons] at hw
      cases i with
      | zero =>
        simp only [List.getElem?_cons_zero, Option.some.injEq] at hw
        rw [← hw]
        simp
      | succ n =>
        simp only [List.getElem?_cons_succ] at hw
        have hm : w ∈ rest := List.getElem?_mem hw
        have hf := hall w (List.mem_cons_of_mem _ hm)
        simp [hf]

/-- The records of a listing of two worktrees: the first is the main one. -/
theorem ListWorktrees_two :
    ListWorktrees (.ok twoWorktrees) =
      .ok [⟨"/repo".toList, "main".toList, "1111".toList, true⟩,
           ⟨"/repo-wt".toList, [], "2222".toList, false⟩] := by
  decide

/-- C36 (the code on the failing input): the first block of
`pathlessBlockListing` has no `worktree` line and yields no record, yet its
`branch` line gives the record of the second block the branch `ghost`; the
second block alone yields the same record with an empty branch. -/
theorem ListWorktrees_pathless_block_leaks :
    ListWorktrees (.ok pathlessBlockListing) =
        .ok [⟨"/repo-wt".toList, "ghost".toList, "2222".toList, true⟩] ∧
      ListWorktrees (.ok secondBlockListing) =
        .ok [⟨"/repo-wt".toList, [], "2222".toList, true⟩] := by
  decide

/-! ## Parsing the patch of a hunk -/

theorem hunkMarker_not_fileMarker (l : Str) (h : HasPrefix l hunkMarker = true) :
    HasPrefix l fileMarker = false := by
  cases l with
  | nil => simp [HasPrefix, hunkMarker] at h
  | cons c cs =>
    have hc : c = '@' := by
      simp [HasPrefix, hunkMarker] at h
      exact h.1.symm
    subst hc
    rfl

theorem hunkOfLines_append (h : Hunk) (line : Str) (hw : hunkOfLines h) (hn : '\n' ∉ line)
    (h1 : HasPrefix line fileMarker = false) (h2 : HasPrefix line hunkMarker = false) :
    hunkOfLines { h with Content := h.Content ++ (line ++ ['\n']) } := by
  obtain ⟨lines, a, b, c, d⟩ := hw
  refine ⟨lines ++ [line], a, b, ?_, ?_⟩
  · simp only [c, List.map_append, List.flatten_append, List.map_cons, List.map_nil,
      List.flatten_cons, List.flatten_nil, List.append_nil, List.append_assoc]
  · intro l hl
    rcases List.mem_append.1 hl with hl | hl
    · exact d l hl
    · rw [List.mem_singleton] at hl
      subst hl
      exact ⟨hn, h1, h2⟩

theorem hunkOfLines_open (line : Str) (hn : '\n' ∉ line)
    (h2 : HasPrefix line hunkMarker = true) :
    hunkOfLines { Header := line, Content := line ++ ['\n'] } :=
  ⟨[], h2, hn, by simp, fun l hl => by simp at hl⟩

theorem parseLine_ofLines (st : ParseState) (line : Str) (hn : '\n' ∉ line)
    (hs : stateOfLines st) : stateOfLines (parseLine st line) := by
  obtain ⟨files, cf, ch⟩ := st
  obtain ⟨i1, i2, i3⟩ := hs
  simp only at i1 i2 i3
  unfold parseLine
  by_cases h1 : HasPrefix line fileMarker = true
  · rw [if_pos h1]
    unfold openFile
    cases cf with
    | none =>
      refine ⟨i1, ?_, i3⟩
      intro f hf h hh
      simp only [Option.some.injEq] at hf
      subst hf
      simp at hh
    | some f =>
      cases ch with
      | none =>
        refine ⟨?_, ?_, ?_⟩
        · intro g hg h hh
          rcases List.mem_append.1 hg with hg | hg
          · exact i1 g hg h hh
          · rw [List.mem_singleton] at hg
            subst hg
            exact i2 g rfl h hh
        · intro g hg h hh
          simp only [Option.some.injEq] at hg
          subst hg
          simp at hh
        · intro h hh
          simp at hh
      | some k =>
        refine ⟨?_, ?_, ?_⟩
        · intro g hg h hh
          rcases List.mem_append.1 hg with hg | hg
          · exact i1 g hg h hh
          · rw [List.mem_singleton] at hg
            subst hg
            rcases List.mem_append.1 hh with hh | hh
            · exact i2 f rfl h hh
            · rw [List.mem_singleton] at hh
              subst hh
              exact i3 h rfl
        · intro g hg h hh
          simp only [Option.some.injEq] at hg
          subst hg
          simp at hh
        · intro h hh
          simp at hh
  · rw [if_neg h1]
    by_cases h2 : HasPrefix line hunkMarker = true
    · rw [if_pos h2]
      unfold openHunk
      cases ch with
      | none =>
        refine ⟨i1, i2, ?_⟩
        intro h hh
        simp only [Option.some.injEq] at hh
        subst hh
        exact hunkOfLines_open line hn h2
      | some k =>
        cases cf with
        | none =>
          refine ⟨i1, ?_, ?_⟩
          · intro f hf
            simp at hf
          · intro h hh
            simp only [Option.some.injEq] at hh
            subst hh
            exact hunkOfLines_open line hn h2
        | some f =>
          refine ⟨i1, ?_, ?_⟩
          · intro g hg h hh
            simp only [Option.some.injEq] at hg
            subst hg
            rcases List.mem_append.1 hh with hh | hh
            · exact i2 f rfl h hh
            · rw [List.mem_singleton] at hh
              subst hh
              exact i3 h rfl
          · intro h hh
            simp only [Option.some.injEq] at hh
            subst hh
            exact hunkOfLines_open line hn h2
    · rw [if_neg h2]
      cases ch with
      | none => exact ⟨i1, i2, i3⟩
      | some k =>
        refine ⟨i1, i2, ?_⟩
        intro h hh
        simp only [Option.some.injEq] at hh
        subst hh
        exact hunkOfLines_append k line (i3 k rfl) hn (by simpa using h1) (by simpa using h2)

theorem foldl_parseLine_ofLines (lines : List Str) (st : ParseState)
    (hn : ∀ l ∈ lines, '\n' ∉ l) (hs : stateOfLines st) :
    stateOfLines (lines.foldl parseLine st) := by
  induction lines generalizing st with
  | nil => exact hs
  | cons l rest ih =>
    rw [List.foldl_cons]
    exact ih _ (fun x hx => hn x (List.mem_cons_of_mem _ hx))
      (parseLine_ofLines st l (hn l (List.mem_cons_self _ _)) hs)

/-- Every hunk `ParseDiff` returns is built from lines. -/
theorem ParseDiff_hunkOfLines (raw : Str) :
    ∀ f ∈ ParseDiff raw, ∀ h ∈ f.Hunks, hunkOfLines h := by
  have hs := foldl_parseLine_ofLines (Split raw '\n')
    { files := [], currentFile := none, currentHunk := none } (Split_no_sep raw '\n')
    ⟨fun f hf => by simp at hf, fun f hf => by simp at hf, fun h hh => by simp at hh⟩
  unfold ParseDiff parseLines
  generalize (Split raw '\n').foldl parseLine
    { files := [], currentFile := none, currentHunk := none } = st at hs
  obtain ⟨files, cf, ch⟩ := st
  obtain ⟨i1, i2, i3⟩ := hs
  simp only at i1 i2 i3
  unfold flush
  cases cf with
  | none => exact i1
  | some f =>
    cases ch with
    | none =>
      intro g hg h hh
      rcases List.mem_append.1 hg with hg | hg
      · exact i1 g hg h hh
      · rw [List.mem_singleton] at hg
        subst hg
        exact i2 g rfl h hh
    | some k =>
      intro g hg h hh
      rcases List.mem_append.1 hg with hg | hg
      · exact i1 g hg h hh
      · rw [List.mem_singleton] at hg
        subst hg
        rcases List.mem_append.1 hh with hh | hh
        · exact i2 f rfl h hh
        · rw [List.mem_singleton] at hh
          subst hh
          exact i3 h rfl

theorem foldl_parseLine_content (lines : List Str) (files : List FileDiff)
    (cf : Option FileDiff) (k : Hunk)
    (hl : ∀ l ∈ lines, HasPrefix l fileMarker = false ∧ HasPrefix l hunkMarker = false) :
    lines.foldl parseLine { files := files, currentFile := cf, currentHunk := some k } =
      { files := files, currentFile := cf,
        currentHunk := some
          { k with Content := k.Content ++ (lines.map (fun l => l ++ ['\n'])).flatten } } := by
  induction lines generalizing k with
  | nil => simp
  | cons l rest ih =>
    have h1 := (hl l (List.mem_cons_self _ _)).1
    have h2 := (hl l (List.mem_cons_self _ _)).2
    rw [List.foldl_cons]
    have e : parseLine { files := files, currentFile := cf, currentHunk := some k } l =
        { files := files, currentFile := cf,
          currentHunk := some { k with Content := k.Content ++ (l ++ ['\n']) } } := by
      unfold parseLine
      rw [h1, h2]
      rfl
    rw [e, ih _ (fun x hx => hl x (List.mem_cons_of_mem _ hx))]
    simp

/-- The files `ParseDiff` finds in the lines of the patch of a hunk. -/
theorem parseLines_patch (p header : Str) (lines : List Str) (hp : ' ' ∉ p)
    (hh : HasPrefix header hunkMarker = true)
    (hl : ∀ l ∈ lines, HasPrefix l fileMarker = false ∧ HasPrefix l hunkMarker = false) :
    parseLines
        (("diff --git a/".toList ++ p ++ " b/".toList ++ p) :: ("--- a/".toList ++ p) ::
          ("+++ b/".toList ++ p) :: header :: (lines ++ [[]])) =
      [{ Path := p,
         Hunks := [{ Header := header,
                     Content := header ++ ['\n'] ++
                       (lines.map (fun l => l ++ ['\n'])).flatten ++ ['\n'] }] }] := by
  have e1 : parseLine { files := [], currentFile := none, currentHunk := none }
      ("diff --git a/".toList ++ p ++ " b/".toList ++ p) =
      { files := [], currentFile := some { Path := p, Hunks := [] }, currentHunk := none } := by
    have hm : HasPrefix ("diff --git a/".toList ++ p ++ " b/".toList ++ p) fileMarker = true :=
      rfl
    unfold parseLine
    rw [hm, if_pos rfl]
    unfold openFile
    rw [markerPath_ab p p hp]
  have e2 : parseLine
      { files := [], currentFile := some { Path := p, Hunks := [] }, currentHunk := none }
      ("--- a/".toList ++ p) =
      { files := [], currentFile := some { Path := p, Hunks := [] }, currentHunk := none } := by
    have hm1 : HasPrefix ("--- a/".toList ++ p) fileMarker = false := rfl
    have hm2 : HasPrefix ("--- a/".toList ++ p) hunkMarker = false := rfl
    unfold parseLine
    rw [hm1, hm2]
    rfl
  have e3 : parseLine
      { files := [], currentFile := some { Path := p, Hunks := [] }, currentHunk := none }
      ("+++ b/".toList ++ p) =
      { files := [], currentFile := some { Path := p, Hunks := [] }, currentHunk := none } := by
    have hm1 : HasPrefix ("+++ b/".toList ++ p) fileMarker = false := rfl
    have hm2 : HasPrefix ("+++ b/".toList ++ p) hunkMarker = false := rfl
    unfold parseLine
    rw [hm1, hm2]
    rfl
  have e4 : parseLine
      { files := [], currentFile := some { Path := p, Hunks := [] }, currentHunk := none }
      header =
      { files := [], currentFile := some { Path := p, Hunks := [] },
        currentHunk := some { Header := header, Content := header ++ ['\n'] } } := by
    unfold parseLine
    rw [hunkMarker_not_fileMarker header hh, hh]
    rfl
  have hl2 : ∀ l ∈ lines ++ [[]],
      HasPrefix l fileMarker = false ∧ HasPrefix l hunkMarker = false := by
    intro l hm
    rcases List.mem_append.1 hm with hm | hm
    · exact hl l hm
    · rw [List.mem_singleton] at hm
      subst hm
      exact ⟨rfl, rfl⟩
  unfold parseLines
  rw [List.foldl_cons, e1, List.foldl_cons, e2, List.foldl_cons, e3, List.foldl_cons, e4,
    foldl_parseLine_content _ _ _ _ hl2]
  simp [flush]

theorem ToPatch_lines (h : Hunk) (p : Str) (lines : List Str)
    (hc : h.Content = h.Header ++ ['\n'] ++ (lines.map (fun l => l ++ ['\n'])).flatten) :
    h.ToPatch p =
      ((("diff --git a/".toList ++ p ++ " b/".toList ++ p) :: ("--- a/".toList ++ p) ::
        ("+++ b/".toList ++ p) :: h.Header :: lines).map
          (fun l => l ++ "\n".toList)).flatten := by
  unfold Hunk.ToPatch
  simp only [Builder.WriteString, Builder.String, hc]
  have e : "\n".toList = ['\n'] := rfl
  simp [e, List.append_assoc]

/-- C37: for every hunk `h` that `ParseDiff` produces and every file path `p`
without a space and without a newline, `ParseDiff(h.ToPatch(p))` returns
exactly one file, with the path `p` and exactly one hunk; the header of that
hunk is the header of `h` and its content is the content of `h` followed by
one more newline. -/
theorem ParseDiff_ToPatch (raw : Str) (f : FileDiff) (h : Hunk) (p : Str)
    (hf : f ∈ ParseDiff raw) (hh : h ∈ f.Hunks) (hs : ' ' ∉ p) (hn : '\n' ∉ p) :
    ParseDiff (h.ToPatch p) =
      [{ Path := p, Hunks := [{ Header := h.Header, Content := h.Content ++ ['\n'] }] }] := by
  obtain ⟨lines, h1, h2, h3, h4⟩ := ParseDiff_hunkOfLines raw f hf h hh
  unfold ParseDiff
  rw [ToPatch_lines h p lines h3, Split_lines]
  · rw [List.cons_append, List.cons_append, List.cons_append, List.cons_append,
      parseLines_patch p h.Header lines hs h1 (fun l hl => (h4 l hl).2), h3]
  · have c0 : ∀ c ∈ "diff --git a/".toList, c ≠ '\n' := by decide
    have c1 : ∀ c ∈ " b/".toList, c ≠ '\n' := by decide
    have c2 : ∀ c ∈ "--- a/".toList, c ≠ '\n' := by decide
    have c3 : ∀ c ∈ "+++ b/".toList, c ≠ '\n' := by decide
    intro l hl
    rcases List.mem_cons.1 hl with hl | hl
    · subst hl
      intro hm
      rcases List.mem_append.1 hm with hm | hm
      · rcases List.mem_append.1 hm with hm | hm
        · rcases List.mem_append.1 hm with hm | hm
          · exact c0 _ hm rfl
          · exact hn hm
        · exact c1 _ hm rfl
      · exact hn hm
    rcases List.mem_cons.1 hl with hl | hl
    · subst hl
      intro hm
      rcases List.mem_append.1 hm with hm | hm
      · exact c2 _ hm rfl
      · exact hn hm
    rcases List.mem_cons.1 hl with hl | hl
    · subst hl
      intro hm
      rcases List.mem_append.1 hm with hm | hm
      · exact c3 _ hm rfl
      · exact hn hm
    rcases List.mem_cons.1 hl with hl | hl
    · subst hl
      exact h2
    · exact (h4 l hl).1

/-- Witness of C37 on the hunk of `smallDiff` and the path `file1.go`. -/
theorem ParseDiff_ToPatch_witness :
    smallFile ∈ ParseDiff smallDiff ∧ smallHunk ∈ smallFile.Hunks ∧
      ' ' ∉ "file1.go".toList ∧ '\n' ∉ "file1.go".toList ∧
      ParseDiff (smallHunk.ToPatch "file1.go".toList) =
        [{ Path := "file1.go".toList,
           Hunks := [{ Header := smallHunk.Header, Content := smallHunk.Content ++ ['\n'] }] }] :=
  ⟨by decide, by decide, by decide, by decide,
    ParseDiff_ToPatch smallDiff smallFile smallHunk "file1.go".toList (by decide) (by decide)
      (by decide) (by decide)⟩

/-! ## The two classifiers -/

theorem Split_head_prefix (s : Str) (sep : Char) :
    ∃ rest, s = (Split s sep).getD 0 [] ++ rest := by
  induction s with
  | nil => exact ⟨[], rfl⟩
  | cons c cs ih =>
    unfold Split
    by_cases h : c = sep
    · rw [if_pos h]
      exact ⟨c :: cs, rfl⟩
    · rw [if_neg h]
      obtain ⟨rest, hr⟩ := ih
      cases hs : Split cs sep with
      | nil => exact absurd hs (Split_ne_nil cs sep)
      | cons p ps =>
        rw [hs] at hr
        refine ⟨rest, ?_⟩
        simp only [consHead, List.getD_cons_zero] at hr ⊢
        rw [List.cons_append, ← hr]

theorem ConvPrefix_append (tok : Str) (b : Bool) (s r : Str) (h : ConvPrefix tok b s) :
    ConvPrefix tok b (s ++ r) := by
  obtain ⟨t, scope, rest, e, hl, hs⟩ := h
  refine ⟨t, scope, rest ++ r, ?_, hl, hs⟩
  rw [e]
  simp [List.append_assoc]

theorem ConvPrefix_of_header (tok : Str) (b : Bool) (message : Str)
    (h : ConvPrefix tok b (headerLine message)) : ConvPrefix tok b (TrimSpace message) := by
  obtain ⟨rest, hr⟩ := Split_head_prefix (TrimSpace message) '\n'
  have e : TrimSpace message = headerLine message ++ rest := hr
  rw [e]
  exact ConvPrefix_append tok b _ rest h

theorem DetectTag_of_ConvPrefix (message tok tag : Str) (b : Bool)
    (hm : (tok, tag) ∈ prefixToTag) (hc : ConvPrefix tok b (TrimSpace message)) :
    DetectTag message = tag := by
  obtain ⟨m0, t, g2, hfind, hlow⟩ :=
    FindStringSubmatch_of_ConvPrefix (TrimSpace message) tok b (prefixToTag_lookup _ hm).1 hc
  have hl := (prefixToTag_lookup _ hm).2
  simp only at hl
  simp [DetectTag, hfind, hlow, hl]

theorem feature_tokens :
    ∀ p ∈ prefixToTag, p.2 = "feature".toList → p.1 = "feat".toList ∨ p.1 = "feature".toList := by
  decide

theorem ConvPrefix_of_feature (message : Str) (h : DetectTag message = "feature".toList) :
    ∃ tok b, (tok = "feat".toList ∨ tok = "feature".toList) ∧
      ConvPrefix tok b (TrimSpace message) := by
  rcases FindStringSubmatch_cases (TrimSpace message) with
    ⟨hnil, _⟩ | ⟨tok, mem, b, m0, t, g2, hfind, hlow, hc⟩
  · have hd : DetectTag message = "none".toList := by
      simp [DetectTag, hnil]
    rw [hd] at h
    exact absurd h (by decide)
  · obtain ⟨tg, hl, hmem⟩ := prefixTokens_lookup tok mem
    have hd : DetectTag message = tg := DetectTag_of_ConvPrefix message tok tg b hmem hc
    rw [hd] at h
    exact ⟨tok, b, feature_tokens _ hmem h, hc⟩

/-- C38 (as stated, refuted): for the message `feat(a\nb): x` `DetectImpact`
returns `patch`, which is not `major` and not `minor`, and `DetectTag`
returns `feature`. -/
theorem classifiers_disagree :
    DetectImpact "feat(a\nb): x".toList = "patch".toList ∧
      DetectImpact "feat(a\nb): x".toList ≠ "major".toList ∧
      DetectImpact "feat(a\nb): x".toList ≠ "minor".toList ∧
      DetectTag "feat(a\nb): x".toList = "feature".toList := by
  decide

/-- C38 (amended): for every commit message `m` with `DetectImpact(m)`
different from `major`, `DetectImpact(m) = minor` implies
`DetectTag(m) = feature`; the two are equivalent when the conventional prefix
of the trimmed message lies on its first line. -/
theorem classifiers_agree (m : Str) (hmaj : DetectImpact m ≠ "major".toList) :
    (DetectImpact m = "minor".toList → DetectTag m = "feature".toList) ∧
      (prefixOnFirstLine m →
        (DetectImpact m = "minor".toList ↔ DetectTag m = "feature".toList)) := by
  obtain ⟨c1, c2, c3⟩ := DetectImpact_cases m
  have hfeat : "feat".toList ∈ prefixTokens := by decide
  have hfeature : "feature".toList ∈ prefixTokens := by decide
  have hnomaj : ¬ ((∃ tok ∈ prefixTokens, ConvPrefix tok true (headerLine m)) ∨
      breakingMarker <:+: m) := fun h => hmaj (c1 h)
  have hdir : DetectImpact m = "minor".toList → DetectTag m = "feature".toList := by
    intro hmin
    by_cases hf : ∃ b, ConvPrefix "feat".toList b (headerLine m) ∨
        ConvPrefix "feature".toList b (headerLine m)
    · obtain ⟨b, h | h⟩ := hf
      · exact DetectTag_of_ConvPrefix m "feat".toList _ b (by decide)
          (ConvPrefix_of_header _ b m h)
      · exact DetectTag_of_ConvPrefix m "feature".toList _ b (by decide)
          (ConvPrefix_of_header _ b m h)
    · have hp := c3 hnomaj hf
      rw [hp] at hmin
      exact absurd hmin (by decide)
  refine ⟨hdir, ?_⟩
  intro hfirst
  refine ⟨hdir, ?_⟩
  intro htag
  obtain ⟨tok1, b1, ht1, hc1⟩ := ConvPrefix_of_feature m htag
  have mem1 : tok1 ∈ prefixTokens := by
    rcases ht1 with h | h
    · rw [h]
      exact hfeat
    · rw [h]
      exact hfeature
  obtain ⟨tok, mem, b, hc⟩ := hfirst ⟨tok1, mem1, b1, hc1⟩
  have hu : tok = tok1 :=
    ConvPrefix_token_unique _ tok tok1 b b1 mem mem1 (ConvPrefix_of_header _ b m hc) hc1
  subst hu
  apply c2 hnomaj
  rcases ht1 with h | h
  · exact ⟨b, Or.inl (h ▸ hc)⟩
  · exact ⟨b, Or.inr (h ▸ hc)⟩

/-- Witness of C38 (amended) on the message `feat: x`. -/
theorem classifiers_agree_witness :
    DetectImpact "feat: x".toList ≠ "major".toList ∧
      (DetectImpact "feat: x".toList = "minor".toList →
        DetectTag "feat: x".toList = "feature".toList) ∧
      (prefixOnFirstLine "feat: x".toList →
        (DetectImpact "feat: x".toList = "minor".toList ↔
          DetectTag "feat: x".toList = "feature".toList)) :=
  ⟨by decide, classifiers_agree "feat: x".toList (by decide)⟩

theorem prefixOnFirstLine_of_eq (m : Str) (h : headerLine m = TrimSpace m) :
    prefixOnFirstLine m := by
  intro hx
  rw [h]
  exact hx

/-- The prefix of a message of one line lies on its first line. -/
theorem prefixOnFirstLine_example : prefixOnFirstLine "feat: x".toList :=
  prefixOnFirstLine_of_eq _ (by decide)

/-! ## The total of the Changes line and the order of the workspace names -/

theorem categoriesOf_eq (e : ChangeEntry) : categoriesOf e = if knownTag e then 1 else 0 := by
  obtain ⟨hash, short, author, subject, tag, impact, ws, date⟩ := e
  unfold categoriesOf knownTag inCategory
  simp only []
  by_cases h0 : tag = []
  · subst h0
    rfl
  by_cases h1 : tag = "none".toList
  · subst h1
    rfl
  by_cases h2 : tag = "feature".toList
  · subst h2
    rfl
  by_cases h3 : tag = "fix".toList
  · subst h3
    rfl
  by_cases h4 : tag = "refactor".toList
  · subst h4
    rfl
  by_cases h5 : tag = "experiment".toList
  · subst h5
    rfl
  by_cases h6 : tag = "other".toList
  · subst h6
    rfl
  have n1 : ¬ "feature".toList = "other".toList := by decide
  have n2 : ¬ "fix".toList = "other".toList := by decide
  have n3 : ¬ "refactor".toList = "other".toList := by decide
  have n4 : ¬ "experiment".toList = "other".toList := by decide
  have k : ¬ tag ∈ [[], "none".toList, "feature".toList, "fix".toList, "refactor".toList,
      "experiment".toList, "other".toList] := by
    intro hm
    simp only [List.mem_cons, List.mem_singleton, List.not_mem_nil, or_false] at hm
    rcases hm with h | h | h | h | h | h | h
    · exact h0 h
    · exact h1 h
    · exact h2 h
    · exact h3 h
    · exact h4 h
    · exact h5 h
    · exact h6 h
  have f1 : ¬ (tag = "feature".toList ∨
      "feature".toList = "other".toList ∧ (tag = "none".toList ∨ tag = [])) :=
    fun h => h.elim h2 (fun h => n1 h.1)
  have f2 : ¬ (tag = "fix".toList ∨
      "fix".toList = "other".toList ∧ (tag = "none".toList ∨ tag = [])) :=
    fun h => h.elim h3 (fun h => n2 h.1)
  have f3 : ¬ (tag = "refactor".toList ∨
      "refactor".toList = "other".toList ∧ (tag = "none".toList ∨ tag = [])) :=
    fun h => h.elim h4 (fun h => n3 h.1)
  have f4 : ¬ (tag = "experiment".toList ∨
      "experiment".toList = "other".toList ∧ (tag = "none".toList ∨ tag = [])) :=
    fun h => h.elim h5 (fun h => n4 h.1)
  have f5 : ¬ (tag = "other".toList ∨ True ∧ (tag = "none".toList ∨ tag = [])) :=
    fun h => h.elim h6 (fun h => h.2.elim h1 h0)
  rw [decide_eq_false f1, decide_eq_false f2, decide_eq_false f3, decide_eq_false f4,
    decide_eq_false f5, decide_eq_false k]
  rfl

theorem categoryCount_sum (entries : List ChangeEntry) :
    categoryCount entries "feature".toList + categoryCount entries "fix".toList +
        categoryCount entries "refactor".toList + categoryCount entries "experiment".toList +
        categoryCount entries "other".toList =
      entries.countP knownTag := by
  induction entries with
  | nil => rfl
  | cons e rest ih =>
    unfold categoryCount at ih ⊢
    rw [List.countP_cons, List.countP_cons, List.countP_cons, List.countP_cons,
      List.countP_cons, List.countP_cons, ← ih, ← categoriesOf_eq e]
    unfold categoriesOf
    omega

theorem shownTotal_eq (entries : List ChangeEntry) :
    shownTotal entries = entries.countP knownTag := by
  unfold shownTotal shownCount
  rw [counts_eq_categoryCount entries "feature".toList (by decide) (by decide),
    counts_eq_categoryCount entries "fix".toList (by decide) (by decide),
    counts_eq_categoryCount entries "refactor".toList (by decide) (by decide),
    counts_eq_categoryCount entries "experiment".toList (by decide) (by decide),
    counts_eq_categoryCount entries "other".toList (by decide) (by decide)]
  exact categoryCount_sum entries

set_option maxRecDepth 100000 in
/-- C39 (as stated, refuted): a release with one entry, tagged `security`,
has an empty Changes line in both renderers: the counts shown sum to 0, not to
the number of entries, 1. -/
theorem Changes_line_misses_entry :
    securityRelease.Entries.length = 1 ∧ shownTotal securityRelease.Entries = 0 ∧
      summaryChanges securityRelease = "Changes: \n".toList ∧
      markdownChanges securityRelease = "- **Changes:** \n".toList ∧
      FormatSummary insertionOrder [securityRelease] =
        "Release v1.0.0\nImpact: patch\nChanges: \n".toList ++ summaryRule ++
          "  security:  harden login (h1)\n\n".toList := by
  decide

/-- C39 (amended): the counts shown on the Changes line of a release sum to
the number of its entries whose tag is empty or one of none, feature, fix,
refactor, experiment, other; such an entry is counted in exactly one of the
five categories, an entry with another tag in none; so the sum is the number
of entries exactly when every entry has one of these tags. -/
theorem Changes_line_total (entries : List ChangeEntry) :
    shownTotal entries = entries.countP knownTag ∧
      (∀ e ∈ entries, categoriesOf e = if knownTag e then 1 else 0) ∧
      (shownTotal entries = entries.length ↔ ∀ e ∈ entries, knownTag e = true) ∧
      Join (changeParts (countEntries entries).1) ", ".toList = changesText entries := by
  refine ⟨shownTotal_eq entries, fun e _ => categoriesOf_eq e, ?_, changeParts_eq entries⟩
  rw [shownTotal_eq, List.countP_eq_length]

theorem summaryWorkspaces_congr (ord1 ord2 : MapOrder) (i : Nat) (rel : Release)
    (h : (workspaceNames rel.Entries).length ≤ 1) :
    summaryWorkspaces ord1 i rel = summaryWorkspaces ord2 i rel ∧
      markdownWorkspaces ord1 i rel = markdownWorkspaces ord2 i rel := by
  have hp := workspaceSet_perm rel.Entries
  have s1 := workspaceLines_eq "Workspace: ".toList "Workspaces: ".toList (ord1.range i)
    (workspaceSet rel.Entries) (workspaceNames rel.Entries) (ord1.perm i _) hp
  have s2 := workspaceLines_eq "Workspace: ".toList "Workspaces: ".toList (ord2.range i)
    (workspaceSet rel.Entries) (workspaceNames rel.Entries) (ord2.perm i _) hp
  have m1 := workspaceLines_eq "- **Workspace:** ".toList "- **Workspaces:** ".toList
    (ord1.range i) (workspaceSet rel.Entries) (workspaceNames rel.Entries) (ord1.perm i _) hp
  have m2 := workspaceLines_eq "- **Workspace:** ".toList "- **Workspaces:** ".toList
    (ord2.range i) (workspaceSet rel.Entries) (workspaceNames rel.Entries) (ord2.perm i _) hp
  unfold summaryWorkspaces markdownWorkspaces
  cases hn : workspaceNames rel.Entries with
  | nil => rw [s1.1 hn, s2.1 hn, m1.1 hn, m2.1 hn]; exact ⟨rfl, rfl⟩
  | cons n rest =>
    cases rest with
    | nil => rw [s1.2.1 n hn, s2.2.1 n hn, m1.2.1 n hn, m2.2.1 n hn]; exact ⟨rfl, rfl⟩
    | cons n2 rest2 =>
      rw [hn] at h
      simp at h

set_option maxRecDepth 100000 in
/-- C40 (as stated, refuted): for a release whose entries name the workspaces
`Core` and `Auth`, the text of `FormatSummary` and of `ExportMarkdown` depends
on the order in which the map of the names is visited: one order gives the
line `Workspaces: Core, Auth`, another `Workspaces: Auth, Core`. -/
theorem render_depends_on_map_order :
    summaryWorkspaces insertionOrder 0 twoWorkspaceRelease =
        "Workspaces: Core, Auth\n".toList ∧
      summaryWorkspaces reverseOrder 0 twoWorkspaceRelease =
        "Workspaces: Auth, Core\n".toList ∧
      FormatSummary insertionOrder [twoWorkspaceRelease] ≠
        FormatSummary reverseOrder [twoWorkspaceRelease] ∧
      ExportMarkdown insertionOrder [twoWorkspaceRelease] ≠
        ExportMarkdown reverseOrder [twoWorkspaceRelease] := by
  decide

/-- C40 (amended): for every release list in which no release names more
than one distinct workspace, `FormatSummary` and `ExportMarkdown` return the
same string whatever the order in which maps are visited: two calls on the
same input return the same string. -/
theorem render_deterministic (ord1 ord2 : MapOrder) (releases : List Release)
    (h : ∀ rel ∈ releases, (workspaceNames rel.Entries).length ≤ 1) :
    FormatSummary ord1 releases = FormatSummary ord2 releases ∧
      ExportMarkdown ord1 releases = ExportMarkdown ord2 releases := by
  rw [FormatSummary_eq, FormatSummary_eq, ExportMarkdown_eq, ExportMarkdown_eq]
  have e1 : releases.enum.map (fun ir =>
      summaryHeader ir.2 ++ summaryChanges ir.2 ++ summaryWorkspaces ord1 ir.1 ir.2 ++
        summaryEntries ir.2) =
      releases.enum.map (fun ir =>
        summaryHeader ir.2 ++ summaryChanges ir.2 ++ summaryWorkspaces ord2 ir.1 ir.2 ++
          summaryEntries ir.2) := by
    apply List.map_congr_left
    intro ir hir
    rw [(summaryWorkspaces_congr ord1 ord2 ir.1 ir.2
      (h ir.2 (List.snd_mem_of_mem_enumFrom hir))).1]
  have e2 : releases.enum.map (fun ir =>
      markdownHeader ir.2 ++ markdownChanges ir.2 ++ markdownWorkspaces ord1 ir.1 ir.2 ++
        markdownEntries ir.2) =
      releases.enum.map (fun ir =>
        markdownHeader ir.2 ++ markdownChanges ir.2 ++ markdownWorkspaces ord2 ir.1 ir.2 ++
          markdownEntries ir.2) := by
    apply List.map_congr_left
    intro ir hir
    rw [(summaryWorkspaces_congr ord1 ord2 ir.1 ir.2
      (h ir.2 (List.snd_mem_of_mem_enumFrom hir))).2]
  rw [e1, e2]
  exact ⟨rfl, rfl⟩

/-- Witness of C40 (amended) on the release of `TestFormatSummary`, whose
entries name the workspace `Core` only. -/
theorem render_deterministic_witness :
    (∀ rel ∈ [testRelease], (workspaceNames rel.Entries).length ≤ 1) ∧
      FormatSummary insertionOrder [testRelease] = FormatSummary reverseOrder [testRelease] ∧
      ExportMarkdown insertionOrder [testRelease] =
        ExportMarkdown reverseOrder [testRelease] :=
  ⟨by decide, render_deterministic insertionOrder reverseOrder [testRelease] (by decide)⟩

end Tutugit
